import Mathlib

/-!
# Incremental Delaunay triangulation (`src/avg/Geometry.h`)

A shallow embedding of the `Geometry` class: the point store `mPoints`, the triangle mesh
`mTriangles`, the two geometric predicates, the edge adjacency query, the incremental inserter,
the flip legaliser and the three public operations `insertPoint`, `triangulate`, `reset`.

Modelling conventions.

* `float` arithmetic is taken as exact: coordinates are rationals. Division by zero, which in
  `float` gives an infinity or a NaN, is the rational `x / 0 = 0`; statements about the
  predicates carry a non-collinearity hypothesis wherever that matters.
* `size_t` is `Nat`; the one place where unsigned wrap-around can occur (`3 - vert1 - vert2`
  in `flip`) is computed modulo `2 ^ 64`.
* A call that does not return normally yields a `Fault`: a failed `assert`, a read outside
  `mTriangles` or outside a triangle's three slots (undefined behaviour in C++), or an exhausted
  loop budget.  A read outside `mPoints` that the source does not guard yields the point `(0, 0)`.
* `std::vector` is `List`; `emplace_back` appends at the end, `erase(begin() + i)` is
  `List.eraseIdx`.
* The `while` loop of `queueFlip` need not terminate; it is run with an iteration budget
  (`fuel`), given afresh to every `insertOnePoint`. A call returns when some budget lets it
  return, and a larger budget then gives the same result (`queueFlipLoop_fuel_mono`).
-/

namespace Avg

/-- The type `sf::Vector2f`, with rational coordinates. -/
structure Vector2f where
  x : ℚ
  y : ℚ
  deriving DecidableEq, Repr

instance : Inhabited Vector2f := ⟨⟨0, 0⟩⟩

/-- The alias `using Edge = std::pair<size_t, size_t>`. -/
abbrev Edge := Nat × Nat

/-- The struct `Triangle`: three point indices (`vertexIndex[0..2]`) and the `drawable` flag. -/
structure Triangle where
  v0 : Nat
  v1 : Nat
  v2 : Nat
  drawable : Bool
  deriving DecidableEq, Repr

/-- The constructor `Triangle(one, two, three)`: always `drawable(true)`. -/
def Triangle.mk3 (one two three : Nat) : Triangle := ⟨one, two, three, true⟩

/-- Read of `vertexIndex[k]`; a position outside the array gives `none`. -/
def Triangle.vertexIndex (t : Triangle) : Nat → Option Nat
  | 0 => some t.v0
  | 1 => some t.v1
  | 2 => some t.v2
  | _ => none

/-- The ways in which a call fails to return a value. -/
inductive Fault where
  /-- An `assert` of the source fails. -/
  | assertion
  /-- A read outside a `std::vector` or a `std::array`. -/
  | outOfRange
  /-- The iteration budget given to the `while` loop of `queueFlip` is used up. -/
  | fuel
  deriving DecidableEq, Repr

deriving instance DecidableEq for Except

/-- The private data of class `Geometry`. -/
structure Geometry where
  mPoints : List Vector2f
  mTriangles : List Triangle
  deriving DecidableEq, Repr

/-- Unguarded read `mPoints[i]`. -/
def pointAt (pts : List Vector2f) (i : Nat) : Vector2f := pts.getD i ⟨0, 0⟩

/-- The lambda `distance` inside `circumCircleContains`: squared Euclidean distance. -/
def distance (p v : Vector2f) : ℚ :=
  let dx := p.x - v.x
  let dy := p.y - v.y
  dx * dx + dy * dy

/-- The local `circum` of `circumCircleContains` (lines 36-51): the centre of the circle
through `p1`, `p2`, `p3`. -/
def circum (p1 p2 p3 : Vector2f) : Vector2f :=
  let ab := p1.x * p1.x + p1.y * p1.y
  let cd := p2.x * p2.x + p2.y * p2.y
  let ef := p3.x * p3.x + p3.y * p3.y
  let circum_x := (ab * (p3.y - p2.y) + cd * (p1.y - p3.y) + ef * (p2.y - p1.y)) /
                  (p1.x * (p3.y - p2.y) + p2.x * (p1.y - p3.y) + p3.x * (p2.y - p1.y))
  let circum_y := (ab * (p3.x - p2.x) + cd * (p1.x - p3.x) + ef * (p2.x - p1.x)) /
                  (p1.y * (p3.x - p2.x) + p2.y * (p1.x - p3.x) + p3.y * (p2.x - p1.x))
  ⟨(1 / 2) * circum_x, (1 / 2) * circum_y⟩

/-- The static method `Geometry::circumCircleContains`. -/
def circumCircleContains (v p1 p2 p3 : Vector2f) : Bool :=
  let c := circum p1 p2 p3
  let circum_radius := distance p1 c
  let dist := distance v c
  decide (dist ≤ circum_radius)

/-- The method `Geometry::fillGeometry`: three fixed points replace the point store, the
triangle `(0, 1, 2)` is appended and the first triangle of the mesh (`mTriangles[0]`) is marked
non-drawable. Its three assertions compare the coordinates just stored with the same constants
and cannot fail. -/
def fillGeometry (g : Geometry) : Geometry :=
  let pts : List Vector2f := [⟨400, -1000⟩, ⟨-400, 700⟩, ⟨1200, 700⟩]
  let bigTop := pts.length - 3
  let bigLeft := pts.length - 2
  let bigRight := pts.length - 1
  let tris := g.mTriangles ++ [Triangle.mk3 bigTop bigLeft bigRight]
  { mPoints := pts
    mTriangles := tris.modify (fun t => { t with drawable := false }) 0 }

/-- The nested struct `EdgeSearchResult`. -/
structure EdgeSearchResult where
  triangleIndex : Nat
  vertexIndex1 : Nat
  vertexIndex2 : Nat
  deriving DecidableEq, Repr

/-- The local position (0, 1 or 2) at which `vert` first occurs in `tri`; the `else` branch
is the source's `assert(false)`. -/
def localPosition (tri : Triangle) (vert : Nat) : Option Nat :=
  if tri.v0 = vert then some 0
  else if tri.v1 = vert then some 1
  else if tri.v2 = vert then some 2
  else none

/-- One iteration of the `for` loop of `findTriangleWithEdge`, for the triangle `tri` at
index `i`: the entry pushed onto `resultList`, if any. -/
def edgeSearchStep (edge : Edge) (i : Nat) (tri : Triangle) :
    Except Fault (Option EdgeSearchResult) :=
  let vert1 := edge.1
  let vert2 := edge.2
  let found1 := decide (tri.v0 = vert1 ∨ tri.v1 = vert1 ∨ tri.v2 = vert1)
  let found2 := decide (tri.v0 = vert2 ∨ tri.v1 = vert2 ∨ tri.v2 = vert2)
  if found1 && found2 then
    match localPosition tri vert1, localPosition tri vert2 with
    | some k1, some k2 => .ok (some ⟨i, k1, k2⟩)
    | _, _ => .error .assertion
  else .ok none

/-- The `for` loop of `findTriangleWithEdge` over the triangles from index `i` on. -/
def edgeSearchLoop (edge : Edge) : Nat → List Triangle → Except Fault (List EdgeSearchResult)
  | _, [] => .ok []
  | i, tri :: rest =>
    match edgeSearchStep edge i tri with
    | .error e => .error e
    | .ok entry =>
      match edgeSearchLoop edge (i + 1) rest with
      | .error e => .error e
      | .ok rs =>
        match entry with
        | some r => .ok (r :: rs)
        | none => .ok rs

/-- The method `Geometry::findTriangleWithEdge`. -/
def findTriangleWithEdge (tris : List Triangle) (edge : Edge) :
    Except Fault (List EdgeSearchResult) :=
  match edgeSearchLoop edge 0 tris with
  | .error e => .error e
  | .ok resultList =>
    if resultList.length ≤ 2 ∧ resultList ≠ [] then .ok resultList else .error .assertion

/-- The `size_t` expression `3 - a - b`. -/
def thirdLocal (a b : Nat) : Nat := (3 + 2 * 2 ^ 64 - a % 2 ^ 64 - b % 2 ^ 64) % 2 ^ 64

/-- The selection of `whichTriIsNew` in `flip`: the position, in the two-element list
`incidents`, of the entry that is not `triangleIndex`. -/
def whichTriIsNew (incidents : List EdgeSearchResult) (triangleIndex : Nat) : Except Fault Nat :=
  match incidents[0]?, incidents[1]? with
  | some r0, some r1 =>
    if r0.triangleIndex = triangleIndex then .ok 1
    else if r1.triangleIndex = triangleIndex then .ok 0
    else .error .assertion
  | _, _ => .error .outOfRange

/-- The two `erase` calls of `flip`: the entry with the larger index is erased first. -/
def eraseTwo (tris : List Triangle) (triangleIndex neighbourIndex : Nat) : List Triangle :=
  if triangleIndex > neighbourIndex then
    (tris.eraseIdx triangleIndex).eraseIdx neighbourIndex
  else
    (tris.eraseIdx neighbourIndex).eraseIdx triangleIndex

/-- The method `Geometry::flip`: the new state and the returned edges. -/
def flip (g : Geometry) (triangleIndex vert1 vert2 : Nat) :
    Except Fault (Geometry × List Edge) :=
  match g.mTriangles[triangleIndex]? with
  | none => .error .outOfRange
  | some triangle =>
  match triangle.vertexIndex vert1, triangle.vertexIndex vert2,
        triangle.vertexIndex (thirdLocal vert1 vert2) with
  | some vertexIndex1, some vertexIndex2, some aIndex =>
    match findTriangleWithEdge g.mTriangles (vertexIndex1, vertexIndex2) with
    | .error e => .error e
    | .ok incidents =>
      if incidents.length = 1 then
        match incidents[0]? with
        | some r => if r.triangleIndex = triangleIndex then .ok (g, []) else .error .assertion
        | none => .error .outOfRange
      else
        match whichTriIsNew incidents triangleIndex with
        | .error e => .error e
        | .ok w =>
        match incidents[w]? with
        | none => .error .outOfRange
        | some inc =>
        let neighbourIndex := inc.triangleIndex
        match g.mTriangles[neighbourIndex]? with
        | none => .error .assertion
        | some neighbour =>
        match neighbour.vertexIndex (thirdLocal inc.vertexIndex1 inc.vertexIndex2) with
        | none => .error .outOfRange
        | some dIndex =>
          if dIndex < g.mPoints.length then
            let flipEdge := circumCircleContains (pointAt g.mPoints dIndex)
              (pointAt g.mPoints triangle.v0) (pointAt g.mPoints triangle.v1)
              (pointAt g.mPoints triangle.v2)
            if !flipEdge then .ok (g, [])
            else
              let tris := eraseTwo g.mTriangles triangleIndex neighbourIndex
                            ++ [Triangle.mk3 aIndex vertexIndex1 dIndex]
                            ++ [Triangle.mk3 aIndex dIndex vertexIndex2]
              .ok ({ g with mTriangles := tris },
                   [(aIndex, vertexIndex1), (vertexIndex1, dIndex),
                    (dIndex, vertexIndex2), (vertexIndex2, aIndex)])
          else .error .assertion
  | _, _, _ => .error .outOfRange

/-- The static method `Geometry::dot`. -/
def dot (left right : Vector2f) : ℚ := left.x * right.x + left.y * right.y

/-- The default argument `tolerance = 0.0000001f`. -/
def defaultTolerance : ℚ := 1 / 10000000

/-- The method `Geometry::checkBarycentricCoordinates`. -/
def checkBarycentricCoordinates (pts : List Vector2f) (triangle : Triangle) (point : Vector2f)
    (tolerance : ℚ) : Option (ℚ × ℚ × ℚ) :=
  let a := pointAt pts triangle.v0
  let b := pointAt pts triangle.v1
  let c := pointAt pts triangle.v2
  let v0 : Vector2f := ⟨b.x - a.x, b.y - a.y⟩
  let v1 : Vector2f := ⟨c.x - a.x, c.y - a.y⟩
  let v2 : Vector2f := ⟨point.x - a.x, point.y - a.y⟩
  let d00 := dot v0 v0
  let d01 := dot v0 v1
  let d11 := dot v1 v1
  let d20 := dot v2 v0
  let d21 := dot v2 v1
  let denominator := d00 * d11 - d01 * d01
  if denominator = 0 then none
  else
    let denominatorFraction := 1 / denominator
    let v := (d11 * d20 - d01 * d21) * denominatorFraction
    let w := (d00 * d21 - d01 * d20) * denominatorFraction
    if min v w ≥ -tolerance ∧ max v w ≤ 1 + tolerance ∧ v + w ≤ 1 + tolerance then
      some (1 - v - w, v, w)
    else none

/-- The `for` loop of `findTriangleWithPoint` over the triangles from index `i` on. -/
def pointSearchLoop (pts : List Vector2f) (point : Vector2f) : Nat → List Triangle → Option Nat
  | _, [] => none
  | i, triangle :: rest =>
    if (checkBarycentricCoordinates pts triangle point defaultTolerance).isSome then some i
    else pointSearchLoop pts point (i + 1) rest

/-- The method `Geometry::findTriangleWithPoint`. -/
def findTriangleWithPoint (g : Geometry) (point : Vector2f) : Option Nat :=
  pointSearchLoop g.mPoints point 0 g.mTriangles

/-- The three triangles that `insertPointIntoTriangle` appends after erasing the triangle
with vertex indices `inside`, for the new point index `pointIndex`. -/
def splitTriangles (inside : Triangle) (pointIndex : Nat) : List Triangle :=
  [Triangle.mk3 inside.v0 inside.v1 pointIndex,
   Triangle.mk3 pointIndex inside.v1 inside.v2,
   Triangle.mk3 inside.v0 pointIndex inside.v2]

/-- The method `Geometry::insertPointIntoTriangle`: the new state and the optional array of
three edges. -/
def insertPointIntoTriangle (g : Geometry) (point : Vector2f) :
    Except Fault (Geometry × Option (List Edge)) :=
  if g.mPoints.length < 3 then .ok (g, none)
  else if g.mPoints.length = 3 then
    .ok ({ g with mTriangles := g.mTriangles ++ [Triangle.mk3 0 1 2] }, none)
  else
    match findTriangleWithPoint g point with
    | none => .ok (g, none)
    | some insideTriangleInd =>
      let priorTriSize := g.mTriangles.length
      match g.mTriangles[insideTriangleInd]? with
      | none => .error .assertion
      | some inside =>
        let erased := g.mTriangles.eraseIdx insideTriangleInd
        match g.mPoints.getLast? with
        | none => .error .outOfRange
        | some back =>
          if back.x = point.x ∧ back.y = point.y then
            let pointIndex := g.mPoints.length - 1
            let tris := erased ++ splitTriangles inside pointIndex
            if priorTriSize + 2 = tris.length then
              .ok ({ g with mTriangles := tris },
                   some [(inside.v0, inside.v1), (inside.v1, inside.v2), (inside.v0, inside.v2)])
            else .error .assertion
          else .error .assertion

/-- The body of the `while (!queue.empty())` loop of `queueFlip` for the edge `current` at the
back of the queue: the new state and the edges to push. -/
def queueFlipBody (g : Geometry) (current : Edge) : Except Fault (Geometry × List Edge) :=
  match findTriangleWithEdge g.mTriangles current with
  | .error e => .error e
  | .ok found =>
    match found[0]? with
    | none => .error .outOfRange
    | some result => flip g result.triangleIndex result.vertexIndex1 result.vertexIndex2

/-- The `while (!queue.empty())` loop of `queueFlip`, with a budget of `fuel` iterations.
The back of the queue is the end of the list. -/
def queueFlipLoop : Nat → Geometry → List Edge → Except Fault Geometry
  | 0, g, queue => if queue = [] then .ok g else .error .fuel
  | fuel + 1, g, queue =>
    match queue.getLast? with
    | none => .ok g
    | some current =>
      match queueFlipBody g current with
      | .error e => .error e
      | .ok (g', newEdgesToFlip) => queueFlipLoop fuel g' (queue.dropLast ++ newEdgesToFlip)

/-- The method `Geometry::queueFlip`. -/
def queueFlip (fuel : Nat) (g : Geometry) (edgesToCheck : List Edge) : Except Fault Geometry :=
  if edgesToCheck.length = 3 then queueFlipLoop fuel g edgesToCheck else .error .assertion

/-- The method `Geometry::insertOnePoint`. -/
def insertOnePoint (fuel : Nat) (g : Geometry) (point : Vector2f) : Except Fault Geometry :=
  let g1 : Geometry := { g with mPoints := g.mPoints ++ [⟨point.x, point.y⟩] }
  match insertPointIntoTriangle g1 point with
  | .error e => .error e
  | .ok (g2, none) => .ok g2
  | .ok (g2, some newTriangles) => queueFlip fuel g2 newTriangles

/-- The constructor `Geometry::Geometry()`: both vectors start empty. -/
def Geometry.new : Geometry := fillGeometry ⟨[], []⟩

/-- The public method `Geometry::insertPoint`. -/
def insertPoint (fuel : Nat) (g : Geometry) (point : Vector2f) : Except Fault Geometry :=
  insertOnePoint fuel g point

/-- The `for (auto& pt : oldPoints)` loop of `triangulate`. -/
def insertAll (fuel : Nat) : Geometry → List Vector2f → Except Fault Geometry
  | g, [] => .ok g
  | g, pt :: rest =>
    match insertOnePoint fuel g pt with
    | .error e => .error e
    | .ok g' => insertAll fuel g' rest

/-- The public method `Geometry::triangulate`. -/
def triangulate (fuel : Nat) (g : Geometry) : Except Fault Geometry :=
  if g.mPoints.length < 3 then .ok g
  else
    let oldPoints := g.mPoints
    insertAll fuel { mPoints := [], mTriangles := [] } oldPoints

/-- The public method `Geometry::reset`. -/
def reset (g : Geometry) : Geometry :=
  fillGeometry { g with mPoints := [], mTriangles := [] }

/-! ## Notions used to state the properties -/

/-- The three fixed coordinates of the bounding triangle. -/
def boundingPoints : List Vector2f := [⟨400, -1000⟩, ⟨-400, 700⟩, ⟨1200, 700⟩]

/-- Twice the signed area of the triangle `a b c`. -/
def orient (a b c : Vector2f) : ℚ := (b.x - a.x) * (c.y - a.y) - (b.y - a.y) * (c.x - a.x)

/-- The three points lie on one line (coincident points included). -/
def collinear (a b c : Vector2f) : Prop := orient a b c = 0

instance (a b c : Vector2f) : Decidable (collinear a b c) := by
  unfold collinear; infer_instance

/-- The point `p` lies strictly inside the triangle `a b c`: it is strictly on the inner side
of each of the three edges. -/
def strictlyInsideTriangle (a b c p : Vector2f) : Prop :=
  (0 < orient a b c ∧ 0 < orient a b p ∧ 0 < orient b c p ∧ 0 < orient c a p) ∨
  (orient a b c < 0 ∧ orient a b p < 0 ∧ orient b c p < 0 ∧ orient c a p < 0)

instance (a b c p : Vector2f) : Decidable (strictlyInsideTriangle a b c p) := by
  unfold strictlyInsideTriangle; infer_instance

/-- The point `p` lies strictly inside the bounding triangle. -/
def strictlyInsideBounding (p : Vector2f) : Prop :=
  strictlyInsideTriangle ⟨400, -1000⟩ ⟨-400, 700⟩ ⟨1200, 700⟩ p

instance (p : Vector2f) : Decidable (strictlyInsideBounding p) := by
  unfold strictlyInsideBounding; infer_instance

/-- The point `q` lies strictly inside the circle through `p1`, `p2`, `p3`, the centre being
the one `circumCircleContains` computes. -/
def strictlyInsideCircumcircle (q p1 p2 p3 : Vector2f) : Prop :=
  distance q (circum p1 p2 p3) < distance p1 (circum p1 p2 p3)

instance (q p1 p2 p3 : Vector2f) : Decidable (strictlyInsideCircumcircle q p1 p2 p3) := by
  unfold strictlyInsideCircumcircle; infer_instance

/-- The Delaunay property of a state: no stored point that is not a vertex of a triangle lies
strictly inside that triangle's circumcircle. -/
def Delaunay (g : Geometry) : Prop :=
  ∀ t ∈ g.mTriangles, ∀ i, i < g.mPoints.length → i ≠ t.v0 → i ≠ t.v1 → i ≠ t.v2 →
    ¬ strictlyInsideCircumcircle (pointAt g.mPoints i) (pointAt g.mPoints t.v0)
        (pointAt g.mPoints t.v1) (pointAt g.mPoints t.v2)

/-- The number of triangles of the mesh that contain both endpoints of `edge`. -/
def owners (tris : List Triangle) (edge : Edge) : Nat :=
  (tris.filter fun t =>
    decide (t.v0 = edge.1 ∨ t.v1 = edge.1 ∨ t.v2 = edge.1) &&
    decide (t.v0 = edge.2 ∨ t.v1 = edge.2 ∨ t.v2 = edge.2)).length

/-- The point locator finds a triangle for `p` when `insertPoint g p` calls it, that is, on
the point store to which `p` has already been appended. -/
def located (g : Geometry) (p : Vector2f) : Prop :=
  (findTriangleWithPoint { g with mPoints := g.mPoints ++ [p] } p).isSome = true

instance (g : Geometry) (p : Vector2f) : Decidable (located g p) := by
  unfold located; infer_instance

/-- The states the engine can be in between two calls: produced by the constructor and any
sequence of `insertPoint`, `triangulate` and `reset` calls that return. -/
inductive Reachable : Geometry → Prop
  | construct : Reachable Geometry.new
  | insertPoint {g g' : Geometry} (fuel : Nat) (p : Vector2f) :
      Reachable g → insertPoint fuel g p = .ok g' → Reachable g'
  | triangulate {g g' : Geometry} (fuel : Nat) :
      Reachable g → triangulate fuel g = .ok g' → Reachable g'
  | reset {g : Geometry} : Reachable g → Reachable (reset g)

/-- The point index `v` is one of the three vertex indices of `t`. -/
def Triangle.hasVertex (t : Triangle) (v : Nat) : Prop := t.v0 = v ∨ t.v1 = v ∨ t.v2 = v

instance (t : Triangle) (v : Nat) : Decidable (t.hasVertex v) := by
  unfold Triangle.hasVertex; infer_instance

/-- The triangle `t` owns the edge: it has both endpoints as vertices. -/
def ownsEdge (t : Triangle) (edge : Edge) : Prop := t.hasVertex edge.1 ∧ t.hasVertex edge.2

instance (t : Triangle) (edge : Edge) : Decidable (ownsEdge t edge) := by
  unfold ownsEdge; infer_instance

/-- Every vertex index of every triangle is the index of a stored point. -/
def ValidIndices (g : Geometry) : Prop :=
  ∀ t ∈ g.mTriangles, ∀ v, t.hasVertex v → v < g.mPoints.length

/-- The three vertex indices of a triangle, without its `drawable` flag. -/
def Triangle.triple (t : Triangle) : Nat × Nat × Nat := (t.v0, t.v1, t.v2)

/-- The states reached from `reset()` by a sequence of `insertPoint` calls that return, each
with its own budget for the flip loop. -/
inductive Incremental : Geometry → Prop
  | reset (g : Geometry) : Incremental (reset g)
  | insertPoint (fuel : Nat) (p : Vector2f) {g g' : Geometry} :
      Incremental g → insertPoint fuel g p = .ok g' → Incremental g'

/-- The states with which `insertPointIntoTriangle` is entered during the
`for (auto& pt : oldPoints)` loop of `triangulate`, one per iteration: `insertOnePoint` first
appends its point and then calls the inserter. The list ends at an iteration that does not
return. -/
def inserterEntries (fuel : Nat) : Geometry → List Vector2f → List Geometry
  | _, [] => []
  | g, pt :: rest =>
    { g with mPoints := g.mPoints ++ [⟨pt.x, pt.y⟩] } ::
      match insertOnePoint fuel g pt with
      | .error _ => []
      | .ok g' => inserterEntries fuel g' rest

/-- The states with which `insertPointIntoTriangle` is entered during a call of
`triangulate`. -/
def triangulateEntries (fuel : Nat) (g : Geometry) : List Geometry :=
  if g.mPoints.length < 3 then []
  else inserterEntries fuel { mPoints := [], mTriangles := [] } g.mPoints

/-- A sequence of `insertPoint` calls, each with the budget `fuel`; it stops at the first call
that does not return. -/
def insertPoints (fuel : Nat) : Geometry → List Vector2f → Except Fault Geometry
  | g, [] => .ok g
  | g, p :: rest =>
    match insertPoint fuel g p with
    | .error e => .error e
    | .ok g' => insertPoints fuel g' rest

/-! ## Concrete states used in the worked examples -/

/-- The state after `reset()` and `insertPoint (400, 0)`. -/
def scenarioOne : Geometry :=
  { mPoints := [⟨400, -1000⟩, ⟨-400, 700⟩, ⟨1200, 700⟩, ⟨400, 0⟩]
    mTriangles := [⟨0, 1, 3, true⟩, ⟨3, 1, 2, true⟩, ⟨0, 3, 2, true⟩] }

/-- The state after `reset()` and the insertion of `(400, 0)`, `(300, 100)`. -/
def scenarioTwo : Geometry :=
  { mPoints := [⟨400, -1000⟩, ⟨-400, 700⟩, ⟨1200, 700⟩, ⟨400, 0⟩, ⟨300, 100⟩]
    mTriangles := [⟨0, 3, 2, true⟩, ⟨4, 1, 2, true⟩, ⟨3, 4, 2, true⟩, ⟨0, 3, 4, true⟩,
      ⟨0, 4, 1, true⟩] }

/-- The state after `reset()` and the insertion of `(400, 0)`, `(300, 100)`, `(500, 100)`. -/
def scenarioThree : Geometry :=
  { mPoints := [⟨400, -1000⟩, ⟨-400, 700⟩, ⟨1200, 700⟩, ⟨400, 0⟩, ⟨300, 100⟩, ⟨500, 100⟩]
    mTriangles := [⟨0, 3, 4, true⟩, ⟨0, 4, 1, true⟩, ⟨3, 4, 5, true⟩, ⟨0, 3, 5, true⟩,
      ⟨0, 5, 2, true⟩, ⟨1, 4, 5, true⟩, ⟨1, 5, 2, true⟩] }

/-- The state after `reset()` and the insertion of `(400, 0)`, `(300, 100)`, `(500, 100)`,
`(400, 50)`. -/
def scenarioFour : Geometry :=
  { mPoints := [⟨400, -1000⟩, ⟨-400, 700⟩, ⟨1200, 700⟩, ⟨400, 0⟩, ⟨300, 100⟩, ⟨500, 100⟩,
      ⟨400, 50⟩]
    mTriangles := [⟨0, 3, 4, true⟩, ⟨0, 4, 1, true⟩, ⟨0, 3, 5, true⟩, ⟨0, 5, 2, true⟩,
      ⟨1, 4, 5, true⟩, ⟨1, 5, 2, true⟩, ⟨3, 4, 6, true⟩, ⟨6, 4, 5, true⟩, ⟨3, 6, 5, true⟩] }

/-- The state after `reset()` and the insertion of `(200, 400)`, `(300, 300)`, `(0, 500)`; the
last point lies on the edge between the points 1 and 3. -/
def edgeRun : Geometry :=
  { mPoints := [⟨400, -1000⟩, ⟨-400, 700⟩, ⟨1200, 700⟩, ⟨200, 400⟩, ⟨300, 300⟩, ⟨0, 500⟩]
    mTriangles := [⟨3, 1, 2, true⟩, ⟨4, 3, 2, true⟩, ⟨0, 4, 2, true⟩, ⟨0, 1, 5, true⟩,
      ⟨4, 0, 5, true⟩, ⟨1, 5, 4, true⟩, ⟨1, 4, 3, true⟩] }

/-- The state after `reset()` and the insertion of `(200, 200)`, `(600, 200)`. -/
def repeatedRun : Geometry :=
  { mPoints := [⟨400, -1000⟩, ⟨-400, 700⟩, ⟨1200, 700⟩, ⟨200, 200⟩, ⟨600, 200⟩]
    mTriangles := [⟨0, 1, 3, true⟩, ⟨0, 3, 4, true⟩, ⟨0, 4, 2, true⟩, ⟨1, 3, 4, true⟩,
      ⟨1, 4, 2, true⟩] }

/-- The first `n` iterations of the `while` loop of `queueFlip`: the state and the queue
reached (the loop of `queueFlipLoop`, stopped early). -/
def queueFlipSteps : Nat → Geometry → List Edge → Except Fault (Geometry × List Edge)
  | 0, g, queue => .ok (g, queue)
  | n + 1, g, queue =>
    match queue.getLast? with
    | none => .ok (g, queue)
    | some current =>
      match queueFlipBody g current with
      | .error e => .error e
      | .ok (g', newEdgesToFlip) => queueFlipSteps n g' (queue.dropLast ++ newEdgesToFlip)

/-- The state after `reset()` and the insertion of `(200, 0)`, `(600, 0)`. -/
def repeatedPair : Geometry :=
  { mPoints := [⟨400, -1000⟩, ⟨-400, 700⟩, ⟨1200, 700⟩, ⟨200, 0⟩, ⟨600, 0⟩]
    mTriangles := [⟨0, 1, 3, true⟩, ⟨0, 3, 4, true⟩, ⟨0, 4, 2, true⟩, ⟨1, 3, 4, true⟩,
      ⟨1, 4, 2, true⟩] }

/-- The state in which `insertPoint (200, 0)` on `repeatedPair` enters `queueFlip`: the
triangle `(0, 1, 3)` has been split at the new point 5. -/
def repeatedSplit : Geometry :=
  { mPoints := [⟨400, -1000⟩, ⟨-400, 700⟩, ⟨1200, 700⟩, ⟨200, 0⟩, ⟨600, 0⟩, ⟨200, 0⟩]
    mTriangles := [⟨0, 3, 4, true⟩, ⟨0, 4, 2, true⟩, ⟨1, 3, 4, true⟩, ⟨1, 4, 2, true⟩,
      ⟨0, 1, 5, true⟩, ⟨5, 1, 3, true⟩, ⟨0, 5, 3, true⟩] }

/-- The state that the loop of `queueFlip` reaches from `repeatedSplit` after four
iterations. -/
def repeatedStuck : Geometry :=
  { mPoints := [⟨400, -1000⟩, ⟨-400, 700⟩, ⟨1200, 700⟩, ⟨200, 0⟩, ⟨600, 0⟩, ⟨200, 0⟩]
    mTriangles := [⟨0, 4, 2, true⟩, ⟨0, 1, 5, true⟩, ⟨5, 1, 3, true⟩, ⟨4, 0, 5, true⟩,
      ⟨1, 3, 5, true⟩, ⟨2, 4, 5, true⟩, ⟨2, 5, 1, true⟩] }

/-- The state after `reset()` and `triangulate()`. -/
def rebuiltBounding : Geometry :=
  { mPoints := [⟨400, -1000⟩, ⟨-400, 700⟩, ⟨1200, 700⟩]
    mTriangles := [⟨0, 1, 2, true⟩] }

/-- The state in which the insertion of `(600, 200)` after `(200, 200)` tests the edge
`(3, 2)`: the triangle `(0, 3, 2)` has been split at the new point 4 and no flip has happened
yet. The flip of the edge `(3, 2)` turns it into `repeatedRun`. -/
def flipBefore : Geometry :=
  { mPoints := [⟨400, -1000⟩, ⟨-400, 700⟩, ⟨1200, 700⟩, ⟨200, 200⟩, ⟨600, 200⟩]
    mTriangles := [⟨0, 1, 3, true⟩, ⟨3, 1, 2, true⟩, ⟨0, 3, 4, true⟩, ⟨4, 3, 2, true⟩,
      ⟨0, 4, 2, true⟩] }

/-- The state `scenarioOne` once `insertOnePoint` has appended the point `(300, 100)` and before
the inserter runs. -/
def scenarioOnePushed : Geometry :=
  { mPoints := [⟨400, -1000⟩, ⟨-400, 700⟩, ⟨1200, 700⟩, ⟨400, 0⟩, ⟨300, 100⟩]
    mTriangles := [⟨0, 1, 3, true⟩, ⟨3, 1, 2, true⟩, ⟨0, 3, 2, true⟩] }

/-! ## Notions for the Delaunay property in general position -/

/-- The in-circle polynomial: for a non-degenerate triangle `a b c` it is the power of `q` with
respect to the circumcircle, times `orient a b c`. -/
def inCircle (a b c q : Vector2f) : ℚ :=
  ((q.x * q.x + q.y * q.y) - (a.x * a.x + a.y * a.y)) * orient a b c
  + (q.x - a.x) * ((a.x * a.x + a.y * a.y) * (c.y - b.y) + (b.x * b.x + b.y * b.y) * (a.y - c.y)
        + (c.x * c.x + c.y * c.y) * (b.y - a.y))
  - (q.y - a.y) * ((a.x * a.x + a.y * a.y) * (c.x - b.x) + (b.x * b.x + b.y * b.y) * (a.x - c.x)
        + (c.x * c.x + c.y * c.y) * (b.x - a.x))

/-- The power of `q` with respect to the circle through `a`, `b`, `c`. -/
def power (a b c q : Vector2f) : ℚ :=
  distance q (circum a b c) - distance a (circum a b c)

/-- The point at the fraction `e` of the way from `x` to `z`. -/
def lerp (x z : Vector2f) (e : ℚ) : Vector2f :=
  ⟨x.x + e * (z.x - x.x), x.y + e * (z.y - x.y)⟩

/-- The vertex of `t` that is neither `u` nor `v`, for two distinct vertices `u`, `v` of `t`. -/
def Triangle.apex (t : Triangle) (u v : Nat) : Nat := t.v0 + t.v1 + t.v2 - u - v

/-- The triangle is not degenerate. -/
def Triangle.nondeg (pt : Nat → Vector2f)
    (t : Triangle) : Prop := orient (pt t.v0) (pt t.v1) (pt t.v2) ≠ 0

/-- The point `x` lies strictly inside the triangle. -/
def Triangle.contains (pt : Nat → Vector2f) (t : Triangle) (x : Vector2f) : Prop :=
  strictlyInsideTriangle (pt t.v0) (pt t.v1) (pt t.v2) x

/-- The point `q` lies strictly inside the circumcircle of the triangle. -/
def Triangle.inDisk (pt : Nat → Vector2f) (t : Triangle) (q : Vector2f) : Prop :=
  strictlyInsideCircumcircle q (pt t.v0) (pt t.v1) (pt t.v2)

/-- The power of `q` with respect to the circumcircle of the triangle. -/
def Triangle.pow (pt : Nat → Vector2f)
    (t : Triangle) (q : Vector2f) : ℚ := power (pt t.v0) (pt t.v1) (pt t.v2) q

/-- General position of a point store: every point after the first three lies strictly inside
the bounding triangle, no three points are on a line and no four points are on a circle. -/
def GeneralPosition (P : List Vector2f) : Prop :=
  (∀ i < P.length, 3 ≤ i → strictlyInsideBounding (pointAt P i)) ∧
  (∀ i < P.length, ∀ j < P.length, ∀ k < P.length, i ≠ j → i ≠ k → j ≠ k →
    ¬ collinear (pointAt P i) (pointAt P j) (pointAt P k)) ∧
  (∀ i < P.length, ∀ j < P.length, ∀ k < P.length, ∀ l < P.length,
    i ≠ j → i ≠ k → i ≠ l → j ≠ k → j ≠ l → k ≠ l →
    distance (pointAt P l) (circum (pointAt P i) (pointAt P j) (pointAt P k)) ≠
      distance (pointAt P i) (circum (pointAt P i) (pointAt P j) (pointAt P k)))

set_option synthInstance.maxSize 100000 in
set_option synthInstance.maxHeartbeats 2000000 in
instance (P : List Vector2f) : Decidable (GeneralPosition P) := by
  unfold GeneralPosition; infer_instance

/-- The facts about the points with index below `n` that the invariant of the flip loop
uses. -/
structure PointFacts (pt : Nat → Vector2f) (n : Nat) : Prop where
  hull : ∀ u v, u < 3 → v < 3 → u ≠ v → ∀ y z, y < n → z < n → y ≠ u → y ≠ v → z ≠ u → z ≠ v →
    0 < orient (pt u) (pt v) (pt y) * orient (pt u) (pt v) (pt z)
  no3 : ∀ i j k, i < n → j < n → k < n → i ≠ j → i ≠ k → j ≠ k →
    orient (pt i) (pt j) (pt k) ≠ 0
  no4 : ∀ i j k l, i < n → j < n → k < n → l < n → i ≠ j → i ≠ k → i ≠ l → j ≠ k → j ≠ l →
    k ≠ l → inCircle (pt i) (pt j) (pt k) (pt l) ≠ 0

/-- The invariant of the flip loop, for the points `pt 0 … pt (n-1)`: the mesh has no repeated
triangle; its triangles have valid indices and are not degenerate; two triangles that share an
edge lie on opposite sides of it; an edge that is not an edge of the bounding triangle has a
second owner; no point lies strictly inside a triangle; no two triangles overlap; and a pair
of neighbours that fails the in-circle test has its edge in the queue. -/
structure MeshInv (pt : Nat → Vector2f) (n : Nat) (mesh : List Triangle) (queue : List Edge) :
    Prop where
  nodup : mesh.Nodup
  valid : ∀ t ∈ mesh, t.v0 < n ∧ t.v1 < n ∧ t.v2 < n ∧ t.nondeg pt
  opp : ∀ t ∈ mesh, ∀ s ∈ mesh, t ≠ s → ∀ u v, u ≠ v → t.hasVertex u → t.hasVertex v →
    s.hasVertex u → s.hasVertex v →
    orient (pt u) (pt v) (pt (t.apex u v)) * orient (pt u) (pt v) (pt (s.apex u v)) < 0
  nbr : ∀ t ∈ mesh, ∀ u v, u ≠ v → t.hasVertex u → t.hasVertex v →
    (u < 3 ∧ v < 3) ∨ ∃ s ∈ mesh, s ≠ t ∧ s.hasVertex u ∧ s.hasVertex v
  empty : ∀ t ∈ mesh, ∀ i, i < n → ¬ t.hasVertex i → ¬ t.contains pt (pt i)
  disjoint : ∀ t ∈ mesh, ∀ s ∈ mesh, t ≠ s → ∀ x, ¬ (t.contains pt x ∧ s.contains pt x)
  legal : ∀ t ∈ mesh, ∀ s ∈ mesh, t ≠ s → ∀ u v, u ≠ v → t.hasVertex u → t.hasVertex v →
    s.hasVertex u → s.hasVertex v →
    ¬ t.inDisk pt (pt (s.apex u v)) ∨ (u, v) ∈ queue ∨ (v, u) ∈ queue
  ends : ∀ e ∈ queue, e.1 ≠ e.2

/-- The situation of a flip: the edge `u v` at the back of the queue has the two owners `T0`
and `N` with apexes `a` and `d`, and `d` is strictly inside the circle of `T0`. -/
structure FlipCtx (pt : Nat → Vector2f) (n : Nat) (mesh : List Triangle) (q : List Edge)
    (u v a d : Nat) (T0 N : Triangle) : Prop where
  inv : MeshInv pt n mesh (q ++ [(u, v)])
  facts : PointFacts pt n
  mem0 : T0 ∈ mesh
  memN : N ∈ mesh
  ne : T0 ≠ N
  huv : u ≠ v
  u0 : T0.hasVertex u
  v0 : T0.hasVertex v
  a0 : T0.hasVertex a
  uN : N.hasVertex u
  vN : N.hasVertex v
  dN : N.hasVertex d
  au : a ≠ u
  av : a ≠ v
  du : d ≠ u
  dv : d ≠ v
  two : owners mesh (u, v) = 2
  inside : inCircle (pt u) (pt v) (pt a) (pt d) * orient (pt u) (pt v) (pt a) < 0

/-- One of the three triangles of a split: the triangle `T` of the mesh with vertices `x`,
`y`, `z` strictly contains the new point `n`, and `S` has the vertices `x`, `y`, `n`. -/
structure SplitPart (pt : Nat → Vector2f) (n : Nat) (mesh : List Triangle) (T : Triangle)
    (x y z : Nat) (S : Triangle) : Prop where
  inv : MeshInv pt n mesh []
  mem : T ∈ mesh
  inside : T.contains pt (pt n)
  hx : T.hasVertex x
  hy : T.hasVertex y
  hz : T.hasVertex z
  xy : x ≠ y
  zx : z ≠ x
  zy : z ≠ y
  hS : ∀ k, S.hasVertex k ↔ k = x ∨ k = y ∨ k = n

/-- The states reached from `reset()` by completed `insertPoint` calls in each of which the
point locator returns a triangle that strictly contains the new point. -/
inductive StrictRun : Geometry → Prop
  | reset (g : Geometry) : StrictRun (reset g)
  | insertPoint {g g' : Geometry} (fuel : Nat) (p : Vector2f) (i : Nat) (T : Triangle) :
      StrictRun g →
      findTriangleWithPoint { g with mPoints := g.mPoints ++ [p] } p = some i →
      g.mTriangles[i]? = some T →
      strictlyInsideTriangle (pointAt g.mPoints T.v0) (pointAt g.mPoints T.v1)
        (pointAt g.mPoints T.v2) p →
      insertPoint fuel g p = .ok g' → StrictRun g'

/-- The state after `reset()` and `insertPoint(300, 100)`. -/
def generalOne : Geometry :=
  { mPoints := [⟨400, -1000⟩, ⟨-400, 700⟩, ⟨1200, 700⟩, ⟨300, 100⟩],
    mTriangles := [⟨0, 1, 3, true⟩, ⟨3, 1, 2, true⟩, ⟨0, 3, 2, true⟩] }

/-- The state after `generalOne` and `insertPoint(500, 300)`: the triangle `(3, 1, 2)` is split
and the edge `(3, 2)` is flipped. -/
def generalTwo : Geometry :=
  { mPoints := [⟨400, -1000⟩, ⟨-400, 700⟩, ⟨1200, 700⟩, ⟨300, 100⟩, ⟨500, 300⟩],
    mTriangles := [⟨0, 1, 3, true⟩, ⟨3, 1, 4, true⟩, ⟨4, 1, 2, true⟩, ⟨0, 3, 4, true⟩,
      ⟨0, 4, 2, true⟩] }

/-- The state after `generalTwo` and `insertPoint(350, 450)`. -/
def generalThree : Geometry :=
  { mPoints := [⟨400, -1000⟩, ⟨-400, 700⟩, ⟨1200, 700⟩, ⟨300, 100⟩, ⟨500, 300⟩, ⟨350, 450⟩],
    mTriangles := [⟨0, 1, 3, true⟩, ⟨0, 3, 4, true⟩, ⟨0, 4, 2, true⟩, ⟨5, 1, 2, true⟩,
      ⟨4, 5, 2, true⟩, ⟨3, 4, 5, true⟩, ⟨3, 5, 1, true⟩] }

/-! ## Structure of the operations -/

theorem edgeSearchStep_index {edge : Edge} {i : Nat} {tri : Triangle} {r : EdgeSearchResult}
    (h : edgeSearchStep edge i tri = .ok (some r)) : r.triangleIndex = i := by
  unfold edgeSearchStep at h
  simp only at h
  split at h
  · split at h
    · cases h; rfl
    · cases h
  · cases h

theorem edgeSearchLoop_sorted (edge : Edge) :
    ∀ (tris : List Triangle) (i : Nat) (rs : List EdgeSearchResult),
      edgeSearchLoop edge i tris = .ok rs →
      (∀ r ∈ rs, i ≤ r.triangleIndex ∧ r.triangleIndex < i + tris.length) ∧
      rs.Pairwise (fun a b => a.triangleIndex < b.triangleIndex) := by
  intro tris
  induction tris with
  | nil =>
    intro i rs h
    simp only [edgeSearchLoop] at h
    cases h
    simp
  | cons tri rest ih =>
    intro i rs h
    simp only [edgeSearchLoop] at h
    split at h
    · cases h
    · rename_i r? hstep
      split at h
      · cases h
      · rename_i rs' hrest
        obtain ⟨hb, hp⟩ := ih (i + 1) rs' hrest
        split at h
        · rename_i r
          cases h
          have hi := edgeSearchStep_index hstep
          constructor
          · intro x hx
            rcases List.mem_cons.mp hx with rfl | hx
            · simp [hi]
            · have := hb x hx
              simp only [List.length_cons]
              omega
          · refine List.pairwise_cons.mpr ⟨?_, hp⟩
            intro x hx
            have := hb x hx
            omega
        · cases h
          constructor
          · intro x hx
            have := hb x hx
            simp only [List.length_cons]
            omega
          · exact hp

theorem findTriangleWithEdge_sorted {tris : List Triangle} {edge : Edge}
    {rs : List EdgeSearchResult} (h : findTriangleWithEdge tris edge = .ok rs) :
    (∀ r ∈ rs, r.triangleIndex < tris.length) ∧
    rs.Pairwise (fun a b => a.triangleIndex < b.triangleIndex) ∧
    (rs.length = 1 ∨ rs.length = 2) := by
  unfold findTriangleWithEdge at h
  split at h
  · cases h
  · rename_i resultList hl
    split at h
    · rename_i hlen
      cases h
      obtain ⟨hb, hp⟩ := edgeSearchLoop_sorted edge tris 0 _ hl
      refine ⟨fun r hr => by have := hb r hr; omega, hp, ?_⟩
      have : rs.length ≠ 0 := fun h0 => hlen.2 (List.length_eq_zero.mp h0)
      omega
    · cases h

/-- What `flip` can do when it returns: nothing, or the replacement of two distinct triangles
by two new ones at the end of the mesh. -/
theorem flip_cases {g g' : Geometry} {triangleIndex vert1 vert2 : Nat} {es : List Edge}
    (h : flip g triangleIndex vert1 vert2 = .ok (g', es)) :
    (g' = g ∧ es = []) ∨
    ∃ neighbourIndex a v1 v2 d,
      neighbourIndex ≠ triangleIndex ∧ triangleIndex < g.mTriangles.length ∧
      neighbourIndex < g.mTriangles.length ∧ d < g.mPoints.length ∧
      g' = { g with mTriangles := eraseTwo g.mTriangles triangleIndex neighbourIndex
                ++ [Triangle.mk3 a v1 d] ++ [Triangle.mk3 a d v2] } ∧
      es = [(a, v1), (v1, d), (d, v2), (v2, a)] := by
  unfold flip at h
  split at h
  · cases h
  · rename_i triangle htri
    have hti : triangleIndex < g.mTriangles.length := by
      by_contra hc
      rw [List.getElem?_eq_none (by omega)] at htri
      cases htri
    split at h
    · rename_i vertexIndex1 vertexIndex2 aIndex _ _ _
      split at h
      · cases h
      · rename_i incidents hinc
        obtain ⟨hb, hp, hlen⟩ := findTriangleWithEdge_sorted hinc
        split at h
        · split at h
          · split at h
            · cases h; exact Or.inl ⟨rfl, rfl⟩
            · cases h
          · cases h
        · rename_i hne1
          split at h
          · cases h
          · rename_i w hw
            split at h
            · cases h
            · rename_i inc hincw
              simp only at h
              split at h
              · cases h
              · rename_i neighbour hnb
                have hni : inc.triangleIndex < g.mTriangles.length := by
                  by_contra hc
                  rw [List.getElem?_eq_none (by omega)] at hnb
                  cases hnb
                split at h
                · cases h
                · rename_i dIndex _
                  split at h
                  · rename_i hd
                    split at h
                    · cases h; exact Or.inl ⟨rfl, rfl⟩
                    · cases h
                      refine Or.inr ⟨inc.triangleIndex, aIndex, vertexIndex1, vertexIndex2,
                        dIndex, ?_, hti, hni, hd, rfl, rfl⟩
                      -- the neighbour differs from the current triangle
                      have h2 : incidents.length = 2 := by omega
                      match incidents, h2, hp, hw, hincw with
                      | [r0, r1], _, hp, hw, hincw =>
                        simp only [whichTriIsNew, List.getElem?_cons_zero,
                          List.getElem?_cons_succ] at hw
                        have hlt : r0.triangleIndex < r1.triangleIndex := by
                          simpa using hp
                        split at hw
                        · rename_i h0
                          cases hw
                          simp at hincw
                          subst hincw
                          omega
                        · split at hw
                          · rename_i h0 h1
                            cases hw
                            simp at hincw
                            subst hincw
                            exact h0
                          · cases hw
                  · cases h
    · cases h

theorem eraseTwo_length {tris : List Triangle} {i j : Nat} (hne : j ≠ i)
    (hi : i < tris.length) (hj : j < tris.length) :
    (eraseTwo tris i j).length + 2 = tris.length := by
  unfold eraseTwo
  split
  · rw [List.length_eraseIdx, List.length_eraseIdx]
    simp only [hi, if_true]
    have : j < tris.length - 1 := by omega
    simp only [this, if_true]
    omega
  · rw [List.length_eraseIdx, List.length_eraseIdx]
    simp only [hj, if_true]
    have : i < tris.length - 1 := by omega
    simp only [this, if_true]
    omega

theorem mem_of_mem_eraseTwo {tris : List Triangle} {i j : Nat} {t : Triangle}
    (h : t ∈ eraseTwo tris i j) : t ∈ tris := by
  unfold eraseTwo at h
  split at h
  · exact List.mem_of_mem_eraseIdx (List.mem_of_mem_eraseIdx h)
  · exact List.mem_of_mem_eraseIdx (List.mem_of_mem_eraseIdx h)

/-- A property of states that every returning `flip` preserves is preserved by the loop of
`queueFlip`. -/
theorem queueFlipLoop_preserves (P : Geometry → Prop)
    (hflip : ∀ g ti k1 k2 g' es, P g → flip g ti k1 k2 = .ok (g', es) → P g') :
    ∀ (fuel : Nat) (g : Geometry) (queue : List Edge) (g' : Geometry),
      P g → queueFlipLoop fuel g queue = .ok g' → P g' := by
  intro fuel
  induction fuel with
  | zero =>
    intro g queue g' hP h
    simp only [queueFlipLoop] at h
    split at h
    · cases h; exact hP
    · cases h
  | succ n ih =>
    intro g queue g' hP h
    simp only [queueFlipLoop] at h
    split at h
    · cases h; exact hP
    · split at h
      · cases h
      · rename_i g1 es hbody
        refine ih g1 _ g' ?_ h
        unfold queueFlipBody at hbody
        split at hbody
        · cases hbody
        · split at hbody
          · cases hbody
          · exact hflip _ _ _ _ _ _ hP hbody

theorem flip_mPoints {g g' : Geometry} {ti k1 k2 : Nat} {es : List Edge}
    (h : flip g ti k1 k2 = .ok (g', es)) : g'.mPoints = g.mPoints := by
  rcases flip_cases h with ⟨rfl, _⟩ | ⟨_, _, _, _, _, _, _, _, _, rfl, _⟩ <;> rfl

theorem flip_length {g g' : Geometry} {ti k1 k2 : Nat} {es : List Edge}
    (h : flip g ti k1 k2 = .ok (g', es)) : g'.mTriangles.length = g.mTriangles.length := by
  rcases flip_cases h with ⟨rfl, _⟩ | ⟨ni, a, v1, v2, d, hne, hi, hj, _, rfl, _⟩
  · rfl
  · have := eraseTwo_length hne hi hj
    simp only [List.length_append, List.length_singleton]
    omega

theorem flip_drawable {g g' : Geometry} {ti k1 k2 : Nat} {es : List Edge}
    (h : flip g ti k1 k2 = .ok (g', es)) (hd : ∀ t ∈ g.mTriangles, t.drawable = true) :
    ∀ t ∈ g'.mTriangles, t.drawable = true := by
  rcases flip_cases h with ⟨rfl, _⟩ | ⟨ni, a, v1, v2, d, hne, hi, hj, _, rfl, _⟩
  · exact hd
  · intro t ht
    simp only [List.append_assoc, List.mem_append, List.mem_singleton, List.mem_cons,
      List.not_mem_nil, or_false] at ht
    rcases ht with ht | rfl | rfl
    · exact hd t (mem_of_mem_eraseTwo ht)
    · rfl
    · rfl

theorem queueFlip_mPoints {fuel : Nat} {g g' : Geometry} {edges : List Edge}
    (h : queueFlip fuel g edges = .ok g') : g'.mPoints = g.mPoints := by
  unfold queueFlip at h
  split at h
  · exact queueFlipLoop_preserves (fun s => s.mPoints = g.mPoints)
      (fun s ti k1 k2 s' es hs hf => (flip_mPoints hf).trans hs) fuel g edges g' rfl h
  · cases h

theorem queueFlip_length {fuel : Nat} {g g' : Geometry} {edges : List Edge}
    (h : queueFlip fuel g edges = .ok g') : g'.mTriangles.length = g.mTriangles.length := by
  unfold queueFlip at h
  split at h
  · exact queueFlipLoop_preserves (fun s => s.mTriangles.length = g.mTriangles.length)
      (fun s ti k1 k2 s' es hs hf => (flip_length hf).trans hs) fuel g edges g' rfl h
  · cases h

theorem queueFlip_drawable {fuel : Nat} {g g' : Geometry} {edges : List Edge}
    (h : queueFlip fuel g edges = .ok g') (hd : ∀ t ∈ g.mTriangles, t.drawable = true) :
    ∀ t ∈ g'.mTriangles, t.drawable = true := by
  unfold queueFlip at h
  split at h
  · exact queueFlipLoop_preserves (fun s => ∀ t ∈ s.mTriangles, t.drawable = true)
      (fun s ti k1 k2 s' es hs hf => flip_drawable hf hs) fuel g edges g' hd h
  · cases h

/-- What `insertPointIntoTriangle` can do when it returns. -/
theorem insertPointIntoTriangle_cases {g g' : Geometry} {point : Vector2f}
    {r : Option (List Edge)} (h : insertPointIntoTriangle g point = .ok (g', r)) :
    (g' = g ∧ r = none ∧ (g.mPoints.length < 3 ∨
        (3 < g.mPoints.length ∧ findTriangleWithPoint g point = none))) ∨
    (g' = { g with mTriangles := g.mTriangles ++ [Triangle.mk3 0 1 2] } ∧ r = none ∧
        g.mPoints.length = 3) ∨
    ∃ i inside, 3 < g.mPoints.length ∧ findTriangleWithPoint g point = some i ∧
      g.mTriangles[i]? = some inside ∧
      g' = { g with mTriangles := g.mTriangles.eraseIdx i
                ++ splitTriangles inside (g.mPoints.length - 1) } ∧
      r = some [(inside.v0, inside.v1), (inside.v1, inside.v2), (inside.v0, inside.v2)] := by
  unfold insertPointIntoTriangle at h
  split at h
  · rename_i hlt
    cases h
    exact Or.inl ⟨rfl, rfl, Or.inl hlt⟩
  · rename_i hge
    split at h
    · rename_i h3
      cases h
      exact Or.inr (Or.inl ⟨rfl, rfl, h3⟩)
    · rename_i h3
      have hgt : 3 < g.mPoints.length := by omega
      split at h
      · rename_i hnone
        cases h
        exact Or.inl ⟨rfl, rfl, Or.inr ⟨hgt, hnone⟩⟩
      · rename_i i hsome
        simp only at h
        split at h
        · cases h
        · rename_i inside hin
          split at h
          · cases h
          · split at h
            · split at h
              · cases h
                exact Or.inr (Or.inr ⟨i, inside, hgt, hsome, hin, rfl, rfl⟩)
              · cases h
            · cases h

theorem insertPointIntoTriangle_mPoints {g g' : Geometry} {point : Vector2f}
    {r : Option (List Edge)} (h : insertPointIntoTriangle g point = .ok (g', r)) :
    g'.mPoints = g.mPoints := by
  rcases insertPointIntoTriangle_cases h with ⟨rfl, _⟩ | ⟨rfl, _⟩ | ⟨_, _, _, _, _, rfl, _⟩ <;> rfl

theorem insertOnePoint_mPoints {fuel : Nat} {g g' : Geometry} {point : Vector2f}
    (h : insertOnePoint fuel g point = .ok g') : g'.mPoints = g.mPoints ++ [point] := by
  unfold insertOnePoint at h
  simp only at h
  split at h
  · cases h
  · rename_i g2 hins
    cases h
    exact insertPointIntoTriangle_mPoints hins
  · rename_i g2 newTriangles hins
    rw [queueFlip_mPoints h, insertPointIntoTriangle_mPoints hins]

theorem insertAll_mPoints {fuel : Nat} :
    ∀ (pts : List Vector2f) (g g' : Geometry),
      insertAll fuel g pts = .ok g' → g'.mPoints = g.mPoints ++ pts := by
  intro pts
  induction pts with
  | nil =>
    intro g g' h
    simp only [insertAll] at h
    cases h
    simp
  | cons pt rest ih =>
    intro g g' h
    simp only [insertAll] at h
    split at h
    · cases h
    · rename_i g1 h1
      rw [ih g1 g' h, insertOnePoint_mPoints h1]
      simp

theorem triangulate_mPoints {fuel : Nat} {g g' : Geometry}
    (h : triangulate fuel g = .ok g') : g'.mPoints = g.mPoints := by
  unfold triangulate at h
  split at h
  · cases h; rfl
  · simp only at h
    rw [insertAll_mPoints _ _ _ h]
    simp

/-- A run of the flip loop that does not stop for lack of budget gives the same result with
any larger budget. -/
theorem queueFlipLoop_fuel_mono :
    ∀ (fuel : Nat) (g : Geometry) (queue : List Edge) (k : Nat),
      queueFlipLoop fuel g queue ≠ .error .fuel →
      queueFlipLoop (fuel + k) g queue = queueFlipLoop fuel g queue := by
  intro fuel
  induction fuel with
  | zero =>
    intro g queue k h
    simp only [queueFlipLoop] at h ⊢
    split at h
    · rename_i hq
      subst hq
      cases k <;> simp [queueFlipLoop]
    · exact absurd rfl h
  | succ n ih =>
    intro g queue k h
    have e : n + 1 + k = (n + k) + 1 := by omega
    rw [e]
    simp only [queueFlipLoop] at h ⊢
    split
    · rfl
    · rename_i current hcur
      simp only [hcur] at h
      split
      · rfl
      · rename_i g1 es hbody
        simp only [hbody] at h
        exact ih g1 _ k h

theorem queueFlip_fuel_mono (fuel k : Nat) (g : Geometry) (edges : List Edge)
    (h : queueFlip fuel g edges ≠ .error .fuel) :
    queueFlip (fuel + k) g edges = queueFlip fuel g edges := by
  unfold queueFlip at h ⊢
  split
  · rename_i h3
    simp only [h3, if_true] at h
    exact queueFlipLoop_fuel_mono fuel g edges k h
  · rfl

theorem insertOnePoint_fuel_mono (fuel k : Nat) (g : Geometry) (point : Vector2f)
    (h : insertOnePoint fuel g point ≠ .error .fuel) :
    insertOnePoint (fuel + k) g point = insertOnePoint fuel g point := by
  unfold insertOnePoint at h ⊢
  simp only at h ⊢
  split
  · rfl
  · rfl
  · rename_i g2 newTriangles hins
    simp only [hins] at h
    exact queueFlip_fuel_mono fuel k g2 newTriangles h

theorem insertAll_fuel_mono (fuel k : Nat) :
    ∀ (pts : List Vector2f) (g g' : Geometry),
      insertAll fuel g pts = .ok g' → insertAll (fuel + k) g pts = .ok g' := by
  intro pts
  induction pts with
  | nil => intro g g' h; simpa [insertAll] using h
  | cons pt rest ih =>
    intro g g' h
    simp only [insertAll] at h ⊢
    split at h
    · cases h
    · rename_i g1 h1
      have : insertOnePoint (fuel + k) g pt = .ok g1 := by
        rw [insertOnePoint_fuel_mono fuel k g pt (by rw [h1]; simp), h1]
      simp only [this]
      exact ih g1 g' h

theorem triangulate_fuel_mono (fuel k : Nat) (g g' : Geometry)
    (h : triangulate fuel g = .ok g') : triangulate (fuel + k) g = .ok g' := by
  unfold triangulate at h ⊢
  split
  · rename_i hlt
    simpa [hlt] using h
  · rename_i hge
    simp only [hge, if_false] at h
    exact insertAll_fuel_mono fuel k _ _ _ h

theorem flip_mem {g g' : Geometry} {ti k1 k2 : Nat} {es : List Edge}
    (h : flip g ti k1 k2 = .ok (g', es)) :
    ∀ t ∈ g'.mTriangles, t ∈ g.mTriangles ∨ t.drawable = true := by
  rcases flip_cases h with ⟨rfl, _⟩ | ⟨ni, a, v1, v2, d, hne, hi, hj, _, rfl, _⟩
  · exact fun t ht => Or.inl ht
  · intro t ht
    simp only [List.append_assoc, List.mem_append, List.mem_singleton, List.mem_cons,
      List.not_mem_nil, or_false] at ht
    rcases ht with ht | rfl | rfl
    · exact Or.inl (mem_of_mem_eraseTwo ht)
    · exact Or.inr rfl
    · exact Or.inr rfl

theorem queueFlip_mem {fuel : Nat} {g g' : Geometry} {edges : List Edge}
    (h : queueFlip fuel g edges = .ok g') :
    ∀ t ∈ g'.mTriangles, t ∈ g.mTriangles ∨ t.drawable = true := by
  unfold queueFlip at h
  split at h
  · refine queueFlipLoop_preserves
      (fun s => ∀ t ∈ s.mTriangles, t ∈ g.mTriangles ∨ t.drawable = true) ?_ fuel g edges g'
      (fun t ht => Or.inl ht) h
    intro s ti k1 k2 s' es hs hf t ht
    rcases flip_mem hf t ht with h1 | h1
    · exact hs t h1
    · exact Or.inr h1
  · cases h

/-- An insertion whose point is located splits one triangle: the count grows by two and every
triangle of the new mesh is drawable or is an old triangle other than the located one. -/
theorem insertPoint_located {fuel : Nat} {g g' : Geometry} {p : Vector2f}
    (h : insertPoint fuel g p = .ok g') (h3 : 3 ≤ g.mPoints.length) (hl : located g p) :
    ∃ i inside,
      findTriangleWithPoint { g with mPoints := g.mPoints ++ [p] } p = some i ∧
      g.mTriangles[i]? = some inside ∧
      insertPointIntoTriangle { g with mPoints := g.mPoints ++ [p] } p =
        .ok ({ mPoints := g.mPoints ++ [p],
               mTriangles := g.mTriangles.eraseIdx i ++ splitTriangles inside g.mPoints.length },
             some [(inside.v0, inside.v1), (inside.v1, inside.v2), (inside.v0, inside.v2)]) ∧
      g'.mTriangles.length = g.mTriangles.length + 2 ∧
      ∀ t ∈ g'.mTriangles, t ∈ g.mTriangles.eraseIdx i ∨ t.drawable = true := by
  unfold insertPoint insertOnePoint at h
  simp only at h
  have hlen : (g.mPoints ++ [p]).length = g.mPoints.length + 1 := by simp
  unfold located at hl
  split at h
  · cases h
  · rename_i g2 hins
    rcases insertPointIntoTriangle_cases hins with ⟨_, _, hc | ⟨_, hc⟩⟩ | ⟨_, _, hc⟩ | ⟨_, _, _, _, _, _, hc⟩
    · simp only [hlen] at hc; omega
    · rw [hc] at hl; cases hl
    · simp only [hlen] at hc; omega
    · cases hc
  · rename_i g2 newTriangles hins
    rcases insertPointIntoTriangle_cases hins with ⟨_, hc, _⟩ | ⟨_, hc, _⟩ | ⟨i, inside, _, hfind, hin, hg2, hr⟩
    · cases hc
    · cases hc
    · simp only [hlen, Nat.add_sub_cancel] at hg2
      have hi : i < g.mTriangles.length := by
        by_contra hc
        simp only at hin
        rw [List.getElem?_eq_none (by omega)] at hin
        cases hin
      refine ⟨i, inside, hfind, hin, ?_, ?_, ?_⟩
      · rw [hins, hg2, hr]
      · rw [queueFlip_length h, hg2]
        simp only [List.length_append, List.length_eraseIdx, splitTriangles, List.length_cons,
          List.length_nil, hi, if_true]
        omega
      · intro t ht
        rcases queueFlip_mem h t ht with h1 | h1
        · rw [hg2] at h1
          simp only [List.mem_append, splitTriangles, List.mem_cons, List.not_mem_nil,
            or_false] at h1
          rcases h1 with h1 | rfl | rfl | rfl
          · exact Or.inl h1
          · exact Or.inr rfl
          · exact Or.inr rfl
          · exact Or.inr rfl
        · exact Or.inr h1

theorem circum_x_mul (p1 p2 p3 : Vector2f) (h : ¬ collinear p1 p2 p3) :
    2 * (circum p1 p2 p3).x * orient p1 p2 p3 =
      -((p1.x * p1.x + p1.y * p1.y) * (p3.y - p2.y) + (p2.x * p2.x + p2.y * p2.y) * (p1.y - p3.y)
        + (p3.x * p3.x + p3.y * p3.y) * (p2.y - p1.y)) := by
  have hd : p1.x * (p3.y - p2.y) + p2.x * (p1.y - p3.y) + p3.x * (p2.y - p1.y)
      = - orient p1 p2 p3 := by unfold orient; ring
  have h0 : orient p1 p2 p3 ≠ 0 := h
  simp only [circum, hd]
  field_simp
  ring

theorem circum_y_mul (p1 p2 p3 : Vector2f) (h : ¬ collinear p1 p2 p3) :
    2 * (circum p1 p2 p3).y * orient p1 p2 p3 =
      (p1.x * p1.x + p1.y * p1.y) * (p3.x - p2.x) + (p2.x * p2.x + p2.y * p2.y) * (p1.x - p3.x)
        + (p3.x * p3.x + p3.y * p3.y) * (p2.x - p1.x) := by
  have hd : p1.y * (p3.x - p2.x) + p2.y * (p1.x - p3.x) + p3.y * (p2.x - p1.x)
      = orient p1 p2 p3 := by unfold orient; ring
  have h0 : orient p1 p2 p3 ≠ 0 := h
  simp only [circum, hd]
  field_simp
  ring

theorem circum_equidistant (p1 p2 p3 : Vector2f) (h : ¬ collinear p1 p2 p3) :
    distance p1 (circum p1 p2 p3) = distance p2 (circum p1 p2 p3) ∧
    distance p1 (circum p1 p2 p3) = distance p3 (circum p1 p2 p3) := by
  have hx := circum_x_mul p1 p2 p3 h
  have hy := circum_y_mul p1 p2 p3 h
  have h0 : orient p1 p2 p3 ≠ 0 := h
  generalize circum p1 p2 p3 = c at hx hy ⊢
  constructor
  · apply mul_left_cancel₀ h0
    simp only [distance]
    unfold orient at hx hy ⊢
    linear_combination (-(p1.x - p2.x)) * hx + (-(p1.y - p2.y)) * hy
  · apply mul_left_cancel₀ h0
    simp only [distance]
    unfold orient at hx hy ⊢
    linear_combination (-(p1.x - p3.x)) * hx + (-(p1.y - p3.y)) * hy

theorem distance_nonneg (p v : Vector2f) : 0 ≤ distance p v := by
  show 0 ≤ (p.x - v.x) * (p.x - v.x) + (p.y - v.y) * (p.y - v.y)
  exact add_nonneg (mul_self_nonneg _) (mul_self_nonneg _)

theorem orient_sum (a b c p : Vector2f) :
    orient b c p + orient c a p + orient a b p = orient a b c := by
  unfold orient; ring

/-- A point that is a convex combination of `a`, `b`, `c` with a positive weight on `c`, and
that lies with `a` and `b` on a circle of centre `o`, is at most as far from `o` as `c`. -/
theorem distance_le_of_combination (a b c p o : Vector2f) (u v w : ℚ)
    (hu : 0 ≤ u) (hv : 0 ≤ v) (hw : 0 < w) (hsum : u + v + w = 1)
    (hx : p.x = u * a.x + v * b.x + w * c.x) (hy : p.y = u * a.y + v * b.y + w * c.y)
    (ha : distance a o = distance p o) (hb : distance b o = distance p o) :
    distance p o ≤ distance c o := by
  have key : w * (distance c o - distance p o) =
      u * v * distance a b + u * w * distance a c + v * w * distance b c := by
    have hu' : u = 1 - v - w := by linarith
    simp only [distance] at ha hb ⊢
    rw [hx, hy] at ha hb ⊢
    subst hu'
    linear_combination (-(1 - v - w)) * ha + (-v) * hb
  have hab := distance_nonneg a b
  have hac := distance_nonneg a c
  have hbc := distance_nonneg b c
  have hJ : 0 ≤ w * (distance c o - distance p o) := by
    rw [key]
    have := mul_nonneg (mul_nonneg hu hv) hab
    have := mul_nonneg (mul_nonneg hu hw.le) hac
    have := mul_nonneg (mul_nonneg hv hw.le) hbc
    linarith
  have := nonneg_of_mul_nonneg_right hJ hw
  linarith

theorem orient_cycle (a b c : Vector2f) : orient b c a = orient a b c := by
  unfold orient; ring

/-- The barycentric weights of a point strictly inside a triangle. -/
theorem weights_of_strictlyInside {a b c p : Vector2f} (h : strictlyInsideTriangle a b c p) :
    ∃ u v w : ℚ, 0 < u ∧ 0 < v ∧ 0 < w ∧ u + v + w = 1 ∧
      p.x = u * a.x + v * b.x + w * c.x ∧ p.y = u * a.y + v * b.y + w * c.y ∧
      orient a b p ≠ 0 ∧ orient b c p ≠ 0 ∧ orient c a p ≠ 0 := by
  have hsum := orient_sum a b c p
  have hD : orient a b c ≠ 0 := by
    rcases h with ⟨h, _⟩ | ⟨h, _⟩
    · exact ne_of_gt h
    · exact ne_of_lt h
  refine ⟨orient b c p / orient a b c, orient c a p / orient a b c,
    orient a b p / orient a b c, ?_, ?_, ?_, ?_, ?_, ?_, ?_, ?_, ?_⟩
  · rcases h with ⟨h0, _, h1, _⟩ | ⟨h0, _, h1, _⟩
    · exact div_pos h1 h0
    · exact div_pos_of_neg_of_neg h1 h0
  · rcases h with ⟨h0, _, _, h1⟩ | ⟨h0, _, _, h1⟩
    · exact div_pos h1 h0
    · exact div_pos_of_neg_of_neg h1 h0
  · rcases h with ⟨h0, h1, _, _⟩ | ⟨h0, h1, _, _⟩
    · exact div_pos h1 h0
    · exact div_pos_of_neg_of_neg h1 h0
  · rw [← add_div, ← add_div, hsum, div_self hD]
  · field_simp
    unfold orient
    ring
  · field_simp
    unfold orient
    ring
  · rcases h with ⟨_, h1, _, _⟩ | ⟨_, h1, _, _⟩
    · exact ne_of_gt h1
    · exact ne_of_lt h1
  · rcases h with ⟨_, _, h1, _⟩ | ⟨_, _, h1, _⟩
    · exact ne_of_gt h1
    · exact ne_of_lt h1
  · rcases h with ⟨_, _, _, h1⟩ | ⟨_, _, _, h1⟩
    · exact ne_of_gt h1
    · exact ne_of_lt h1

/-- Splitting a triangle at a point strictly inside it: the vertex left out of each of the
three new triangles is not strictly inside that triangle's circumcircle. -/
theorem split_circles {a b c p : Vector2f} (h : strictlyInsideTriangle a b c p) :
    ¬ strictlyInsideCircumcircle c a b p ∧ ¬ strictlyInsideCircumcircle a p b c ∧
    ¬ strictlyInsideCircumcircle b a p c := by
  obtain ⟨u, v, w, hu, hv, hw, hsum, hx, hy, nab, nbc, nca⟩ := weights_of_strictlyInside h
  refine ⟨?_, ?_, ?_⟩
  · obtain ⟨e1, e2⟩ := circum_equidistant a b p nab
    have := distance_le_of_combination a b c p (circum a b p) u v w hu.le hv.le hw hsum hx hy
      e2 (e1.symm.trans e2)
    unfold strictlyInsideCircumcircle
    rw [e2]
    exact not_lt.mpr this
  · have n : ¬ collinear p b c := by
      unfold collinear; rw [← orient_cycle]; exact nbc
    obtain ⟨e1, e2⟩ := circum_equidistant p b c n
    have := distance_le_of_combination b c a p (circum p b c) v w u hv.le hw.le hu
      (by linarith) (by linarith) (by linarith) e1.symm e2.symm
    unfold strictlyInsideCircumcircle
    exact not_lt.mpr this
  · have n : ¬ collinear a p c := by
      unfold collinear; rw [orient_cycle]; exact nca
    obtain ⟨e1, e2⟩ := circum_equidistant a p c n
    have := distance_le_of_combination a c b p (circum a p c) u w v hu.le hw.le hv
      (by linarith) (by linarith) (by linarith) e1 (e2.symm.trans e1)
    unfold strictlyInsideCircumcircle
    rw [e1]
    exact not_lt.mpr this

theorem insertPoint_located_drawable {fuel : Nat} {g g' : Geometry} {p : Vector2f}
    (h : insertPoint fuel g p = .ok g') (h3 : 3 ≤ g.mPoints.length) (hl : located g p)
    (hd : ∀ t ∈ g.mTriangles, t.drawable = true) :
    g'.mTriangles.length = g.mTriangles.length + 2 ∧ ∀ t ∈ g'.mTriangles, t.drawable = true := by
  obtain ⟨i, inside, _, _, _, hlen, hmem⟩ := insertPoint_located h h3 hl
  refine ⟨hlen, fun t ht => ?_⟩
  rcases hmem t ht with h1 | h1
  · exact hd t (List.mem_of_mem_eraseIdx h1)
  · exact h1

theorem pointAt_append (pts extra : List Vector2f) (i : Nat) (h : i < pts.length) :
    pointAt (pts ++ extra) i = pointAt pts i := by
  unfold pointAt
  rw [List.getD_eq_getElem?_getD, List.getD_eq_getElem?_getD, List.getElem?_append_left h]

/-- For a triangle whose vertex indices are in range, the barycentric test does not depend on
what is appended to the point store. -/
theorem checkBarycentricCoordinates_append (pts extra : List Vector2f) (t : Triangle)
    (q : Vector2f) (tolerance : ℚ) (h0 : t.v0 < pts.length) (h1 : t.v1 < pts.length)
    (h2 : t.v2 < pts.length) :
    checkBarycentricCoordinates (pts ++ extra) t q tolerance =
      checkBarycentricCoordinates pts t q tolerance := by
  unfold checkBarycentricCoordinates
  rw [pointAt_append pts extra _ h0, pointAt_append pts extra _ h1, pointAt_append pts extra _ h2]

/-- The locator's loop finds nothing when no triangle passes the barycentric test. -/
theorem pointSearchLoop_eq_none (pts : List Vector2f) (point : Vector2f) :
    ∀ (tris : List Triangle) (i : Nat),
      (∀ t ∈ tris, checkBarycentricCoordinates pts t point defaultTolerance = none) →
      pointSearchLoop pts point i tris = none := by
  intro tris
  induction tris with
  | nil => intro i _; rfl
  | cons t rest ih =>
    intro i h
    simp only [pointSearchLoop]
    rw [h t (List.mem_cons_self _ _)]
    simp only [Option.isSome_none]
    exact ih (i + 1) (fun t' ht' => h t' (List.mem_cons_of_mem _ ht'))

/-! ## The predicates, the two searches and the geometry of a flip -/

/-- The barycentric test in closed form: the weights of `b` and `c` are ratios of signed
areas. -/
theorem checkBarycentricCoordinates_eq (pts : List Vector2f) (t : Triangle) (q : Vector2f)
    (tol : ℚ) :
    checkBarycentricCoordinates pts t q tol =
      if orient (pointAt pts t.v0) (pointAt pts t.v1) (pointAt pts t.v2) = 0 then none
      else
        if min (orient (pointAt pts t.v2) (pointAt pts t.v0) q /
                  orient (pointAt pts t.v0) (pointAt pts t.v1) (pointAt pts t.v2))
               (orient (pointAt pts t.v0) (pointAt pts t.v1) q /
                  orient (pointAt pts t.v0) (pointAt pts t.v1) (pointAt pts t.v2)) ≥ -tol ∧
           max (orient (pointAt pts t.v2) (pointAt pts t.v0) q /
                  orient (pointAt pts t.v0) (pointAt pts t.v1) (pointAt pts t.v2))
               (orient (pointAt pts t.v0) (pointAt pts t.v1) q /
                  orient (pointAt pts t.v0) (pointAt pts t.v1) (pointAt pts t.v2)) ≤ 1 + tol ∧
           orient (pointAt pts t.v2) (pointAt pts t.v0) q /
                  orient (pointAt pts t.v0) (pointAt pts t.v1) (pointAt pts t.v2) +
             orient (pointAt pts t.v0) (pointAt pts t.v1) q /
                  orient (pointAt pts t.v0) (pointAt pts t.v1) (pointAt pts t.v2) ≤ 1 + tol then
          some (1 - orient (pointAt pts t.v2) (pointAt pts t.v0) q /
                      orient (pointAt pts t.v0) (pointAt pts t.v1) (pointAt pts t.v2) -
                    orient (pointAt pts t.v0) (pointAt pts t.v1) q /
                      orient (pointAt pts t.v0) (pointAt pts t.v1) (pointAt pts t.v2),
                orient (pointAt pts t.v2) (pointAt pts t.v0) q /
                  orient (pointAt pts t.v0) (pointAt pts t.v1) (pointAt pts t.v2),
                orient (pointAt pts t.v0) (pointAt pts t.v1) q /
                  orient (pointAt pts t.v0) (pointAt pts t.v1) (pointAt pts t.v2))
        else none := by
  unfold checkBarycentricCoordinates
  simp only
  generalize pointAt pts t.v0 = a
  generalize pointAt pts t.v1 = b
  generalize pointAt pts t.v2 = c
  have hden : dot ⟨b.x - a.x, b.y - a.y⟩ ⟨b.x - a.x, b.y - a.y⟩ *
        dot ⟨c.x - a.x, c.y - a.y⟩ ⟨c.x - a.x, c.y - a.y⟩ -
      dot ⟨b.x - a.x, b.y - a.y⟩ ⟨c.x - a.x, c.y - a.y⟩ *
        dot ⟨b.x - a.x, b.y - a.y⟩ ⟨c.x - a.x, c.y - a.y⟩ = orient a b c * orient a b c := by
    simp only [dot, orient]; ring
  rw [hden]
  by_cases h0 : orient a b c = 0
  · simp [h0]
  · have hsq : orient a b c * orient a b c ≠ 0 := mul_ne_zero h0 h0
    have hv : (dot ⟨c.x - a.x, c.y - a.y⟩ ⟨c.x - a.x, c.y - a.y⟩ *
          dot ⟨q.x - a.x, q.y - a.y⟩ ⟨b.x - a.x, b.y - a.y⟩ -
        dot ⟨b.x - a.x, b.y - a.y⟩ ⟨c.x - a.x, c.y - a.y⟩ *
          dot ⟨q.x - a.x, q.y - a.y⟩ ⟨c.x - a.x, c.y - a.y⟩) *
        (1 / (orient a b c * orient a b c)) = orient c a q / orient a b c := by
      rw [mul_one_div, div_eq_div_iff hsq h0]
      simp only [dot, orient]; ring
    have hw : (dot ⟨b.x - a.x, b.y - a.y⟩ ⟨b.x - a.x, b.y - a.y⟩ *
          dot ⟨q.x - a.x, q.y - a.y⟩ ⟨c.x - a.x, c.y - a.y⟩ -
        dot ⟨b.x - a.x, b.y - a.y⟩ ⟨c.x - a.x, c.y - a.y⟩ *
          dot ⟨q.x - a.x, q.y - a.y⟩ ⟨b.x - a.x, b.y - a.y⟩) *
        (1 / (orient a b c * orient a b c)) = orient a b q / orient a b c := by
      rw [mul_one_div, div_eq_div_iff hsq h0]
      simp only [dot, orient]; ring
    rw [hv, hw]
    simp only [hsq, h0, if_false]

theorem orient_affine (a b p q r : Vector2f) (u v w : ℚ) (hsum : u + v + w = 1)
    (x : Vector2f) (hx : x.x = u * p.x + v * q.x + w * r.x)
    (hy : x.y = u * p.y + v * q.y + w * r.y) :
    orient a b x = u * orient a b p + v * orient a b q + w * orient a b r := by
  have hu : u = 1 - v - w := by linarith
  simp only [orient, hx, hy, hu]; ring

theorem checkBarycentricCoordinates_collinear (pts : List Vector2f) (t : Triangle)
    (q : Vector2f) (tol : ℚ)
    (h : collinear (pointAt pts t.v0) (pointAt pts t.v1) (pointAt pts t.v2)) :
    checkBarycentricCoordinates pts t q tol = none := by
  rw [checkBarycentricCoordinates_eq]
  have h0 : orient (pointAt pts t.v0) (pointAt pts t.v1) (pointAt pts t.v2) = 0 := h
  simp only [h0, if_true]

/-- The locator's loop returns the first index, counted from `i`, whose triangle passes the
barycentric test. -/
theorem pointSearchLoop_spec (pts : List Vector2f) (point : Vector2f) :
    ∀ (tris : List Triangle) (i : Nat),
      (∀ k, pointSearchLoop pts point i tris = some k ↔
        ∃ j, k = i + j ∧
          (∃ t, tris[j]? = some t ∧
            (checkBarycentricCoordinates pts t point defaultTolerance).isSome = true) ∧
          ∀ j', j' < j → ∀ t', tris[j']? = some t' →
            (checkBarycentricCoordinates pts t' point defaultTolerance).isSome = false) ∧
      (pointSearchLoop pts point i tris = none ↔
        ∀ t ∈ tris, (checkBarycentricCoordinates pts t point defaultTolerance).isSome = false) := by
  intro tris
  induction tris with
  | nil =>
    intro i
    simp [pointSearchLoop]
  | cons t rest ih =>
    intro i
    obtain ⟨ih1, ih2⟩ := ih (i + 1)
    by_cases hp : (checkBarycentricCoordinates pts t point defaultTolerance).isSome = true
    · constructor
      · intro k
        simp only [pointSearchLoop, hp, if_true]
        constructor
        · intro hk
          cases hk
          refine ⟨0, rfl, ⟨t, List.getElem?_cons_zero, hp⟩, ?_⟩
          intro j' hj'
          omega
        · rintro ⟨j, rfl, ⟨t', ht', _⟩, hfirst⟩
          cases j with
          | zero => rfl
          | succ j =>
            have := hfirst 0 (by omega) t List.getElem?_cons_zero
            rw [hp] at this
            cases this
      · simp only [pointSearchLoop, hp, if_true]
        constructor
        · intro h; cases h
        · intro h
          have := h t (List.mem_cons_self _ _)
          rw [hp] at this
          cases this
    · have hp' : (checkBarycentricCoordinates pts t point defaultTolerance).isSome = false := by
        simpa using hp
      constructor
      · intro k
        simp only [pointSearchLoop, hp', Bool.false_eq_true, if_false]
        rw [ih1 k]
        constructor
        · rintro ⟨j, rfl, ⟨t', ht', hpass⟩, hfirst⟩
          refine ⟨j + 1, by omega, ⟨t', by simpa using ht', hpass⟩, ?_⟩
          intro j' hj' t'' ht''
          cases j' with
          | zero =>
            simp only [List.getElem?_cons_zero, Option.some.injEq] at ht''
            subst ht''
            exact hp'
          | succ j' =>
            exact hfirst j' (by omega) t'' (by simpa using ht'')
        · rintro ⟨j, rfl, ⟨t', ht', hpass⟩, hfirst⟩
          cases j with
          | zero =>
            simp only [List.getElem?_cons_zero, Option.some.injEq] at ht'
            subst ht'
            rw [hp'] at hpass
            cases hpass
          | succ j =>
            refine ⟨j, by omega, ⟨t', by simpa using ht', hpass⟩, ?_⟩
            intro j' hj' t'' ht''
            exact hfirst (j' + 1) (by omega) t'' (by simpa using ht'')
      · simp only [pointSearchLoop, hp', Bool.false_eq_true, if_false]
        rw [ih2]
        constructor
        · intro h t' ht'
          rcases List.mem_cons.mp ht' with rfl | h'
          · exact hp'
          · exact h t' h'
        · intro h t' ht'
          exact h t' (List.mem_cons_of_mem _ ht')

theorem localPosition_vertexIndex {tri : Triangle} {v k : Nat}
    (h : localPosition tri v = some k) : tri.vertexIndex k = some v ∧ k < 3 := by
  unfold localPosition at h
  split at h
  · cases h; rename_i h0; exact ⟨by simp [Triangle.vertexIndex, h0], by omega⟩
  · split at h
    · cases h; rename_i h0; exact ⟨by simp [Triangle.vertexIndex, h0], by omega⟩
    · split at h
      · cases h; rename_i h0; exact ⟨by simp [Triangle.vertexIndex, h0], by omega⟩
      · cases h

theorem localPosition_of_hasVertex {tri : Triangle} {v : Nat} (h : tri.hasVertex v) :
    ∃ k, localPosition tri v = some k := by
  unfold localPosition
  by_cases h0 : tri.v0 = v
  · exact ⟨0, by simp [h0]⟩
  · by_cases h1 : tri.v1 = v
    · exact ⟨1, by simp [h0, h1]⟩
    · by_cases h2 : tri.v2 = v
      · exact ⟨2, by simp [h0, h1, h2]⟩
      · rcases h with h | h | h <;> contradiction

theorem owners_nil (edge : Edge) : owners [] edge = 0 := rfl

theorem owners_cons (t : Triangle) (rest : List Triangle) (edge : Edge) :
    owners (t :: rest) edge = (if ownsEdge t edge then 1 else 0) + owners rest edge := by
  unfold owners
  by_cases h : ownsEdge t edge
  · have hb : (decide (t.v0 = edge.1 ∨ t.v1 = edge.1 ∨ t.v2 = edge.1) &&
        decide (t.v0 = edge.2 ∨ t.v1 = edge.2 ∨ t.v2 = edge.2)) = true := by
      simpa [ownsEdge, Triangle.hasVertex] using h
    simp only [List.filter_cons, hb, if_true, List.length_cons, h]
    omega
  · have hb : (decide (t.v0 = edge.1 ∨ t.v1 = edge.1 ∨ t.v2 = edge.1) &&
        decide (t.v0 = edge.2 ∨ t.v1 = edge.2 ∨ t.v2 = edge.2)) = false := by
      rw [Bool.eq_false_iff]
      intro hc
      exact h (by simpa [ownsEdge, Triangle.hasVertex] using hc)
    simp only [List.filter_cons, hb, Bool.false_eq_true, if_false, h]
    omega

theorem edgeSearchStep_of_owns {edge : Edge} {i : Nat} {tri : Triangle}
    (h : ownsEdge tri edge) :
    ∃ k1 k2, localPosition tri edge.1 = some k1 ∧ localPosition tri edge.2 = some k2 ∧
      edgeSearchStep edge i tri = .ok (some ⟨i, k1, k2⟩) := by
  obtain ⟨k1, h1⟩ := localPosition_of_hasVertex h.1
  obtain ⟨k2, h2⟩ := localPosition_of_hasVertex h.2
  refine ⟨k1, k2, h1, h2, ?_⟩
  have hb : (decide (tri.v0 = edge.1 ∨ tri.v1 = edge.1 ∨ tri.v2 = edge.1) &&
      decide (tri.v0 = edge.2 ∨ tri.v1 = edge.2 ∨ tri.v2 = edge.2)) = true := by
    simpa [ownsEdge, Triangle.hasVertex] using h
  unfold edgeSearchStep
  simp only [hb, if_true, h1, h2]

theorem edgeSearchStep_of_not_owns {edge : Edge} {i : Nat} {tri : Triangle}
    (h : ¬ ownsEdge tri edge) : edgeSearchStep edge i tri = .ok none := by
  have hb : (decide (tri.v0 = edge.1 ∨ tri.v1 = edge.1 ∨ tri.v2 = edge.1) &&
      decide (tri.v0 = edge.2 ∨ tri.v1 = edge.2 ∨ tri.v2 = edge.2)) = false := by
    rw [Bool.eq_false_iff]
    intro hc
    exact h (by simpa [ownsEdge, Triangle.hasVertex] using hc)
  unfold edgeSearchStep
  simp only [hb, Bool.false_eq_true, if_false]

/-- The loop of `findTriangleWithEdge` never fails; it lists one entry for each owner of the
edge, with the local positions of the two endpoints. -/
theorem edgeSearchLoop_spec (edge : Edge) :
    ∀ (tris : List Triangle) (i : Nat),
      ∃ rs, edgeSearchLoop edge i tris = .ok rs ∧ rs.length = owners tris edge ∧
        (∀ r ∈ rs, ∃ j t, r.triangleIndex = i + j ∧ tris[j]? = some t ∧ ownsEdge t edge ∧
          localPosition t edge.1 = some r.vertexIndex1 ∧
          localPosition t edge.2 = some r.vertexIndex2) ∧
        (∀ j t, tris[j]? = some t → ownsEdge t edge → ∃ r ∈ rs, r.triangleIndex = i + j) := by
  intro tris
  induction tris with
  | nil =>
    intro i
    exact ⟨[], rfl, rfl, by simp, by simp⟩
  | cons tri rest ih =>
    intro i
    obtain ⟨rs, hrs, hlen, hsound, hcomplete⟩ := ih (i + 1)
    by_cases h : ownsEdge tri edge
    · obtain ⟨k1, k2, h1, h2, hstep⟩ := edgeSearchStep_of_owns (i := i) h
      refine ⟨⟨i, k1, k2⟩ :: rs, ?_, ?_, ?_, ?_⟩
      · simp only [edgeSearchLoop, hstep, hrs]
      · rw [owners_cons]; simp only [h, if_true, List.length_cons, hlen]; omega
      · intro r hr
        rcases List.mem_cons.mp hr with rfl | hr
        · exact ⟨0, tri, rfl, List.getElem?_cons_zero, h, h1, h2⟩
        · obtain ⟨j, t, hj, ht, hrest⟩ := hsound r hr
          exact ⟨j + 1, t, by omega, by simpa using ht, hrest⟩
      · intro j t ht ho
        cases j with
        | zero => exact ⟨⟨i, k1, k2⟩, List.mem_cons_self _ _, rfl⟩
        | succ j =>
          obtain ⟨r, hr, hri⟩ := hcomplete j t (by simpa using ht) ho
          exact ⟨r, List.mem_cons_of_mem _ hr, by omega⟩
    · have hstep := edgeSearchStep_of_not_owns (i := i) h
      refine ⟨rs, ?_, ?_, ?_, ?_⟩
      · simp only [edgeSearchLoop, hstep, hrs]
      · rw [owners_cons]; simp only [h, if_false, hlen]; omega
      · intro r hr
        obtain ⟨j, t, hj, ht, hrest⟩ := hsound r hr
        exact ⟨j + 1, t, by omega, by simpa using ht, hrest⟩
      · intro j t ht ho
        cases j with
        | zero =>
          simp only [List.getElem?_cons_zero, Option.some.injEq] at ht
          subst ht
          exact absurd ho h
        | succ j =>
          obtain ⟨r, hr, hri⟩ := hcomplete j t (by simpa using ht) ho
          exact ⟨r, hr, by omega⟩

theorem thirdLocal_eq {k1 k2 : Nat} (h1 : k1 < 3) (h2 : k2 < 3) (hne : k1 ≠ k2) :
    thirdLocal k1 k2 = 3 - k1 - k2 := by
  interval_cases k1 <;> interval_cases k2 <;> first | (exact absurd rfl hne) | (norm_num [thirdLocal])

theorem vertexIndex_lt {t : Triangle} {k v : Nat} (h : t.vertexIndex k = some v) : k < 3 := by
  match k, h with
  | 0, _ => omega
  | 1, _ => omega
  | 2, _ => omega

theorem hasVertex_of_vertexIndex {t : Triangle} {k v : Nat} (h : t.vertexIndex k = some v) :
    t.hasVertex v := by
  match k, h with
  | 0, h => simp only [Triangle.vertexIndex, Option.some.injEq] at h; exact Or.inl h
  | 1, h => simp only [Triangle.vertexIndex, Option.some.injEq] at h; exact Or.inr (Or.inl h)
  | 2, h => simp only [Triangle.vertexIndex, Option.some.injEq] at h; exact Or.inr (Or.inr h)

/-- The entries of a returned edge search: one per owner, carrying the local positions. -/
theorem findTriangleWithEdge_entries {tris : List Triangle} {edge : Edge}
    {rs : List EdgeSearchResult} (h : findTriangleWithEdge tris edge = .ok rs) :
    rs.length = owners tris edge ∧
    (∀ r ∈ rs, ∃ t, tris[r.triangleIndex]? = some t ∧ ownsEdge t edge ∧
      localPosition t edge.1 = some r.vertexIndex1 ∧
      localPosition t edge.2 = some r.vertexIndex2) ∧
    (∀ j t, tris[j]? = some t → ownsEdge t edge → ∃ r ∈ rs, r.triangleIndex = j) := by
  obtain ⟨rs0, hrs, hlen, hsound, hcomplete⟩ := edgeSearchLoop_spec edge tris 0
  have hrs' : rs = rs0 := by
    unfold findTriangleWithEdge at h
    rw [hrs] at h
    simp only at h
    split at h
    · cases h; rfl
    · cases h
  subst hrs'
  refine ⟨hlen, ?_, ?_⟩
  · intro r hr
    obtain ⟨j, t, hj, ht, ho, h1, h2⟩ := hsound r hr
    have : r.triangleIndex = j := by omega
    rw [this]
    exact ⟨t, ht, ho, h1, h2⟩
  · intro j t ht ho
    obtain ⟨r, hr, hri⟩ := hcomplete j t ht ho
    exact ⟨r, hr, by omega⟩

theorem findTriangleWithEdge_ok_of_owners {tris : List Triangle} {edge : Edge}
    (h : owners tris edge = 1 ∨ owners tris edge = 2) :
    ∃ rs, findTriangleWithEdge tris edge = .ok rs := by
  obtain ⟨rs0, hrs, hlen, _, _⟩ := edgeSearchLoop_spec edge tris 0
  refine ⟨rs0, ?_⟩
  unfold findTriangleWithEdge
  rw [hrs]
  have hc : rs0.length ≤ 2 ∧ rs0 ≠ [] := by
    refine ⟨by omega, fun h0 => ?_⟩
    rw [h0] at hlen
    simp at hlen
    omega
  simp only
  rw [if_pos hc]

theorem findTriangleWithEdge_error_of_owners {tris : List Triangle} {edge : Edge}
    (h : owners tris edge = 0 ∨ 2 < owners tris edge) :
    findTriangleWithEdge tris edge = .error .assertion := by
  obtain ⟨rs0, hrs, hlen, _, _⟩ := edgeSearchLoop_spec edge tris 0
  unfold findTriangleWithEdge
  rw [hrs]
  have hc : ¬ (rs0.length ≤ 2 ∧ rs0 ≠ []) := by
    rintro ⟨h2, hne⟩
    rcases h with h | h
    · rw [h] at hlen
      exact hne (List.length_eq_zero.mp hlen)
    · omega
  simp only
  rw [if_neg hc]

theorem eraseTwo_eq (tris : List Triangle) (t n : Nat) :
    eraseTwo tris t n = (tris.eraseIdx (max t n)).eraseIdx (min t n) := by
  unfold eraseTwo
  split
  · rename_i h
    rw [max_eq_left (by omega), min_eq_right (by omega)]
  · rename_i h
    rw [max_eq_right (by omega), min_eq_left (by omega)]

theorem insertOnePoint_of_lt {fuel : Nat} {g : Geometry} {p : Vector2f}
    (h : g.mPoints.length + 1 < 3) :
    insertOnePoint fuel g p = .ok { mPoints := g.mPoints ++ [p], mTriangles := g.mTriangles } := by
  unfold insertOnePoint insertPointIntoTriangle
  have hlen : (g.mPoints ++ [p]).length = g.mPoints.length + 1 := by simp
  simp only [hlen, h, if_true]

theorem insertOnePoint_of_eq {fuel : Nat} {g : Geometry} {p : Vector2f}
    (h : g.mPoints.length + 1 = 3) :
    insertOnePoint fuel g p =
      .ok { mPoints := g.mPoints ++ [p], mTriangles := g.mTriangles ++ [Triangle.mk3 0 1 2] } := by
  unfold insertOnePoint insertPointIntoTriangle
  have hlen : (g.mPoints ++ [p]).length = g.mPoints.length + 1 := by simp
  simp only [hlen, h, Nat.lt_irrefl, if_false, if_true]

theorem insertOnePoint_not_located {fuel : Nat} {g : Geometry} {p : Vector2f}
    (h3 : 3 ≤ g.mPoints.length) (hl : ¬ located g p) :
    insertOnePoint fuel g p = .ok { mPoints := g.mPoints ++ [p], mTriangles := g.mTriangles } := by
  have hfind : findTriangleWithPoint { g with mPoints := g.mPoints ++ [p] } p = none := by
    unfold located at hl
    cases hf : findTriangleWithPoint { g with mPoints := g.mPoints ++ [p] } p with
    | none => rfl
    | some i => rw [hf] at hl; simp at hl
  unfold insertOnePoint insertPointIntoTriangle
  have hlen : (g.mPoints ++ [p]).length = g.mPoints.length + 1 := by simp
  have e1 : ¬ (g.mPoints.length + 1 < 3) := by omega
  have e2 : ¬ (g.mPoints.length + 1 = 3) := by omega
  simp only [hlen, e1, e2, if_false, hfind]

/-- The count invariant that holds all along a rebuild: no triangle while fewer than three
points are stored, afterwards an odd number of triangles, at most `2 * points - 5`. -/
theorem insertOnePoint_count {fuel : Nat} {g g' : Geometry} {p : Vector2f}
    (h : insertOnePoint fuel g p = .ok g')
    (hinv : (g.mPoints.length < 3 ∧ g.mTriangles = []) ∨
      (3 ≤ g.mPoints.length ∧ g.mTriangles.length % 2 = 1 ∧
        g.mTriangles.length + 5 ≤ 2 * g.mPoints.length)) :
    (g'.mPoints.length < 3 ∧ g'.mTriangles = []) ∨
      (3 ≤ g'.mPoints.length ∧ g'.mTriangles.length % 2 = 1 ∧
        g'.mTriangles.length + 5 ≤ 2 * g'.mPoints.length) := by
  have hp : g'.mPoints.length = g.mPoints.length + 1 := by
    rw [insertOnePoint_mPoints h]; simp
  rcases hinv with ⟨hlt, hnil⟩ | ⟨h3, hodd, hle⟩
  · by_cases h2 : g.mPoints.length + 1 < 3
    · rw [insertOnePoint_of_lt h2] at h
      cases h
      exact Or.inl ⟨by simpa using h2, hnil⟩
    · have he : g.mPoints.length + 1 = 3 := by omega
      rw [insertOnePoint_of_eq he] at h
      cases h
      right
      refine ⟨by simp; omega, by simp [hnil], by simp [hnil]; omega⟩
  · right
    by_cases hl : located g p
    · obtain ⟨_, _, _, _, _, hlen, _⟩ := @insertPoint_located fuel g g' p h h3 hl
      refine ⟨by omega, by omega, by omega⟩
    · rw [insertOnePoint_not_located h3 hl] at h
      cases h
      simp only [List.length_append, List.length_singleton]
      refine ⟨by omega, hodd, by omega⟩

theorem insertAll_count {fuel : Nat} :
    ∀ (pts : List Vector2f) (g g' : Geometry), insertAll fuel g pts = .ok g' →
      ((g.mPoints.length < 3 ∧ g.mTriangles = []) ∨
        (3 ≤ g.mPoints.length ∧ g.mTriangles.length % 2 = 1 ∧
          g.mTriangles.length + 5 ≤ 2 * g.mPoints.length)) →
      ((g'.mPoints.length < 3 ∧ g'.mTriangles = []) ∨
        (3 ≤ g'.mPoints.length ∧ g'.mTriangles.length % 2 = 1 ∧
          g'.mTriangles.length + 5 ≤ 2 * g'.mPoints.length)) := by
  intro pts
  induction pts with
  | nil =>
    intro g g' h hinv
    simp only [insertAll] at h
    cases h
    exact hinv
  | cons pt rest ih =>
    intro g g' h hinv
    simp only [insertAll] at h
    split at h
    · cases h
    · rename_i g1 h1
      exact ih g1 g' h (insertOnePoint_count h1 hinv)

/-- Every vertex index of a triangle in the mesh after a `flip` is a vertex index of some
triangle in the mesh before it. -/
theorem flip_vertices {g g' : Geometry} {triangleIndex vert1 vert2 : Nat} {es : List Edge}
    (h : flip g triangleIndex vert1 vert2 = .ok (g', es)) :
    ∀ t ∈ g'.mTriangles, ∀ v, t.hasVertex v → ∃ t0 ∈ g.mTriangles, t0.hasVertex v := by
  unfold flip at h
  split at h
  · cases h
  · rename_i triangle htri
    have hmemT : triangle ∈ g.mTriangles := List.getElem?_mem htri
    split at h
    · rename_i vertexIndex1 vertexIndex2 aIndex hv1 hv2 hva
      have m1 := hasVertex_of_vertexIndex hv1
      have m2 := hasVertex_of_vertexIndex hv2
      have ma := hasVertex_of_vertexIndex hva
      split at h
      · cases h
      · rename_i incidents hinc
        split at h
        · split at h
          · split at h
            · cases h; exact fun t ht v hv => ⟨t, ht, hv⟩
            · cases h
          · cases h
        · split at h
          · cases h
          · rename_i w hw
            split at h
            · cases h
            · rename_i inc hincw
              simp only at h
              split at h
              · cases h
              · rename_i neighbour hnb
                have hmemN : neighbour ∈ g.mTriangles := List.getElem?_mem hnb
                split at h
                · cases h
                · rename_i dIndex hdv
                  have md := hasVertex_of_vertexIndex hdv
                  split at h
                  · split at h
                    · cases h; exact fun t ht v hv => ⟨t, ht, hv⟩
                    · cases h
                      intro t ht v hv
                      simp only [List.append_assoc, List.mem_append, List.mem_singleton,
                        List.mem_cons, List.not_mem_nil, or_false] at ht
                      rcases ht with ht | rfl | rfl
                      · exact ⟨t, mem_of_mem_eraseTwo ht, hv⟩
                      · rcases hv with hv | hv | hv
                        · exact ⟨triangle, hmemT, by rw [← hv]; exact ma⟩
                        · exact ⟨triangle, hmemT, by rw [← hv]; exact m1⟩
                        · exact ⟨neighbour, hmemN, by rw [← hv]; exact md⟩
                      · rcases hv with hv | hv | hv
                        · exact ⟨triangle, hmemT, by rw [← hv]; exact ma⟩
                        · exact ⟨neighbour, hmemN, by rw [← hv]; exact md⟩
                        · exact ⟨triangle, hmemT, by rw [← hv]; exact m2⟩
                  · cases h
    · cases h

theorem flip_valid {g g' : Geometry} {ti k1 k2 : Nat} {es : List Edge}
    (h : flip g ti k1 k2 = .ok (g', es)) (hv : ValidIndices g) : ValidIndices g' := by
  intro t ht v hvt
  obtain ⟨t0, ht0, hv0⟩ := flip_vertices h t ht v hvt
  rw [flip_mPoints h]
  exact hv t0 ht0 v hv0

theorem insertOnePoint_valid {fuel : Nat} {g g' : Geometry} {p : Vector2f}
    (h : insertOnePoint fuel g p = .ok g') (hv : ValidIndices g) : ValidIndices g' := by
  have hp : g'.mPoints.length = g.mPoints.length + 1 := by
    rw [insertOnePoint_mPoints h]; simp
  unfold insertOnePoint at h
  simp only at h
  have hlen : (g.mPoints ++ [p]).length = g.mPoints.length + 1 := by simp
  -- validity of the state handed to `queueFlip`, or returned at once
  have hsplit : ∀ g2 r,
      insertPointIntoTriangle { g with mPoints := g.mPoints ++ [p] } p = .ok (g2, r) →
      ValidIndices g2 := by
    intro g2 r hins
    rcases insertPointIntoTriangle_cases hins with
      ⟨rfl, _, _⟩ | ⟨rfl, _, h3⟩ | ⟨i, inside, _, _, hin, rfl, _⟩
    · intro t ht v hvt
      have := hv t ht v hvt
      simp only [hlen]; omega
    · intro t ht v hvt
      simp only [hlen] at h3 ⊢
      simp only [List.mem_append, List.mem_singleton] at ht
      rcases ht with ht | rfl
      · have := hv t ht v hvt; omega
      · rcases hvt with e | e | e <;> simp only [Triangle.mk3] at e <;> omega
    · intro t ht v hvt
      have hin' : inside ∈ g.mTriangles := List.getElem?_mem hin
      have hi0 := hv inside hin' inside.v0 (Or.inl rfl)
      have hi1 := hv inside hin' inside.v1 (Or.inr (Or.inl rfl))
      have hi2 := hv inside hin' inside.v2 (Or.inr (Or.inr rfl))
      simp only [hlen, Nat.add_sub_cancel]
      simp only [List.mem_append, splitTriangles, hlen, Nat.add_sub_cancel, List.mem_cons,
        List.not_mem_nil, or_false] at ht
      rcases ht with ht | rfl | rfl | rfl
      · have := hv t (List.mem_of_mem_eraseIdx ht) v hvt; omega
      · rcases hvt with e | e | e <;> simp only [Triangle.mk3] at e <;> omega
      · rcases hvt with e | e | e <;> simp only [Triangle.mk3] at e <;> omega
      · rcases hvt with e | e | e <;> simp only [Triangle.mk3] at e <;> omega
  split at h
  · cases h
  · rename_i g2 hins
    cases h
    exact hsplit _ _ hins
  · rename_i g2 newTriangles hins
    have h2 := hsplit _ _ hins
    unfold queueFlip at h
    split at h
    · exact queueFlipLoop_preserves ValidIndices
        (fun s ti k1 k2 s' es hs hf => flip_valid hf hs) fuel g2 newTriangles g' h2 h
    · cases h

theorem insertAll_valid {fuel : Nat} :
    ∀ (pts : List Vector2f) (g g' : Geometry), insertAll fuel g pts = .ok g' →
      ValidIndices g → ValidIndices g' := by
  intro pts
  induction pts with
  | nil =>
    intro g g' h hv
    simp only [insertAll] at h
    cases h
    exact hv
  | cons pt rest ih =>
    intro g g' h hv
    simp only [insertAll] at h
    split at h
    · cases h
    · rename_i g1 h1
      exact ih g1 g' h (insertOnePoint_valid h1 hv)

/-- The squared distance to a fixed point of an affine combination of three points. -/
theorem distance_combination (p q r x o : Vector2f) (u v w : ℚ) (hsum : u + v + w = 1)
    (hx : x.x = u * p.x + v * q.x + w * r.x) (hy : x.y = u * p.y + v * q.y + w * r.y) :
    distance x o = u * distance p o + v * distance q o + w * distance r o -
      (u * v * distance p q + u * w * distance p r + v * w * distance q r) := by
  have hu : u = 1 - v - w := by linarith
  simp only [distance, hx, hy, hu]
  ring

/-- The barycentric identity: `orient a b c` times a point is the combination of the three
vertices weighted by the signed areas opposite to them. -/
theorem orient_barycentric (a b c p : Vector2f) :
    orient a b c * p.x = orient b c p * a.x + orient c a p * b.x + orient a b p * c.x ∧
    orient a b c * p.y = orient b c p * a.y + orient c a p * b.y + orient a b p * c.y := by
  constructor <;> (simp only [orient]; ring)

/-- A point of the open disc cannot lie in the cone opposite to the inscribed angle at `b`:
if `a`, `b`, `c` are on a circle of centre `o` and `d` is strictly inside it, strictly beyond
the line `b c` as seen from `a`, then `d` is strictly on the same side of the line `a b`
as `c`. -/
theorem same_side_of_inside (a b c d o : Vector2f)
    (hb : distance a o = distance b o) (hc : distance a o = distance c o)
    (hd : distance d o < distance a o)
    (hopp : orient a b c * orient b c d < 0) :
    0 < orient a b c * orient a b d := by
  by_contra hcon
  have hcon' : orient a b c * orient a b d ≤ 0 := not_lt.mp hcon
  have hsum := orient_sum a b c d
  obtain ⟨bx, by'⟩ := orient_barycentric a b c d
  set A := orient a b c with hA
  set al := orient b c d with hal
  set be := orient c a d with hbe
  set ga := orient a b d with hga
  have hA0 : A ≠ 0 := by
    intro h0; rw [h0] at hopp; simp at hopp
  have hAbe : 0 < A * be := by
    have : A * be = A * A - A * al - A * ga := by rw [← hsum]; ring
    have hAA : 0 < A * A := mul_self_pos.mpr hA0
    linarith
  have hbe0 : be ≠ 0 := by
    intro h0; rw [h0] at hAbe; simp at hAbe
  have hbb : 0 < be * be := mul_self_pos.mpr hbe0
  -- the vertex `b` as a combination of `d`, `a`, `c`
  have hu : 0 < A / be := by
    have : A / be = (A * be) / (be * be) := by field_simp; ring
    rw [this]; exact div_pos hAbe hbb
  have hv : 0 ≤ -al / be := by
    have : -al / be = (-(A * al) * (A * be)) / ((A * A) * (be * be)) := by field_simp; ring
    rw [this]
    exact div_nonneg (mul_nonneg (by linarith) hAbe.le)
      (mul_nonneg (mul_self_nonneg _) hbb.le)
  have hw : 0 ≤ -ga / be := by
    have : -ga / be = (-(A * ga) * (A * be)) / ((A * A) * (be * be)) := by field_simp; ring
    rw [this]
    exact div_nonneg (mul_nonneg (by linarith) hAbe.le)
      (mul_nonneg (mul_self_nonneg _) hbb.le)
  have hs : A / be + -al / be + -ga / be = 1 := by
    field_simp; linarith
  have hbx : b.x = A / be * d.x + -al / be * a.x + -ga / be * c.x := by
    field_simp; linarith
  have hby : b.y = A / be * d.y + -al / be * a.y + -ga / be * c.y := by
    field_simp; linarith
  have key := distance_combination d a c b o (A / be) (-al / be) (-ga / be) hs hbx hby
  have j1 := mul_nonneg (mul_nonneg hu.le hv) (distance_nonneg d a)
  have j2 := mul_nonneg (mul_nonneg hu.le hw) (distance_nonneg d c)
  have j3 := mul_nonneg (mul_nonneg hv hw) (distance_nonneg a c)
  have hlt : A / be * distance d o < A / be * distance a o := mul_lt_mul_of_pos_left hd hu
  have e : distance b o = (A / be + -al / be + -ga / be) * distance a o := by
    rw [hs, one_mul, hb]
  rw [← hc] at key
  nlinarith [key, j1, j2, j3, hlt, e]

/-- Exchanging the third point of a circle with a fourth point: the two powers are related
through the two signed areas. -/
theorem power_exchange (a b c d : Vector2f) (h1 : ¬ collinear a b c) (h2 : ¬ collinear a b d) :
    (distance c (circum a b d) - distance a (circum a b d)) * orient a b d =
      -((distance d (circum a b c) - distance a (circum a b c)) * orient a b c) := by
  have hx := circum_x_mul a b c h1
  have hy := circum_y_mul a b c h1
  have hx' := circum_x_mul a b d h2
  have hy' := circum_y_mul a b d h2
  generalize circum a b c = o at hx hy ⊢
  generalize circum a b d = o' at hx' hy' ⊢
  simp only [distance]
  unfold orient at hx hy hx' hy' ⊢
  linear_combination (-(c.x - a.x)) * hx' + (-(c.y - a.y)) * hy' + (-(d.x - a.x)) * hx
    + (-(d.y - a.y)) * hy

/-- The exchange of the second point of a circle with a fourth point. -/
theorem power_exchange_second (a b c d : Vector2f) (h1 : ¬ collinear a b c)
    (h2 : ¬ collinear a d c) :
    (distance b (circum a d c) - distance a (circum a d c)) * orient a d c =
      -((distance d (circum a b c) - distance a (circum a b c)) * orient a b c) := by
  have hx := circum_x_mul a b c h1
  have hy := circum_y_mul a b c h1
  have hx' := circum_x_mul a d c h2
  have hy' := circum_y_mul a d c h2
  generalize circum a b c = o at hx hy ⊢
  generalize circum a d c = o' at hx' hy' ⊢
  simp only [distance]
  unfold orient at hx hy hx' hy' ⊢
  linear_combination (-(b.x - a.x)) * hx' + (-(b.y - a.y)) * hy' + (-(d.x - a.x)) * hx
    + (-(d.y - a.y)) * hy

theorem pos_of_power_exchange {P pd A ga : ℚ} (h : P * ga = -(pd * A)) (hpd : pd < 0)
    (hpos : 0 < A * ga) : 0 < P := by
  have hga : ga ≠ 0 := by
    intro h0; rw [h0] at hpos; simp at hpos
  have hgg : 0 < ga * ga := mul_self_pos.mpr hga
  have e : P * (ga * ga) = (-pd) * (A * ga) := by
    calc P * (ga * ga) = (P * ga) * ga := by ring
      _ = (-pd) * (A * ga) := by rw [h]; ring
  have hp : 0 < P * (ga * ga) := by rw [e]; exact mul_pos (by linarith) hpos
  exact pos_of_mul_pos_left hp hgg.le

/-- A returned index of the locator names a triangle that passes the barycentric test. -/
theorem findTriangleWithPoint_some {g : Geometry} {q : Vector2f} {i : Nat}
    (h : findTriangleWithPoint g q = some i) :
    ∃ t, g.mTriangles[i]? = some t ∧
      (checkBarycentricCoordinates g.mPoints t q defaultTolerance).isSome = true := by
  obtain ⟨j, hj, hpass, _⟩ := ((pointSearchLoop_spec g.mPoints q g.mTriangles 0).1 i).mp h
  have : i = j := by omega
  subst this
  exact hpass

/-- Every reachable point store begins with the three bounding points. -/
theorem reachable_mPoints {g : Geometry} (h : Reachable g) :
    ∃ rest, g.mPoints = boundingPoints ++ rest := by
  induction h with
  | construct => exact ⟨[], rfl⟩
  | insertPoint fuel p _ hi ih =>
    obtain ⟨rest, hr⟩ := ih
    exact ⟨rest ++ [p], by rw [insertOnePoint_mPoints hi, hr, List.append_assoc]⟩
  | triangulate fuel _ ht ih =>
    obtain ⟨rest, hr⟩ := ih
    exact ⟨rest, by rw [triangulate_mPoints ht, hr]⟩
  | reset _ _ => exact ⟨[], rfl⟩

theorem reachable_three_le {g : Geometry} (h : Reachable g) : 3 ≤ g.mPoints.length := by
  obtain ⟨rest, hr⟩ := reachable_mPoints h
  rw [hr]; simp [boundingPoints]

/-! ## Replaying the point store -/

theorem insertAll_append {fuel : Nat} :
    ∀ (pts : List Vector2f) (g g' : Geometry) (p : Vector2f),
      insertAll fuel g pts = .ok g' →
      insertAll fuel g (pts ++ [p]) = insertOnePoint fuel g' p := by
  intro pts
  induction pts with
  | nil =>
    intro g g' p h
    simp only [insertAll] at h
    cases h
    simp only [List.nil_append, insertAll]
    cases insertOnePoint fuel g p <;> rfl
  | cons pt rest ih =>
    intro g g' p h
    simp only [insertAll, List.cons_append] at h ⊢
    split at h
    · cases h
    · rename_i g1 h1
      exact ih g1 g' p h

theorem insertAll_bounding (fuel : Nat) (ps : List Vector2f) :
    insertAll fuel { mPoints := [], mTriangles := [] } (boundingPoints ++ ps) =
      insertAll fuel { mPoints := boundingPoints, mTriangles := [⟨0, 1, 2, true⟩] } ps := by
  have h1 : insertOnePoint fuel { mPoints := [], mTriangles := [] } ⟨400, -1000⟩ =
      .ok { mPoints := [⟨400, -1000⟩], mTriangles := [] } :=
    insertOnePoint_of_lt (by decide)
  have h2 : insertOnePoint fuel { mPoints := [⟨400, -1000⟩], mTriangles := [] } ⟨-400, 700⟩ =
      .ok { mPoints := [⟨400, -1000⟩, ⟨-400, 700⟩], mTriangles := [] } :=
    insertOnePoint_of_lt (by decide)
  have h3 : insertOnePoint fuel { mPoints := [⟨400, -1000⟩, ⟨-400, 700⟩], mTriangles := [] }
      ⟨1200, 700⟩ =
      .ok { mPoints := [⟨400, -1000⟩, ⟨-400, 700⟩, ⟨1200, 700⟩],
            mTriangles := [⟨0, 1, 2, true⟩] } :=
    insertOnePoint_of_eq (by decide)
  simp only [boundingPoints, List.cons_append, List.nil_append, insertAll, h1, h2, h3]
  rfl

/-- On a mesh that is the bounding triangle alone, an insertion does not look at the
`drawable` flag: either the point is not located and the triangle stays as it is, or the
triangle is split and the two runs continue from the same state. -/
theorem insertOnePoint_bounding_flag (fuel : Nat) (pts : List Vector2f) (p : Vector2f)
    (h3 : 3 ≤ pts.length) :
    (insertOnePoint fuel { mPoints := pts, mTriangles := [⟨0, 1, 2, false⟩] } p =
        .ok { mPoints := pts ++ [p], mTriangles := [⟨0, 1, 2, false⟩] } ∧
      insertOnePoint fuel { mPoints := pts, mTriangles := [⟨0, 1, 2, true⟩] } p =
        .ok { mPoints := pts ++ [p], mTriangles := [⟨0, 1, 2, true⟩] }) ∨
    (located { mPoints := pts, mTriangles := [⟨0, 1, 2, false⟩] } p ∧
      insertOnePoint fuel { mPoints := pts, mTriangles := [⟨0, 1, 2, true⟩] } p =
        insertOnePoint fuel { mPoints := pts, mTriangles := [⟨0, 1, 2, false⟩] } p) := by
  have hflag : ∀ q : List Vector2f,
      checkBarycentricCoordinates q ⟨0, 1, 2, true⟩ p defaultTolerance =
        checkBarycentricCoordinates q ⟨0, 1, 2, false⟩ p defaultTolerance := fun _ => rfl
  have hlen : (pts ++ [p]).length = pts.length + 1 := by simp
  have hl1 : ¬ pts.length + 1 < 3 := by omega
  have hl2 : ¬ pts.length + 1 = 3 := by omega
  by_cases hc : (checkBarycentricCoordinates (pts ++ [p]) ⟨0, 1, 2, false⟩ p
      defaultTolerance).isSome = true
  · right
    refine ⟨?_, ?_⟩
    · unfold located findTriangleWithPoint
      simp only [pointSearchLoop, hc, if_true, Option.isSome_some]
    · unfold insertOnePoint insertPointIntoTriangle findTriangleWithPoint
      simp only [hlen, hl1, hl2, if_false, pointSearchLoop, hflag, hc, if_true,
        List.getElem?_cons_zero, List.length_singleton]
      rfl
  · left
    have hlt : ¬ located { mPoints := pts, mTriangles := [⟨0, 1, 2, true⟩] } p := by
      unfold located findTriangleWithPoint
      simp only [pointSearchLoop, hflag, hc]
      simp
    have hlf : ¬ located { mPoints := pts, mTriangles := [⟨0, 1, 2, false⟩] } p := by
      unfold located findTriangleWithPoint
      simp only [pointSearchLoop, hc]
      simp
    exact ⟨insertOnePoint_not_located h3 hlf, insertOnePoint_not_located h3 hlt⟩


theorem insertAll_snoc {F f : Nat} {g0 r r' : Geometry} {ps : List Vector2f} {p : Vector2f}
    (h : insertAll F g0 ps = .ok r) (h' : insertOnePoint f r p = .ok r') :
    insertAll (max F f) g0 (ps ++ [p]) = .ok r' := by
  have a := insertAll_fuel_mono F (max F f - F) ps g0 r h
  rw [show F + (max F f - F) = max F f by omega] at a
  rw [insertAll_append ps g0 r p a]
  have b := insertOnePoint_fuel_mono f (max F f - f) r p (by rw [h']; intro e; cases e)
  rw [show f + (max F f - f) = max F f by omega] at b
  rw [b, h']

theorem insertOnePoint_length_le {fuel : Nat} {g g' : Geometry} {p : Vector2f}
    (h : insertOnePoint fuel g p = .ok g') (h3 : 3 ≤ g.mPoints.length) :
    g.mTriangles.length ≤ g'.mTriangles.length := by
  by_cases hl : located g p
  · obtain ⟨_, _, _, _, _, hlen, _⟩ := @insertPoint_located fuel g g' p h h3 hl
    omega
  · rw [insertOnePoint_not_located h3 hl] at h
    cases h
    exact Nat.le_refl _

/-- The state reached by insertions from `reset()` and the state reached by replaying its
point store from the empty state agree, except for the `drawable` flag of the bounding
triangle while it is still the whole mesh. -/
theorem incremental_replay {s : Geometry} (h : Incremental s) :
    ∃ F ps r, s.mPoints = boundingPoints ++ ps ∧
      insertAll F { mPoints := boundingPoints, mTriangles := [⟨0, 1, 2, true⟩] } ps = .ok r ∧
      ((s = r ∧ 1 < s.mTriangles.length) ∨
       (s.mTriangles = [⟨0, 1, 2, false⟩] ∧
        r = { mPoints := s.mPoints, mTriangles := [⟨0, 1, 2, true⟩] })) := by
  induction h with
  | reset g => exact ⟨0, [], _, rfl, rfl, Or.inr ⟨rfl, rfl⟩⟩
  | @insertPoint f p g g' _ hi ih =>
    obtain ⟨F, ps, r, hp, hall, hrel⟩ := ih
    have h3 : 3 ≤ g.mPoints.length := by rw [hp]; simp [boundingPoints]
    have hp' : g'.mPoints = boundingPoints ++ (ps ++ [p]) := by
      rw [insertOnePoint_mPoints hi, hp, List.append_assoc]
    rcases hrel with ⟨hsr, hlen⟩ | ⟨htri, hr⟩
    · subst hsr
      refine ⟨max F f, ps ++ [p], g', hp', insertAll_snoc hall hi, Or.inl ⟨rfl, ?_⟩⟩
      have := insertOnePoint_length_le hi h3
      omega
    · have hg : g = { mPoints := g.mPoints, mTriangles := [⟨0, 1, 2, false⟩] } := by
        cases g
        simp only at htri
        rw [htri]
      rcases insertOnePoint_bounding_flag f g.mPoints p h3 with ⟨hf, ht⟩ | ⟨hl, ht⟩
      · rw [← hg] at hf
        have hg' : g' = { mPoints := g.mPoints ++ [p], mTriangles := [⟨0, 1, 2, false⟩] } := by
          have := hi.symm.trans hf
          cases this
          rfl
        rw [← hr] at ht
        refine ⟨max F f, ps ++ [p], _, hp', insertAll_snoc hall ht, Or.inr ⟨?_, ?_⟩⟩
        · rw [hg']
        · rw [hg']
      · rw [← hg] at hl ht
        rw [← hr] at ht
        refine ⟨max F f, ps ++ [p], g', hp', insertAll_snoc hall (ht.trans hi), Or.inl ⟨rfl, ?_⟩⟩
        obtain ⟨_, _, _, _, _, hlen, _⟩ := @insertPoint_located f g g' p hi h3 hl
        rw [hlen, htri]
        simp

/-! ## The inserter calls of a rebuild -/

theorem inserterEntries_length (fuel : Nat) :
    ∀ (pts : List Vector2f) (g : Geometry),
      ∀ s ∈ inserterEntries fuel g pts, g.mPoints.length < s.mPoints.length := by
  intro pts
  induction pts with
  | nil => intro g s hs; simp [inserterEntries] at hs
  | cons pt rest ih =>
    intro g s hs
    simp only [inserterEntries, List.mem_cons] at hs
    rcases hs with hs | hs
    · rw [hs]; simp
    · split at hs
      · simp at hs
      · rename_i g' hg'
        have := ih g' s hs
        rw [insertOnePoint_mPoints hg'] at this
        simp at this
        omega

theorem triangulateEntries_bounding (fuel : Nat) (rest : List Vector2f) :
    inserterEntries fuel { mPoints := [], mTriangles := [] } (boundingPoints ++ rest) =
      { mPoints := [⟨400, -1000⟩], mTriangles := [] } ::
      { mPoints := [⟨400, -1000⟩, ⟨-400, 700⟩], mTriangles := [] } ::
      { mPoints := [⟨400, -1000⟩, ⟨-400, 700⟩, ⟨1200, 700⟩], mTriangles := [] } ::
      inserterEntries fuel { mPoints := boundingPoints, mTriangles := [⟨0, 1, 2, true⟩] } rest := by
  have h1 : insertOnePoint fuel { mPoints := [], mTriangles := [] } ⟨400, -1000⟩ =
      .ok { mPoints := [⟨400, -1000⟩], mTriangles := [] } :=
    insertOnePoint_of_lt (by decide)
  have h2 : insertOnePoint fuel { mPoints := [⟨400, -1000⟩], mTriangles := [] } ⟨-400, 700⟩ =
      .ok { mPoints := [⟨400, -1000⟩, ⟨-400, 700⟩], mTriangles := [] } :=
    insertOnePoint_of_lt (by decide)
  have h3 : insertOnePoint fuel { mPoints := [⟨400, -1000⟩, ⟨-400, 700⟩], mTriangles := [] }
      ⟨1200, 700⟩ =
      .ok { mPoints := [⟨400, -1000⟩, ⟨-400, 700⟩, ⟨1200, 700⟩],
            mTriangles := [⟨0, 1, 2, true⟩] } :=
    insertOnePoint_of_eq (by decide)
  simp only [boundingPoints, List.cons_append, List.nil_append, inserterEntries, h1, h2, h3]
  rfl

/-! ## The Delaunay property in general position

The flip loop keeps an invariant of the mesh and the queue (`MeshInv`); a split establishes it
and a flip preserves it; with the queue empty it gives the Delaunay property. -/

theorem power_mul_orient (a b c q : Vector2f) (h : orient a b c ≠ 0) :
    (distance q (circum a b c) - distance a (circum a b c)) * orient a b c = inCircle a b c q := by
  have hx := circum_x_mul a b c h
  have hy := circum_y_mul a b c h
  generalize circum a b c = o at hx hy ⊢
  simp only [distance, inCircle]
  unfold orient at hx hy ⊢
  linear_combination (-(q.x - a.x)) * hx + (-(q.y - a.y)) * hy

theorem inCircle_swap12 (a b c q : Vector2f) : inCircle b a c q = -inCircle a b c q := by
  simp only [inCircle, orient]; ring

theorem inCircle_swap23 (a b c q : Vector2f) : inCircle a c b q = -inCircle a b c q := by
  simp only [inCircle, orient]; ring

theorem inCircle_swap34 (a b c q : Vector2f) : inCircle a b q c = -inCircle a b c q := by
  simp only [inCircle, orient]; ring

theorem orient_swap12 (a b c : Vector2f) : orient b a c = -orient a b c := by
  simp only [orient]; ring

theorem orient_swap23 (a b c : Vector2f) : orient a c b = -orient a b c := by
  simp only [orient]; ring

theorem orient_self_left (a c : Vector2f) : orient a a c = 0 := by
  simp only [orient]; ring

theorem orient_self_right (a b : Vector2f) : orient a b b = 0 := by
  simp only [orient]; ring

theorem orient_self_outer (a b : Vector2f) : orient a b a = 0 := by
  simp only [orient]; ring

/-- The three-term relation in the pencil of circles through `a` and `b`. -/
theorem inCircle_pencil (a b c x q : Vector2f) :
    inCircle a b c q * orient a b x - inCircle a b x q * orient a b c
      = inCircle a b c x * orient a b q := by
  simp only [inCircle, orient]; ring

/-- Moving a point along a segment: `orient` is affine in its last argument. -/
theorem orient_lerp (a b x z : Vector2f) (e : ℚ) :
    orient a b ⟨x.x + e * (z.x - x.x), x.y + e * (z.y - x.y)⟩
      = (1 - e) * orient a b x + e * orient a b z := by
  simp only [orient]; ring

theorem orient_cyc (a b c : Vector2f) : orient b c a = orient a b c := by
  simp only [orient]; ring

theorem inCircle_cyc (a b c q : Vector2f) : inCircle b c a q = inCircle a b c q := by
  simp only [inCircle, orient]; ring

/-- The sign of a product with a square. -/
theorem sign_mul_sq {p o : ℚ} (ho : o ≠ 0) : (p * o * o < 0 ↔ p < 0) ∧ (p * o * o ≤ 0 ↔ p ≤ 0) := by
  have hpos : 0 < o * o := mul_self_pos.mpr ho
  constructor
  · constructor
    · intro h
      by_contra hc
      have : 0 ≤ p * (o * o) := mul_nonneg (not_lt.mp hc) hpos.le
      nlinarith
    · intro h
      have : p * (o * o) < 0 := mul_neg_of_neg_of_pos h hpos
      nlinarith
  · constructor
    · intro h
      by_contra hc
      have : 0 < p * (o * o) := mul_pos (not_le.mp hc) hpos
      nlinarith
    · intro h
      have : p * (o * o) ≤ 0 := mul_nonpos_of_nonpos_of_nonneg h hpos.le
      nlinarith

theorem strictlyInsideCircumcircle_iff (a b c q : Vector2f) (h : orient a b c ≠ 0) :
    strictlyInsideCircumcircle q a b c ↔ inCircle a b c q * orient a b c < 0 := by
  have e := power_mul_orient a b c q h
  unfold strictlyInsideCircumcircle
  rw [← e]
  rw [(sign_mul_sq h).1]
  constructor <;> intro h' <;> linarith

theorem circumCircleContains_iff (a b c q : Vector2f) (h : orient a b c ≠ 0) :
    circumCircleContains q a b c = true ↔ inCircle a b c q * orient a b c ≤ 0 := by
  have e := power_mul_orient a b c q h
  rw [← e, (sign_mul_sq h).2]
  simp only [circumCircleContains, decide_eq_true_eq]
  constructor <;> intro h' <;> linarith

/-- Three triangles cannot lie pairwise on opposite sides of one line. -/
theorem not_three_sides {x y z : ℚ} (h1 : x * y < 0) (h2 : x * z < 0) (h3 : y * z < 0) : False := by
  have hx : x ≠ 0 := by rintro rfl; simp at h1
  have : 0 < x * x := mul_self_pos.mpr hx
  nlinarith [mul_pos_of_neg_of_neg h1 h2]

theorem same_sign_trans {x y z : ℚ} (h1 : 0 < x * y) (h2 : 0 < y * z) : 0 < x * z := by
  have hy : y ≠ 0 := by rintro rfl; simp at h1
  have hyy : 0 < y * y := mul_self_pos.mpr hy
  have : 0 < (x * z) * (y * y) := by nlinarith [mul_pos h1 h2]
  exact pos_of_mul_pos_left this hyy.le

theorem opp_sign_trans {x y z : ℚ} (h1 : x * y < 0) (h2 : 0 < y * z) : x * z < 0 := by
  have hy : y ≠ 0 := by rintro rfl; simp at h1
  have hyy : 0 < y * y := mul_self_pos.mpr hy
  have : (x * z) * (y * y) < 0 := by nlinarith [mul_neg_of_neg_of_pos h1 h2]
  by_contra hc
  have := mul_nonneg (not_lt.mp hc) hyy.le
  linarith

theorem opp_opp_same {x y z : ℚ} (h1 : x * y < 0) (h2 : y * z < 0) : 0 < x * z := by
  have hy : y ≠ 0 := by rintro rfl; simp at h1
  have hyy : 0 < y * y := mul_self_pos.mpr hy
  have : 0 < (x * z) * (y * y) := by nlinarith [mul_pos_of_neg_of_neg h1 h2]
  exact pos_of_mul_pos_left this hyy.le

/-- Across an edge `u v`, the two in-circle tests agree: the apex `x` of one triangle is
strictly inside the circle of the other exactly when the converse holds. -/
theorem inDisk_symm (u v w x : Vector2f)
    (hopp : orient u v w * orient u v x < 0) :
    inCircle u v w x * orient u v w < 0 ↔ inCircle u v x w * orient u v x < 0 := by
  rw [inCircle_swap34 u v w x]
  generalize inCircle u v w x = I
  generalize orient u v w = a at hopp ⊢
  generalize orient u v x = b at hopp ⊢
  have ha : a ≠ 0 := by rintro rfl; simp at hopp
  have hb : b ≠ 0 := by rintro rfl; simp at hopp
  have haa : 0 < a * a := mul_self_pos.mpr ha
  have hbb : 0 < b * b := mul_self_pos.mpr hb
  constructor
  · intro h
    have h1 : 0 < (I * a) * (a * b) := mul_pos_of_neg_of_neg h hopp
    by_contra hc
    have h2 : 0 ≤ (-I * b) * (a * a) := mul_nonneg (not_lt.mp hc) haa.le
    nlinarith
  · intro h
    have h1 : 0 < (-I * b) * (a * b) := mul_pos_of_neg_of_neg h hopp
    by_contra hc
    have h2 : 0 ≤ (I * a) * (b * b) := mul_nonneg (not_lt.mp hc) hbb.le
    nlinarith

theorem strictlyInsideTriangle_iff (a b c p : Vector2f) :
    strictlyInsideTriangle a b c p ↔
      0 < orient a b c * orient a b p ∧ 0 < orient a b c * orient b c p ∧
      0 < orient a b c * orient c a p := by
  unfold strictlyInsideTriangle
  constructor
  · rintro (⟨h0, h1, h2, h3⟩ | ⟨h0, h1, h2, h3⟩)
    · exact ⟨mul_pos h0 h1, mul_pos h0 h2, mul_pos h0 h3⟩
    · exact ⟨mul_pos_of_neg_of_neg h0 h1, mul_pos_of_neg_of_neg h0 h2,
        mul_pos_of_neg_of_neg h0 h3⟩
  · rintro ⟨h1, h2, h3⟩
    rcases lt_trichotomy (orient a b c) 0 with h0 | h0 | h0
    · right
      refine ⟨h0, ?_, ?_, ?_⟩
      · by_contra hc; have := mul_nonpos_of_nonpos_of_nonneg h0.le (not_lt.mp hc); linarith
      · by_contra hc; have := mul_nonpos_of_nonpos_of_nonneg h0.le (not_lt.mp hc); linarith
      · by_contra hc; have := mul_nonpos_of_nonpos_of_nonneg h0.le (not_lt.mp hc); linarith
    · rw [h0] at h1; simp at h1
    · left
      exact ⟨h0, pos_of_mul_pos_right h1 h0.le, pos_of_mul_pos_right h2 h0.le,
        pos_of_mul_pos_right h3 h0.le⟩

theorem strictlyInsideTriangle_swap12 (a b c p : Vector2f) :
    strictlyInsideTriangle b a c p ↔ strictlyInsideTriangle a b c p := by
  rw [strictlyInsideTriangle_iff b a c p, strictlyInsideTriangle_iff a b c p,
    orient_swap12 a b c, orient_swap12 a b p, orient_swap12 c a p, orient_swap12 b c p]
  simp only [neg_mul_neg]
  tauto

theorem strictlyInsideTriangle_cyc (a b c p : Vector2f) :
    strictlyInsideTriangle b c a p ↔ strictlyInsideTriangle a b c p := by
  rw [strictlyInsideTriangle_iff b c a p, strictlyInsideTriangle_iff a b c p, orient_cyc a b c]
  tauto

theorem strictlyInsideTriangle_swap23 (a b c p : Vector2f) :
    strictlyInsideTriangle a c b p ↔ strictlyInsideTriangle a b c p := by
  rw [← strictlyInsideTriangle_cyc a c b p, strictlyInsideTriangle_swap12 b c a p,
    strictlyInsideTriangle_cyc a b c p]

theorem strictlyInsideCircumcircle_swap12 (a b c q : Vector2f) (h : orient a b c ≠ 0) :
    strictlyInsideCircumcircle q b a c ↔ strictlyInsideCircumcircle q a b c := by
  have h' : orient b a c ≠ 0 := by rw [orient_swap12]; exact neg_ne_zero.mpr h
  rw [strictlyInsideCircumcircle_iff b a c q h', strictlyInsideCircumcircle_iff a b c q h,
    orient_swap12, inCircle_swap12, neg_mul_neg]

theorem strictlyInsideCircumcircle_swap23 (a b c q : Vector2f) (h : orient a b c ≠ 0) :
    strictlyInsideCircumcircle q a c b ↔ strictlyInsideCircumcircle q a b c := by
  have h' : orient a c b ≠ 0 := by rw [orient_swap23]; exact neg_ne_zero.mpr h
  rw [strictlyInsideCircumcircle_iff a c b q h', strictlyInsideCircumcircle_iff a b c q h,
    orient_swap23, inCircle_swap23, neg_mul_neg]

theorem circumCircleContains_swap12 (a b c q : Vector2f) (h : orient a b c ≠ 0) :
    circumCircleContains q b a c = circumCircleContains q a b c := by
  have h' : orient b a c ≠ 0 := by rw [orient_swap12]; exact neg_ne_zero.mpr h
  have e : circumCircleContains q b a c = true ↔ circumCircleContains q a b c = true := by
    rw [circumCircleContains_iff b a c q h', circumCircleContains_iff a b c q h,
      orient_swap12, inCircle_swap12, neg_mul_neg]
  cases h1 : circumCircleContains q b a c <;> cases h2 : circumCircleContains q a b c <;>
    simp_all

theorem circumCircleContains_swap23 (a b c q : Vector2f) (h : orient a b c ≠ 0) :
    circumCircleContains q a c b = circumCircleContains q a b c := by
  have h' : orient a c b ≠ 0 := by rw [orient_swap23]; exact neg_ne_zero.mpr h
  have e : circumCircleContains q a c b = true ↔ circumCircleContains q a b c = true := by
    rw [circumCircleContains_iff a c b q h', circumCircleContains_iff a b c q h,
      orient_swap23, inCircle_swap23, neg_mul_neg]
  cases h1 : circumCircleContains q a c b <;> cases h2 : circumCircleContains q a b c <;>
    simp_all

theorem power_mul (a b c q : Vector2f) (h : orient a b c ≠ 0) :
    power a b c q * orient a b c = inCircle a b c q := power_mul_orient a b c q h

theorem power_swap12 (a b c q : Vector2f) (h : orient a b c ≠ 0) :
    power b a c q = power a b c q := by
  have h' : orient b a c ≠ 0 := by rw [orient_swap12]; exact neg_ne_zero.mpr h
  have e1 := power_mul b a c q h'
  have e2 := power_mul a b c q h
  rw [orient_swap12, inCircle_swap12, ← e2] at e1
  have : (power b a c q - power a b c q) * orient a b c = 0 := by linarith
  rcases mul_eq_zero.mp this with h0 | h0
  · linarith
  · exact absurd h0 h

theorem power_swap23 (a b c q : Vector2f) (h : orient a b c ≠ 0) :
    power a c b q = power a b c q := by
  have h' : orient a c b ≠ 0 := by rw [orient_swap23]; exact neg_ne_zero.mpr h
  have e1 := power_mul a c b q h'
  have e2 := power_mul a b c q h
  rw [orient_swap23, inCircle_swap23, ← e2] at e1
  have : (power a c b q - power a b c q) * orient a b c = 0 := by linarith
  rcases mul_eq_zero.mp this with h0 | h0
  · linarith
  · exact absurd h0 h

theorem power_neg_iff (a b c q : Vector2f) :
    power a b c q < 0 ↔ strictlyInsideCircumcircle q a b c := by
  unfold power strictlyInsideCircumcircle
  constructor <;> intro h <;> linarith

/-- Crossing an edge towards `q` lowers the power of `q`: if the triangles `u v w` and
`u v x` lie on opposite sides of the line `u v`, `x` is strictly outside the circle of `u v w`
and `q` is strictly on the side of `x`, then the power of `q` is smaller for `u v x`. -/
theorem power_decrease (u v w x q : Vector2f)
    (hopp : orient u v w * orient u v x < 0)
    (hout : 0 < inCircle u v w x * orient u v w)
    (hq : orient u v q * orient u v w < 0) :
    power u v x q < power u v w q := by
  have hw : orient u v w ≠ 0 := by intro h; rw [h] at hopp; simp at hopp
  have hx : orient u v x ≠ 0 := by intro h; rw [h] at hopp; simp at hopp
  have e1 := power_mul u v x q hx
  have e2 := power_mul u v w q hw
  have pen := inCircle_pencil u v x w q
  rw [inCircle_swap34 u v w x] at pen
  rw [← e1, ← e2] at pen
  generalize power u v x q = px at pen ⊢
  generalize power u v w q = pw at pen ⊢
  generalize inCircle u v w x = I at pen hout
  generalize orient u v w = a at *
  generalize orient u v x = b at *
  generalize orient u v q = c at *
  -- (px - pw) * (a * b) = -I * c
  have key : (px - pw) * (a * b) = -(I * c) := by linarith
  have hIc : I * c < 0 := by
    have haa : 0 < a * a := mul_self_pos.mpr hw
    have : (I * a) * (c * a) < 0 := mul_neg_of_pos_of_neg hout hq
    by_contra hc
    have := mul_nonneg (not_lt.mp hc) haa.le
    nlinarith
  by_contra hc
  have h1 : 0 ≤ px - pw := by linarith
  have := mul_nonpos_of_nonneg_of_nonpos h1 hopp.le
  linarith

/-- The quadrilateral of a flip is strictly convex: if `a` and `d` lie strictly on opposite
sides of the line `u v` and `d` is strictly inside the circle through `u`, `v`, `a`, then seen
from each of `a`, `d` the other apex lies between `u` and `v`, and `u`, `v` lie strictly on
opposite sides of the line `a d`. -/
theorem flip_convex (u v a d : Vector2f)
    (hopp : orient u v a * orient u v d < 0)
    (hin : inCircle u v a d * orient u v a < 0) :
    0 < orient a u v * orient a u d ∧ 0 < orient a v u * orient a v d ∧
    0 < orient d u v * orient d u a ∧ 0 < orient d v u * orient d v a ∧
    orient a d u * orient a d v < 0 := by
  have e1 : orient a u v = orient u v a := by simp only [orient]; ring
  have e2 : orient d u v = orient u v d := by simp only [orient]; ring
  have e3 : orient a v u = -orient u v a := by simp only [orient]; ring
  have e4 : orient d v u = -orient u v d := by simp only [orient]; ring
  have e5 : orient v u d = -orient u v d := by simp only [orient]; ring
  have e6 : orient v u a = -orient u v a := by simp only [orient]; ring
  have i1 : inCircle a u v d = inCircle u v a d := by simp only [inCircle, orient]; ring
  have i2 : inCircle d u v a = inCircle u v d a := by simp only [inCircle, orient]; ring
  have ha : orient u v a ≠ 0 := by intro h; rw [h] at hopp; simp at hopp
  have hd : orient u v d ≠ 0 := by intro h; rw [h] at hopp; simp at hopp
  have ha' : orient a u v ≠ 0 := by rw [e1]; exact ha
  have hd' : orient d u v ≠ 0 := by rw [e2]; exact hd
  have hin2 : inCircle u v d a * orient u v d < 0 := (inDisk_symm u v a d hopp).mp hin
  have sa : strictlyInsideCircumcircle d a u v := by
    rw [strictlyInsideCircumcircle_iff a u v d ha', i1, e1]
    exact hin
  have sd : strictlyInsideCircumcircle a d u v := by
    rw [strictlyInsideCircumcircle_iff d u v a hd', i2, e2]
    exact hin2
  obtain ⟨ea1, ea2⟩ := circum_equidistant a u v ha'
  obtain ⟨ed1, ed2⟩ := circum_equidistant d u v hd'
  have c1 : 0 < orient a u v * orient a u d :=
    same_side_of_inside a u v d (circum a u v) ea1 ea2 sa (by rw [e1]; exact hopp)
  have c2 : 0 < orient a v u * orient a v d :=
    same_side_of_inside a v u d (circum a u v) ea2 ea1 sa (by rw [e3, e5]; linarith)
  have c3 : 0 < orient d u v * orient d u a :=
    same_side_of_inside d u v a (circum d u v) ed1 ed2 sd (by rw [e2]; linarith)
  have c4 : 0 < orient d v u * orient d v a :=
    same_side_of_inside d v u a (circum d u v) ed2 ed1 sd (by rw [e4, e6]; linarith)
  refine ⟨c1, c2, c3, c4, ?_⟩
  have f1 : orient a d u = -orient a u d := by simp only [orient]; ring
  have f2 : orient a d v = -orient a v d := by simp only [orient]; ring
  rw [f1, f2]
  rw [e3, ← e1] at c2
  have hsq : 0 < orient a u v * orient a u v := mul_self_pos.mpr ha'
  nlinarith [mul_pos c1 c2]

/-- After a flip the new diagonal is legal, strictly: each of `u`, `v` is strictly outside
the circle of the new triangle that does not contain it. -/
theorem flip_legal (u v a d : Vector2f)
    (hopp : orient u v a * orient u v d < 0)
    (hin : inCircle u v a d * orient u v a < 0) :
    0 < inCircle a u d v * orient a u d ∧ 0 < inCircle a d v u * orient a d v := by
  obtain ⟨c1, c2, _, _, _⟩ := flip_convex u v a d hopp hin
  have e1 : orient a u v = orient u v a := by simp only [orient]; ring
  have e3 : orient a v u = -orient u v a := by simp only [orient]; ring
  have i1 : inCircle a u d v = -inCircle u v a d := by simp only [inCircle, orient]; ring
  have i2 : inCircle a d v u = -inCircle u v a d := by simp only [inCircle, orient]; ring
  have f2 : orient a d v = -orient a v d := by simp only [orient]; ring
  have ha : orient u v a ≠ 0 := by intro h; rw [h] at hopp; simp at hopp
  have hsq : 0 < orient u v a * orient u v a := mul_self_pos.mpr ha
  rw [e1] at c1
  rw [e3] at c2
  rw [i1, i2, f2]
  generalize inCircle u v a d = I at hin ⊢
  generalize orient u v a = A at *
  generalize orient a u d = B at *
  generalize orient a v d = C at *
  constructor
  · have : (I * A) * (A * B) < 0 := mul_neg_of_neg_of_pos hin c1
    by_contra hc
    have h2 := mul_nonneg (show 0 ≤ I * B from by linarith) hsq.le
    nlinarith
  · have : (I * A) * (-A * C) < 0 := mul_neg_of_neg_of_pos hin c2
    by_contra hc
    have h2 := mul_nonneg (show 0 ≤ -(I * C) from by linarith) hsq.le
    nlinarith

theorem orient_lerp' (a b x z : Vector2f) (e : ℚ) :
    orient a b (lerp x z e) = (1 - e) * orient a b x + e * orient a b z := by
  simp only [lerp, orient]; ring

/-- A point strictly inside a triangle is strictly on the positive side of every line that
has the three vertices on its non-negative side, one of them strictly. -/
theorem orient_pos_of_inside {p q r x : Vector2f} (hx : strictlyInsideTriangle p q r x)
    (a b : Vector2f) (s : ℚ)
    (hp : 0 ≤ s * orient a b p) (hq : 0 ≤ s * orient a b q) (hr : 0 ≤ s * orient a b r)
    (hpos : 0 < s * orient a b p ∨ 0 < s * orient a b q ∨ 0 < s * orient a b r) :
    0 < s * orient a b x := by
  obtain ⟨u, v, w, hu, hv, hw, hsum, hxx, hxy, _, _, _⟩ := weights_of_strictlyInside hx
  have e : orient a b x = u * orient a b p + v * orient a b q + w * orient a b r := by
    have hu' : u = 1 - v - w := by linarith
    simp only [orient, hxx, hxy, hu']
    ring
  rw [e]
  have t1 : 0 ≤ u * (s * orient a b p) := mul_nonneg hu.le hp
  have t2 : 0 ≤ v * (s * orient a b q) := mul_nonneg hv.le hq
  have t3 : 0 ≤ w * (s * orient a b r) := mul_nonneg hw.le hr
  rcases hpos with h | h | h
  · have : 0 < u * (s * orient a b p) := mul_pos hu h
    nlinarith
  · have : 0 < v * (s * orient a b q) := mul_pos hv h
    nlinarith
  · have : 0 < w * (s * orient a b r) := mul_pos hw h
    nlinarith

/-- Three positive quantities stay positive under a small enough step. -/
theorem exists_small_step (F1 F2 F3 G1 G2 G3 : ℚ) (h1 : 0 < F1) (h2 : 0 < F2) (h3 : 0 < F3) :
    ∃ e : ℚ, 0 < e ∧ e < 1 ∧ 0 < (1 - e) * F1 + e * G1 ∧ 0 < (1 - e) * F2 + e * G2 ∧
      0 < (1 - e) * F3 + e * G3 := by
  have key : ∀ F G : ℚ, 0 < F → ∃ d : ℚ, 0 < d ∧ d < 1 ∧
      ∀ e : ℚ, 0 < e → e ≤ d → 0 < (1 - e) * F + e * G := by
    intro F G hF
    have hden : 0 < F + |G| + 1 := by positivity
    refine ⟨F / (F + |G| + 1), div_pos hF hden, ?_, ?_⟩
    · rw [div_lt_one hden]; have := abs_nonneg G; linarith
    · intro e he hle
      have hG : -|G| ≤ G := neg_abs_le G
      have h1 : e * (F + |G| + 1) ≤ F := by
        have := mul_le_mul_of_nonneg_right hle hden.le
        rwa [div_mul_cancel₀ F (ne_of_gt hden)] at this
      have h2 : e * G ≥ -(e * |G|) := by nlinarith
      nlinarith
  obtain ⟨d1, p1, q1, r1⟩ := key F1 G1 h1
  obtain ⟨d2, p2, q2, r2⟩ := key F2 G2 h2
  obtain ⟨d3, p3, q3, r3⟩ := key F3 G3 h3
  refine ⟨min d1 (min d2 d3), ?_, ?_, ?_, ?_, ?_⟩
  · exact lt_min p1 (lt_min p2 p3)
  · exact lt_of_le_of_lt (min_le_left _ _) q1
  · exact r1 _ (lt_min p1 (lt_min p2 p3)) (min_le_left _ _)
  · exact r2 _ (lt_min p1 (lt_min p2 p3)) (le_trans (min_le_right _ _) (min_le_left _ _))
  · exact r3 _ (lt_min p1 (lt_min p2 p3)) (le_trans (min_le_right _ _) (min_le_right _ _))

/-- A point strictly inside a triangle stays strictly inside after a small enough step
towards any point `z`. -/
theorem inside_small_step {a b c x : Vector2f} (hx : strictlyInsideTriangle a b c x)
    (z : Vector2f) :
    ∃ d : ℚ, 0 < d ∧ d < 1 ∧ ∀ e : ℚ, 0 < e → e ≤ d → strictlyInsideTriangle a b c (lerp x z e) :=
        by
  rw [strictlyInsideTriangle_iff] at hx
  obtain ⟨h1, h2, h3⟩ := hx
  have key : ∀ F G : ℚ, 0 < F → ∃ d : ℚ, 0 < d ∧ d < 1 ∧
      ∀ e : ℚ, 0 < e → e ≤ d → 0 < (1 - e) * F + e * G := by
    intro F G hF
    have hden : 0 < F + |G| + 1 := by positivity
    refine ⟨F / (F + |G| + 1), div_pos hF hden, ?_, ?_⟩
    · rw [div_lt_one hden]; have := abs_nonneg G; linarith
    · intro e he hle
      have hG : -|G| ≤ G := neg_abs_le G
      have h1 : e * (F + |G| + 1) ≤ F := by
        have := mul_le_mul_of_nonneg_right hle hden.le
        rwa [div_mul_cancel₀ F (ne_of_gt hden)] at this
      have h2 : e * G ≥ -(e * |G|) := by nlinarith
      nlinarith
  obtain ⟨d1, p1, q1, r1⟩ := key _ (orient a b c * orient a b z) h1
  obtain ⟨d2, p2, q2, r2⟩ := key _ (orient a b c * orient b c z) h2
  obtain ⟨d3, p3, q3, r3⟩ := key _ (orient a b c * orient c a z) h3
  refine ⟨min d1 (min d2 d3), lt_min p1 (lt_min p2 p3),
    lt_of_le_of_lt (min_le_left _ _) q1, ?_⟩
  intro e he hle
  rw [strictlyInsideTriangle_iff, orient_lerp', orient_lerp', orient_lerp']
  have l1 : e ≤ d1 := le_trans hle (min_le_left _ _)
  have l2 : e ≤ d2 := le_trans hle (le_trans (min_le_right _ _) (min_le_left _ _))
  have l3 : e ≤ d3 := le_trans hle (le_trans (min_le_right _ _) (min_le_right _ _))
  refine ⟨?_, ?_, ?_⟩
  · have := r1 e he l1; nlinarith
  · have := r2 e he l2; nlinarith
  · have := r3 e he l3; nlinarith

/-- A point that is not strictly inside a non-degenerate triangle and on none of the three
lines of its edges is strictly beyond one of the edges. -/
theorem exists_outer_edge {a b c q : Vector2f} (hA : orient a b c ≠ 0)
    (hq : ¬ strictlyInsideTriangle a b c q)
    (h1 : orient a b q ≠ 0) (h2 : orient b c q ≠ 0) (h3 : orient c a q ≠ 0) :
    orient a b q * orient a b c < 0 ∨ orient b c q * orient a b c < 0 ∨
      orient c a q * orient a b c < 0 := by
  by_contra hc
  push_neg at hc
  obtain ⟨g1, g2, g3⟩ := hc
  apply hq
  rw [strictlyInsideTriangle_iff]
  refine ⟨?_, ?_, ?_⟩
  · rcases lt_or_eq_of_le g1 with h | h
    · linarith
    · exact absurd (mul_eq_zero.mp h.symm) (by push_neg; exact ⟨h1, hA⟩)
  · rcases lt_or_eq_of_le g2 with h | h
    · linarith
    · exact absurd (mul_eq_zero.mp h.symm) (by push_neg; exact ⟨h2, hA⟩)
  · rcases lt_or_eq_of_le g3 with h | h
    · linarith
    · exact absurd (mul_eq_zero.mp h.symm) (by push_neg; exact ⟨h3, hA⟩)

theorem orient_add3 (a b c p : Vector2f) :
    orient b c p + orient c a p + orient a b p = orient a b c := by
  simp only [orient]; ring

/-- The power of a point with respect to the circumcircle, through its barycentric
coordinates. -/
theorem inCircle_barycentric (a b c p : Vector2f) :
    inCircle a b c p * orient a b c =
      -(orient b c p * orient c a p * ((a.x - b.x) * (a.x - b.x) + (a.y - b.y) * (a.y - b.y)) +
        orient b c p * orient a b p * ((a.x - c.x) * (a.x - c.x) + (a.y - c.y) * (a.y - c.y)) +
        orient c a p * orient a b p * ((b.x - c.x) * (b.x - c.x) + (b.y - c.y) * (b.y - c.y))) := by
  simp only [inCircle, orient]; ring

/-- A point strictly inside a triangle is strictly inside its circumcircle. -/
theorem inCircle_of_inside {a b c p : Vector2f} (h : strictlyInsideTriangle a b c p) :
    inCircle a b c p * orient a b c < 0 := by
  rw [strictlyInsideTriangle_iff] at h
  obtain ⟨h1, h2, h3⟩ := h
  have hO : orient a b c ≠ 0 := by intro e; rw [e] at h1; simp at h1
  have p12 : 0 < orient b c p * orient c a p := by
    have := same_sign_trans (by rw [mul_comm]; exact h2 : 0 < orient b c p * orient a b c) h3
    exact this
  have p13 : 0 < orient b c p * orient a b p := by
    have := same_sign_trans (by rw [mul_comm]; exact h2 : 0 < orient b c p * orient a b c) h1
    exact this
  have p23 : 0 < orient c a p * orient a b p := by
    have := same_sign_trans (by rw [mul_comm]; exact h3 : 0 < orient c a p * orient a b c) h1
    exact this
  have hab : 0 < (a.x - b.x) * (a.x - b.x) + (a.y - b.y) * (a.y - b.y) := by
    by_contra hc
    have hx : (a.x - b.x) * (a.x - b.x) = 0 := by
      nlinarith [mul_self_nonneg (a.x - b.x), mul_self_nonneg (a.y - b.y)]
    have hy : (a.y - b.y) * (a.y - b.y) = 0 := by
      nlinarith [mul_self_nonneg (a.x - b.x), mul_self_nonneg (a.y - b.y)]
    have hx' : a.x - b.x = 0 := mul_self_eq_zero.mp hx
    have hy' : a.y - b.y = 0 := mul_self_eq_zero.mp hy
    apply hO
    have ex : b.x = a.x := by linarith
    have ey : b.y = a.y := by linarith
    simp only [orient, ex, ey]; ring
  rw [inCircle_barycentric]
  have t1 := mul_pos p12 hab
  have t2 : 0 ≤ orient b c p * orient a b p *
      ((a.x - c.x) * (a.x - c.x) + (a.y - c.y) * (a.y - c.y)) :=
    mul_nonneg p13.le (add_nonneg (mul_self_nonneg _) (mul_self_nonneg _))
  have t3 : 0 ≤ orient c a p * orient a b p *
      ((b.x - c.x) * (b.x - c.x) + (b.y - c.y) * (b.y - c.y)) :=
    mul_nonneg p23.le (add_nonneg (mul_self_nonneg _) (mul_self_nonneg _))
  linarith

/-- After a split the third vertex of the old triangle is strictly outside the circle of the
new triangle on the opposite edge. -/
theorem split_legal {a b c p : Vector2f} (h : strictlyInsideTriangle a b c p) :
    0 < inCircle a b p c * orient a b p := by
  have h1 := inCircle_of_inside h
  rw [strictlyInsideTriangle_iff] at h
  obtain ⟨h2, _, _⟩ := h
  rw [inCircle_swap34]
  have := opp_sign_trans h1 h2
  linarith

/-- A part of a split triangle lies inside the triangle. -/
theorem sub_inside {a b c p x : Vector2f} (hp : strictlyInsideTriangle a b c p)
    (hx : strictlyInsideTriangle a b p x) : strictlyInsideTriangle a b c x := by
  have hp' := (strictlyInsideTriangle_iff _ _ _ _).mp hp
  obtain ⟨h1, h2, h3⟩ := hp'
  have hO : orient a b c ≠ 0 := by intro e; rw [e] at h1; simp at h1
  have hOO : 0 < orient a b c * orient a b c := mul_self_pos.mpr hO
  rw [strictlyInsideTriangle_iff]
  refine ⟨?_, ?_, ?_⟩
  · apply orient_pos_of_inside hx a b (orient a b c)
    · rw [orient_self_outer]; simp
    · rw [orient_self_right]; simp
    · exact h1.le
    · exact Or.inr (Or.inr h1)
  · apply orient_pos_of_inside hx b c (orient a b c)
    · have e : orient b c a = orient a b c := by simp only [orient]; ring
      rw [e]; exact hOO.le
    · rw [orient_self_outer]; simp
    · exact h2.le
    · exact Or.inr (Or.inr h2)
  · apply orient_pos_of_inside hx c a (orient a b c)
    · rw [orient_self_right]; simp
    · have e : orient c a b = orient a b c := by simp only [orient]; ring
      rw [e]; exact hOO.le
    · exact h3.le
    · exact Or.inr (Or.inr h3)

/-- Seen from the new point, two vertices of the split triangle lie on opposite sides of the
spoke to the third. -/
theorem split_opp {a b c p : Vector2f} (h : strictlyInsideTriangle a b c p) :
    orient b p a * orient b p c < 0 := by
  rw [strictlyInsideTriangle_iff] at h
  obtain ⟨h1, h2, _⟩ := h
  have e1 : orient b p a = orient a b p := by simp only [orient]; ring
  have e2 : orient b p c = -orient b c p := by simp only [orient]; ring
  rw [e1, e2]
  have := same_sign_trans (by rw [mul_comm]; exact h1 : 0 < orient a b p * orient a b c) h2
  linarith

/-- Two parts of a split triangle do not overlap. -/
theorem split_disjoint {a b c p x : Vector2f} (h : strictlyInsideTriangle a b c p)
    (h1 : strictlyInsideTriangle a b p x) (h2 : strictlyInsideTriangle b c p x) : False := by
  have ho := split_opp h
  rw [strictlyInsideTriangle_iff] at h1 h2
  obtain ⟨_, a2, _⟩ := h1
  obtain ⟨_, _, b3⟩ := h2
  -- a2 : 0 < orient a b p * orient b p x ;  b3 : 0 < orient b c p * orient p b x
  have e1 : orient a b p = orient b p a := by simp only [orient]; ring
  have e2 : orient b c p = -orient b p c := by simp only [orient]; ring
  have e3 : orient p b x = -orient b p x := by simp only [orient]; ring
  rw [e1] at a2
  rw [e2, e3, neg_mul_neg] at b3
  have := same_sign_trans a2 (by rw [mul_comm]; exact b3 : 0 < orient b p x * orient b p c)
  linarith

/-- The triangles on the two sides of a flipped edge: a point of the new triangle `a u d`
that is on the side of `a` of the line `u v` is in the old triangle `u v a`. -/
theorem flip_inside {u v a d x : Vector2f}
    (c1 : 0 < orient a u v * orient a u d) (c2 : 0 < orient a v u * orient a v d)
    (hx : strictlyInsideTriangle a u d x) (hside : 0 < orient u v a * orient u v x) :
    strictlyInsideTriangle u v a x := by
  have hO : orient u v a ≠ 0 := by intro e; rw [e] at hside; simp at hside
  have hOO : 0 < orient u v a * orient u v a := mul_self_pos.mpr hO
  have e1 : orient a u v = orient u v a := by simp only [orient]; ring
  have e3 : orient a v u = -orient u v a := by simp only [orient]; ring
  have e4 : orient a v d = -orient v a d := by simp only [orient]; ring
  rw [e1] at c1
  rw [e3, e4, neg_mul_neg] at c2
  rw [strictlyInsideTriangle_iff]
  refine ⟨hside, ?_, ?_⟩
  · apply orient_pos_of_inside hx v a (orient u v a)
    · rw [orient_self_right]; simp
    · have e : orient v a u = orient u v a := by simp only [orient]; ring
      rw [e]; exact hOO.le
    · exact c2.le
    · exact Or.inr (Or.inr c2)
  · have hx' := (strictlyInsideTriangle_iff _ _ _ _).mp hx
    exact same_sign_trans c1 hx'.1

/-- The segment from `a` to `d` crosses the triangle `u v a`, so a triangle on the segment
`a d` overlaps the triangle `u v a`. -/
theorem crossing_overlap {u v a d z : Vector2f}
    (hopp : orient u v a * orient u v d < 0)
    (c1 : 0 < orient a u v * orient a u d) (c2 : 0 < orient a v u * orient a v d)
    (hz : orient a d z ≠ 0) :
    ∃ x, strictlyInsideTriangle u v a x ∧ strictlyInsideTriangle a d z x := by
  have hO : orient u v a ≠ 0 := by intro e; rw [e] at hopp; simp at hopp
  have hOO : 0 < orient u v a * orient u v a := mul_self_pos.mpr hO
  have e1 : orient a u v = orient u v a := by simp only [orient]; ring
  have e3 : orient a v u = -orient u v a := by simp only [orient]; ring
  have e4 : orient a v d = -orient v a d := by simp only [orient]; ring
  rw [e1] at c1
  rw [e3, e4, neg_mul_neg] at c2
  obtain ⟨t, t0, t1, ht, _, _⟩ := exists_small_step (orient u v a * orient u v a)
    (orient u v a * orient u v a) (orient u v a * orient u v a)
    (orient u v a * orient u v d) (orient u v a * orient u v d) (orient u v a * orient u v d)
    hOO hOO hOO
  have hm : strictlyInsideTriangle u v a (lerp a d t) := by
    rw [strictlyInsideTriangle_iff]
    refine ⟨?_, ?_, ?_⟩
    · rw [orient_lerp']
      have : orient u v a * ((1 - t) * orient u v a + t * orient u v d) =
          (1 - t) * (orient u v a * orient u v a) + t * (orient u v a * orient u v d) := by ring
      rw [this]; exact ht
    · have e : orient v a (lerp a d t) = t * orient v a d := by
        simp only [lerp, orient]; ring
      rw [e]
      have : orient u v a * (t * orient v a d) = t * (orient u v a * orient v a d) := by ring
      rw [this]; exact mul_pos t0 c2
    · have e : orient a u (lerp a d t) = t * orient a u d := by
        simp only [lerp, orient]; ring
      rw [e]
      have : orient u v a * (t * orient a u d) = t * (orient u v a * orient a u d) := by ring
      rw [this]; exact mul_pos t0 c1
  obtain ⟨e, e0, e1', hstep⟩ := inside_small_step hm z
  refine ⟨lerp (lerp a d t) z e, hstep e e0 (le_refl _), ?_⟩
  have hzz : 0 < orient a d z * orient a d z := mul_self_pos.mpr hz
  rw [strictlyInsideTriangle_iff]
  refine ⟨?_, ?_, ?_⟩
  · have ee : orient a d (lerp (lerp a d t) z e) = e * orient a d z := by
      simp only [lerp, orient]; ring
    rw [ee]
    have : orient a d z * (e * orient a d z) = e * (orient a d z * orient a d z) := by ring
    rw [this]; exact mul_pos e0 hzz
  · have ee : orient d z (lerp (lerp a d t) z e) = (1 - e) * (1 - t) * orient a d z := by
      simp only [lerp, orient]; ring
    rw [ee]
    have : orient a d z * ((1 - e) * (1 - t) * orient a d z) =
        (1 - e) * (1 - t) * (orient a d z * orient a d z) := by ring
    rw [this]
    exact mul_pos (mul_pos (by linarith) (by linarith)) hzz
  · have ee : orient z a (lerp (lerp a d t) z e) = (1 - e) * t * orient a d z := by
      simp only [lerp, orient]; ring
    rw [ee]
    have : orient a d z * ((1 - e) * t * orient a d z) =
        (1 - e) * t * (orient a d z * orient a d z) := by ring
    rw [this]
    exact mul_pos (mul_pos (by linarith) t0) hzz

theorem Triangle.apex_comm (t : Triangle) (u v : Nat) : t.apex u v = t.apex v u := by
  unfold Triangle.apex; omega

/-- The six ways in which two distinct vertices `u`, `v` and the apex sit in a triangle. -/
theorem Triangle.perm_cases {t : Triangle} {u v : Nat} (hu : t.hasVertex u)
    (hv : t.hasVertex v) (huv : u ≠ v) :
    (t.v0 = u ∧ t.v1 = v ∧ t.v2 = t.apex u v) ∨ (t.v0 = v ∧ t.v1 = u ∧ t.v2 = t.apex u v) ∨
    (t.v0 = u ∧ t.v2 = v ∧ t.v1 = t.apex u v) ∨ (t.v0 = v ∧ t.v2 = u ∧ t.v1 = t.apex u v) ∨
    (t.v1 = u ∧ t.v2 = v ∧ t.v0 = t.apex u v) ∨ (t.v1 = v ∧ t.v2 = u ∧ t.v0 = t.apex u v) := by
  unfold Triangle.apex
  rcases hu with h | h | h <;> rcases hv with h' | h' | h' <;>
    first
    | exact absurd (h.symm.trans h') huv
    | (subst h; subst h'; simp only [true_and, and_true]; omega)

theorem vertexIndex_third {t : Triangle} {k1 k2 u v : Nat} (h1 : t.vertexIndex k1 = some u)
    (h2 : t.vertexIndex k2 = some v) (hk : k1 ≠ k2) :
    t.vertexIndex (3 - k1 - k2) = some (t.apex u v) := by
  have l1 := vertexIndex_lt h1
  have l2 := vertexIndex_lt h2
  unfold Triangle.apex
  interval_cases k1 <;> interval_cases k2 <;>
    first
    | exact absurd rfl hk
    | (simp only [Triangle.vertexIndex, Option.some.injEq] at h1 h2 ⊢; omega)

theorem flip_eval (g : Geometry) (t k1 k2 v1 v2 a : Nat) (T : Triangle)
    (hT : g.mTriangles[t]? = some T) (hk : k1 ≠ k2)
    (hk1 : T.vertexIndex k1 = some v1) (hk2 : T.vertexIndex k2 = some v2)
    (ha : T.vertexIndex (3 - k1 - k2) = some a) :
    (owners g.mTriangles (v1, v2) = 1 → flip g t k1 k2 = .ok (g, [])) ∧
    (2 < owners g.mTriangles (v1, v2) → flip g t k1 k2 = .error .assertion) ∧
    (∀ (n j1 j2 d : Nat) (N : Triangle),
      owners g.mTriangles (v1, v2) = 2 → n ≠ t → g.mTriangles[n]? = some N →
      localPosition N v1 = some j1 → localPosition N v2 = some j2 →
      N.vertexIndex (thirdLocal j1 j2) = some d → d < g.mPoints.length →
      (circumCircleContains (pointAt g.mPoints d) (pointAt g.mPoints T.v0)
          (pointAt g.mPoints T.v1) (pointAt g.mPoints T.v2) = false →
        flip g t k1 k2 = .ok (g, [])) ∧
      (circumCircleContains (pointAt g.mPoints d) (pointAt g.mPoints T.v0)
          (pointAt g.mPoints T.v1) (pointAt g.mPoints T.v2) = true →
        flip g t k1 k2 =
          .ok ({ mPoints := g.mPoints,
                 mTriangles := (g.mTriangles.eraseIdx (max t n)).eraseIdx (min t n) ++
                   [Triangle.mk3 a v1 d, Triangle.mk3 a d v2] },
               [(a, v1), (v1, d), (d, v2), (v2, a)]) ∧
        ((g.mTriangles.eraseIdx (max t n)).eraseIdx (min t n) ++
            [Triangle.mk3 a v1 d, Triangle.mk3 a d v2]).length = g.mTriangles.length)) := by
  have hk1lt := vertexIndex_lt hk1
  have hk2lt := vertexIndex_lt hk2
  have hthird : thirdLocal k1 k2 = 3 - k1 - k2 := thirdLocal_eq hk1lt hk2lt hk
  have hTowns : ownsEdge T (v1, v2) :=
    ⟨hasVertex_of_vertexIndex hk1, hasVertex_of_vertexIndex hk2⟩
  refine ⟨?_, ?_, ?_⟩
  · intro h1
    obtain ⟨rs, hrs⟩ := findTriangleWithEdge_ok_of_owners (Or.inl h1)
    obtain ⟨hlen, _, hcomplete⟩ := findTriangleWithEdge_entries hrs
    obtain ⟨r, hr, hri⟩ := hcomplete t T hT hTowns
    rw [h1] at hlen
    match rs, hlen, hr, hrs with
    | [r0], _, hr, hrs =>
      simp only [List.mem_singleton] at hr
      subst hr
      unfold flip
      simp only [hT, hk1, hk2, hthird, ha, hrs, List.length_singleton, if_true,
        List.getElem?_cons_zero, hri]
  · intro h3
    unfold flip
    simp only [hT, hk1, hk2, hthird, ha, findTriangleWithEdge_error_of_owners (Or.inr h3)]
  · intro n j1 j2 d N h2 hn hN hj1 hj2 hd hdlt
    obtain ⟨rs, hrs⟩ := findTriangleWithEdge_ok_of_owners (Or.inr h2)
    obtain ⟨hlen, hsound, hcomplete⟩ := findTriangleWithEdge_entries hrs
    obtain ⟨_, hp, _⟩ := findTriangleWithEdge_sorted hrs
    have hNowns : ownsEdge N (v1, v2) :=
      ⟨hasVertex_of_vertexIndex (localPosition_vertexIndex hj1).1,
       hasVertex_of_vertexIndex (localPosition_vertexIndex hj2).1⟩
    obtain ⟨rT, hrT, hrTi⟩ := hcomplete t T hT hTowns
    obtain ⟨rN, hrN, hrNi⟩ := hcomplete n N hN hNowns
    -- the positions stored in the entry of the neighbour
    have hposN : rN.vertexIndex1 = j1 ∧ rN.vertexIndex2 = j2 := by
      obtain ⟨t', ht', _, p1, p2⟩ := hsound rN hrN
      rw [hrNi, hN] at ht'
      cases ht'
      simp only at p1 p2
      rw [hj1] at p1
      rw [hj2] at p2
      exact ⟨(Option.some.inj p1).symm, (Option.some.inj p2).symm⟩
    have hlen2 : ((g.mTriangles.eraseIdx (max t n)).eraseIdx (min t n) ++
        [Triangle.mk3 a v1 d, Triangle.mk3 a d v2]).length = g.mTriangles.length := by
      have hti : t < g.mTriangles.length := by
        by_contra hc
        rw [List.getElem?_eq_none (by omega)] at hT
        cases hT
      have hni : n < g.mTriangles.length := by
        by_contra hc
        rw [List.getElem?_eq_none (by omega)] at hN
        cases hN
      have := eraseTwo_length hn hti hni
      rw [eraseTwo_eq] at this
      simp only [List.length_append, List.length_cons, List.length_nil]
      omega
    rw [h2] at hlen
    match rs, hlen, hp, hrT, hrN, hrs with
    | [r0, r1], _, hp, hrT, hrN, hrs =>
      have hlt : r0.triangleIndex < r1.triangleIndex := by simpa using hp
      simp only [List.mem_cons, List.mem_singleton, List.not_mem_nil, or_false] at hrT hrN
      have hcase : (r0 = rT ∧ r1 = rN) ∨ (r0 = rN ∧ r1 = rT) := by
        rcases hrT with e1 | e1 <;> rcases hrN with e2 | e2
        · exfalso; rw [e1] at hrTi; rw [e2] at hrNi; omega
        · exact Or.inl ⟨e1.symm, e2.symm⟩
        · exact Or.inr ⟨e2.symm, e1.symm⟩
        · exfalso; rw [e1] at hrTi; rw [e2] at hrNi; omega
      have hflip : flip g t k1 k2 =
          if (!circumCircleContains (pointAt g.mPoints d) (pointAt g.mPoints T.v0)
              (pointAt g.mPoints T.v1) (pointAt g.mPoints T.v2)) = true then .ok (g, [])
          else .ok ({ g with mTriangles := eraseTwo g.mTriangles t n
                        ++ [Triangle.mk3 a v1 d] ++ [Triangle.mk3 a d v2] },
                    [(a, v1), (v1, d), (d, v2), (v2, a)]) := by
        unfold flip
        rcases hcase with ⟨e0, e1⟩ | ⟨e0, e1⟩
        · subst e0; subst e1
          have w : whichTriIsNew [r0, r1] t = .ok 1 := by
            simp only [whichTriIsNew, List.getElem?_cons_zero, List.getElem?_cons_succ, hrTi,
              if_true]
          simp only [hT, hk1, hk2, hthird, ha, hrs, List.length_cons, List.length_nil, w,
            List.getElem?_cons_succ, List.getElem?_cons_zero, hrNi, hN, hposN.1, hposN.2,
            hd, hdlt, if_true]
          simp
        · subst e0; subst e1
          have hne0 : ¬ r0.triangleIndex = t := by omega
          have w : whichTriIsNew [r0, r1] t = .ok 0 := by
            simp only [whichTriIsNew, List.getElem?_cons_zero, List.getElem?_cons_succ, hne0,
              if_false, hrTi, if_true]
          simp only [hT, hk1, hk2, hthird, ha, hrs, List.length_cons, List.length_nil, w,
            List.getElem?_cons_zero, hrNi, hN, hposN.1, hposN.2,
            hd, hdlt, if_true]
          simp
      constructor
      · intro hc
        rw [hflip, hc]
        simp
      · intro hc
        refine ⟨?_, hlen2⟩
        rw [hflip, hc, eraseTwo_eq]
        simp

/-- What one iteration of the flip loop does with the edge `cur`: the first owner `T0` is
taken; with one owner nothing happens; with two owners the in-circle test of the apex of the
other owner `N` against `T0` decides between nothing and the flip. -/
theorem queueFlipBody_cases {g g' : Geometry} {cur : Edge} {es : List Edge}
    (h : queueFlipBody g cur = .ok (g', es)) (hne : cur.1 ≠ cur.2)
    (hvalid : ∀ t ∈ g.mTriangles, t.v0 < g.mPoints.length ∧ t.v1 < g.mPoints.length ∧
      t.v2 < g.mPoints.length) :
    ∃ t0 T0, g.mTriangles[t0]? = some T0 ∧ ownsEdge T0 cur ∧
      ((owners g.mTriangles cur = 1 ∧ g' = g ∧ es = []) ∨
       ∃ n N, n ≠ t0 ∧ g.mTriangles[n]? = some N ∧ ownsEdge N cur ∧
         owners g.mTriangles cur = 2 ∧
         ((circumCircleContains (pointAt g.mPoints (N.apex cur.1 cur.2))
              (pointAt g.mPoints T0.v0) (pointAt g.mPoints T0.v1) (pointAt g.mPoints T0.v2)
              = false ∧ g' = g ∧ es = []) ∨
          (circumCircleContains (pointAt g.mPoints (N.apex cur.1 cur.2))
              (pointAt g.mPoints T0.v0) (pointAt g.mPoints T0.v1) (pointAt g.mPoints T0.v2)
              = true ∧
            g' = { mPoints := g.mPoints,
                   mTriangles := (g.mTriangles.eraseIdx (max t0 n)).eraseIdx (min t0 n) ++
                     [Triangle.mk3 (T0.apex cur.1 cur.2) cur.1 (N.apex cur.1 cur.2),
                      Triangle.mk3 (T0.apex cur.1 cur.2) (N.apex cur.1 cur.2) cur.2] } ∧
            es = [(T0.apex cur.1 cur.2, cur.1), (cur.1, N.apex cur.1 cur.2),
                  (N.apex cur.1 cur.2, cur.2), (cur.2, T0.apex cur.1 cur.2)]))) := by
  unfold queueFlipBody at h
  split at h
  · cases h
  · rename_i found hfound
    split at h
    · cases h
    · rename_i r hr
      obtain ⟨hlen, hsound, hcomplete⟩ := findTriangleWithEdge_entries hfound
      obtain ⟨_, hsorted, hlen12⟩ := findTriangleWithEdge_sorted hfound
      have hrmem : r ∈ found := List.getElem?_mem hr
      obtain ⟨T0, hT0, hown0, hk1, hk2⟩ := hsound r hrmem
      have hv1 := (localPosition_vertexIndex hk1).1
      have hv2 := (localPosition_vertexIndex hk2).1
      have hk : r.vertexIndex1 ≠ r.vertexIndex2 := by
        intro e
        rw [e] at hv1
        rw [hv1] at hv2
        exact hne (Option.some.inj hv2)
      have ha := vertexIndex_third hv1 hv2 hk
      obtain ⟨f1, _, f2⟩ := flip_eval g r.triangleIndex r.vertexIndex1 r.vertexIndex2 cur.1 cur.2
        (T0.apex cur.1 cur.2) T0 hT0 hk hv1 hv2 ha
      refine ⟨r.triangleIndex, T0, hT0, hown0, ?_⟩
      rcases hlen12 with h1 | h2
      · left
        have ho : owners g.mTriangles cur = 1 := by rw [← hlen]; exact h1
        have := f1 ho
        rw [this] at h
        cases h
        exact ⟨ho, rfl, rfl⟩
      · right
        have ho : owners g.mTriangles cur = 2 := by rw [← hlen]; exact h2
        match found, h2, hr, hsorted, hsound, hrmem with
        | [r0, r1], _, hr, hsorted, hsound, _ =>
          simp only [List.getElem?_cons_zero, Option.some.injEq] at hr
          subst hr
          have hlt : r0.triangleIndex < r1.triangleIndex := by simpa using hsorted
          obtain ⟨N, hN, hownN, hj1, hj2⟩ := hsound r1 (by simp)
          have hw1 := (localPosition_vertexIndex hj1).1
          have hw2 := (localPosition_vertexIndex hj2).1
          have hj : r1.vertexIndex1 ≠ r1.vertexIndex2 := by
            intro e
            rw [e] at hw1
            rw [hw1] at hw2
            exact hne (Option.some.inj hw2)
          have hd := vertexIndex_third hw1 hw2 hj
          rw [← thirdLocal_eq (localPosition_vertexIndex hj1).2 (localPosition_vertexIndex hj2).2
            hj] at hd
          have hNmem : N ∈ g.mTriangles := List.getElem?_mem hN
          have hdlt : N.apex cur.1 cur.2 < g.mPoints.length := by
            have hv := hvalid N hNmem
            have hd' := vertexIndex_third hw1 hw2 hj
            have := hasVertex_of_vertexIndex hd'
            rcases this with e | e | e <;> rw [← e] <;> omega
          obtain ⟨g1, g2⟩ := f2 r1.triangleIndex r1.vertexIndex1 r1.vertexIndex2
            (N.apex cur.1 cur.2) N ho (by omega) hN hj1 hj2 hd hdlt
          refine ⟨r1.triangleIndex, N, by omega, hN, hownN, ho, ?_⟩
          cases hc : circumCircleContains (pointAt g.mPoints (N.apex cur.1 cur.2))
              (pointAt g.mPoints T0.v0) (pointAt g.mPoints T0.v1) (pointAt g.mPoints T0.v2)
          · left
            have := g1 hc
            rw [this] at h
            cases h
            exact ⟨rfl, rfl, rfl⟩
          · right
            have := (g2 hc).1
            rw [this] at h
            cases h
            exact ⟨rfl, rfl, rfl⟩

theorem index_unique {l : List Triangle} (hnd : l.Nodup) {i j : Nat} {a : Triangle}
    (h1 : l[i]? = some a) (h2 : l[j]? = some a) : i = j := by
  have hi : i < l.length := by
    by_contra hc
    rw [List.getElem?_eq_none (by omega)] at h1
    cases h1
  exact List.getElem?_inj hi hnd (h1.trans h2.symm)

/-- In a list without repetition, erasing one position removes exactly that entry. -/
theorem mem_eraseIdx_iff_ne {l : List Triangle} (hnd : l.Nodup) {i : Nat} {a t : Triangle}
    (ha : l[i]? = some a) : t ∈ l.eraseIdx i ↔ t ∈ l ∧ t ≠ a := by
  rw [List.mem_eraseIdx_iff_getElem?]
  constructor
  · rintro ⟨k, hk, hkt⟩
    refine ⟨List.getElem?_mem hkt, ?_⟩
    intro e
    subst e
    exact hk (index_unique hnd hkt ha)
  · rintro ⟨hm, hne⟩
    obtain ⟨k, hk⟩ := List.mem_iff_getElem?.mp hm
    refine ⟨k, ?_, hk⟩
    intro e
    subst e
    rw [hk] at ha
    exact hne (Option.some.inj ha)

/-- In a list without repetition, erasing two positions removes exactly the two entries. -/
theorem mem_eraseTwo_iff {l : List Triangle} (hnd : l.Nodup) {i j : Nat} {a b t : Triangle}
    (hij : i ≠ j) (ha : l[i]? = some a) (hb : l[j]? = some b) :
    t ∈ (l.eraseIdx (max i j)).eraseIdx (min i j) ↔ t ∈ l ∧ t ≠ a ∧ t ≠ b := by
  have hnd' : (l.eraseIdx (max i j)).Nodup := hnd.sublist (List.eraseIdx_sublist _ _)
  rcases Nat.lt_or_gt_of_ne hij with h | h
  · rw [max_eq_right (by omega), min_eq_left (by omega)]
    rw [max_eq_right (by omega)] at hnd'
    have ha' : (l.eraseIdx j)[i]? = some a := by
      rw [List.getElem?_eraseIdx_of_lt _ _ _ h]; exact ha
    rw [mem_eraseIdx_iff_ne hnd' ha', mem_eraseIdx_iff_ne hnd hb]
    tauto
  · rw [max_eq_left (by omega), min_eq_right (by omega)]
    rw [max_eq_left (by omega)] at hnd'
    have hb' : (l.eraseIdx i)[j]? = some b := by
      rw [List.getElem?_eraseIdx_of_lt _ _ _ h]; exact hb
    rw [mem_eraseIdx_iff_ne hnd' hb', mem_eraseIdx_iff_ne hnd ha]
    tauto

/-- Two different triangles of the mesh that own the edge make at least two owners. -/
theorem two_le_owners {l : List Triangle} {e : Edge} {a b : Triangle} (ha : a ∈ l)
    (hb : b ∈ l) (hab : a ≠ b) (hoa : ownsEdge a e) (hob : ownsEdge b e) :
    2 ≤ owners l e := by
  induction l with
  | nil => cases ha
  | cons t rest ih =>
    rw [owners_cons]
    have hmem : ∀ {c : Triangle}, c ∈ rest → ownsEdge c e → 1 ≤ owners rest e := by
      intro c hc hoc
      clear ih ha hb
      induction rest with
      | nil => cases hc
      | cons t' rest' ih' =>
        rw [owners_cons]
        rcases List.mem_cons.mp hc with rfl | h
        · simp [hoc]
        · have := ih' h
          omega
    rcases List.mem_cons.mp ha with rfl | ha' <;> rcases List.mem_cons.mp hb with rfl | hb'
    · exact absurd rfl hab
    · have := hmem hb' hob
      simp only [hoa, if_true]
      omega
    · have := hmem ha' hoa
      simp only [hob, if_true]
      omega
    · have := ih ha' hb'
      omega

/-- With at most two owners, a third triangle owning the edge is one of the two. -/
theorem owner_of_two {l : List Triangle} (hnd : l.Nodup) {e : Edge} {a b c : Triangle}
    (ha : a ∈ l) (hb : b ∈ l) (hc : c ∈ l) (hab : a ≠ b) (hoa : ownsEdge a e)
    (hob : ownsEdge b e) (hoc : ownsEdge c e) (h2 : owners l e = 2) : c = a ∨ c = b := by
  by_contra hcon
  push_neg at hcon
  have key : ∀ (l : List Triangle), l.Nodup → a ∈ l → b ∈ l → c ∈ l → 3 ≤ owners l e := by
    intro l
    induction l with
    | nil => intro _ h; cases h
    | cons t rest ih =>
      intro hnd ha hb hc
      rw [owners_cons]
      have hnd' := (List.nodup_cons.mp hnd).2
      rcases List.mem_cons.mp ha with rfl | ha'
      · have hb' : b ∈ rest := by
          rcases List.mem_cons.mp hb with h | h
          · exact absurd h.symm hab
          · exact h
        have hc' : c ∈ rest := by
          rcases List.mem_cons.mp hc with h | h
          · exact absurd h hcon.1
          · exact h
        have := two_le_owners hb' hc' (Ne.symm hcon.2) hob hoc
        simp only [hoa, if_true]
        omega
      · rcases List.mem_cons.mp hb with rfl | hb'
        · have hc' : c ∈ rest := by
            rcases List.mem_cons.mp hc with h | h
            · exact absurd h hcon.2
            · exact h
          have := two_le_owners ha' hc' (Ne.symm hcon.1) hoa hoc
          simp only [hob, if_true]
          omega
        · rcases List.mem_cons.mp hc with rfl | hc'
          · have := two_le_owners ha' hb' hab hoa hob
            simp only [hoc, if_true]
            omega
          · have := ih hnd' ha' hb' hc'
            omega
  have := key l hnd ha hb hc
  omega

/-- A function of three point indices that does not depend on their order takes the same
value on the stored vertex order of a triangle and on an edge followed by its apex. -/
theorem Triangle.transfer {α : Sort _} (f : Nat → Nat → Nat → α)
    (h12 : ∀ a b c, f b a c = f a b c) (h23 : ∀ a b c, f a c b = f a b c)
    {t : Triangle} {u v : Nat} (hu : t.hasVertex u) (hv : t.hasVertex v) (huv : u ≠ v) :
    f t.v0 t.v1 t.v2 = f u v (t.apex u v) := by
  rcases Triangle.perm_cases hu hv huv with h | h | h | h | h | h
  · rw [h.1, h.2.1, h.2.2]
  · rw [h.1, h.2.1, h.2.2, h12]
  · rw [h.1, h.2.1, h.2.2, h23]
  · rw [h.1, h.2.1, h.2.2, h23, h12]
  · rw [h.1, h.2.1, h.2.2, h12, h23]
  · rw [h.1, h.2.1, h.2.2, h12, h23, h12]

theorem Triangle.hasVertex_apex {t : Triangle} {u v : Nat} (hu : t.hasVertex u)
    (hv : t.hasVertex v) (huv : u ≠ v) : t.hasVertex (t.apex u v) := by
  unfold Triangle.hasVertex
  rcases Triangle.perm_cases hu hv huv with h | h | h | h | h | h
  · exact Or.inr (Or.inr h.2.2)
  · exact Or.inr (Or.inr h.2.2)
  · exact Or.inr (Or.inl h.2.2)
  · exact Or.inr (Or.inl h.2.2)
  · exact Or.inl h.2.2
  · exact Or.inl h.2.2

theorem Triangle.hasVertex_iff {t : Triangle} {u v : Nat} (hu : t.hasVertex u)
    (hv : t.hasVertex v) (huv : u ≠ v) (x : Nat) :
    t.hasVertex x ↔ x = u ∨ x = v ∨ x = t.apex u v := by
  unfold Triangle.hasVertex
  rcases Triangle.perm_cases hu hv huv with p | p | p | p | p | p <;>
  · rw [p.1, p.2.1, p.2.2]
    constructor <;> intro h <;> rcases h with h | h | h <;> simp [h]

theorem Triangle.hasVertex_mk3 (a b c x : Nat) :
    (Triangle.mk3 a b c).hasVertex x ↔ a = x ∨ b = x ∨ c = x := Iff.rfl

theorem Triangle.nondeg_edge (pt : Nat → Vector2f) {t : Triangle} {u v : Nat} (hu : t.hasVertex u)
    (hv : t.hasVertex v) (huv : u ≠ v) :
    t.nondeg pt ↔ orient (pt u) (pt v) (pt (t.apex u v)) ≠ 0 := by
  unfold Triangle.nondeg
  have := Triangle.transfer (fun a b c => orient (pt a) (pt b) (pt c) ≠ 0)
    (fun a b c => by simp only [orient_swap12 (pt a) (pt b) (pt c), ne_eq, neg_eq_zero])
    (fun a b c => by simp only [orient_swap23 (pt a) (pt b) (pt c), ne_eq, neg_eq_zero])
    hu hv huv
  simp only at this
  rw [this]

theorem Triangle.contains_edge (pt : Nat → Vector2f) {t : Triangle} {u v : Nat} (hu : t.hasVertex u)
    (hv : t.hasVertex v) (huv : u ≠ v) (x : Vector2f) :
    t.contains pt x ↔ strictlyInsideTriangle (pt u) (pt v) (pt (t.apex u v)) x := by
  unfold Triangle.contains
  have := Triangle.transfer (fun a b c => strictlyInsideTriangle (pt a) (pt b) (pt c) x)
    (fun a b c => propext (strictlyInsideTriangle_swap12 _ _ _ _))
    (fun a b c => propext (strictlyInsideTriangle_swap23 _ _ _ _))
    hu hv huv
  simp only at this
  rw [this]

theorem Triangle.inDisk_edge (pt : Nat → Vector2f) {t : Triangle} {u v : Nat} (hu : t.hasVertex u)
    (hv : t.hasVertex v) (huv : u ≠ v) (hn : t.nondeg pt) (q : Vector2f) :
    t.inDisk pt q ↔
      inCircle (pt u) (pt v) (pt (t.apex u v)) q * orient (pt u) (pt v) (pt (t.apex u v)) < 0 := by
  unfold Triangle.inDisk
  have := Triangle.transfer
    (fun a b c => orient (pt a) (pt b) (pt c) ≠ 0 ∧
      strictlyInsideCircumcircle q (pt a) (pt b) (pt c))
    (fun a b c => by
      apply propext
      constructor
      · rintro ⟨h0, h1⟩
        have h0' : orient (pt a) (pt b) (pt c) ≠ 0 := by
          rw [orient_swap12] at h0; exact neg_ne_zero.mp h0
        exact ⟨h0', (strictlyInsideCircumcircle_swap12 _ _ _ _ h0').mp h1⟩
      · rintro ⟨h0, h1⟩
        exact ⟨by rw [orient_swap12]; exact neg_ne_zero.mpr h0,
          (strictlyInsideCircumcircle_swap12 _ _ _ _ h0).mpr h1⟩)
    (fun a b c => by
      apply propext
      constructor
      · rintro ⟨h0, h1⟩
        have h0' : orient (pt a) (pt b) (pt c) ≠ 0 := by
          rw [orient_swap23] at h0; exact neg_ne_zero.mp h0
        exact ⟨h0', (strictlyInsideCircumcircle_swap23 _ _ _ _ h0').mp h1⟩
      · rintro ⟨h0, h1⟩
        exact ⟨by rw [orient_swap23]; exact neg_ne_zero.mpr h0,
          (strictlyInsideCircumcircle_swap23 _ _ _ _ h0).mpr h1⟩)
    hu hv huv
  simp only at this
  have hn' := (Triangle.nondeg_edge pt hu hv huv).mp hn
  have hn0 : orient (pt t.v0) (pt t.v1) (pt t.v2) ≠ 0 := hn
  constructor
  · intro h
    have h2 : orient (pt u) (pt v) (pt (t.apex u v)) ≠ 0 ∧
        strictlyInsideCircumcircle q (pt u) (pt v) (pt (t.apex u v)) := by
      rw [← this]; exact ⟨hn0, h⟩
    exact (strictlyInsideCircumcircle_iff _ _ _ _ hn').mp h2.2
  · intro h
    have h2 : orient (pt t.v0) (pt t.v1) (pt t.v2) ≠ 0 ∧
        strictlyInsideCircumcircle q (pt t.v0) (pt t.v1) (pt t.v2) := by
      rw [this]; exact ⟨hn', (strictlyInsideCircumcircle_iff _ _ _ _ hn').mpr h⟩
    exact h2.2

theorem Triangle.ccc_edge (pt : Nat → Vector2f) {t : Triangle} {u v : Nat} (hu : t.hasVertex u)
    (hv : t.hasVertex v) (huv : u ≠ v) (hn : t.nondeg pt) (q : Vector2f) :
    circumCircleContains q (pt t.v0) (pt t.v1) (pt t.v2) = true ↔
      inCircle (pt u) (pt v) (pt (t.apex u v)) q * orient (pt u) (pt v) (pt (t.apex u v)) ≤ 0 := by
  have := Triangle.transfer
    (fun a b c => orient (pt a) (pt b) (pt c) ≠ 0 ∧
      circumCircleContains q (pt a) (pt b) (pt c) = true)
    (fun a b c => by
      apply propext
      constructor
      · rintro ⟨h0, h1⟩
        have h0' : orient (pt a) (pt b) (pt c) ≠ 0 := by
          rw [orient_swap12] at h0; exact neg_ne_zero.mp h0
        exact ⟨h0', by rw [← circumCircleContains_swap12 _ _ _ _ h0']; exact h1⟩
      · rintro ⟨h0, h1⟩
        exact ⟨by rw [orient_swap12]; exact neg_ne_zero.mpr h0,
          by rw [circumCircleContains_swap12 _ _ _ _ h0]; exact h1⟩)
    (fun a b c => by
      apply propext
      constructor
      · rintro ⟨h0, h1⟩
        have h0' : orient (pt a) (pt b) (pt c) ≠ 0 := by
          rw [orient_swap23] at h0; exact neg_ne_zero.mp h0
        exact ⟨h0', by rw [← circumCircleContains_swap23 _ _ _ _ h0']; exact h1⟩
      · rintro ⟨h0, h1⟩
        exact ⟨by rw [orient_swap23]; exact neg_ne_zero.mpr h0,
          by rw [circumCircleContains_swap23 _ _ _ _ h0]; exact h1⟩)
    hu hv huv
  simp only at this
  have hn' := (Triangle.nondeg_edge pt hu hv huv).mp hn
  have hn0 : orient (pt t.v0) (pt t.v1) (pt t.v2) ≠ 0 := hn
  constructor
  · intro h
    have h2 : orient (pt u) (pt v) (pt (t.apex u v)) ≠ 0 ∧
        circumCircleContains q (pt u) (pt v) (pt (t.apex u v)) = true := by
      rw [← this]; exact ⟨hn0, h⟩
    exact (circumCircleContains_iff _ _ _ _ hn').mp h2.2
  · intro h
    have h2 : orient (pt t.v0) (pt t.v1) (pt t.v2) ≠ 0 ∧
        circumCircleContains q (pt t.v0) (pt t.v1) (pt t.v2) = true := by
      rw [this]; exact ⟨hn', (circumCircleContains_iff _ _ _ _ hn').mpr h⟩
    exact h2.2

theorem Triangle.pow_edge (pt : Nat → Vector2f) {t : Triangle} {u v : Nat} (hu : t.hasVertex u)
    (hv : t.hasVertex v) (huv : u ≠ v) (hn : t.nondeg pt) (q : Vector2f) :
    t.pow pt q * orient (pt u) (pt v) (pt (t.apex u v)) =
      inCircle (pt u) (pt v) (pt (t.apex u v)) q := by
  unfold Triangle.pow
  have := Triangle.transfer
    (fun a b c => orient (pt a) (pt b) (pt c) ≠ 0 →
      power (pt t.v0) (pt t.v1) (pt t.v2) q * orient (pt a) (pt b) (pt c)
        = inCircle (pt a) (pt b) (pt c) q)
    (fun a b c => by
      apply propext
      dsimp only
      rw [orient_swap12 (pt a) (pt b) (pt c), inCircle_swap12 (pt a) (pt b) (pt c) q]
      constructor
      · intro h h0
        have := h (neg_ne_zero.mpr h0)
        linarith
      · intro h h0
        have := h (neg_ne_zero.mp h0)
        linarith)
    (fun a b c => by
      apply propext
      dsimp only
      rw [orient_swap23 (pt a) (pt b) (pt c), inCircle_swap23 (pt a) (pt b) (pt c) q]
      constructor
      · intro h h0
        have := h (neg_ne_zero.mpr h0)
        linarith
      · intro h h0
        have := h (neg_ne_zero.mp h0)
        linarith)
    hu hv huv
  simp only at this
  have hn' := (Triangle.nondeg_edge pt hu hv huv).mp hn
  have h1 : orient (pt t.v0) (pt t.v1) (pt t.v2) ≠ 0 →
      power (pt t.v0) (pt t.v1) (pt t.v2) q * orient (pt t.v0) (pt t.v1) (pt t.v2)
        = inCircle (pt t.v0) (pt t.v1) (pt t.v2) q := fun h0 => power_mul _ _ _ _ h0
  rw [this] at h1
  exact h1 hn'

theorem Triangle.inDisk_iff_pow (pt : Nat → Vector2f) (t : Triangle) (q : Vector2f) :
    t.inDisk pt q ↔ t.pow pt q < 0 := by
  unfold Triangle.inDisk Triangle.pow
  exact (power_neg_iff _ _ _ _).symm

theorem exists_min_on {α : Type} (f : α → ℚ) :
    ∀ (l : List α) (a : α), a ∈ l → ∃ m ∈ l, ∀ b ∈ l, f m ≤ f b := by
  intro l
  induction l with
  | nil => intro a h; cases h
  | cons t rest ih =>
    intro a _
    cases rest with
    | nil => exact ⟨t, by simp, by simp⟩
    | cons t' rest' =>
      obtain ⟨m, hm, hmin⟩ := ih t' (by simp)
      by_cases h : f t ≤ f m
      · refine ⟨t, by simp, ?_⟩
        intro b hb
        rcases List.mem_cons.mp hb with rfl | hb'
        · exact le_refl _
        · exact le_trans h (hmin b hb')
      · refine ⟨m, List.mem_cons_of_mem _ hm, ?_⟩
        intro b hb
        rcases List.mem_cons.mp hb with rfl | hb'
        · exact le_of_lt (not_le.mp h)
        · exact hmin b hb'

theorem Triangle.distinct_of_nondeg {pt : Nat → Vector2f} {t : Triangle} (h : t.nondeg pt) :
    t.v0 ≠ t.v1 ∧ t.v0 ≠ t.v2 ∧ t.v1 ≠ t.v2 := by
  unfold Triangle.nondeg at h
  refine ⟨?_, ?_, ?_⟩
  · intro e; rw [e] at h; exact h (orient_self_left _ _)
  · intro e; rw [e] at h; exact h (orient_self_outer _ _)
  · intro e; rw [e] at h; exact h (orient_self_right _ _)

theorem Triangle.pow_vertex {pt : Nat → Vector2f}
    {t : Triangle} (h : t.nondeg pt) {i : Nat} (hi : t.hasVertex i) :
    t.pow pt (pt i) = 0 := by
  unfold Triangle.pow power
  obtain ⟨e1, e2⟩ := circum_equidistant (pt t.v0) (pt t.v1) (pt t.v2) h
  rcases hi with e | e | e
  · rw [← e]; ring
  · rw [← e, e1]; ring
  · rw [← e, e2]; ring

/-- The apex over an edge is a valid index different from both ends. -/
theorem MeshInv.apex_facts {pt : Nat → Vector2f} {n : Nat}
    {mesh : List Triangle} {queue : List Edge}
    (hinv : MeshInv pt n mesh queue) {t : Triangle} (ht : t ∈ mesh) {u v : Nat}
    (hu : t.hasVertex u) (hv : t.hasVertex v) (huv : u ≠ v) :
    u < n ∧ v < n ∧ t.apex u v < n ∧ t.apex u v ≠ u ∧ t.apex u v ≠ v ∧
      orient (pt u) (pt v) (pt (t.apex u v)) ≠ 0 := by
  obtain ⟨h0, h1, h2, hn⟩ := hinv.valid t ht
  have hlt : ∀ x, t.hasVertex x → x < n := by
    intro x hx
    rcases hx with e | e | e <;> rw [← e] <;> assumption
  have hne := (Triangle.nondeg_edge pt hu hv huv).mp hn
  refine ⟨hlt u hu, hlt v hv, hlt _ (Triangle.hasVertex_apex hu hv huv), ?_, ?_, hne⟩
  · intro e; rw [e] at hne; exact hne (orient_self_outer _ _)
  · intro e; rw [e] at hne; exact hne (orient_self_right _ _)

/-- When the queue is empty the mesh has the Delaunay property. -/
theorem MeshInv.empty_disks {pt : Nat → Vector2f} {n : Nat}
    {mesh : List Triangle} (hinv : MeshInv pt n mesh [])
    (hp : PointFacts pt n) :
    ∀ t ∈ mesh, ∀ i, i < n → ¬ t.hasVertex i → ¬ t.inDisk pt (pt i) := by
  intro t ht i hi hti hin
  obtain ⟨m, hm, hmin⟩ := exists_min_on (fun s => s.pow pt (pt i)) mesh t ht
  have hpt : t.pow pt (pt i) < 0 := (Triangle.inDisk_iff_pow pt t _).mp hin
  have hpm : m.pow pt (pt i) < 0 := lt_of_le_of_lt (hmin t ht) hpt
  obtain ⟨m0, m1, m2, mn⟩ := hinv.valid m hm
  obtain ⟨d01, d02, d12⟩ := Triangle.distinct_of_nondeg mn
  have hmi : ¬ m.hasVertex i := by
    intro h
    rw [Triangle.pow_vertex mn h] at hpm
    exact lt_irrefl _ hpm
  have hi0 : i ≠ m.v0 := fun e => hmi (Or.inl e.symm)
  have hi1 : i ≠ m.v1 := fun e => hmi (Or.inr (Or.inl e.symm))
  have hi2 : i ≠ m.v2 := fun e => hmi (Or.inr (Or.inr e.symm))
  have hnc := hinv.empty m hm i hi hmi
  -- the common step: an edge with the point strictly beyond it
  have step : ∀ u v, u ≠ v → m.hasVertex u → m.hasVertex v →
      orient (pt u) (pt v) (pt i) * orient (pt u) (pt v) (pt (m.apex u v)) < 0 → False := by
    intro u v huv hu hv hbeyond
    obtain ⟨un, vn, wn, wu, wv, wo⟩ := hinv.apex_facts hm hu hv huv
    have hiu : i ≠ u := by
      intro e; rw [e] at hbeyond; rw [orient_self_outer] at hbeyond; simp at hbeyond
    have hiv : i ≠ v := by
      intro e; rw [e] at hbeyond; rw [orient_self_right] at hbeyond; simp at hbeyond
    rcases hinv.nbr m hm u v huv hu hv with ⟨u3, v3⟩ | ⟨s, hs, hsm, hsu, hsv⟩
    · have := hp.hull u v u3 v3 huv i (m.apex u v) hi wn hiu hiv wu wv
      linarith
    · obtain ⟨_, _, xn, xu, xv, xo⟩ := hinv.apex_facts hs hsu hsv huv
      have hopp := hinv.opp m hm s hs (Ne.symm hsm) u v huv hu hv hsu hsv
      have hwx : m.apex u v ≠ s.apex u v := by
        intro e
        rw [e] at hopp
        have := mul_self_nonneg (orient (pt u) (pt v) (pt (s.apex u v)))
        linarith
      have hleg := hinv.legal m hm s hs (Ne.symm hsm) u v huv hu hv hsu hsv
      simp only [List.not_mem_nil, or_false] at hleg
      rw [Triangle.inDisk_edge pt hu hv huv mn] at hleg
      have h4 := hp.no4 u v (m.apex u v) (s.apex u v) un vn wn xn huv (Ne.symm wu)
        (Ne.symm xu) (Ne.symm wv) (Ne.symm xv) hwx
      have hout : 0 < inCircle (pt u) (pt v) (pt (m.apex u v)) (pt (s.apex u v)) *
          orient (pt u) (pt v) (pt (m.apex u v)) := by
        rcases lt_trichotomy (inCircle (pt u) (pt v) (pt (m.apex u v)) (pt (s.apex u v)) *
          orient (pt u) (pt v) (pt (m.apex u v))) 0 with h | h | h
        · exact absurd h hleg
        · rcases mul_eq_zero.mp h with h' | h'
          · exact absurd h' h4
          · exact absurd h' wo
        · exact h
      have hdec := power_decrease (pt u) (pt v) (pt (m.apex u v)) (pt (s.apex u v)) (pt i)
        hopp hout hbeyond
      obtain ⟨_, _, _, sn⟩ := hinv.valid s hs
      have e1 := Triangle.pow_edge pt hu hv huv mn (pt i)
      have e2 := Triangle.pow_edge pt hsu hsv huv sn (pt i)
      rw [← power_mul _ _ _ _ wo] at e1
      rw [← power_mul _ _ _ _ xo] at e2
      have f1 : m.pow pt (pt i) = power (pt u) (pt v) (pt (m.apex u v)) (pt i) :=
        mul_right_cancel₀ wo e1
      have f2 : s.pow pt (pt i) = power (pt u) (pt v) (pt (s.apex u v)) (pt i) :=
        mul_right_cancel₀ xo e2
      have := hmin s hs
      simp only at this
      rw [f1, f2] at this
      linarith
  have o01 := hp.no3 m.v0 m.v1 i m0 m1 hi d01 (Ne.symm hi0) (Ne.symm hi1)
  have o12 := hp.no3 m.v1 m.v2 i m1 m2 hi d12 (Ne.symm hi1) (Ne.symm hi2)
  have o20 := hp.no3 m.v2 m.v0 i m2 m0 hi (Ne.symm d02) (Ne.symm hi2) (Ne.symm hi0)
  have a01 : m.apex m.v0 m.v1 = m.v2 := by unfold Triangle.apex; omega
  have a12 : m.apex m.v1 m.v2 = m.v0 := by unfold Triangle.apex; omega
  have a20 : m.apex m.v2 m.v0 = m.v1 := by unfold Triangle.apex; omega
  rcases exists_outer_edge mn hnc o01 o12 o20 with h | h | h
  · exact step m.v0 m.v1 d01 (Or.inl rfl) (Or.inr (Or.inl rfl)) (by rw [a01]; exact h)
  · refine step m.v1 m.v2 d12 (Or.inr (Or.inl rfl)) (Or.inr (Or.inr rfl)) ?_
    rw [a12, orient_cyc (pt m.v0) (pt m.v1) (pt m.v2)]; exact h
  · refine step m.v2 m.v0 (Ne.symm d02) (Or.inr (Or.inr rfl)) (Or.inl rfl) ?_
    rw [a20, ← orient_cyc (pt m.v2) (pt m.v0) (pt m.v1)]; exact h

theorem Triangle.apex_unique {t : Triangle} {x y z : Nat} (hx : t.hasVertex x)
    (hy : t.hasVertex y) (hz : t.hasVertex z) (hxy : x ≠ y) (hzx : z ≠ x) (hzy : z ≠ y) :
    t.apex x y = z := by
  rcases (Triangle.hasVertex_iff hx hy hxy z).mp hz with h | h | h
  · exact absurd h hzx
  · exact absurd h hzy
  · exact h.symm

/-- Removing the edge at the back of the queue keeps the invariant when every pair of
neighbours across that edge passes the in-circle test. -/
theorem MeshInv.of_pop {pt : Nat → Vector2f} {n : Nat}
    {mesh : List Triangle} {q : List Edge} {cur : Edge}
    (hinv : MeshInv pt n mesh (q ++ [cur]))
    (hleg : ∀ t ∈ mesh, ∀ s ∈ mesh, t ≠ s → ownsEdge t cur → ownsEdge s cur →
      ¬ t.inDisk pt (pt (s.apex cur.1 cur.2))) :
    MeshInv pt n mesh q where
  nodup := hinv.nodup
  valid := hinv.valid
  opp := hinv.opp
  nbr := hinv.nbr
  empty := hinv.empty
  disjoint := hinv.disjoint
  legal := by
    intro t ht s hs hts u v huv tu tv su sv
    rcases hinv.legal t ht s hs hts u v huv tu tv su sv with h | h | h
    · exact Or.inl h
    · rcases List.mem_append.mp h with h | h
      · exact Or.inr (Or.inl h)
      · left
        have e : cur = (u, v) := (List.mem_singleton.mp h).symm
        subst e
        exact hleg t ht s hs hts ⟨tu, tv⟩ ⟨su, sv⟩
    · rcases List.mem_append.mp h with h | h
      · exact Or.inr (Or.inr h)
      · left
        have e : cur = (v, u) := (List.mem_singleton.mp h).symm
        subst e
        have := hleg t ht s hs hts ⟨tv, tu⟩ ⟨sv, su⟩
        rw [Triangle.apex_comm] at this
        exact this
  ends := fun e he => hinv.ends e (List.mem_append_left _ he)

/-- The invariant is kept when the queue is replaced by one that holds the same edges up to
direction. -/
theorem MeshInv.requeue {pt : Nat → Vector2f} {n : Nat} {mesh : List Triangle} {q q' : List Edge}
    (hinv : MeshInv pt n mesh q)
    (hsub : ∀ x y, (x, y) ∈ q → (x, y) ∈ q' ∨ (y, x) ∈ q')
    (hends : ∀ e ∈ q', e.1 ≠ e.2) :
    MeshInv pt n mesh q' where
  nodup := hinv.nodup
  valid := hinv.valid
  opp := hinv.opp
  nbr := hinv.nbr
  empty := hinv.empty
  disjoint := hinv.disjoint
  legal := by
    intro t ht s hs hts u v huv tu tv su sv
    rcases hinv.legal t ht s hs hts u v huv tu tv su sv with h | h | h
    · exact Or.inl h
    · exact Or.inr (hsub u v h)
    · exact Or.inr ((hsub v u h).symm)
  ends := hends

theorem FlipCtx.apex0 {pt : Nat → Vector2f} {n : Nat} {mesh : List Triangle} {q : List Edge}
    {u v a d : Nat} {T0 N : Triangle}
    (c : FlipCtx pt n mesh q u v a d T0 N) : T0.apex u v = a :=
  Triangle.apex_unique c.u0 c.v0 c.a0 c.huv c.au c.av

theorem FlipCtx.apexN {pt : Nat → Vector2f} {n : Nat} {mesh : List Triangle} {q : List Edge}
    {u v a d : Nat} {T0 N : Triangle}
    (c : FlipCtx pt n mesh q u v a d T0 N) : N.apex u v = d :=
  Triangle.apex_unique c.uN c.vN c.dN c.huv c.du c.dv

theorem FlipCtx.hopp {pt : Nat → Vector2f} {n : Nat} {mesh : List Triangle} {q : List Edge}
    {u v a d : Nat} {T0 N : Triangle}
    (c : FlipCtx pt n mesh q u v a d T0 N) :
    orient (pt u) (pt v) (pt a) * orient (pt u) (pt v) (pt d) < 0 := by
  have := c.inv.opp T0 c.mem0 N c.memN c.ne u v c.huv c.u0 c.v0 c.uN c.vN
  rw [c.apex0, c.apexN] at this
  exact this

theorem FlipCtx.ad {pt : Nat → Vector2f} {n : Nat} {mesh : List Triangle} {q : List Edge}
    {u v a d : Nat} {T0 N : Triangle}
    (c : FlipCtx pt n mesh q u v a d T0 N) : a ≠ d := by
  intro e
  have := c.hopp
  rw [e] at this
  have := mul_self_nonneg (orient (pt u) (pt v) (pt d))
  linarith

theorem FlipCtx.index_lt {pt : Nat → Vector2f} {n : Nat} {mesh : List Triangle} {q : List Edge}
    {u v a d : Nat} {T0 N : Triangle}
    (c : FlipCtx pt n mesh q u v a d T0 N) : u < n ∧ v < n ∧ a < n ∧ d < n := by
  obtain ⟨h1, h2, h3, _⟩ := c.inv.apex_facts c.mem0 c.u0 c.v0 c.huv
  obtain ⟨_, _, h4, _⟩ := c.inv.apex_facts c.memN c.uN c.vN c.huv
  rw [c.apex0] at h3
  rw [c.apexN] at h4
  exact ⟨h1, h2, h3, h4⟩

theorem FlipCtx.iff0 {pt : Nat → Vector2f} {n : Nat} {mesh : List Triangle} {q : List Edge}
    {u v a d : Nat} {T0 N : Triangle}
    (c : FlipCtx pt n mesh q u v a d T0 N) (x : Nat) :
    T0.hasVertex x ↔ x = u ∨ x = v ∨ x = a := by
  rw [Triangle.hasVertex_iff c.u0 c.v0 c.huv x, c.apex0]

theorem FlipCtx.iffN {pt : Nat → Vector2f} {n : Nat} {mesh : List Triangle} {q : List Edge}
    {u v a d : Nat} {T0 N : Triangle}
    (c : FlipCtx pt n mesh q u v a d T0 N) (x : Nat) :
    N.hasVertex x ↔ x = u ∨ x = v ∨ x = d := by
  rw [Triangle.hasVertex_iff c.uN c.vN c.huv x, c.apexN]

theorem FlipCtx.convex {pt : Nat → Vector2f} {n : Nat} {mesh : List Triangle} {q : List Edge}
    {u v a d : Nat} {T0 N : Triangle}
    (c : FlipCtx pt n mesh q u v a d T0 N) :
    0 < orient (pt a) (pt u) (pt v) * orient (pt a) (pt u) (pt d) ∧
    0 < orient (pt a) (pt v) (pt u) * orient (pt a) (pt v) (pt d) ∧
    0 < orient (pt d) (pt u) (pt v) * orient (pt d) (pt u) (pt a) ∧
    0 < orient (pt d) (pt v) (pt u) * orient (pt d) (pt v) (pt a) ∧
    orient (pt a) (pt d) (pt u) * orient (pt a) (pt d) (pt v) < 0 :=
  flip_convex _ _ _ _ c.hopp c.inside

/-- The same situation seen with the edge in the other direction. -/
theorem FlipCtx.swap {pt : Nat → Vector2f} {n : Nat} {mesh : List Triangle} {q : List Edge}
    {u v a d : Nat} {T0 N : Triangle}
    (c : FlipCtx pt n mesh q u v a d T0 N) : FlipCtx pt n mesh q v u a d T0 N where
  inv := by
    apply c.inv.requeue
    · intro x y h
      rcases List.mem_append.mp h with h | h
      · exact Or.inl (List.mem_append_left _ h)
      · right
        have e := List.mem_singleton.mp h
        have e1 : x = u := congrArg Prod.fst e
        have e2 : y = v := congrArg Prod.snd e
        rw [e1, e2]
        exact List.mem_append_right _ (List.mem_singleton.mpr rfl)
    · intro e he
      rcases List.mem_append.mp he with h | h
      · exact c.inv.ends e (List.mem_append_left _ h)
      · rw [List.mem_singleton.mp h]
        exact c.huv.symm
  facts := c.facts
  mem0 := c.mem0
  memN := c.memN
  ne := c.ne
  huv := c.huv.symm
  u0 := c.v0
  v0 := c.u0
  a0 := c.a0
  uN := c.vN
  vN := c.uN
  dN := c.dN
  au := c.av
  av := c.au
  du := c.dv
  dv := c.du
  two := by
    have := c.two
    unfold owners at this ⊢
    simp only at this ⊢
    rw [← this]
    congr 1
    apply List.filter_congr
    intro t _
    exact Bool.and_comm _ _
  inside := by
    have := c.inside
    rw [inCircle_swap12, orient_swap12, neg_mul_neg]
    exact this

/-- No other triangle owns the flipped edge. -/
theorem FlipCtx.no_uv {pt : Nat → Vector2f} {n : Nat} {mesh : List Triangle} {q : List Edge}
    {u v a d : Nat} {T0 N : Triangle}
    (c : FlipCtx pt n mesh q u v a d T0 N) {τ : Triangle} (hτ : τ ∈ mesh)
    (h0 : τ ≠ T0) (hN : τ ≠ N) (hu : τ.hasVertex u) (hv : τ.hasVertex v) : False := by
  have := owner_of_two c.inv.nodup c.mem0 c.memN hτ c.ne ⟨c.u0, c.v0⟩ ⟨c.uN, c.vN⟩
    ⟨hu, hv⟩ c.two
  rcases this with h | h
  · exact h0 h
  · exact hN h

/-- No triangle of the mesh has both apexes as vertices. -/
theorem FlipCtx.no_ad {pt : Nat → Vector2f} {n : Nat} {mesh : List Triangle} {q : List Edge}
    {u v a d : Nat} {T0 N : Triangle}
    (c : FlipCtx pt n mesh q u v a d T0 N) {τ : Triangle} (hτ : τ ∈ mesh)
    (ha : τ.hasVertex a) (hd : τ.hasVertex d) : False := by
  have hne : τ ≠ T0 := by
    intro e
    rw [e] at hd
    rcases (c.iff0 d).mp hd with h | h | h
    · exact c.du h
    · exact c.dv h
    · exact c.ad h.symm
  obtain ⟨_, _, _, _, _, hz⟩ := c.inv.apex_facts hτ ha hd c.ad
  obtain ⟨c1, c2, _, _, _⟩ := c.convex
  obtain ⟨x, hx0, hx1⟩ := crossing_overlap c.hopp c1 c2 hz
  apply c.inv.disjoint T0 c.mem0 τ hτ (Ne.symm hne) x
  constructor
  · rw [Triangle.contains_edge pt c.u0 c.v0 c.huv, c.apex0]
    exact hx0
  · rw [Triangle.contains_edge pt ha hd c.ad]
    exact hx1

theorem opp_reverse {pt : Nat → Vector2f} (S τ : Triangle) (x y : Nat)
    (h : orient (pt x) (pt y) (pt (S.apex x y)) * orient (pt x) (pt y) (pt (τ.apex x y)) < 0) :
    orient (pt y) (pt x) (pt (S.apex y x)) * orient (pt y) (pt x) (pt (τ.apex y x)) < 0 := by
  rw [Triangle.apex_comm S y x, Triangle.apex_comm τ y x,
    orient_swap12 (pt x) (pt y) (pt (S.apex x y)), orient_swap12 (pt x) (pt y) (pt (τ.apex x y)),
    neg_mul_neg]
  exact h

theorem FlipCtx.apex0_au {pt : Nat → Vector2f} {n : Nat} {mesh : List Triangle} {q : List Edge}
    {u v a d : Nat} {T0 N : Triangle}
    (c : FlipCtx pt n mesh q u v a d T0 N) : T0.apex a u = v :=
  Triangle.apex_unique c.a0 c.u0 c.v0 c.au (Ne.symm c.av) (Ne.symm c.huv)

theorem FlipCtx.apexN_ud {pt : Nat → Vector2f} {n : Nat} {mesh : List Triangle} {q : List Edge}
    {u v a d : Nat} {T0 N : Triangle}
    (c : FlipCtx pt n mesh q u v a d T0 N) : N.apex u d = v :=
  Triangle.apex_unique c.uN c.dN c.vN (Ne.symm c.du) (Ne.symm c.huv) (Ne.symm c.dv)

theorem FlipCtx.not0_d {pt : Nat → Vector2f} {n : Nat} {mesh : List Triangle} {q : List Edge}
    {u v a d : Nat} {T0 N : Triangle}
    (c : FlipCtx pt n mesh q u v a d T0 N) : ¬ T0.hasVertex d := by
  intro h
  rcases (c.iff0 d).mp h with h | h | h
  · exact c.du h
  · exact c.dv h
  · exact c.ad h.symm

theorem FlipCtx.notN_a {pt : Nat → Vector2f} {n : Nat} {mesh : List Triangle} {q : List Edge}
    {u v a d : Nat} {T0 N : Triangle}
    (c : FlipCtx pt n mesh q u v a d T0 N) : ¬ N.hasVertex a := by
  intro h
  rcases (c.iffN a).mp h with h | h | h
  · exact c.au h
  · exact c.av h
  · exact c.ad h

theorem FlipCtx.new_a {pt : Nat → Vector2f} {n : Nat} {mesh : List Triangle} {q : List Edge}
    {u v a d : Nat} {T0 N : Triangle} {S : Triangle}
    (_ : FlipCtx pt n mesh q u v a d T0 N)
    (hS : ∀ x, S.hasVertex x ↔ x = a ∨ x = u ∨ x = d) : S.hasVertex a :=
  (hS a).mpr (Or.inl rfl)

theorem FlipCtx.new_u {pt : Nat → Vector2f} {n : Nat} {mesh : List Triangle} {q : List Edge}
    {u v a d : Nat} {T0 N : Triangle} {S : Triangle}
    (_ : FlipCtx pt n mesh q u v a d T0 N)
    (hS : ∀ x, S.hasVertex x ↔ x = a ∨ x = u ∨ x = d) : S.hasVertex u :=
  (hS u).mpr (Or.inr (Or.inl rfl))

theorem FlipCtx.new_d {pt : Nat → Vector2f} {n : Nat} {mesh : List Triangle} {q : List Edge}
    {u v a d : Nat} {T0 N : Triangle} {S : Triangle}
    (_ : FlipCtx pt n mesh q u v a d T0 N)
    (hS : ∀ x, S.hasVertex x ↔ x = a ∨ x = u ∨ x = d) : S.hasVertex d :=
  (hS d).mpr (Or.inr (Or.inr rfl))

theorem FlipCtx.new_not_v {pt : Nat → Vector2f} {n : Nat} {mesh : List Triangle} {q : List Edge}
    {u v a d : Nat} {T0 N : Triangle} {S : Triangle}
    (c : FlipCtx pt n mesh q u v a d T0 N)
    (hS : ∀ x, S.hasVertex x ↔ x = a ∨ x = u ∨ x = d) : ¬ S.hasVertex v := by
  intro h
  rcases (hS v).mp h with h | h | h
  · exact c.av h.symm
  · exact c.huv h.symm
  · exact c.dv h.symm

theorem FlipCtx.new_apex_au {pt : Nat → Vector2f} {n : Nat} {mesh : List Triangle} {q : List Edge}
    {u v a d : Nat} {T0 N : Triangle} {S : Triangle}
    (c : FlipCtx pt n mesh q u v a d T0 N)
    (hS : ∀ x, S.hasVertex x ↔ x = a ∨ x = u ∨ x = d) : S.apex a u = d :=
  Triangle.apex_unique (c.new_a hS) (c.new_u hS) (c.new_d hS) c.au (Ne.symm c.ad) c.du

theorem FlipCtx.new_apex_ud {pt : Nat → Vector2f} {n : Nat} {mesh : List Triangle} {q : List Edge}
    {u v a d : Nat} {T0 N : Triangle} {S : Triangle}
    (c : FlipCtx pt n mesh q u v a d T0 N)
    (hS : ∀ x, S.hasVertex x ↔ x = a ∨ x = u ∨ x = d) : S.apex u d = a :=
  Triangle.apex_unique (c.new_u hS) (c.new_d hS) (c.new_a hS) (Ne.symm c.du) c.au c.ad

theorem FlipCtx.new_apex_ad {pt : Nat → Vector2f} {n : Nat} {mesh : List Triangle} {q : List Edge}
    {u v a d : Nat} {T0 N : Triangle} {S : Triangle}
    (c : FlipCtx pt n mesh q u v a d T0 N)
    (hS : ∀ x, S.hasVertex x ↔ x = a ∨ x = u ∨ x = d) : S.apex a d = u :=
  Triangle.apex_unique (c.new_a hS) (c.new_d hS) (c.new_u hS) c.ad (Ne.symm c.au)
    (Ne.symm c.du)

theorem FlipCtx.new_valid {pt : Nat → Vector2f} {n : Nat} {mesh : List Triangle} {q : List Edge}
    {u v a d : Nat} {T0 N : Triangle} {S : Triangle}
    (c : FlipCtx pt n mesh q u v a d T0 N)
    (hS : ∀ x, S.hasVertex x ↔ x = a ∨ x = u ∨ x = d) :
    S.v0 < n ∧ S.v1 < n ∧ S.v2 < n ∧ S.nondeg pt := by
  obtain ⟨un, vn, an, dn⟩ := c.index_lt
  have hlt : ∀ x, S.hasVertex x → x < n := by
    intro x hx
    rcases (hS x).mp hx with h | h | h <;> rw [h] <;> assumption
  refine ⟨hlt _ (Or.inl rfl), hlt _ (Or.inr (Or.inl rfl)), hlt _ (Or.inr (Or.inr rfl)), ?_⟩
  rw [Triangle.nondeg_edge pt (c.new_a hS) (c.new_u hS) c.au, c.new_apex_au hS]
  obtain ⟨c1, _⟩ := c.convex
  intro e
  rw [e] at c1
  simp at c1

theorem FlipCtx.new_contains {pt : Nat → Vector2f} {n : Nat} {mesh : List Triangle} {q : List Edge}
    {u v a d : Nat} {T0 N : Triangle} {S : Triangle}
    (c : FlipCtx pt n mesh q u v a d T0 N)
    (hS : ∀ x, S.hasVertex x ↔ x = a ∨ x = u ∨ x = d) (x : Vector2f) :
    S.contains pt x ↔ strictlyInsideTriangle (pt a) (pt u) (pt d) x := by
  rw [Triangle.contains_edge pt (c.new_a hS) (c.new_u hS) c.au, c.new_apex_au hS]

theorem FlipCtx.new_inside0 {pt : Nat → Vector2f} {n : Nat} {mesh : List Triangle} {q : List Edge}
    {u v a d : Nat} {T0 N : Triangle} {S : Triangle}
    (c : FlipCtx pt n mesh q u v a d T0 N)
    (hS : ∀ x, S.hasVertex x ↔ x = a ∨ x = u ∨ x = d) {x : Vector2f}
    (hx : S.contains pt x) (hside : 0 < orient (pt u) (pt v) (pt a) * orient (pt u) (pt v) x) :
    T0.contains pt x := by
  obtain ⟨c1, c2, _⟩ := c.convex
  rw [Triangle.contains_edge pt c.u0 c.v0 c.huv, c.apex0]
  exact flip_inside c1 c2 ((c.new_contains hS x).mp hx) hside

theorem FlipCtx.new_insideN {pt : Nat → Vector2f} {n : Nat} {mesh : List Triangle} {q : List Edge}
    {u v a d : Nat} {T0 N : Triangle} {S : Triangle}
    (c : FlipCtx pt n mesh q u v a d T0 N)
    (hS : ∀ x, S.hasVertex x ↔ x = a ∨ x = u ∨ x = d) {x : Vector2f}
    (hx : S.contains pt x) (hside : 0 < orient (pt u) (pt v) (pt d) * orient (pt u) (pt v) x) :
    N.contains pt x := by
  obtain ⟨_, _, c3, c4, _⟩ := c.convex
  rw [Triangle.contains_edge pt c.uN c.vN c.huv, c.apexN]
  have hx' : strictlyInsideTriangle (pt d) (pt u) (pt a) x := by
    rw [strictlyInsideTriangle_swap12 (pt u) (pt d) (pt a) x,
      strictlyInsideTriangle_cyc (pt a) (pt u) (pt d) x]
    exact (c.new_contains hS x).mp hx
  exact flip_inside c3 c4 hx' hside

theorem FlipCtx.new_empty {pt : Nat → Vector2f} {n : Nat} {mesh : List Triangle} {q : List Edge}
    {u v a d : Nat} {T0 N : Triangle} {S : Triangle}
    (c : FlipCtx pt n mesh q u v a d T0 N)
    (hS : ∀ x, S.hasVertex x ↔ x = a ∨ x = u ∨ x = d) :
    ∀ i, i < n → ¬ S.hasVertex i → ¬ S.contains pt (pt i) := by
  intro i hi hSi hin
  obtain ⟨un, vn, an, dn⟩ := c.index_lt
  have hia : i ≠ a := fun e => hSi ((hS i).mpr (Or.inl e))
  have hiu : i ≠ u := fun e => hSi ((hS i).mpr (Or.inr (Or.inl e)))
  have hid : i ≠ d := fun e => hSi ((hS i).mpr (Or.inr (Or.inr e)))
  obtain ⟨_, _, _, _, c5⟩ := c.convex
  have hiv : i ≠ v := by
    intro e
    rw [e] at hin
    have h := (strictlyInsideTriangle_iff _ _ _ _).mp ((c.new_contains hS _).mp hin)
    have h3 := h.2.2
    have e1 : orient (pt a) (pt u) (pt d) = -orient (pt a) (pt d) (pt u) := orient_swap23 _ _ _
    have e2 : orient (pt d) (pt a) (pt v) = -orient (pt a) (pt d) (pt v) := orient_swap12 _ _ _
    rw [e1, e2, neg_mul_neg] at h3
    linarith
  have h3 := c.facts.no3 u v i un vn hi c.huv (Ne.symm hiu) (Ne.symm hiv)
  have hopp := c.hopp
  have hOa : orient (pt u) (pt v) (pt a) ≠ 0 := by
    intro e; rw [e] at hopp; simp at hopp
  rcases lt_or_gt_of_ne (mul_ne_zero hOa h3) with h | h
  · have hd : 0 < orient (pt u) (pt v) (pt d) * orient (pt u) (pt v) (pt i) :=
      opp_opp_same (by rw [mul_comm]; exact hopp) h
    refine c.inv.empty N c.memN i hi ?_ (c.new_insideN hS hin hd)
    intro hN
    rcases (c.iffN i).mp hN with e | e | e
    · exact hiu e
    · exact hiv e
    · exact hid e
  · refine c.inv.empty T0 c.mem0 i hi ?_ (c.new_inside0 hS hin h)
    intro h0
    rcases (c.iff0 i).mp h0 with e | e | e
    · exact hiu e
    · exact hiv e
    · exact hia e

theorem FlipCtx.new_disjoint {pt : Nat → Vector2f} {n : Nat} {mesh : List Triangle} {q : List Edge}
    {u v a d : Nat} {T0 N : Triangle} {S : Triangle}
    (c : FlipCtx pt n mesh q u v a d T0 N)
    (hS : ∀ x, S.hasVertex x ↔ x = a ∨ x = u ∨ x = d) {τ : Triangle} (hτ : τ ∈ mesh)
    (h0 : τ ≠ T0) (hN : τ ≠ N) (x : Vector2f) : ¬ (S.contains pt x ∧ τ.contains pt x) := by
  rintro ⟨hSx, hτx⟩
  have hopp := c.hopp
  have hOa : orient (pt u) (pt v) (pt a) ≠ 0 := by
    intro e; rw [e] at hopp; simp at hopp
  rcases lt_trichotomy (orient (pt u) (pt v) (pt a) * orient (pt u) (pt v) x) 0 with h | h | h
  · have hd : 0 < orient (pt u) (pt v) (pt d) * orient (pt u) (pt v) x :=
      opp_opp_same (by rw [mul_comm]; exact hopp) h
    exact c.inv.disjoint N c.memN τ hτ (Ne.symm hN) x ⟨c.new_insideN hS hSx hd, hτx⟩
  · have hx0 : orient (pt u) (pt v) x = 0 := by
      rcases mul_eq_zero.mp h with h | h
      · exact absurd h hOa
      · exact h
    obtain ⟨d1, p1, _, s1⟩ := inside_small_step hSx (pt a)
    obtain ⟨d2, p2, _, s2⟩ := inside_small_step hτx (pt a)
    have hm : 0 < min d1 d2 := lt_min p1 p2
    have hS' : S.contains pt (lerp x (pt a) (min d1 d2)) := s1 _ hm (min_le_left _ _)
    have hτ' : τ.contains pt (lerp x (pt a) (min d1 d2)) := s2 _ hm (min_le_right _ _)
    have hside : 0 < orient (pt u) (pt v) (pt a) *
        orient (pt u) (pt v) (lerp x (pt a) (min d1 d2)) := by
      rw [orient_lerp', hx0]
      have : orient (pt u) (pt v) (pt a) * ((1 - min d1 d2) * 0 +
          min d1 d2 * orient (pt u) (pt v) (pt a)) =
          min d1 d2 * (orient (pt u) (pt v) (pt a) * orient (pt u) (pt v) (pt a)) := by ring
      rw [this]
      exact mul_pos hm (mul_self_pos.mpr hOa)
    exact c.inv.disjoint T0 c.mem0 τ hτ (Ne.symm h0) _ ⟨c.new_inside0 hS hS' hside, hτ'⟩
  · exact c.inv.disjoint T0 c.mem0 τ hτ (Ne.symm h0) x ⟨c.new_inside0 hS hSx h, hτx⟩

/-- The edges a new triangle can share with a triangle that stays. -/
theorem FlipCtx.new_shared {pt : Nat → Vector2f} {n : Nat} {mesh : List Triangle} {q : List Edge}
    {u v a d : Nat} {T0 N : Triangle} {S : Triangle}
    (c : FlipCtx pt n mesh q u v a d T0 N)
    (hS : ∀ x, S.hasVertex x ↔ x = a ∨ x = u ∨ x = d) {τ : Triangle} (hτ : τ ∈ mesh)
    {x y : Nat} (hxy : x ≠ y) (Sx : S.hasVertex x) (Sy : S.hasVertex y)
    (τx : τ.hasVertex x) (τy : τ.hasVertex y) :
    (x = a ∧ y = u) ∨ (x = u ∧ y = a) ∨ (x = u ∧ y = d) ∨ (x = d ∧ y = u) := by
  rcases (hS x).mp Sx with ex | ex | ex <;> rcases (hS y).mp Sy with ey | ey | ey
  · exact absurd (ex.trans ey.symm) hxy
  · exact Or.inl ⟨ex, ey⟩
  · exfalso; rw [ex] at τx; rw [ey] at τy; exact c.no_ad hτ τx τy
  · exact Or.inr (Or.inl ⟨ex, ey⟩)
  · exact absurd (ex.trans ey.symm) hxy
  · exact Or.inr (Or.inr (Or.inl ⟨ex, ey⟩))
  · exfalso; rw [ex] at τx; rw [ey] at τy; exact c.no_ad hτ τy τx
  · exact Or.inr (Or.inr (Or.inr ⟨ex, ey⟩))
  · exact absurd (ex.trans ey.symm) hxy

theorem FlipCtx.new_opp_au {pt : Nat → Vector2f} {n : Nat} {mesh : List Triangle} {q : List Edge}
    {u v a d : Nat} {T0 N : Triangle} {S : Triangle}
    (c : FlipCtx pt n mesh q u v a d T0 N)
    (hS : ∀ x, S.hasVertex x ↔ x = a ∨ x = u ∨ x = d) {τ : Triangle} (hτ : τ ∈ mesh)
    (h0 : τ ≠ T0) (τa : τ.hasVertex a) (τu : τ.hasVertex u) :
    orient (pt a) (pt u) (pt (S.apex a u)) * orient (pt a) (pt u) (pt (τ.apex a u)) < 0 := by
  rw [c.new_apex_au hS]
  have h := c.inv.opp T0 c.mem0 τ hτ (Ne.symm h0) a u c.au c.a0 c.u0 τa τu
  rw [c.apex0_au] at h
  obtain ⟨c1, _⟩ := c.convex
  have := opp_sign_trans (by rw [mul_comm]; exact h :
    orient (pt a) (pt u) (pt (τ.apex a u)) * orient (pt a) (pt u) (pt v) < 0) c1
  rw [mul_comm]; exact this

theorem FlipCtx.new_opp_ud {pt : Nat → Vector2f} {n : Nat} {mesh : List Triangle} {q : List Edge}
    {u v a d : Nat} {T0 N : Triangle} {S : Triangle}
    (c : FlipCtx pt n mesh q u v a d T0 N)
    (hS : ∀ x, S.hasVertex x ↔ x = a ∨ x = u ∨ x = d) {τ : Triangle} (hτ : τ ∈ mesh)
    (hN : τ ≠ N) (τu : τ.hasVertex u) (τd : τ.hasVertex d) :
    orient (pt u) (pt d) (pt (S.apex u d)) * orient (pt u) (pt d) (pt (τ.apex u d)) < 0 := by
  rw [c.new_apex_ud hS]
  have h := c.inv.opp N c.memN τ hτ (Ne.symm hN) u d (Ne.symm c.du) c.uN c.dN τu τd
  rw [c.apexN_ud] at h
  obtain ⟨_, _, c3, _⟩ := c.convex
  have e1 : orient (pt d) (pt u) (pt v) = -orient (pt u) (pt d) (pt v) := orient_swap12 _ _ _
  have e2 : orient (pt d) (pt u) (pt a) = -orient (pt u) (pt d) (pt a) := orient_swap12 _ _ _
  rw [e1, e2, neg_mul_neg] at c3
  have := opp_sign_trans (by rw [mul_comm]; exact h :
    orient (pt u) (pt d) (pt (τ.apex u d)) * orient (pt u) (pt d) (pt v) < 0) c3
  rw [mul_comm]; exact this

/-- A new triangle and a triangle that stays lie on opposite sides of a shared edge. -/
theorem FlipCtx.new_opp {pt : Nat → Vector2f} {n : Nat} {mesh : List Triangle} {q : List Edge}
    {u v a d : Nat} {T0 N : Triangle} {S : Triangle}
    (c : FlipCtx pt n mesh q u v a d T0 N)
    (hS : ∀ x, S.hasVertex x ↔ x = a ∨ x = u ∨ x = d) {τ : Triangle} (hτ : τ ∈ mesh)
    (h0 : τ ≠ T0) (hN : τ ≠ N)
    {x y : Nat} (hxy : x ≠ y) (Sx : S.hasVertex x) (Sy : S.hasVertex y)
    (τx : τ.hasVertex x) (τy : τ.hasVertex y) :
    orient (pt x) (pt y) (pt (S.apex x y)) * orient (pt x) (pt y) (pt (τ.apex x y)) < 0 := by
  rcases c.new_shared hS hτ hxy Sx Sy τx τy with ⟨ex, ey⟩ | ⟨ex, ey⟩ | ⟨ex, ey⟩ | ⟨ex, ey⟩
  · subst ex; subst ey
    exact c.new_opp_au hS hτ h0 τx τy
  · subst ex; subst ey
    exact opp_reverse S τ _ _ (c.new_opp_au hS hτ h0 τy τx)
  · subst ex; subst ey
    exact c.new_opp_ud hS hτ hN τx τy
  · subst ex; subst ey
    exact opp_reverse S τ _ _ (c.new_opp_ud hS hτ hN τy τx)

/-- Each edge of a new triangle other than the new diagonal is an edge of the bounding
triangle or has an owner that stays. -/
theorem FlipCtx.new_nbr {pt : Nat → Vector2f} {n : Nat} {mesh : List Triangle} {q : List Edge}
    {u v a d : Nat} {T0 N : Triangle} {S : Triangle}
    (c : FlipCtx pt n mesh q u v a d T0 N)
    (hS : ∀ x, S.hasVertex x ↔ x = a ∨ x = u ∨ x = d)
    {x y : Nat} (hxy : x ≠ y) (Sx : S.hasVertex x) (Sy : S.hasVertex y) :
    (x < 3 ∧ y < 3) ∨ (∃ τ ∈ mesh, τ ≠ T0 ∧ τ ≠ N ∧ τ.hasVertex x ∧ τ.hasVertex y) ∨
      (x = a ∧ y = d) ∨ (x = d ∧ y = a) := by
  have hau : (a < 3 ∧ u < 3) ∨ ∃ τ ∈ mesh, τ ≠ T0 ∧ τ ≠ N ∧ τ.hasVertex a ∧ τ.hasVertex u := by
    rcases c.inv.nbr T0 c.mem0 a u c.au c.a0 c.u0 with h | ⟨s, hs, hne, sa, su⟩
    · exact Or.inl h
    · refine Or.inr ⟨s, hs, hne, ?_, sa, su⟩
      intro e; rw [e] at sa; exact c.notN_a sa
  have hud : (u < 3 ∧ d < 3) ∨ ∃ τ ∈ mesh, τ ≠ T0 ∧ τ ≠ N ∧ τ.hasVertex u ∧ τ.hasVertex d := by
    rcases c.inv.nbr N c.memN u d (Ne.symm c.du) c.uN c.dN with h | ⟨s, hs, hne, su, sd⟩
    · exact Or.inl h
    · refine Or.inr ⟨s, hs, ?_, hne, su, sd⟩
      intro e; rw [e] at sd; exact c.not0_d sd
  rcases (hS x).mp Sx with ex | ex | ex <;> rcases (hS y).mp Sy with ey | ey | ey
  · exact absurd (ex.trans ey.symm) hxy
  · subst ex; subst ey
    rcases hau with h | h
    · exact Or.inl h
    · exact Or.inr (Or.inl h)
  · exact Or.inr (Or.inr (Or.inl ⟨ex, ey⟩))
  · subst ex; subst ey
    rcases hau with h | ⟨τ, h1, h2, h3, h4, h5⟩
    · exact Or.inl ⟨h.2, h.1⟩
    · exact Or.inr (Or.inl ⟨τ, h1, h2, h3, h5, h4⟩)
  · exact absurd (ex.trans ey.symm) hxy
  · subst ex; subst ey
    rcases hud with h | h
    · exact Or.inl h
    · exact Or.inr (Or.inl h)
  · exact Or.inr (Or.inr (Or.inr ⟨ex, ey⟩))
  · subst ex; subst ey
    rcases hud with h | ⟨τ, h1, h2, h3, h4, h5⟩
    · exact Or.inl ⟨h.2, h.1⟩
    · exact Or.inr (Or.inl ⟨τ, h1, h2, h3, h5, h4⟩)
  · exact absurd (ex.trans ey.symm) hxy

/-- The far end of the flipped edge is not strictly inside the circle of a new triangle. -/
theorem FlipCtx.new_legal {pt : Nat → Vector2f} {n : Nat} {mesh : List Triangle} {q : List Edge}
    {u v a d : Nat} {T0 N : Triangle} {S : Triangle}
    (c : FlipCtx pt n mesh q u v a d T0 N)
    (hS : ∀ x, S.hasVertex x ↔ x = a ∨ x = u ∨ x = d) : ¬ S.inDisk pt (pt v) := by
  rw [Triangle.inDisk_edge pt (c.new_a hS) (c.new_u hS) c.au (c.new_valid hS).2.2.2,
    c.new_apex_au hS]
  have := (flip_legal _ _ _ _ c.hopp c.inside).1
  intro h
  linarith

theorem FlipCtx.new_queued {pt : Nat → Vector2f} {n : Nat} {mesh : List Triangle} {q : List Edge}
    {u v a d : Nat} {T0 N : Triangle} {S : Triangle}
    (c : FlipCtx pt n mesh q u v a d T0 N)
    (hS : ∀ x, S.hasVertex x ↔ x = a ∨ x = u ∨ x = d) {τ : Triangle} (hτ : τ ∈ mesh)
    {x y : Nat} (hxy : x ≠ y) (Sx : S.hasVertex x) (Sy : S.hasVertex y)
    (τx : τ.hasVertex x) (τy : τ.hasVertex y) :
    ((x, y) = (a, u) ∨ (x, y) = (u, d)) ∨ ((y, x) = (a, u) ∨ (y, x) = (u, d)) := by
  rcases c.new_shared hS hτ hxy Sx Sy τx τy with ⟨ex, ey⟩ | ⟨ex, ey⟩ | ⟨ex, ey⟩ | ⟨ex, ey⟩
  · exact Or.inl (Or.inl (by rw [ex, ey]))
  · exact Or.inr (Or.inl (by rw [ex, ey]))
  · exact Or.inl (Or.inr (by rw [ex, ey]))
  · exact Or.inr (Or.inr (by rw [ex, ey]))

theorem FlipCtx.new_not_mem {pt : Nat → Vector2f} {n : Nat} {mesh : List Triangle} {q : List Edge}
    {u v a d : Nat} {T0 N : Triangle} {S : Triangle}
    (c : FlipCtx pt n mesh q u v a d T0 N)
    (hS : ∀ x, S.hasVertex x ↔ x = a ∨ x = u ∨ x = d) : S ∉ mesh :=
  fun h => c.no_ad h (c.new_a hS) (c.new_d hS)

/-- The two new triangles share the new diagonal only. -/
theorem FlipCtx.pair_shared {pt : Nat → Vector2f} {n : Nat} {mesh : List Triangle} {q : List Edge}
    {u v a d : Nat} {T0 N : Triangle}
    (c : FlipCtx pt n mesh q u v a d T0 N) {S1 S2 : Triangle}
    (h1 : ∀ x, S1.hasVertex x ↔ x = a ∨ x = u ∨ x = d)
    (h2 : ∀ x, S2.hasVertex x ↔ x = a ∨ x = v ∨ x = d)
    {x y : Nat} (hxy : x ≠ y) (x1 : S1.hasVertex x) (y1 : S1.hasVertex y)
    (x2 : S2.hasVertex x) (y2 : S2.hasVertex y) : (x = a ∧ y = d) ∨ (x = d ∧ y = a) := by
  have hx : x = a ∨ x = d := by
    rcases (h1 x).mp x1 with e | e | e
    · exact Or.inl e
    · exfalso; rw [e] at x2; exact c.swap.new_not_v h2 x2
    · exact Or.inr e
  have hy : y = a ∨ y = d := by
    rcases (h1 y).mp y1 with e | e | e
    · exact Or.inl e
    · exfalso; rw [e] at y2; exact c.swap.new_not_v h2 y2
    · exact Or.inr e
  rcases hx with ex | ex <;> rcases hy with ey | ey
  · exact absurd (ex.trans ey.symm) hxy
  · exact Or.inl ⟨ex, ey⟩
  · exact Or.inr ⟨ex, ey⟩
  · exact absurd (ex.trans ey.symm) hxy

theorem FlipCtx.pair_ne {pt : Nat → Vector2f} {n : Nat} {mesh : List Triangle} {q : List Edge}
    {u v a d : Nat} {T0 N : Triangle}
    (c : FlipCtx pt n mesh q u v a d T0 N) {S1 S2 : Triangle}
    (h1 : ∀ x, S1.hasVertex x ↔ x = a ∨ x = u ∨ x = d)
    (h2 : ∀ x, S2.hasVertex x ↔ x = a ∨ x = v ∨ x = d) : S1 ≠ S2 := by
  intro e
  have := c.new_u h1
  rw [e] at this
  exact c.swap.new_not_v h2 this

theorem FlipCtx.pair_opp {pt : Nat → Vector2f} {n : Nat} {mesh : List Triangle} {q : List Edge}
    {u v a d : Nat} {T0 N : Triangle}
    (c : FlipCtx pt n mesh q u v a d T0 N) {S1 S2 : Triangle}
    (h1 : ∀ x, S1.hasVertex x ↔ x = a ∨ x = u ∨ x = d)
    (h2 : ∀ x, S2.hasVertex x ↔ x = a ∨ x = v ∨ x = d)
    {x y : Nat} (hxy : x ≠ y) (x1 : S1.hasVertex x) (y1 : S1.hasVertex y)
    (x2 : S2.hasVertex x) (y2 : S2.hasVertex y) :
    orient (pt x) (pt y) (pt (S1.apex x y)) * orient (pt x) (pt y) (pt (S2.apex x y)) < 0 := by
  have key : orient (pt a) (pt d) (pt (S1.apex a d)) *
      orient (pt a) (pt d) (pt (S2.apex a d)) < 0 := by
    rw [c.new_apex_ad h1, c.swap.new_apex_ad h2]
    exact c.convex.2.2.2.2
  rcases c.pair_shared h1 h2 hxy x1 y1 x2 y2 with ⟨ex, ey⟩ | ⟨ex, ey⟩
  · subst ex; subst ey; exact key
  · subst ex; subst ey; exact opp_reverse S1 S2 _ _ key

theorem FlipCtx.pair_disjoint {pt : Nat → Vector2f} {n : Nat} {mesh : List Triangle} {q : List Edge}
    {u v a d : Nat} {T0 N : Triangle}
    (c : FlipCtx pt n mesh q u v a d T0 N) {S1 S2 : Triangle}
    (h1 : ∀ x, S1.hasVertex x ↔ x = a ∨ x = u ∨ x = d)
    (h2 : ∀ x, S2.hasVertex x ↔ x = a ∨ x = v ∨ x = d) (x : Vector2f) :
    ¬ (S1.contains pt x ∧ S2.contains pt x) := by
  rintro ⟨hx1, hx2⟩
  have i1 := ((strictlyInsideTriangle_iff _ _ _ _).mp ((c.new_contains h1 x).mp hx1)).2.2
  have i2 := ((strictlyInsideTriangle_iff _ _ _ _).mp ((c.swap.new_contains h2 x).mp hx2)).2.2
  have c5 := c.convex.2.2.2.2
  have e1 : orient (pt a) (pt u) (pt d) = -orient (pt a) (pt d) (pt u) := orient_swap23 _ _ _
  have e2 : orient (pt a) (pt v) (pt d) = -orient (pt a) (pt d) (pt v) := orient_swap23 _ _ _
  rw [e1] at i1
  rw [e2] at i2
  have := same_sign_trans i1 (by rw [mul_comm]; exact i2 :
    0 < orient (pt d) (pt a) x * -orient (pt a) (pt d) (pt v))
  rw [neg_mul_neg] at this
  linarith

/-- A flip keeps the invariant, with the four outer edges of the flipped pair queued. -/
theorem MeshInv.of_flip {pt : Nat → Vector2f} {n : Nat}
    {mesh : List Triangle} {q : List Edge} {u v a d : Nat} {T0 N : Triangle}
    (c : FlipCtx pt n mesh q u v a d T0 N) {rem : List Triangle} (hnd : rem.Nodup)
    (hrem : ∀ τ, τ ∈ rem ↔ τ ∈ mesh ∧ τ ≠ T0 ∧ τ ≠ N) :
    MeshInv pt n (rem ++ [Triangle.mk3 a u d, Triangle.mk3 a d v])
      (q ++ [(a, u), (u, d), (d, v), (v, a)]) := by
  have h1 : ∀ x, (Triangle.mk3 a u d).hasVertex x ↔ x = a ∨ x = u ∨ x = d := by
    intro x
    rw [Triangle.hasVertex_mk3]
    constructor <;> rintro (h | h | h)
    · exact Or.inl h.symm
    · exact Or.inr (Or.inl h.symm)
    · exact Or.inr (Or.inr h.symm)
    · exact Or.inl h.symm
    · exact Or.inr (Or.inl h.symm)
    · exact Or.inr (Or.inr h.symm)
  have h2 : ∀ x, (Triangle.mk3 a d v).hasVertex x ↔ x = a ∨ x = v ∨ x = d := by
    intro x
    rw [Triangle.hasVertex_mk3]
    constructor <;> rintro (h | h | h)
    · exact Or.inl h.symm
    · exact Or.inr (Or.inr h.symm)
    · exact Or.inr (Or.inl h.symm)
    · exact Or.inl h.symm
    · exact Or.inr (Or.inr h.symm)
    · exact Or.inr (Or.inl h.symm)
  generalize Triangle.mk3 a u d = S1 at h1 ⊢
  generalize Triangle.mk3 a d v = S2 at h2 ⊢
  have c' := c.swap
  have hne12 : S1 ≠ S2 := c.pair_ne h1 h2
  have n1 : S1 ∉ mesh := c.new_not_mem h1
  have n2 : S2 ∉ mesh := c'.new_not_mem h2
  have hmem : ∀ t, t ∈ rem ++ [S1, S2] ↔ (t ∈ mesh ∧ t ≠ T0 ∧ t ≠ N) ∨ t = S1 ∨ t = S2 := by
    intro t
    rw [List.mem_append, hrem]
    simp only [List.mem_cons, List.mem_singleton, List.not_mem_nil, or_false]
  have m1 : S1 ∈ rem ++ [S1, S2] := (hmem S1).mpr (Or.inr (Or.inl rfl))
  have m2 : S2 ∈ rem ++ [S1, S2] := (hmem S2).mpr (Or.inr (Or.inr rfl))
  have hqsub : ∀ e, e ∈ q → e ∈ q ++ [(a, u), (u, d), (d, v), (v, a)] :=
    fun e he => List.mem_append_left _ he
  have qau : (a, u) ∈ q ++ [(a, u), (u, d), (d, v), (v, a)] :=
    List.mem_append_right _ (by simp)
  have qud : (u, d) ∈ q ++ [(a, u), (u, d), (d, v), (v, a)] :=
    List.mem_append_right _ (by simp)
  have qdv : (d, v) ∈ q ++ [(a, u), (u, d), (d, v), (v, a)] :=
    List.mem_append_right _ (by simp)
  have qva : (v, a) ∈ q ++ [(a, u), (u, d), (d, v), (v, a)] :=
    List.mem_append_right _ (by simp)
  -- a staying triangle against the first new triangle: the shared edge is queued
  have queued1 : ∀ τ, τ ∈ mesh → ∀ x y, x ≠ y → S1.hasVertex x → S1.hasVertex y →
      τ.hasVertex x → τ.hasVertex y →
      (x, y) ∈ q ++ [(a, u), (u, d), (d, v), (v, a)] ∨
        (y, x) ∈ q ++ [(a, u), (u, d), (d, v), (v, a)] := by
    intro τ hτ x y hxy sx sy τx τy
    rcases c.new_queued h1 hτ hxy sx sy τx τy with (e | e) | (e | e)
    · rw [e]; exact Or.inl qau
    · rw [e]; exact Or.inl qud
    · rw [e]; exact Or.inr qau
    · rw [e]; exact Or.inr qud
  have queued2 : ∀ τ, τ ∈ mesh → ∀ x y, x ≠ y → S2.hasVertex x → S2.hasVertex y →
      τ.hasVertex x → τ.hasVertex y →
      (x, y) ∈ q ++ [(a, u), (u, d), (d, v), (v, a)] ∨
        (y, x) ∈ q ++ [(a, u), (u, d), (d, v), (v, a)] := by
    intro τ hτ x y hxy sx sy τx τy
    rcases c'.new_queued h2 hτ hxy sx sy τx τy with (e | e) | (e | e)
    · have e1 : x = a := congrArg Prod.fst e
      have e2 : y = v := congrArg Prod.snd e
      rw [e1, e2]; exact Or.inr qva
    · have e1 : x = v := congrArg Prod.fst e
      have e2 : y = d := congrArg Prod.snd e
      rw [e1, e2]; exact Or.inr qdv
    · have e1 : y = a := congrArg Prod.fst e
      have e2 : x = v := congrArg Prod.snd e
      rw [e1, e2]; exact Or.inl qva
    · have e1 : y = v := congrArg Prod.fst e
      have e2 : x = d := congrArg Prod.snd e
      rw [e1, e2]; exact Or.inl qdv
  refine ⟨?_, ?_, ?_, ?_, ?_, ?_, ?_, ?_⟩
  · -- nodup
    apply List.Nodup.append hnd
    · simp only [List.nodup_cons, List.mem_singleton, List.not_mem_nil, not_false_eq_true,
        List.nodup_nil, and_true]
      exact hne12
    · intro t ht ht'
      have := (hrem t).mp ht
      simp only [List.mem_cons, List.mem_singleton, List.not_mem_nil, or_false] at ht'
      rcases ht' with e | e
      · rw [e] at this; exact n1 this.1
      · rw [e] at this; exact n2 this.1
  · -- valid
    intro t ht
    rcases (hmem t).mp ht with ⟨hm, _, _⟩ | e | e
    · exact c.inv.valid t hm
    · rw [e]; exact c.new_valid h1
    · rw [e]; exact c'.new_valid h2
  · -- opp
    intro t ht s hs hts x y hxy tx ty sx sy
    rcases (hmem t).mp ht with ⟨tm, t0, tN⟩ | et | et <;>
      rcases (hmem s).mp hs with ⟨sm, s0, sN⟩ | es | es
    · exact c.inv.opp t tm s sm hts x y hxy tx ty sx sy
    · subst es
      rw [mul_comm]; exact c.new_opp h1 tm t0 tN hxy sx sy tx ty
    · subst es
      rw [mul_comm]; exact c'.new_opp h2 tm t0 tN hxy sx sy tx ty
    · subst et
      exact c.new_opp h1 sm s0 sN hxy tx ty sx sy
    · exact absurd (et.trans es.symm) hts
    · subst et; subst es
      exact c.pair_opp h1 h2 hxy tx ty sx sy
    · subst et
      exact c'.new_opp h2 sm s0 sN hxy tx ty sx sy
    · subst et; subst es
      rw [mul_comm]; exact c.pair_opp h1 h2 hxy sx sy tx ty
    · exact absurd (et.trans es.symm) hts
  · -- nbr
    intro t ht x y hxy tx ty
    rcases (hmem t).mp ht with ⟨tm, t0, tN⟩ | et | et
    · rcases c.inv.nbr t tm x y hxy tx ty with h | ⟨s, sm, hst, sx, sy⟩
      · exact Or.inl h
      · right
        by_cases es0 : s = T0
        · subst es0
          have hx := (c.iff0 x).mp sx
          have hy := (c.iff0 y).mp sy
          have hS1 : (x = a ∧ y = u) ∨ (x = u ∧ y = a) ∨ (x = a ∧ y = v) ∨ (x = v ∧ y = a) := by
            rcases hx with ex | ex | ex <;> rcases hy with ey | ey | ey
            · exact absurd (ex.trans ey.symm) hxy
            · exfalso; rw [ex] at tx; rw [ey] at ty; exact c.no_uv tm t0 tN tx ty
            · exact Or.inr (Or.inl ⟨ex, ey⟩)
            · exfalso; rw [ex] at tx; rw [ey] at ty; exact c.no_uv tm t0 tN ty tx
            · exact absurd (ex.trans ey.symm) hxy
            · exact Or.inr (Or.inr (Or.inr ⟨ex, ey⟩))
            · exact Or.inl ⟨ex, ey⟩
            · exact Or.inr (Or.inr (Or.inl ⟨ex, ey⟩))
            · exact absurd (ex.trans ey.symm) hxy
          rcases hS1 with ⟨ex, ey⟩ | ⟨ex, ey⟩ | ⟨ex, ey⟩ | ⟨ex, ey⟩
          · exact ⟨S1, m1, fun e => n1 (e ▸ tm), by rw [ex]; exact c.new_a h1,
              by rw [ey]; exact c.new_u h1⟩
          · exact ⟨S1, m1, fun e => n1 (e ▸ tm), by rw [ex]; exact c.new_u h1,
              by rw [ey]; exact c.new_a h1⟩
          · exact ⟨S2, m2, fun e => n2 (e ▸ tm), by rw [ex]; exact c'.new_a h2,
              by rw [ey]; exact c'.new_u h2⟩
          · exact ⟨S2, m2, fun e => n2 (e ▸ tm), by rw [ex]; exact c'.new_u h2,
              by rw [ey]; exact c'.new_a h2⟩
        · by_cases esN : s = N
          · subst esN
            have hx := (c.iffN x).mp sx
            have hy := (c.iffN y).mp sy
            have hS1 : (x = d ∧ y = u) ∨ (x = u ∧ y = d) ∨ (x = d ∧ y = v) ∨
                (x = v ∧ y = d) := by
              rcases hx with ex | ex | ex <;> rcases hy with ey | ey | ey
              · exact absurd (ex.trans ey.symm) hxy
              · exfalso; rw [ex] at tx; rw [ey] at ty; exact c.no_uv tm t0 tN tx ty
              · exact Or.inr (Or.inl ⟨ex, ey⟩)
              · exfalso; rw [ex] at tx; rw [ey] at ty; exact c.no_uv tm t0 tN ty tx
              · exact absurd (ex.trans ey.symm) hxy
              · exact Or.inr (Or.inr (Or.inr ⟨ex, ey⟩))
              · exact Or.inl ⟨ex, ey⟩
              · exact Or.inr (Or.inr (Or.inl ⟨ex, ey⟩))
              · exact absurd (ex.trans ey.symm) hxy
            rcases hS1 with ⟨ex, ey⟩ | ⟨ex, ey⟩ | ⟨ex, ey⟩ | ⟨ex, ey⟩
            · exact ⟨S1, m1, fun e => n1 (e ▸ tm), by rw [ex]; exact c.new_d h1,
                by rw [ey]; exact c.new_u h1⟩
            · exact ⟨S1, m1, fun e => n1 (e ▸ tm), by rw [ex]; exact c.new_u h1,
                by rw [ey]; exact c.new_d h1⟩
            · exact ⟨S2, m2, fun e => n2 (e ▸ tm), by rw [ex]; exact c'.new_d h2,
                by rw [ey]; exact c'.new_u h2⟩
            · exact ⟨S2, m2, fun e => n2 (e ▸ tm), by rw [ex]; exact c'.new_u h2,
                by rw [ey]; exact c'.new_d h2⟩
          · exact ⟨s, (hmem s).mpr (Or.inl ⟨sm, es0, esN⟩), hst, sx, sy⟩
    · subst et
      rcases c.new_nbr h1 hxy tx ty with h | ⟨τ, τm, τ0, τN, τx, τy⟩ | ⟨ex, ey⟩ | ⟨ex, ey⟩
      · exact Or.inl h
      · exact Or.inr ⟨τ, (hmem τ).mpr (Or.inl ⟨τm, τ0, τN⟩), fun e => n1 (e ▸ τm), τx, τy⟩
      · exact Or.inr ⟨S2, m2, Ne.symm hne12, by rw [ex]; exact c'.new_a h2,
          by rw [ey]; exact c'.new_d h2⟩
      · exact Or.inr ⟨S2, m2, Ne.symm hne12, by rw [ex]; exact c'.new_d h2,
          by rw [ey]; exact c'.new_a h2⟩
    · subst et
      rcases c'.new_nbr h2 hxy tx ty with h | ⟨τ, τm, τ0, τN, τx, τy⟩ | ⟨ex, ey⟩ | ⟨ex, ey⟩
      · exact Or.inl h
      · exact Or.inr ⟨τ, (hmem τ).mpr (Or.inl ⟨τm, τ0, τN⟩), fun e => n2 (e ▸ τm), τx, τy⟩
      · exact Or.inr ⟨S1, m1, hne12, by rw [ex]; exact c.new_a h1,
          by rw [ey]; exact c.new_d h1⟩
      · exact Or.inr ⟨S1, m1, hne12, by rw [ex]; exact c.new_d h1,
          by rw [ey]; exact c.new_a h1⟩
  · -- empty
    intro t ht i hi hti
    rcases (hmem t).mp ht with ⟨tm, _, _⟩ | et | et
    · exact c.inv.empty t tm i hi hti
    · subst et; exact c.new_empty h1 i hi hti
    · subst et; exact c'.new_empty h2 i hi hti
  · -- disjoint
    intro t ht s hs hts x
    rcases (hmem t).mp ht with ⟨tm, t0, tN⟩ | et | et <;>
      rcases (hmem s).mp hs with ⟨sm, s0, sN⟩ | es | es
    · exact c.inv.disjoint t tm s sm hts x
    · subst es
      exact fun h => c.new_disjoint h1 tm t0 tN x ⟨h.2, h.1⟩
    · subst es
      exact fun h => c'.new_disjoint h2 tm t0 tN x ⟨h.2, h.1⟩
    · subst et
      exact c.new_disjoint h1 sm s0 sN x
    · exact absurd (et.trans es.symm) hts
    · subst et; subst es
      exact c.pair_disjoint h1 h2 x
    · subst et
      exact c'.new_disjoint h2 sm s0 sN x
    · subst et; subst es
      exact fun h => c.pair_disjoint h1 h2 x ⟨h.2, h.1⟩
    · exact absurd (et.trans es.symm) hts
  · -- legal
    intro t ht s hs hts x y hxy tx ty sx sy
    rcases (hmem t).mp ht with ⟨tm, t0, tN⟩ | et | et <;>
      rcases (hmem s).mp hs with ⟨sm, s0, sN⟩ | es | es
    · rcases c.inv.legal t tm s sm hts x y hxy tx ty sx sy with h | h | h
      · exact Or.inl h
      · rcases List.mem_append.mp h with h | h
        · exact Or.inr (Or.inl (hqsub _ h))
        · exfalso
          have e := List.mem_singleton.mp h
          have e1 : x = u := congrArg Prod.fst e
          have e2 : y = v := congrArg Prod.snd e
          rw [e1] at tx; rw [e2] at ty
          exact c.no_uv tm t0 tN tx ty
      · rcases List.mem_append.mp h with h | h
        · exact Or.inr (Or.inr (hqsub _ h))
        · exfalso
          have e := List.mem_singleton.mp h
          have e1 : y = u := congrArg Prod.fst e
          have e2 : x = v := congrArg Prod.snd e
          rw [e1] at ty; rw [e2] at tx
          exact c.no_uv tm t0 tN ty tx
    · subst es
      exact Or.inr (queued1 t tm x y hxy sx sy tx ty)
    · subst es
      exact Or.inr (queued2 t tm x y hxy sx sy tx ty)
    · subst et
      exact Or.inr (queued1 s sm x y hxy tx ty sx sy)
    · exact absurd (et.trans es.symm) hts
    · subst et; subst es
      left
      rcases c.pair_shared h1 h2 hxy tx ty sx sy with ⟨ex, ey⟩ | ⟨ex, ey⟩
      · rw [ex, ey, c'.new_apex_ad h2]; exact c.new_legal h1
      · rw [ex, ey, Triangle.apex_comm, c'.new_apex_ad h2]; exact c.new_legal h1
    · subst et
      exact Or.inr (queued2 s sm x y hxy tx ty sx sy)
    · subst et; subst es
      left
      rcases c.pair_shared h1 h2 hxy sx sy tx ty with ⟨ex, ey⟩ | ⟨ex, ey⟩
      · rw [ex, ey, c.new_apex_ad h1]; exact c'.new_legal h2
      · rw [ex, ey, Triangle.apex_comm, c.new_apex_ad h1]; exact c'.new_legal h2
    · exact absurd (et.trans es.symm) hts
  · -- ends
    intro e he
    rcases List.mem_append.mp he with h | h
    · exact c.inv.ends e (List.mem_append_left _ h)
    · simp only [List.mem_cons, List.mem_singleton, List.not_mem_nil, or_false] at h
      rcases h with e | e | e | e <;> rw [e]
      · exact c.au
      · exact Ne.symm c.du
      · exact c.dv
      · exact Ne.symm c.av

/-- One iteration of the flip loop keeps the invariant: the edge at the back of the queue is
replaced by the edges the iteration pushes. -/
theorem MeshInv.of_step {pt : Nat → Vector2f} {n : Nat}
    {g g1 : Geometry} {queue : List Edge} {cur : Edge} {es : List Edge}
    (hp : PointFacts pt n) (hlen : g.mPoints.length = n)
    (hpt : ∀ i, i < n → pointAt g.mPoints i = pt i)
    (hinv : MeshInv pt n g.mTriangles (queue ++ [cur]))
    (h : queueFlipBody g cur = .ok (g1, es)) :
    MeshInv pt n g1.mTriangles (queue ++ es) ∧ g1.mPoints = g.mPoints := by
  obtain ⟨u, v⟩ := cur
  have huv : u ≠ v := hinv.ends (u, v) (List.mem_append_right _ (List.mem_singleton.mpr rfl))
  have hvalid : ∀ t ∈ g.mTriangles, t.v0 < g.mPoints.length ∧ t.v1 < g.mPoints.length ∧
      t.v2 < g.mPoints.length := by
    intro t ht
    obtain ⟨h0, h1, h2, _⟩ := hinv.valid t ht
    rw [hlen]; exact ⟨h0, h1, h2⟩
  obtain ⟨t0, T0, hT0, o0, hcase⟩ := queueFlipBody_cases h huv hvalid
  have m0 : T0 ∈ g.mTriangles := List.getElem?_mem hT0
  rcases hcase with ⟨h1, rfl, rfl⟩ | ⟨ni, N, hni, hN, oN, h2, hcase⟩
  · refine ⟨?_, rfl⟩
    rw [List.append_nil]
    apply hinv.of_pop
    intro t ht s hs hts ot os
    have := two_le_owners ht hs hts ot os
    omega
  · have mN : N ∈ g.mTriangles := List.getElem?_mem hN
    have hne : T0 ≠ N := by
      intro e
      rw [← e] at hN
      exact hni (index_unique hinv.nodup hN hT0)
    obtain ⟨un, vn, an, au, av, aO⟩ := hinv.apex_facts m0 o0.1 o0.2 huv
    obtain ⟨_, _, dn, du, dv, dO⟩ := hinv.apex_facts mN oN.1 oN.2 huv
    have hopp := hinv.opp T0 m0 N mN hne u v huv o0.1 o0.2 oN.1 oN.2
    have had : T0.apex u v ≠ N.apex u v := by
      intro e
      rw [e] at hopp
      have := mul_self_nonneg (orient (pt u) (pt v) (pt (N.apex u v)))
      linarith
    obtain ⟨v0n, v1n, v2n, hnd0⟩ := hinv.valid T0 m0
    have hccc : ∀ b, circumCircleContains (pointAt g.mPoints (N.apex (u, v).1 (u, v).2))
        (pointAt g.mPoints T0.v0) (pointAt g.mPoints T0.v1) (pointAt g.mPoints T0.v2) = b →
        circumCircleContains (pt (N.apex u v)) (pt T0.v0) (pt T0.v1) (pt T0.v2) = b := by
      intro b hb
      rw [hpt _ v0n, hpt _ v1n, hpt _ v2n] at hb
      have : pointAt g.mPoints (N.apex (u, v).1 (u, v).2) = pt (N.apex u v) := hpt _ dn
      rw [this] at hb
      exact hb
    rcases hcase with ⟨hfalse, rfl, rfl⟩ | ⟨htrue, rfl, rfl⟩
    · refine ⟨?_, rfl⟩
      rw [List.append_nil]
      have hout : ¬ (inCircle (pt u) (pt v) (pt (T0.apex u v)) (pt (N.apex u v)) *
          orient (pt u) (pt v) (pt (T0.apex u v)) ≤ 0) := by
        intro hle
        have := (Triangle.ccc_edge pt o0.1 o0.2 huv hnd0 (pt (N.apex u v))).mpr hle
        rw [hccc false hfalse] at this
        cases this
      apply hinv.of_pop
      intro t ht s hs hts ot os
      have ht' := owner_of_two hinv.nodup m0 mN ht hne o0 oN ot h2
      have hs' := owner_of_two hinv.nodup m0 mN hs hne o0 oN os h2
      rcases ht' with et | et <;> rcases hs' with es | es
      · exact absurd (et.trans es.symm) hts
      · subst et; subst es
        rw [Triangle.inDisk_edge pt o0.1 o0.2 huv hnd0]
        intro hin
        exact hout hin.le
      · subst et; subst es
        rw [Triangle.inDisk_edge pt oN.1 oN.2 huv (hinv.valid _ mN).2.2.2]
        intro hin
        have hopp' : orient (pt u) (pt v) (pt (t.apex u v)) *
            orient (pt u) (pt v) (pt (s.apex u v)) < 0 := by
          rw [mul_comm]; exact hopp
        exact hout ((inDisk_symm _ _ _ _ hopp').mp hin).le
      · exact absurd (et.trans es.symm) hts
    · refine ⟨?_, rfl⟩
      have hle := (Triangle.ccc_edge pt o0.1 o0.2 huv hnd0 (pt (N.apex u v))).mp
        (hccc true htrue)
      have h4 := hp.no4 u v (T0.apex u v) (N.apex u v) un vn an dn huv (Ne.symm au)
        (Ne.symm du) (Ne.symm av) (Ne.symm dv) had
      have hin : inCircle (pt u) (pt v) (pt (T0.apex u v)) (pt (N.apex u v)) *
          orient (pt u) (pt v) (pt (T0.apex u v)) < 0 :=
        lt_of_le_of_ne hle (mul_ne_zero h4 aO)
      have c : FlipCtx pt n g.mTriangles queue u v (T0.apex u v) (N.apex u v) T0 N :=
        { inv := hinv, facts := hp, mem0 := m0, memN := mN, ne := hne, huv := huv,
          u0 := o0.1, v0 := o0.2, a0 := Triangle.hasVertex_apex o0.1 o0.2 huv,
          uN := oN.1, vN := oN.2, dN := Triangle.hasVertex_apex oN.1 oN.2 huv,
          au := au, av := av, du := du, dv := dv, two := h2, inside := hin }
      have hsub : ((g.mTriangles.eraseIdx (max t0 ni)).eraseIdx (min t0 ni)).Nodup :=
        (hinv.nodup.sublist (List.eraseIdx_sublist _ _)).sublist (List.eraseIdx_sublist _ _)
      exact MeshInv.of_flip c hsub
        (fun τ => mem_eraseTwo_iff hinv.nodup (Ne.symm hni) hT0 hN)

/-- The flip loop ends with the invariant for the empty queue and leaves the points alone. -/
theorem queueFlipLoop_inv {pt : Nat → Vector2f} {n : Nat} (hp : PointFacts pt n) :
    ∀ (fuel : Nat) (g : Geometry) (queue : List Edge) (g' : Geometry),
      g.mPoints.length = n → (∀ i, i < n → pointAt g.mPoints i = pt i) →
      MeshInv pt n g.mTriangles queue → queueFlipLoop fuel g queue = .ok g' →
      MeshInv pt n g'.mTriangles [] ∧ g'.mPoints = g.mPoints := by
  intro fuel
  induction fuel with
  | zero =>
    intro g queue g' _ _ hinv h
    simp only [queueFlipLoop] at h
    split at h
    · rename_i hq
      cases h
      rw [hq] at hinv
      exact ⟨hinv, rfl⟩
    · cases h
  | succ k ih =>
    intro g queue g' hlen hpt hinv h
    simp only [queueFlipLoop] at h
    split at h
    · rename_i hq
      cases h
      rw [List.getLast?_eq_none_iff.mp hq] at hinv
      exact ⟨hinv, rfl⟩
    · rename_i cur hq
      split at h
      · cases h
      · rename_i g1 es hbody
        have hsplit : queue.dropLast ++ [cur] = queue :=
          List.dropLast_append_getLast? cur (by rw [hq]; exact rfl)
        rw [← hsplit] at hinv
        obtain ⟨hinv1, hpts1⟩ := MeshInv.of_step hp hlen hpt hinv hbody
        have := ih g1 _ g' (by rw [hpts1]; exact hlen) (by rw [hpts1]; exact hpt) hinv1 h
        exact ⟨this.1, this.2.trans hpts1⟩

theorem SplitPart.vertex_lt {pt : Nat → Vector2f} {n : Nat} {mesh : List Triangle} {T : Triangle}
    {x y z : Nat} {S : Triangle}
    (p : SplitPart pt n mesh T x y z S) : x < n ∧ y < n ∧ z < n := by
  obtain ⟨h0, h1, h2, _⟩ := p.inv.valid T p.mem
  have hlt : ∀ k, T.hasVertex k → k < n := by
    intro k hk
    rcases hk with e | e | e <;> rw [← e] <;> assumption
  exact ⟨hlt x p.hx, hlt y p.hy, hlt z p.hz⟩

theorem SplitPart.old_lt {pt : Nat → Vector2f} {n : Nat} {mesh : List Triangle} {T : Triangle}
    {x y z : Nat} {S : Triangle}
    (p : SplitPart pt n mesh T x y z S) {τ : Triangle} (hτ : τ ∈ mesh) {k : Nat}
    (hk : τ.hasVertex k) : k < n := by
  obtain ⟨h0, h1, h2, _⟩ := p.inv.valid τ hτ
  rcases hk with e | e | e <;> rw [← e] <;> assumption

theorem SplitPart.sx {pt : Nat → Vector2f} {n : Nat} {mesh : List Triangle} {T : Triangle}
    {x y z : Nat} {S : Triangle}
    (p : SplitPart pt n mesh T x y z S) : S.hasVertex x := (p.hS x).mpr (Or.inl rfl)

theorem SplitPart.sy {pt : Nat → Vector2f} {n : Nat} {mesh : List Triangle} {T : Triangle}
    {x y z : Nat} {S : Triangle}
    (p : SplitPart pt n mesh T x y z S) : S.hasVertex y :=
  (p.hS y).mpr (Or.inr (Or.inl rfl))

theorem SplitPart.sn {pt : Nat → Vector2f} {n : Nat} {mesh : List Triangle} {T : Triangle}
    {x y z : Nat} {S : Triangle}
    (p : SplitPart pt n mesh T x y z S) : S.hasVertex n :=
  (p.hS n).mpr (Or.inr (Or.inr rfl))

theorem SplitPart.not_z {pt : Nat → Vector2f} {n : Nat} {mesh : List Triangle} {T : Triangle}
    {x y z : Nat} {S : Triangle}
    (p : SplitPart pt n mesh T x y z S) : ¬ S.hasVertex z := by
  intro h
  rcases (p.hS z).mp h with e | e | e
  · exact p.zx e
  · exact p.zy e
  · have := p.vertex_lt.2.2; omega

theorem SplitPart.apexT {pt : Nat → Vector2f} {n : Nat} {mesh : List Triangle} {T : Triangle}
    {x y z : Nat} {S : Triangle}
    (p : SplitPart pt n mesh T x y z S) : T.apex x y = z :=
  Triangle.apex_unique p.hx p.hy p.hz p.xy p.zx p.zy

theorem SplitPart.apex_xy {pt : Nat → Vector2f} {n : Nat} {mesh : List Triangle} {T : Triangle}
    {x y z : Nat} {S : Triangle}
    (p : SplitPart pt n mesh T x y z S) : S.apex x y = n := by
  obtain ⟨h1, h2, _⟩ := p.vertex_lt
  exact Triangle.apex_unique p.sx p.sy p.sn p.xy (by omega) (by omega)

theorem SplitPart.apex_yn {pt : Nat → Vector2f} {n : Nat} {mesh : List Triangle} {T : Triangle}
    {x y z : Nat} {S : Triangle}
    (p : SplitPart pt n mesh T x y z S) : S.apex y n = x := by
  obtain ⟨h1, h2, _⟩ := p.vertex_lt
  exact Triangle.apex_unique p.sy p.sn p.sx (by omega) p.xy (by omega)

theorem SplitPart.apex_xn {pt : Nat → Vector2f} {n : Nat} {mesh : List Triangle} {T : Triangle}
    {x y z : Nat} {S : Triangle}
    (p : SplitPart pt n mesh T x y z S) : S.apex x n = y := by
  obtain ⟨h1, h2, _⟩ := p.vertex_lt
  exact Triangle.apex_unique p.sx p.sn p.sy (by omega) (Ne.symm p.xy) (by omega)

theorem SplitPart.insideXY {pt : Nat → Vector2f} {n : Nat} {mesh : List Triangle} {T : Triangle}
    {x y z : Nat} {S : Triangle}
    (p : SplitPart pt n mesh T x y z S) :
    strictlyInsideTriangle (pt x) (pt y) (pt z) (pt n) := by
  have := p.inside
  rw [Triangle.contains_edge pt p.hx p.hy p.xy, p.apexT] at this
  exact this

theorem SplitPart.part_valid {pt : Nat → Vector2f} {n : Nat} {mesh : List Triangle} {T : Triangle}
    {x y z : Nat} {S : Triangle}
    (p : SplitPart pt n mesh T x y z S) :
    S.v0 < n + 1 ∧ S.v1 < n + 1 ∧ S.v2 < n + 1 ∧ S.nondeg pt := by
  obtain ⟨xn, yn, zn⟩ := p.vertex_lt
  have hlt : ∀ k, S.hasVertex k → k < n + 1 := by
    intro k hk
    rcases (p.hS k).mp hk with h | h | h <;> omega
  refine ⟨hlt _ (Or.inl rfl), hlt _ (Or.inr (Or.inl rfl)), hlt _ (Or.inr (Or.inr rfl)), ?_⟩
  rw [Triangle.nondeg_edge pt p.sx p.sy p.xy, p.apex_xy]
  have := ((strictlyInsideTriangle_iff _ _ _ _).mp p.insideXY).1
  intro e
  rw [e] at this
  simp at this

theorem SplitPart.part_contains {pt : Nat → Vector2f} {n : Nat} {mesh : List Triangle}
    {T : Triangle} {x y z : Nat} {S : Triangle}
    (p : SplitPart pt n mesh T x y z S) (w : Vector2f) :
    S.contains pt w ↔ strictlyInsideTriangle (pt x) (pt y) (pt n) w := by
  rw [Triangle.contains_edge pt p.sx p.sy p.xy, p.apex_xy]

theorem SplitPart.part_sub {pt : Nat → Vector2f} {n : Nat} {mesh : List Triangle} {T : Triangle}
    {x y z : Nat} {S : Triangle}
    (p : SplitPart pt n mesh T x y z S) {w : Vector2f} (h : S.contains pt w) :
    T.contains pt w := by
  rw [Triangle.contains_edge pt p.hx p.hy p.xy, p.apexT]
  exact sub_inside p.insideXY ((p.part_contains w).mp h)

theorem SplitPart.part_not_mem {pt : Nat → Vector2f} {n : Nat} {mesh : List Triangle} {T : Triangle}
    {x y z : Nat} {S : Triangle}
    (p : SplitPart pt n mesh T x y z S) : S ∉ mesh := by
  intro h
  have := p.old_lt h p.sn
  omega

theorem SplitPart.part_empty {pt : Nat → Vector2f} {n : Nat} {mesh : List Triangle} {T : Triangle}
    {x y z : Nat} {S : Triangle}
    (p : SplitPart pt n mesh T x y z S) :
    ∀ i, i < n + 1 → ¬ S.hasVertex i → ¬ S.contains pt (pt i) := by
  intro i hi hSi hin
  have hin' : i ≠ n := fun e => hSi ((p.hS i).mpr (Or.inr (Or.inr e)))
  have hix : i ≠ x := fun e => hSi ((p.hS i).mpr (Or.inl e))
  have hiy : i ≠ y := fun e => hSi ((p.hS i).mpr (Or.inr (Or.inl e)))
  have hiT : T.hasVertex i := by
    by_contra hc
    exact p.inv.empty T p.mem i (by omega) hc (p.part_sub hin)
  rcases (Triangle.hasVertex_iff p.hx p.hy p.xy i).mp hiT with e | e | e
  · exact hix e
  · exact hiy e
  · rw [p.apexT] at e
    rw [e] at hin
    have h2 := ((strictlyInsideTriangle_iff _ _ _ _).mp ((p.part_contains _).mp hin)).2.1
    have ho := split_opp p.insideXY
    have e1 : orient (pt y) (pt n) (pt x) = orient (pt x) (pt y) (pt n) := by
      simp only [orient]; ring
    rw [e1] at ho
    linarith

theorem SplitPart.part_disjoint {pt : Nat → Vector2f} {n : Nat} {mesh : List Triangle}
    {T : Triangle} {x y z : Nat} {S : Triangle}
    (p : SplitPart pt n mesh T x y z S) {τ : Triangle} (hτ : τ ∈ mesh)
    (hne : τ ≠ T) (w : Vector2f) : ¬ (S.contains pt w ∧ τ.contains pt w) :=
  fun h => p.inv.disjoint T p.mem τ hτ (Ne.symm hne) w ⟨p.part_sub h.1, h.2⟩

theorem SplitPart.part_shared {pt : Nat → Vector2f} {n : Nat} {mesh : List Triangle} {T : Triangle}
    {x y z : Nat} {S : Triangle}
    (p : SplitPart pt n mesh T x y z S) {τ : Triangle} (hτ : τ ∈ mesh)
    {k l : Nat} (hkl : k ≠ l) (Sk : S.hasVertex k) (Sl : S.hasVertex l)
    (τk : τ.hasVertex k) (τl : τ.hasVertex l) : (k = x ∧ l = y) ∨ (k = y ∧ l = x) := by
  have hk := p.old_lt hτ τk
  have hl := p.old_lt hτ τl
  rcases (p.hS k).mp Sk with ek | ek | ek <;> rcases (p.hS l).mp Sl with el | el | el
  · exact absurd (ek.trans el.symm) hkl
  · exact Or.inl ⟨ek, el⟩
  · omega
  · exact Or.inr ⟨ek, el⟩
  · exact absurd (ek.trans el.symm) hkl
  · omega
  · omega
  · omega
  · omega

theorem SplitPart.part_opp {pt : Nat → Vector2f} {n : Nat} {mesh : List Triangle} {T : Triangle}
    {x y z : Nat} {S : Triangle}
    (p : SplitPart pt n mesh T x y z S) {τ : Triangle} (hτ : τ ∈ mesh)
    (hne : τ ≠ T) {k l : Nat} (hkl : k ≠ l) (Sk : S.hasVertex k) (Sl : S.hasVertex l)
    (τk : τ.hasVertex k) (τl : τ.hasVertex l) :
    orient (pt k) (pt l) (pt (S.apex k l)) * orient (pt k) (pt l) (pt (τ.apex k l)) < 0 := by
  have key : ∀ (_ : τ.hasVertex x) (_ : τ.hasVertex y),
      orient (pt x) (pt y) (pt (S.apex x y)) * orient (pt x) (pt y) (pt (τ.apex x y)) < 0 := by
    intro τx τy
    rw [p.apex_xy]
    have h := p.inv.opp T p.mem τ hτ (Ne.symm hne) x y p.xy p.hx p.hy τx τy
    rw [p.apexT] at h
    have h1 := ((strictlyInsideTriangle_iff _ _ _ _).mp p.insideXY).1
    have := opp_sign_trans (by rw [mul_comm]; exact h :
      orient (pt x) (pt y) (pt (τ.apex x y)) * orient (pt x) (pt y) (pt z) < 0) h1
    rw [mul_comm]; exact this
  rcases p.part_shared hτ hkl Sk Sl τk τl with ⟨ek, el⟩ | ⟨ek, el⟩
  · subst ek; subst el; exact key τk τl
  · subst ek; subst el; exact opp_reverse S τ _ _ (key τl τk)

theorem SplitPart.part_legal {pt : Nat → Vector2f} {n : Nat} {mesh : List Triangle} {T : Triangle}
    {x y z : Nat} {S : Triangle}
    (p : SplitPart pt n mesh T x y z S) : ¬ S.inDisk pt (pt z) := by
  rw [Triangle.inDisk_edge pt p.sx p.sy p.xy p.part_valid.2.2.2, p.apex_xy]
  have := split_legal p.insideXY
  intro h
  linarith

theorem SplitPart.part_queued {pt : Nat → Vector2f} {n : Nat} {mesh : List Triangle} {T : Triangle}
    {x y z : Nat} {S : Triangle}
    (p : SplitPart pt n mesh T x y z S) {τ : Triangle} (hτ : τ ∈ mesh)
    {k l : Nat} (hkl : k ≠ l) (Sk : S.hasVertex k) (Sl : S.hasVertex l)
    (τk : τ.hasVertex k) (τl : τ.hasVertex l) : (k, l) = (x, y) ∨ (l, k) = (x, y) := by
  rcases p.part_shared hτ hkl Sk Sl τk τl with ⟨ek, el⟩ | ⟨ek, el⟩
  · exact Or.inl (by rw [ek, el])
  · exact Or.inr (by rw [ek, el])

theorem SplitPart.parts_ne {pt : Nat → Vector2f} {n : Nat} {mesh : List Triangle} {T : Triangle}
    {x y z : Nat} {S S' : Triangle}
    (p : SplitPart pt n mesh T x y z S) (p' : SplitPart pt n mesh T y z x S') :
    S ≠ S' := by
  intro e
  have := p.sx
  rw [e] at this
  exact p'.not_z this

theorem SplitPart.parts_shared {pt : Nat → Vector2f} {n : Nat} {mesh : List Triangle} {T : Triangle}
    {x y z : Nat} {S S' : Triangle}
    (p : SplitPart pt n mesh T x y z S) (p' : SplitPart pt n mesh T y z x S')
    {k l : Nat} (hkl : k ≠ l) (Sk : S.hasVertex k) (Sl : S.hasVertex l)
    (Sk' : S'.hasVertex k) (Sl' : S'.hasVertex l) : (k = y ∧ l = n) ∨ (k = n ∧ l = y) := by
  have hk : k = y ∨ k = n := by
    rcases (p.hS k).mp Sk with e | e | e
    · exfalso; rw [e] at Sk'; exact p'.not_z Sk'
    · exact Or.inl e
    · exact Or.inr e
  have hl : l = y ∨ l = n := by
    rcases (p.hS l).mp Sl with e | e | e
    · exfalso; rw [e] at Sl'; exact p'.not_z Sl'
    · exact Or.inl e
    · exact Or.inr e
  rcases hk with ek | ek <;> rcases hl with el | el
  · exact absurd (ek.trans el.symm) hkl
  · exact Or.inl ⟨ek, el⟩
  · exact Or.inr ⟨ek, el⟩
  · exact absurd (ek.trans el.symm) hkl

theorem SplitPart.parts_opp {pt : Nat → Vector2f} {n : Nat} {mesh : List Triangle} {T : Triangle}
    {x y z : Nat} {S S' : Triangle}
    (p : SplitPart pt n mesh T x y z S) (p' : SplitPart pt n mesh T y z x S')
    {k l : Nat} (hkl : k ≠ l) (Sk : S.hasVertex k) (Sl : S.hasVertex l)
    (Sk' : S'.hasVertex k) (Sl' : S'.hasVertex l) :
    orient (pt k) (pt l) (pt (S.apex k l)) * orient (pt k) (pt l) (pt (S'.apex k l)) < 0 := by
  have key : orient (pt y) (pt n) (pt (S.apex y n)) *
      orient (pt y) (pt n) (pt (S'.apex y n)) < 0 := by
    rw [p.apex_yn, p'.apex_xn]
    exact split_opp p.insideXY
  rcases p.parts_shared p' hkl Sk Sl Sk' Sl' with ⟨ek, el⟩ | ⟨ek, el⟩
  · subst ek; subst el; exact key
  · subst ek; subst el; exact opp_reverse S S' _ _ key

theorem SplitPart.parts_disjoint {pt : Nat → Vector2f} {n : Nat} {mesh : List Triangle}
    {T : Triangle} {x y z : Nat} {S S' : Triangle}
    (p : SplitPart pt n mesh T x y z S)
    (p' : SplitPart pt n mesh T y z x S') (w : Vector2f) :
    ¬ (S.contains pt w ∧ S'.contains pt w) := by
  rintro ⟨h1, h2⟩
  exact split_disjoint p.insideXY ((p.part_contains w).mp h1) ((p'.part_contains w).mp h2)

theorem SplitPart.parts_legal {pt : Nat → Vector2f} {n : Nat} {mesh : List Triangle} {T : Triangle}
    {x y z : Nat} {S S' : Triangle}
    (p : SplitPart pt n mesh T x y z S) (p' : SplitPart pt n mesh T y z x S')
    {k l : Nat} (hkl : k ≠ l) (Sk : S.hasVertex k) (Sl : S.hasVertex l)
    (Sk' : S'.hasVertex k) (Sl' : S'.hasVertex l) :
    ¬ S.inDisk pt (pt (S'.apex k l)) ∧ ¬ S'.inDisk pt (pt (S.apex k l)) := by
  rcases p.parts_shared p' hkl Sk Sl Sk' Sl' with ⟨ek, el⟩ | ⟨ek, el⟩
  · rw [ek, el, p.apex_yn, p'.apex_xn]
    exact ⟨p.part_legal, p'.part_legal⟩
  · rw [ek, el, Triangle.apex_comm S, Triangle.apex_comm S', p.apex_yn, p'.apex_xn]
    exact ⟨p.part_legal, p'.part_legal⟩

/-- Every edge of a part is an edge of the bounding triangle, or has an owner that stays, or
is shared with one of the two other parts. -/
theorem SplitPart.part_nbr {pt : Nat → Vector2f} {n : Nat} {mesh : List Triangle} {T : Triangle}
    {x y z : Nat} {S S' S3 : Triangle}
    (p : SplitPart pt n mesh T x y z S) (p' : SplitPart pt n mesh T y z x S')
    (p3 : SplitPart pt n mesh T z x y S3)
    {k l : Nat} (hkl : k ≠ l) (Sk : S.hasVertex k) (Sl : S.hasVertex l) :
    (k < 3 ∧ l < 3) ∨ (∃ τ ∈ mesh, τ ≠ T ∧ τ.hasVertex k ∧ τ.hasVertex l) ∨
      (S'.hasVertex k ∧ S'.hasVertex l) ∨ (S3.hasVertex k ∧ S3.hasVertex l) := by
  have hxy : (x < 3 ∧ y < 3) ∨ ∃ τ ∈ mesh, τ ≠ T ∧ τ.hasVertex x ∧ τ.hasVertex y :=
    p.inv.nbr T p.mem x y p.xy p.hx p.hy
  rcases (p.hS k).mp Sk with ek | ek | ek <;> rcases (p.hS l).mp Sl with el | el | el
  · exact absurd (ek.trans el.symm) hkl
  · subst ek; subst el
    rcases hxy with h | h
    · exact Or.inl h
    · exact Or.inr (Or.inl h)
  · subst ek; subst el
    exact Or.inr (Or.inr (Or.inr ⟨p3.sy, p3.sn⟩))
  · subst ek; subst el
    rcases hxy with h | ⟨τ, h1, h2, h3, h4⟩
    · exact Or.inl ⟨h.2, h.1⟩
    · exact Or.inr (Or.inl ⟨τ, h1, h2, h4, h3⟩)
  · exact absurd (ek.trans el.symm) hkl
  · subst ek; subst el
    exact Or.inr (Or.inr (Or.inl ⟨p'.sx, p'.sn⟩))
  · subst ek; subst el
    exact Or.inr (Or.inr (Or.inr ⟨p3.sn, p3.sy⟩))
  · subst ek; subst el
    exact Or.inr (Or.inr (Or.inl ⟨p'.sn, p'.sx⟩))
  · exact absurd (ek.trans el.symm) hkl

/-- Splitting the triangle that strictly contains the new point establishes the invariant for
one more point, with the three edges of the split triangle queued. -/
theorem MeshInv.of_split {pt : Nat → Vector2f} {n : Nat}
    {mesh : List Triangle} {T : Triangle} (hinv : MeshInv pt n mesh [])
    (hT : T ∈ mesh) (hin : T.contains pt (pt n)) {rem : List Triangle} (hnd : rem.Nodup)
    (hrem : ∀ τ, τ ∈ rem ↔ τ ∈ mesh ∧ τ ≠ T) :
    MeshInv pt (n + 1) (rem ++ splitTriangles T n)
      [(T.v0, T.v1), (T.v1, T.v2), (T.v0, T.v2)] := by
  obtain ⟨l0, l1, l2, hTn⟩ := hinv.valid T hT
  obtain ⟨d01, d02, d12⟩ := Triangle.distinct_of_nondeg hTn
  have T0 : T.hasVertex T.v0 := Or.inl rfl
  have T1 : T.hasVertex T.v1 := Or.inr (Or.inl rfl)
  have T2 : T.hasVertex T.v2 := Or.inr (Or.inr rfl)
  have P1 : SplitPart pt n mesh T T.v0 T.v1 T.v2 (Triangle.mk3 T.v0 T.v1 n) :=
    { inv := hinv, mem := hT, inside := hin, hx := T0, hy := T1, hz := T2, xy := d01,
      zx := Ne.symm d02, zy := Ne.symm d12,
      hS := by
        intro k
        rw [Triangle.hasVertex_mk3]
        constructor <;> rintro (h | h | h)
        · exact Or.inl h.symm
        · exact Or.inr (Or.inl h.symm)
        · exact Or.inr (Or.inr h.symm)
        · exact Or.inl h.symm
        · exact Or.inr (Or.inl h.symm)
        · exact Or.inr (Or.inr h.symm) }
  have P2 : SplitPart pt n mesh T T.v1 T.v2 T.v0 (Triangle.mk3 n T.v1 T.v2) :=
    { inv := hinv, mem := hT, inside := hin, hx := T1, hy := T2, hz := T0, xy := d12,
      zx := d01, zy := d02,
      hS := by
        intro k
        rw [Triangle.hasVertex_mk3]
        constructor <;> rintro (h | h | h)
        · exact Or.inr (Or.inr h.symm)
        · exact Or.inl h.symm
        · exact Or.inr (Or.inl h.symm)
        · exact Or.inr (Or.inl h.symm)
        · exact Or.inr (Or.inr h.symm)
        · exact Or.inl h.symm }
  have P3 : SplitPart pt n mesh T T.v2 T.v0 T.v1 (Triangle.mk3 T.v0 n T.v2) :=
    { inv := hinv, mem := hT, inside := hin, hx := T2, hy := T0, hz := T1,
      xy := Ne.symm d02, zx := d12, zy := Ne.symm d01,
      hS := by
        intro k
        rw [Triangle.hasVertex_mk3]
        constructor <;> rintro (h | h | h)
        · exact Or.inr (Or.inl h.symm)
        · exact Or.inr (Or.inr h.symm)
        · exact Or.inl h.symm
        · exact Or.inr (Or.inr h.symm)
        · exact Or.inl h.symm
        · exact Or.inr (Or.inl h.symm) }
  unfold splitTriangles
  generalize Triangle.mk3 T.v0 T.v1 n = N1 at P1 ⊢
  generalize Triangle.mk3 n T.v1 T.v2 = N2 at P2 ⊢
  generalize Triangle.mk3 T.v0 n T.v2 = N3 at P3 ⊢
  have ne12 : N1 ≠ N2 := P1.parts_ne P2
  have ne23 : N2 ≠ N3 := P2.parts_ne P3
  have ne31 : N3 ≠ N1 := P3.parts_ne P1
  have n1 : N1 ∉ mesh := P1.part_not_mem
  have n2 : N2 ∉ mesh := P2.part_not_mem
  have n3 : N3 ∉ mesh := P3.part_not_mem
  have hmem : ∀ t, t ∈ rem ++ [N1, N2, N3] ↔
      (t ∈ mesh ∧ t ≠ T) ∨ t = N1 ∨ t = N2 ∨ t = N3 := by
    intro t
    rw [List.mem_append, hrem]
    simp only [List.mem_cons, List.mem_singleton, List.not_mem_nil, or_false]
  have m1 : N1 ∈ rem ++ [N1, N2, N3] := (hmem N1).mpr (Or.inr (Or.inl rfl))
  have m2 : N2 ∈ rem ++ [N1, N2, N3] := (hmem N2).mpr (Or.inr (Or.inr (Or.inl rfl)))
  have m3 : N3 ∈ rem ++ [N1, N2, N3] := (hmem N3).mpr (Or.inr (Or.inr (Or.inr rfl)))
  have q1 : ∀ τ, τ ∈ mesh → ∀ k l, k ≠ l → N1.hasVertex k → N1.hasVertex l →
      τ.hasVertex k → τ.hasVertex l →
      (k, l) ∈ [(T.v0, T.v1), (T.v1, T.v2), (T.v0, T.v2)] ∨
        (l, k) ∈ [(T.v0, T.v1), (T.v1, T.v2), (T.v0, T.v2)] := by
    intro τ hτ k l hkl sk sl τk τl
    rcases P1.part_queued hτ hkl sk sl τk τl with e | e
    · rw [e]; exact Or.inl (by simp)
    · rw [e]; exact Or.inr (by simp)
  have q2 : ∀ τ, τ ∈ mesh → ∀ k l, k ≠ l → N2.hasVertex k → N2.hasVertex l →
      τ.hasVertex k → τ.hasVertex l →
      (k, l) ∈ [(T.v0, T.v1), (T.v1, T.v2), (T.v0, T.v2)] ∨
        (l, k) ∈ [(T.v0, T.v1), (T.v1, T.v2), (T.v0, T.v2)] := by
    intro τ hτ k l hkl sk sl τk τl
    rcases P2.part_queued hτ hkl sk sl τk τl with e | e
    · rw [e]; exact Or.inl (by simp)
    · rw [e]; exact Or.inr (by simp)
  have q3 : ∀ τ, τ ∈ mesh → ∀ k l, k ≠ l → N3.hasVertex k → N3.hasVertex l →
      τ.hasVertex k → τ.hasVertex l →
      (k, l) ∈ [(T.v0, T.v1), (T.v1, T.v2), (T.v0, T.v2)] ∨
        (l, k) ∈ [(T.v0, T.v1), (T.v1, T.v2), (T.v0, T.v2)] := by
    intro τ hτ k l hkl sk sl τk τl
    rcases P3.part_queued hτ hkl sk sl τk τl with e | e
    · have e1 : k = T.v2 := congrArg Prod.fst e
      have e2 : l = T.v0 := congrArg Prod.snd e
      rw [e1, e2]; exact Or.inr (by simp)
    · have e1 : l = T.v2 := congrArg Prod.fst e
      have e2 : k = T.v0 := congrArg Prod.snd e
      rw [e1, e2]; exact Or.inl (by simp)
  have part_of : ∀ k l, k ≠ l → T.hasVertex k → T.hasVertex l →
      (N1.hasVertex k ∧ N1.hasVertex l) ∨ (N2.hasVertex k ∧ N2.hasVertex l) ∨
        (N3.hasVertex k ∧ N3.hasVertex l) := by
    intro k l hkl hk hl
    rcases hk with ek | ek | ek <;> rcases hl with el | el | el
    · exact absurd (ek.symm.trans el) hkl
    · subst ek; subst el; exact Or.inl ⟨P1.sx, P1.sy⟩
    · subst ek; subst el; exact Or.inr (Or.inr ⟨P3.sy, P3.sx⟩)
    · subst ek; subst el; exact Or.inl ⟨P1.sy, P1.sx⟩
    · exact absurd (ek.symm.trans el) hkl
    · subst ek; subst el; exact Or.inr (Or.inl ⟨P2.sx, P2.sy⟩)
    · subst ek; subst el; exact Or.inr (Or.inr ⟨P3.sx, P3.sy⟩)
    · subst ek; subst el; exact Or.inr (Or.inl ⟨P2.sy, P2.sx⟩)
    · exact absurd (ek.symm.trans el) hkl
  refine ⟨?_, ?_, ?_, ?_, ?_, ?_, ?_, ?_⟩
  · -- nodup
    apply List.Nodup.append hnd
    · simp only [List.nodup_cons, List.mem_cons, List.mem_singleton, List.not_mem_nil,
        not_false_eq_true, List.nodup_nil, and_true, not_or, or_false]
      exact ⟨⟨ne12, Ne.symm ne31⟩, ne23⟩
    · intro t ht ht'
      have := (hrem t).mp ht
      simp only [List.mem_cons, List.mem_singleton, List.not_mem_nil, or_false] at ht'
      rcases ht' with e | e | e
      · rw [e] at this; exact n1 this.1
      · rw [e] at this; exact n2 this.1
      · rw [e] at this; exact n3 this.1
  · -- valid
    intro t ht
    rcases (hmem t).mp ht with ⟨hm, _⟩ | e | e | e
    · obtain ⟨h0, h1, h2, h3⟩ := hinv.valid t hm
      exact ⟨by omega, by omega, by omega, h3⟩
    · rw [e]; exact P1.part_valid
    · rw [e]; exact P2.part_valid
    · rw [e]; exact P3.part_valid
  · -- opp
    intro t ht s hs hts k l hkl tk tl sk sl
    rcases (hmem t).mp ht with ⟨tm, tT⟩ | et | et | et <;>
      rcases (hmem s).mp hs with ⟨sm, sT⟩ | es | es | es
    · exact hinv.opp t tm s sm hts k l hkl tk tl sk sl
    · subst es; rw [mul_comm]; exact P1.part_opp tm tT hkl sk sl tk tl
    · subst es; rw [mul_comm]; exact P2.part_opp tm tT hkl sk sl tk tl
    · subst es; rw [mul_comm]; exact P3.part_opp tm tT hkl sk sl tk tl
    · subst et; exact P1.part_opp sm sT hkl tk tl sk sl
    · exact absurd (et.trans es.symm) hts
    · subst et; subst es; exact P1.parts_opp P2 hkl tk tl sk sl
    · subst et; subst es; rw [mul_comm]; exact P3.parts_opp P1 hkl sk sl tk tl
    · subst et; exact P2.part_opp sm sT hkl tk tl sk sl
    · subst et; subst es; rw [mul_comm]; exact P1.parts_opp P2 hkl sk sl tk tl
    · exact absurd (et.trans es.symm) hts
    · subst et; subst es; exact P2.parts_opp P3 hkl tk tl sk sl
    · subst et; exact P3.part_opp sm sT hkl tk tl sk sl
    · subst et; subst es; exact P3.parts_opp P1 hkl tk tl sk sl
    · subst et; subst es; rw [mul_comm]; exact P2.parts_opp P3 hkl sk sl tk tl
    · exact absurd (et.trans es.symm) hts
  · -- nbr
    intro t ht k l hkl tk tl
    rcases (hmem t).mp ht with ⟨tm, tT⟩ | et | et | et
    · rcases hinv.nbr t tm k l hkl tk tl with h | ⟨s, sm, hst, sk, sl⟩
      · exact Or.inl h
      · right
        by_cases esT : s = T
        · subst esT
          rcases part_of k l hkl sk sl with ⟨h1, h2⟩ | ⟨h1, h2⟩ | ⟨h1, h2⟩
          · exact ⟨N1, m1, fun e => n1 (e ▸ tm), h1, h2⟩
          · exact ⟨N2, m2, fun e => n2 (e ▸ tm), h1, h2⟩
          · exact ⟨N3, m3, fun e => n3 (e ▸ tm), h1, h2⟩
        · exact ⟨s, (hmem s).mpr (Or.inl ⟨sm, esT⟩), hst, sk, sl⟩
    · subst et
      rcases P1.part_nbr P2 P3 hkl tk tl with h | ⟨τ, τm, τT, τk, τl⟩ | ⟨h1, h2⟩ | ⟨h1, h2⟩
      · exact Or.inl h
      · exact Or.inr ⟨τ, (hmem τ).mpr (Or.inl ⟨τm, τT⟩), fun e => n1 (e ▸ τm), τk, τl⟩
      · exact Or.inr ⟨N2, m2, Ne.symm ne12, h1, h2⟩
      · exact Or.inr ⟨N3, m3, ne31, h1, h2⟩
    · subst et
      rcases P2.part_nbr P3 P1 hkl tk tl with h | ⟨τ, τm, τT, τk, τl⟩ | ⟨h1, h2⟩ | ⟨h1, h2⟩
      · exact Or.inl h
      · exact Or.inr ⟨τ, (hmem τ).mpr (Or.inl ⟨τm, τT⟩), fun e => n2 (e ▸ τm), τk, τl⟩
      · exact Or.inr ⟨N3, m3, Ne.symm ne23, h1, h2⟩
      · exact Or.inr ⟨N1, m1, ne12, h1, h2⟩
    · subst et
      rcases P3.part_nbr P1 P2 hkl tk tl with h | ⟨τ, τm, τT, τk, τl⟩ | ⟨h1, h2⟩ | ⟨h1, h2⟩
      · exact Or.inl h
      · exact Or.inr ⟨τ, (hmem τ).mpr (Or.inl ⟨τm, τT⟩), fun e => n3 (e ▸ τm), τk, τl⟩
      · exact Or.inr ⟨N1, m1, Ne.symm ne31, h1, h2⟩
      · exact Or.inr ⟨N2, m2, ne23, h1, h2⟩
  · -- empty
    intro t ht i hi hti
    rcases (hmem t).mp ht with ⟨tm, tT⟩ | et | et | et
    · by_cases hin' : i = n
      · rw [hin']
        intro hc
        exact hinv.disjoint T hT t tm (Ne.symm tT) (pt n) ⟨hin, hc⟩
      · exact hinv.empty t tm i (by omega) hti
    · subst et; exact P1.part_empty i hi hti
    · subst et; exact P2.part_empty i hi hti
    · subst et; exact P3.part_empty i hi hti
  · -- disjoint
    intro t ht s hs hts w
    rcases (hmem t).mp ht with ⟨tm, tT⟩ | et | et | et <;>
      rcases (hmem s).mp hs with ⟨sm, sT⟩ | es | es | es
    · exact hinv.disjoint t tm s sm hts w
    · subst es; exact fun h => P1.part_disjoint tm tT w ⟨h.2, h.1⟩
    · subst es; exact fun h => P2.part_disjoint tm tT w ⟨h.2, h.1⟩
    · subst es; exact fun h => P3.part_disjoint tm tT w ⟨h.2, h.1⟩
    · subst et; exact P1.part_disjoint sm sT w
    · exact absurd (et.trans es.symm) hts
    · subst et; subst es; exact P1.parts_disjoint P2 w
    · subst et; subst es; exact fun h => P3.parts_disjoint P1 w ⟨h.2, h.1⟩
    · subst et; exact P2.part_disjoint sm sT w
    · subst et; subst es; exact fun h => P1.parts_disjoint P2 w ⟨h.2, h.1⟩
    · exact absurd (et.trans es.symm) hts
    · subst et; subst es; exact P2.parts_disjoint P3 w
    · subst et; exact P3.part_disjoint sm sT w
    · subst et; subst es; exact P3.parts_disjoint P1 w
    · subst et; subst es; exact fun h => P2.parts_disjoint P3 w ⟨h.2, h.1⟩
    · exact absurd (et.trans es.symm) hts
  · -- legal
    intro t ht s hs hts k l hkl tk tl sk sl
    rcases (hmem t).mp ht with ⟨tm, tT⟩ | et | et | et <;>
      rcases (hmem s).mp hs with ⟨sm, sT⟩ | es | es | es
    · rcases hinv.legal t tm s sm hts k l hkl tk tl sk sl with h | h | h
      · exact Or.inl h
      · cases h
      · cases h
    · subst es; exact Or.inr (q1 t tm k l hkl sk sl tk tl)
    · subst es; exact Or.inr (q2 t tm k l hkl sk sl tk tl)
    · subst es; exact Or.inr (q3 t tm k l hkl sk sl tk tl)
    · subst et; exact Or.inr (q1 s sm k l hkl tk tl sk sl)
    · exact absurd (et.trans es.symm) hts
    · subst et; subst es; exact Or.inl (P1.parts_legal P2 hkl tk tl sk sl).1
    · subst et; subst es; exact Or.inl (P3.parts_legal P1 hkl sk sl tk tl).2
    · subst et; exact Or.inr (q2 s sm k l hkl tk tl sk sl)
    · subst et; subst es; exact Or.inl (P1.parts_legal P2 hkl sk sl tk tl).2
    · exact absurd (et.trans es.symm) hts
    · subst et; subst es; exact Or.inl (P2.parts_legal P3 hkl tk tl sk sl).1
    · subst et; exact Or.inr (q3 s sm k l hkl tk tl sk sl)
    · subst et; subst es; exact Or.inl (P3.parts_legal P1 hkl tk tl sk sl).1
    · subst et; subst es; exact Or.inl (P2.parts_legal P3 hkl sk sl tk tl).2
    · exact absurd (et.trans es.symm) hts
  · -- ends
    intro e he
    simp only [List.mem_cons, List.mem_singleton, List.not_mem_nil, or_false] at he
    rcases he with e | e | e <;> rw [e]
    · exact d01
    · exact d12
    · exact d02

theorem PointFacts.mono {pt : Nat → Vector2f} {n : Nat}
    {m : Nat} (hp : PointFacts pt n) (hmn : m ≤ n) : PointFacts pt m where
  hull := fun u v hu hv huv y z hy hz => hp.hull u v hu hv huv y z (by omega) (by omega)
  no3 := fun i j k hi hj hk => hp.no3 i j k (by omega) (by omega) (by omega)
  no4 := fun i j k l hi hj hk hl => hp.no4 i j k l (by omega) (by omega) (by omega) (by omega)

/-- Every point strictly inside the bounding triangle, and the third bounding point itself,
lies on the inner side of the line through two bounding points. -/
theorem bounding_side (u v : Nat) (hu : u < 3) (hv : v < 3) (huv : u ≠ v) (x : Vector2f)
    (hx : strictlyInsideBounding x ∨ x = pointAt boundingPoints (3 - u - v)) :
    0 < orient (pointAt boundingPoints u) (pointAt boundingPoints v)
          (pointAt boundingPoints (3 - u - v)) *
        orient (pointAt boundingPoints u) (pointAt boundingPoints v) x := by
  have hin : strictlyInsideBounding x →
      orient ⟨400, -1000⟩ ⟨-400, 700⟩ x < 0 ∧ orient ⟨-400, 700⟩ ⟨1200, 700⟩ x < 0 ∧
        orient ⟨1200, 700⟩ ⟨400, -1000⟩ x < 0 := by
    intro h
    unfold strictlyInsideBounding strictlyInsideTriangle at h
    rcases h with ⟨h0, _⟩ | ⟨_, h1, h2, h3⟩
    · exfalso
      have : orient ⟨400, -1000⟩ ⟨-400, 700⟩ ⟨1200, 700⟩ = -2720000 := by
        simp only [orient]; norm_num
      rw [this] at h0
      linarith
    · exact ⟨h1, h2, h3⟩
  have b0 : pointAt boundingPoints 0 = ⟨400, -1000⟩ := rfl
  have b1 : pointAt boundingPoints 1 = ⟨-400, 700⟩ := rfl
  have b2 : pointAt boundingPoints 2 = ⟨1200, 700⟩ := rfl
  interval_cases u <;> interval_cases v
  · exact absurd rfl huv
  · have e : 3 - 0 - 1 = 2 := rfl
    rw [e, b0, b1, b2] at *
    rcases hx with h | h
    · obtain ⟨h1, _, _⟩ := hin h
      simp only [orient] at h1 ⊢
      norm_num at h1 ⊢
      linarith
    · rw [h]; simp only [orient]; norm_num
  · have e : 3 - 0 - 2 = 1 := rfl
    rw [e, b0, b1, b2] at *
    rcases hx with h | h
    · obtain ⟨_, _, h3⟩ := hin h
      simp only [orient] at h3 ⊢
      norm_num at h3 ⊢
      linarith
    · rw [h]; simp only [orient]; norm_num
  · have e : 3 - 1 - 0 = 2 := rfl
    rw [e, b0, b1, b2] at *
    rcases hx with h | h
    · obtain ⟨h1, _, _⟩ := hin h
      simp only [orient] at h1 ⊢
      norm_num at h1 ⊢
      linarith
    · rw [h]; simp only [orient]; norm_num
  · exact absurd rfl huv
  · have e : 3 - 1 - 2 = 0 := rfl
    rw [e, b0, b1, b2] at *
    rcases hx with h | h
    · obtain ⟨_, h2, _⟩ := hin h
      simp only [orient] at h2 ⊢
      norm_num at h2 ⊢
      linarith
    · rw [h]; simp only [orient]; norm_num
  · have e : 3 - 2 - 0 = 1 := rfl
    rw [e, b0, b1, b2] at *
    rcases hx with h | h
    · obtain ⟨_, _, h3⟩ := hin h
      simp only [orient] at h3 ⊢
      norm_num at h3 ⊢
      linarith
    · rw [h]; simp only [orient]; norm_num
  · have e : 3 - 2 - 1 = 0 := rfl
    rw [e, b0, b1, b2] at *
    rcases hx with h | h
    · obtain ⟨_, h2, _⟩ := hin h
      simp only [orient] at h2 ⊢
      norm_num at h2 ⊢
      linarith
    · rw [h]; simp only [orient]; norm_num
  · exact absurd rfl huv

/-- A point store in general position that starts with the three bounding points has the
facts the invariant uses. -/
theorem PointFacts.of_general {P : List Vector2f} (hgp : GeneralPosition P)
    (hb : ∀ i, i < 3 → pointAt P i = pointAt boundingPoints i) :
    PointFacts (pointAt P) P.length where
  hull := by
    intro u v hu hv huv y z hy hz yu yv zu zv
    have key : ∀ w, w < P.length → w ≠ u → w ≠ v →
        0 < orient (pointAt boundingPoints u) (pointAt boundingPoints v)
              (pointAt boundingPoints (3 - u - v)) *
            orient (pointAt P u) (pointAt P v) (pointAt P w) := by
      intro w hw wu wv
      rw [hb u hu, hb v hv]
      apply bounding_side u v hu hv huv
      by_cases h3 : 3 ≤ w
      · exact Or.inl (hgp.1 w hw h3)
      · right
        have : w = 3 - u - v := by omega
        rw [hb w (by omega), this]
    have h1 := key y hy yu yv
    have h2 := key z hz zu zv
    exact same_sign_trans (by rw [mul_comm]; exact h1) h2
  no3 := by
    intro i j k hi hj hk hij hik hjk
    exact hgp.2.1 i hi j hj k hk hij hik hjk
  no4 := by
    intro i j k l hi hj hk hl hij hik hil hjk hjl hkl
    have h3 : orient (pointAt P i) (pointAt P j) (pointAt P k) ≠ 0 :=
      hgp.2.1 i hi j hj k hk hij hik hjk
    have h4 := hgp.2.2 i hi j hj k hk l hl hij hik hil hjk hjl hkl
    rw [← power_mul_orient _ _ _ _ h3]
    exact mul_ne_zero (sub_ne_zero.mpr h4) h3

/-- The invariant holds for the bounding triangle alone. -/
theorem MeshInv.of_bounding {pt : Nat → Vector2f}
    (hO : orient (pt 0) (pt 1) (pt 2) ≠ 0) (b : Bool) :
    MeshInv pt 3 [⟨0, 1, 2, b⟩] [] where
  nodup := List.nodup_singleton _
  valid := by
    intro t ht
    rw [List.mem_singleton] at ht
    subst ht
    refine ⟨?_, ?_, ?_, hO⟩ <;> (simp only; omega)
  opp := by
    intro t ht s hs hts
    rw [List.mem_singleton] at ht hs
    exact absurd (ht.trans hs.symm) hts
  nbr := by
    intro t ht u v _ hu hv
    rw [List.mem_singleton] at ht
    subst ht
    left
    constructor
    · rcases hu with e | e | e <;> simp only at e <;> omega
    · rcases hv with e | e | e <;> simp only at e <;> omega
  empty := by
    intro t ht i hi hti
    rw [List.mem_singleton] at ht
    subst ht
    exfalso
    apply hti
    unfold Triangle.hasVertex
    simp only
    omega
  disjoint := by
    intro t ht s hs hts
    rw [List.mem_singleton] at ht hs
    exact absurd (ht.trans hs.symm) hts
  legal := by
    intro t ht s hs hts
    rw [List.mem_singleton] at ht hs
    exact absurd (ht.trans hs.symm) hts
  ends := by
    intro e he
    cases he

theorem strictRun_points {g : Geometry} (h : StrictRun g) :
    ∃ rest, g.mPoints = boundingPoints ++ rest := by
  induction h with
  | reset g => exact ⟨[], rfl⟩
  | insertPoint fuel p i T _ _ _ _ hi ih =>
    obtain ⟨rest, hr⟩ := ih
    exact ⟨rest ++ [p], by rw [insertOnePoint_mPoints hi, hr, List.append_assoc]⟩

theorem pointAt_bounding_append (rest : List Vector2f) (i : Nat) (hi : i < 3) :
    pointAt (boundingPoints ++ rest) i = pointAt boundingPoints i :=
  pointAt_append boundingPoints rest i hi

/-- Along a run of strictly located insertions the invariant of the flip loop holds between
the calls, read on any general-position extension of the point store. -/
theorem strictRun_inv {g : Geometry} (h : StrictRun g) :
    ∀ rest, GeneralPosition (g.mPoints ++ rest) →
      MeshInv (pointAt (g.mPoints ++ rest)) g.mPoints.length g.mTriangles [] := by
  induction h with
  | reset g =>
    intro rest hgp
    have e1 : (reset g).mTriangles = [⟨0, 1, 2, false⟩] := rfl
    have e2 : (reset g).mPoints = boundingPoints := rfl
    have e3 : boundingPoints.length = 3 := rfl
    rw [e1, e2, e3]
    rw [e2] at hgp
    apply MeshInv.of_bounding
    have hl : 3 ≤ (boundingPoints ++ rest).length := by
      rw [List.length_append, e3]; omega
    exact hgp.2.1 0 (by omega) 1 (by omega) 2 (by omega) (by decide) (by decide) (by decide)
  | @insertPoint g g' fuel p i T hrun hfind hT hstrict hins ih =>
    intro rest hgp
    obtain ⟨rest0, hpts0⟩ := strictRun_points hrun
    have h3 : 3 ≤ g.mPoints.length := by
      rw [hpts0, List.length_append]
      have : boundingPoints.length = 3 := rfl
      omega
    have hpts' : g'.mPoints = g.mPoints ++ [p] := insertOnePoint_mPoints hins
    have hPf : g'.mPoints ++ rest = g.mPoints ++ ([p] ++ rest) := by
      rw [hpts', List.append_assoc]
    rw [hPf] at hgp ⊢
    have hlen' : g'.mPoints.length = g.mPoints.length + 1 := by
      rw [hpts', List.length_append, List.length_singleton]
    rw [hlen']
    have hinv := ih ([p] ++ rest) hgp
    -- the points
    have hbound : ∀ k, k < 3 → pointAt (g.mPoints ++ ([p] ++ rest)) k =
        pointAt boundingPoints k := by
      intro k hk
      rw [pointAt_append _ _ k (by omega), hpts0]
      exact pointAt_bounding_append rest0 k hk
    have hp : PointFacts (pointAt (g.mPoints ++ ([p] ++ rest))) (g.mPoints.length + 1) := by
      apply (PointFacts.of_general hgp hbound).mono
      simp only [List.length_append, List.length_cons]
      omega
    have hnew : pointAt (g.mPoints ++ ([p] ++ rest)) g.mPoints.length = p := by
      unfold pointAt
      rw [List.getD_eq_getElem?_getD, List.getElem?_append_right (le_refl _)]
      simp
    have hTm : T ∈ g.mTriangles := List.getElem?_mem hT
    obtain ⟨l0, l1, l2, _⟩ := hinv.valid T hTm
    have hin : T.contains (pointAt (g.mPoints ++ ([p] ++ rest)))
        (pointAt (g.mPoints ++ ([p] ++ rest)) g.mPoints.length) := by
      unfold Triangle.contains
      rw [hnew, pointAt_append _ _ _ l0, pointAt_append _ _ _ l1, pointAt_append _ _ _ l2]
      exact hstrict
    have hsplit := MeshInv.of_split hinv hTm hin
      (hinv.nodup.sublist (List.eraseIdx_sublist _ _))
      (fun τ => mem_eraseIdx_iff_ne hinv.nodup hT)
    -- the call
    have hloc : located g p := by
      unfold located
      rw [hfind]; rfl
    obtain ⟨i', T', hfind', hT', hsplitEq, _, _⟩ := insertPoint_located hins h3 hloc
    have ei : i' = i := by
      rw [hfind] at hfind'
      exact (Option.some.inj hfind').symm
    subst ei
    have eT : T' = T := by
      rw [hT] at hT'
      exact (Option.some.inj hT').symm
    subst eT
    unfold insertPoint insertOnePoint at hins
    simp only at hins
    rw [hsplitEq] at hins
    simp only at hins
    unfold queueFlip at hins
    simp only [List.length_cons, List.length_nil, if_true] at hins
    have hloop := queueFlipLoop_inv hp fuel _ _ g'
      (by simp only [List.length_append, List.length_singleton])
      (by
        intro k hk
        simp only
        have : g.mPoints ++ ([p] ++ rest) = (g.mPoints ++ [p]) ++ rest := by
          rw [List.append_assoc]
        have hk' : k < (g.mPoints ++ [p]).length := by
          rw [List.length_append, List.length_singleton]; exact hk
        rw [this, pointAt_append (g.mPoints ++ [p]) rest k hk'])
      hsplit hins
    exact hloop.1

/-! ## The claims -/

/-- C2 (the code departs from the claim). From `reset()`, the points `(200, 0)` and
`(600, 0)`, strictly inside the bounding triangle, are inserted and give `repeatedPair`.
Inserting `(200, 0)` a second time does not return: the triangle `(0, 1, 3)` is split at the
new point 5, the first three iterations of the flip loop flip the edges `(0, 3)`, `(3, 4)`
and `(4, 1)` (each of the three in-circle tests answers `true`), the fourth leaves the mesh as
it is, and in the mesh `repeatedStuck` reached then the edge `(5, 1)` taken from the queue is
owned by four triangles, so the assertion of `findTriangleWithEdge` fails. No loop budget lets
the call return. -/
theorem assertion_fails_on_repeated_point :
    strictlyInsideBounding ⟨200, 0⟩ ∧ strictlyInsideBounding ⟨600, 0⟩ ∧
    insertPoints 100 (reset Geometry.new) [⟨200, 0⟩, ⟨600, 0⟩] = .ok repeatedPair ∧
    insertPointIntoTriangle { repeatedPair with mPoints := repeatedPair.mPoints ++ [⟨200, 0⟩] }
        ⟨200, 0⟩ = .ok (repeatedSplit, some [(0, 1), (1, 3), (0, 3)]) ∧
    circumCircleContains ⟨200, 0⟩ ⟨400, -1000⟩ ⟨200, 0⟩ ⟨600, 0⟩ = true ∧
    circumCircleContains ⟨200, 0⟩ ⟨-400, 700⟩ ⟨200, 0⟩ ⟨600, 0⟩ = true ∧
    circumCircleContains ⟨200, 0⟩ ⟨-400, 700⟩ ⟨600, 0⟩ ⟨1200, 700⟩ = true ∧
    queueFlipSteps 4 repeatedSplit [(0, 1), (1, 3), (0, 3)] =
      .ok (repeatedStuck, [(0, 1), (1, 3), (4, 0), (0, 5), (5, 3), (1, 3), (3, 5), (5, 4),
        (2, 4), (4, 5), (5, 1)]) ∧
    owners repeatedStuck.mTriangles (5, 1) = 4 ∧
    findTriangleWithEdge repeatedStuck.mTriangles (5, 1) = .error .assertion ∧
    insertPoint 100 repeatedPair ⟨200, 0⟩ = .error .assertion ∧
    ∀ (fuel : Nat) (g : Geometry), insertPoint fuel repeatedPair ⟨200, 0⟩ ≠ .ok g := by
  have hrun : insertPoint 100 repeatedPair ⟨200, 0⟩ = .error .assertion := by decide!
  refine ⟨by decide!, by decide!, by decide!, by decide!, by decide!, by decide!, by decide!,
    by decide!, by decide!, by decide!, hrun, ?_⟩
  intro fuel g hg
  have hne : insertOnePoint 100 repeatedPair ⟨200, 0⟩ ≠ .error .fuel := by
    rw [show insertOnePoint 100 repeatedPair ⟨200, 0⟩ = .error .assertion from hrun]
    simp
  have hne' : insertOnePoint fuel repeatedPair ⟨200, 0⟩ ≠ .error .fuel := by
    rw [show insertOnePoint fuel repeatedPair ⟨200, 0⟩ = .ok g from hg]
    simp
  have a := insertOnePoint_fuel_mono 100 fuel repeatedPair ⟨200, 0⟩ hne
  have b := insertOnePoint_fuel_mono fuel 100 repeatedPair ⟨200, 0⟩ hne'
  rw [Nat.add_comm, a] at b
  rw [show insertOnePoint 100 repeatedPair ⟨200, 0⟩ = .error .assertion from hrun,
    show insertOnePoint fuel repeatedPair ⟨200, 0⟩ = .ok g from hg] at b
  cases b

/-- C3. Reset determinism: from every state, `reset` yields the point store
`[(400,-1000), (-400,700), (1200,700)]` and the mesh made of the single triangle `(0,1,2)` with
`drawable = false`; the constructor yields the same state. -/
theorem reset_deterministic (g : Geometry) :
    reset g = { mPoints := [⟨400, -1000⟩, ⟨-400, 700⟩, ⟨1200, 700⟩],
                mTriangles := [⟨0, 1, 2, false⟩] } ∧
    Geometry.new = { mPoints := [⟨400, -1000⟩, ⟨-400, 700⟩, ⟨1200, 700⟩],
                     mTriangles := [⟨0, 1, 2, false⟩] } := by
  constructor <;> rfl

/-- C4. Idempotence of rebuild: if `triangulate` returns `g1` on a state `g`, then a second
`triangulate`, run on `g1`, returns as well and yields `g1` itself, with whatever loop budget it
returns: the same point store and the same triangles (in the same order, hence also up to the
order of the triangles and of the vertices inside each triangle). -/
theorem triangulate_idempotent (fuel : Nat) (g g1 : Geometry)
    (h1 : triangulate fuel g = .ok g1) :
    triangulate fuel g1 = .ok g1 ∧
    ∀ (fuel2 : Nat) (g2 : Geometry), triangulate fuel2 g1 = .ok g2 → g2 = g1 := by
  have hp := triangulate_mPoints h1
  have hsame : ∀ f, triangulate f g1 = triangulate f g := by
    intro f
    by_cases hlt : g.mPoints.length < 3
    · have : g1 = g := by
        unfold triangulate at h1
        simp only [hlt, if_true] at h1
        cases h1; rfl
      rw [this]
    · unfold triangulate
      rw [hp]
      simp only [hlt, if_false]
  refine ⟨by rw [hsame, h1], ?_⟩
  intro fuel2 g2 h2
  rw [hsame] at h2
  have a := triangulate_fuel_mono fuel fuel2 g g1 h1
  have b := triangulate_fuel_mono fuel2 fuel g g2 h2
  rw [Nat.add_comm] at b
  rw [a] at b
  cases b
  rfl

/-- Worked instance of C4: rebuilding the state produced by `reset()` gives `rebuiltBounding`,
and rebuilding that state again gives it back. -/
theorem triangulate_idempotent_witness :
    triangulate 100 (reset Geometry.new) = .ok rebuiltBounding ∧
    triangulate 100 rebuiltBounding = .ok rebuiltBounding ∧
    ∀ (fuel2 : Nat) (g2 : Geometry),
      triangulate fuel2 rebuiltBounding = .ok g2 → g2 = rebuiltBounding :=
  ⟨by decide!, triangulate_idempotent 100 (reset Geometry.new) rebuiltBounding (by decide!)⟩

/-- C5. Point-store index stability: an `insertPoint g p` that returns leaves the point store
equal to the old sequence followed by exactly `p` (whether or not `p` was meshed), and a
`triangulate g` that returns leaves the point store equal to the old sequence, in the same
order; in both cases every index of the old store still holds the same point. -/
theorem point_store_stable (fuel : Nat) (g g' : Geometry) (p : Vector2f) :
    (insertPoint fuel g p = .ok g' →
      g'.mPoints = g.mPoints ++ [p] ∧
      ∀ i, i < g.mPoints.length → g'.mPoints[i]? = g.mPoints[i]?) ∧
    (triangulate fuel g = .ok g' →
      g'.mPoints = g.mPoints ∧
      ∀ i, i < g.mPoints.length → g'.mPoints[i]? = g.mPoints[i]?) := by
  constructor
  · intro h
    have e := insertOnePoint_mPoints h
    refine ⟨e, fun i hi => ?_⟩
    rw [e, List.getElem?_append_left hi]
  · intro h
    have e := triangulate_mPoints h
    exact ⟨e, fun i _ => by rw [e]⟩

/-- Worked instance of C5: inserting `(400, 50)` into `scenarioThree`, and rebuilding the
state produced by `reset()`. -/
theorem point_store_stable_witness :
    insertPoint 100 scenarioThree ⟨400, 50⟩ = .ok scenarioFour ∧
    scenarioFour.mPoints = scenarioThree.mPoints ++ [⟨400, 50⟩] ∧
    triangulate 100 (reset Geometry.new) = .ok rebuiltBounding ∧
    rebuiltBounding.mPoints = (reset Geometry.new).mPoints :=
  ⟨by decide!,
   ((point_store_stable 100 scenarioThree scenarioFour ⟨400, 50⟩).1 (by decide!)).1,
   by decide!,
   ((point_store_stable 100 (reset Geometry.new) rebuiltBounding ⟨0, 0⟩).2 (by decide!)).1⟩

/-- C6. Silent point-drop: in a state with at least 3 stored points, if no triangle of the mesh
passes the barycentric containment test for `p` (with the tolerance that the locator uses), then
`insertPoint g p` returns, with any loop budget, the state whose point store is the old one
followed by `p` and whose mesh is exactly the old mesh. The test is the one that `insertPoint`
runs, on the point store to which `p` has just been appended (first part); when every vertex
index of the mesh is in range, that is the same as the test on the old point store (second
part). -/
theorem silent_point_drop (fuel : Nat) (g : Geometry) (p : Vector2f)
    (h3 : 3 ≤ g.mPoints.length) :
    ((∀ t ∈ g.mTriangles,
        checkBarycentricCoordinates (g.mPoints ++ [p]) t p defaultTolerance = none) →
      insertPoint fuel g p = .ok { mPoints := g.mPoints ++ [p], mTriangles := g.mTriangles }) ∧
    ((∀ t ∈ g.mTriangles, t.v0 < g.mPoints.length ∧ t.v1 < g.mPoints.length ∧
        t.v2 < g.mPoints.length) →
      (∀ t ∈ g.mTriangles, checkBarycentricCoordinates g.mPoints t p defaultTolerance = none) →
      insertPoint fuel g p = .ok { mPoints := g.mPoints ++ [p], mTriangles := g.mTriangles }) := by
  have main : (∀ t ∈ g.mTriangles,
        checkBarycentricCoordinates (g.mPoints ++ [p]) t p defaultTolerance = none) →
      insertPoint fuel g p = .ok { mPoints := g.mPoints ++ [p], mTriangles := g.mTriangles } := by
    intro hnone
    have hfind : findTriangleWithPoint
        { mPoints := g.mPoints ++ [p], mTriangles := g.mTriangles } p = none :=
      pointSearchLoop_eq_none (g.mPoints ++ [p]) p g.mTriangles 0 hnone
    unfold insertPoint insertOnePoint insertPointIntoTriangle
    have hlen : (g.mPoints ++ [p]).length = g.mPoints.length + 1 := by simp
    have e1 : ¬ (g.mPoints.length + 1 < 3) := by omega
    have e2 : ¬ (g.mPoints.length + 1 = 3) := by omega
    simp only [hlen, e1, e2, if_false, hfind]
  refine ⟨main, fun hvalid hnone => main fun t ht => ?_⟩
  obtain ⟨h0, h1, h2⟩ := hvalid t ht
  rw [checkBarycentricCoordinates_append g.mPoints [p] t p defaultTolerance h0 h1 h2]
  exact hnone t ht

/-- Worked instance of C6: the point `(2000, 2000)` lies outside every triangle of
`scenarioOne`, whose vertex indices are all in range. -/
theorem silent_point_drop_witness :
    3 ≤ scenarioOne.mPoints.length ∧
    (∀ t ∈ scenarioOne.mTriangles,
      checkBarycentricCoordinates (scenarioOne.mPoints ++ [⟨2000, 2000⟩]) t ⟨2000, 2000⟩
        defaultTolerance = none) ∧
    (∀ t ∈ scenarioOne.mTriangles, t.v0 < scenarioOne.mPoints.length ∧
      t.v1 < scenarioOne.mPoints.length ∧ t.v2 < scenarioOne.mPoints.length) ∧
    (∀ t ∈ scenarioOne.mTriangles,
      checkBarycentricCoordinates scenarioOne.mPoints t ⟨2000, 2000⟩ defaultTolerance = none) ∧
    insertPoint 0 scenarioOne ⟨2000, 2000⟩ =
      .ok { mPoints := scenarioOne.mPoints ++ [⟨2000, 2000⟩],
            mTriangles := scenarioOne.mTriangles } ∧
    insertPoint 7 scenarioOne ⟨2000, 2000⟩ =
      .ok { mPoints := scenarioOne.mPoints ++ [⟨2000, 2000⟩],
            mTriangles := scenarioOne.mTriangles } :=
  ⟨by decide!, by decide!, by decide!, by decide!,
   (silent_point_drop 0 scenarioOne ⟨2000, 2000⟩ (by decide!)).1 (by decide!),
   (silent_point_drop 7 scenarioOne ⟨2000, 2000⟩ (by decide!)).2 (by decide!) (by decide!)⟩

/-- C7 (counterexample). From `reset()`, the non-collinear points `(400, 0)`, `(300, 100)`,
`(500, 100)`, strictly inside the bounding triangle, are inserted: the mesh then has 7
triangles with `drawable = true`, not 1. After the insertion of `(400, 50)`, strictly inside the
triangle of these three points, it has 9 triangles with `drawable = true`, not 3, and the
drawable triangle `(0, 3, 4)` does not have the fourth point (index 6) as a vertex. -/
theorem fourth_point_split_counterexample :
    strictlyInsideBounding ⟨400, 0⟩ ∧ strictlyInsideBounding ⟨300, 100⟩ ∧
    strictlyInsideBounding ⟨500, 100⟩ ∧ ¬ collinear ⟨400, 0⟩ ⟨300, 100⟩ ⟨500, 100⟩ ∧
    insertPoints 100 (reset Geometry.new) [⟨400, 0⟩, ⟨300, 100⟩, ⟨500, 100⟩]
      = .ok scenarioThree ∧
    (scenarioThree.mTriangles.filter (fun t => t.drawable)).length = 7 ∧
    strictlyInsideTriangle ⟨400, 0⟩ ⟨300, 100⟩ ⟨500, 100⟩ ⟨400, 50⟩ ∧
    insertPoint 100 scenarioThree ⟨400, 50⟩ = .ok scenarioFour ∧
    (scenarioFour.mTriangles.filter (fun t => t.drawable)).length = 9 ∧
    (⟨0, 3, 4, true⟩ : Triangle) ∈ scenarioFour.mTriangles := by
  refine ⟨by decide!, by decide!, by decide!, by decide!, by decide!, by decide!, by decide!,
    by decide!, by decide!, by decide!⟩

/-- C7 (amended). Starting from `reset()`, let four `insertPoint` calls return, each of whose
points is found by the point locator. After the third call the mesh has exactly 7 triangles and
after the fourth exactly 9, all with `drawable = true` (the non-drawable bounding triangle is
removed by the first split and every triangle created later is drawable). The split that the
fourth call performs on the located triangle `inside` leaves the other triangles in place and
appends exactly three triangles that have the new point (index 6) as a vertex, `(v0, v1, 6)`,
`(6, v1, v2)`, `(v0, 6, v2)`; when the fourth point lies strictly inside `inside`, none of
these three has the remaining vertex of `inside` strictly inside its circumcircle. -/
theorem fourth_point_split (f1 f2 f3 f4 : Nat) (g0 g1 g2 g3 g4 : Geometry)
    (p1 p2 p3 p4 : Vector2f)
    (h1 : insertPoint f1 (reset g0) p1 = .ok g1) (l1 : located (reset g0) p1)
    (h2 : insertPoint f2 g1 p2 = .ok g2) (l2 : located g1 p2)
    (h3 : insertPoint f3 g2 p3 = .ok g3) (l3 : located g2 p3)
    (h4 : insertPoint f4 g3 p4 = .ok g4) (l4 : located g3 p4) :
    (g3.mTriangles.length = 7 ∧ ∀ t ∈ g3.mTriangles, t.drawable = true) ∧
    (g4.mTriangles.length = 9 ∧ ∀ t ∈ g4.mTriangles, t.drawable = true) ∧
    ∃ i inside,
      findTriangleWithPoint { g3 with mPoints := g3.mPoints ++ [p4] } p4 = some i ∧
      g3.mTriangles[i]? = some inside ∧
      insertPointIntoTriangle { g3 with mPoints := g3.mPoints ++ [p4] } p4 =
        .ok ({ mPoints := g3.mPoints ++ [p4],
               mTriangles := g3.mTriangles.eraseIdx i ++
                 [Triangle.mk3 inside.v0 inside.v1 6, Triangle.mk3 6 inside.v1 inside.v2,
                  Triangle.mk3 inside.v0 6 inside.v2] },
             some [(inside.v0, inside.v1), (inside.v1, inside.v2), (inside.v0, inside.v2)]) ∧
      (strictlyInsideTriangle (pointAt (g3.mPoints ++ [p4]) inside.v0)
          (pointAt (g3.mPoints ++ [p4]) inside.v1) (pointAt (g3.mPoints ++ [p4]) inside.v2) p4 →
        ¬ strictlyInsideCircumcircle (pointAt (g3.mPoints ++ [p4]) inside.v2)
            (pointAt (g3.mPoints ++ [p4]) inside.v0) (pointAt (g3.mPoints ++ [p4]) inside.v1) p4 ∧
        ¬ strictlyInsideCircumcircle (pointAt (g3.mPoints ++ [p4]) inside.v0)
            p4 (pointAt (g3.mPoints ++ [p4]) inside.v1) (pointAt (g3.mPoints ++ [p4]) inside.v2) ∧
        ¬ strictlyInsideCircumcircle (pointAt (g3.mPoints ++ [p4]) inside.v1)
            (pointAt (g3.mPoints ++ [p4]) inside.v0) p4 (pointAt (g3.mPoints ++ [p4]) inside.v2)) := by
  have hp0 : (reset g0).mPoints.length = 3 := rfl
  have hp1 : g1.mPoints.length = 4 := by rw [insertOnePoint_mPoints h1]; rfl
  have hp2 : g2.mPoints.length = 5 := by rw [insertOnePoint_mPoints h2]; simp [hp1]
  have hp3 : g3.mPoints.length = 6 := by rw [insertOnePoint_mPoints h3]; simp [hp2]
  -- the first insertion removes the bounding triangle
  have s1 : g1.mTriangles.length = 3 ∧ ∀ t ∈ g1.mTriangles, t.drawable = true := by
    obtain ⟨i, inside, _, hin, _, hlen, hmem⟩ := insertPoint_located h1 (by rw [hp0]) l1
    refine ⟨hlen, fun t ht => ?_⟩
    rcases hmem t ht with hm | hm
    · exfalso
      have hi : i = 0 := by
        by_contra hc
        have : (reset g0).mTriangles[i]? = none :=
          List.getElem?_eq_none (by show 1 ≤ i; omega)
        rw [this] at hin
        cases hin
      subst hi
      exact List.not_mem_nil _ hm
    · exact hm
  have s2 := insertPoint_located_drawable h2 (by omega) l2 s1.2
  have s3 := insertPoint_located_drawable h3 (by omega) l3 s2.2
  have s4 := insertPoint_located_drawable h4 (by omega) l4 s3.2
  refine ⟨⟨by omega, s3.2⟩, ⟨by omega, s4.2⟩, ?_⟩
  obtain ⟨i, inside, hfind, hin, hins, _, _⟩ := insertPoint_located h4 (by omega) l4
  refine ⟨i, inside, hfind, hin, ?_, fun hs => split_circles hs⟩
  rw [hins, hp3]
  rfl

/-- Worked instance of C7 (amended): the four points `(400, 0)`, `(300, 100)`, `(500, 100)`,
`(400, 50)`. -/
theorem fourth_point_split_witness :
    insertPoint 100 (reset Geometry.new) ⟨400, 0⟩ = .ok scenarioOne ∧
    located (reset Geometry.new) ⟨400, 0⟩ ∧
    insertPoint 100 scenarioOne ⟨300, 100⟩ = .ok scenarioTwo ∧
    located scenarioOne ⟨300, 100⟩ ∧
    insertPoint 100 scenarioTwo ⟨500, 100⟩ = .ok scenarioThree ∧
    located scenarioTwo ⟨500, 100⟩ ∧
    insertPoint 100 scenarioThree ⟨400, 50⟩ = .ok scenarioFour ∧
    located scenarioThree ⟨400, 50⟩ ∧
    (scenarioThree.mTriangles.length = 7 ∧ ∀ t ∈ scenarioThree.mTriangles, t.drawable = true) ∧
    (scenarioFour.mTriangles.length = 9 ∧ ∀ t ∈ scenarioFour.mTriangles, t.drawable = true) :=
  ⟨by decide!, by decide!, by decide!, by decide!, by decide!, by decide!, by decide!, by decide!,
   (fourth_point_split 100 100 100 100 Geometry.new scenarioOne scenarioTwo scenarioThree
      scenarioFour ⟨400, 0⟩ ⟨300, 100⟩ ⟨500, 100⟩ ⟨400, 50⟩ (by decide!) (by decide!)
      (by decide!) (by decide!) (by decide!) (by decide!) (by decide!) (by decide!)).1,
   (fourth_point_split 100 100 100 100 Geometry.new scenarioOne scenarioTwo scenarioThree
      scenarioFour ⟨400, 0⟩ ⟨300, 100⟩ ⟨500, 100⟩ ⟨400, 50⟩ (by decide!) (by decide!)
      (by decide!) (by decide!) (by decide!) (by decide!) (by decide!) (by decide!)).2.1⟩

/-- C8 (the code departs from the claim). In the state produced by `reset()`, which is
reachable, `triangulate()` returns a state, reachable as well, whose single triangle has the
bounding points 0, 1, 2 as vertices and `drawable = true`. -/
theorem rebuild_makes_bounding_triangle_drawable :
    Reachable (reset Geometry.new) ∧
    triangulate 0 (reset Geometry.new) = .ok rebuiltBounding ∧
    Reachable rebuiltBounding ∧
    rebuiltBounding.mTriangles = [⟨0, 1, 2, true⟩] :=
  ⟨Reachable.reset Reachable.construct, by decide!,
   Reachable.triangulate 0 (Reachable.reset Reachable.construct) (by decide!), rfl⟩

/-- C9 (counterexample). The state `scenarioOne` is reachable and `triangulate()` returns on
it. During that call the inserter is entered four times, the first two times with a point
store of 1 and of 2 points: both times it takes its 'fewer than 3 points' branch and returns
no edges. -/
theorem inserter_short_branch_taken_by_rebuild :
    Reachable scenarioOne ∧
    triangulate 100 scenarioOne = .ok scenarioOne ∧
    triangulateEntries 100 scenarioOne =
      [{ mPoints := [⟨400, -1000⟩], mTriangles := [] },
       { mPoints := [⟨400, -1000⟩, ⟨-400, 700⟩], mTriangles := [] },
       { mPoints := [⟨400, -1000⟩, ⟨-400, 700⟩, ⟨1200, 700⟩], mTriangles := [] },
       { mPoints := [⟨400, -1000⟩, ⟨-400, 700⟩, ⟨1200, 700⟩, ⟨400, 0⟩],
         mTriangles := [⟨0, 1, 2, true⟩] }] ∧
    ([⟨400, -1000⟩] : List Vector2f).length < 3 ∧
    insertPointIntoTriangle { mPoints := [⟨400, -1000⟩], mTriangles := [] } ⟨400, -1000⟩ =
      .ok ({ mPoints := [⟨400, -1000⟩], mTriangles := [] }, none) ∧
    ([⟨400, -1000⟩, ⟨-400, 700⟩] : List Vector2f).length < 3 ∧
    insertPointIntoTriangle { mPoints := [⟨400, -1000⟩, ⟨-400, 700⟩], mTriangles := [] }
      ⟨-400, 700⟩ =
      .ok ({ mPoints := [⟨400, -1000⟩, ⟨-400, 700⟩], mTriangles := [] }, none) :=
  ⟨Reachable.insertPoint 100 ⟨400, 0⟩ Reachable.construct (by decide!),
   by decide!, by decide!, by decide!, by decide!, by decide!, by decide!⟩

/-- C9 (amended). In every state reachable from construction by `insertPoint`, `triangulate`
and `reset` calls that return, the point store holds at least 3 points and its first three
entries are `(400,-1000)`, `(-400,700)`, `(1200,700)` in that order. Hence a `triangulate` call
on such a state does not take its own 'fewer than 3 points' branch (it runs the rebuild loop),
and an `insertPoint` call on such a state enters the inserter with more than 3 points, so that
neither the 'fewer than 3 points' branch nor the 'exactly 3 points' branch of the inserter is
taken. Inside every `triangulate` call on such a state, however, the replay starts from the
emptied store: the inserter is entered with 1, then 2, then 3 points (its 'fewer than 3 points'
branch twice, then its 'exactly 3 points' branch), and with more than 3 points afterwards. -/
theorem empty_state_unreachable (g : Geometry) (h : Reachable g) :
    3 ≤ g.mPoints.length ∧ g.mPoints.take 3 = boundingPoints ∧
    (∀ fuel, triangulate fuel g = insertAll fuel { mPoints := [], mTriangles := [] } g.mPoints) ∧
    (∀ p, ¬ ((g.mPoints ++ [p]).length < 3) ∧ ¬ ((g.mPoints ++ [p]).length = 3)) ∧
    (∀ fuel, ∃ rest,
      triangulateEntries fuel g =
        { mPoints := [⟨400, -1000⟩], mTriangles := [] } ::
        { mPoints := [⟨400, -1000⟩, ⟨-400, 700⟩], mTriangles := [] } ::
        { mPoints := [⟨400, -1000⟩, ⟨-400, 700⟩, ⟨1200, 700⟩], mTriangles := [] } :: rest ∧
      ∀ s ∈ rest, 3 < s.mPoints.length) := by
  obtain ⟨rest, hr⟩ := reachable_mPoints h
  have hlen : 3 ≤ g.mPoints.length := by
    rw [hr]; simp [boundingPoints]
  refine ⟨hlen, ?_, ?_, ?_, ?_⟩
  · rw [hr]; simp [boundingPoints]
  · intro fuel
    unfold triangulate
    simp only [Nat.not_lt.mpr hlen, if_false]
  · intro p
    simp only [List.length_append, List.length_singleton]
    omega
  · intro fuel
    refine ⟨inserterEntries fuel { mPoints := boundingPoints, mTriangles := [⟨0, 1, 2, true⟩] }
      rest, ?_, ?_⟩
    · unfold triangulateEntries
      simp only [Nat.not_lt.mpr hlen, if_false]
      rw [hr, triangulateEntries_bounding]
    · intro s hs
      have := inserterEntries_length fuel rest _ s hs
      simpa [boundingPoints] using this

/-- Worked instance of C9: the state after one insertion, and the inserter calls of its
rebuild. -/
theorem empty_state_unreachable_witness :
    Reachable scenarioOne ∧ 3 ≤ scenarioOne.mPoints.length ∧
    scenarioOne.mPoints.take 3 = boundingPoints ∧
    ∃ rest,
      triangulateEntries 100 scenarioOne =
        { mPoints := [⟨400, -1000⟩], mTriangles := [] } ::
        { mPoints := [⟨400, -1000⟩, ⟨-400, 700⟩], mTriangles := [] } ::
        { mPoints := [⟨400, -1000⟩, ⟨-400, 700⟩, ⟨1200, 700⟩], mTriangles := [] } :: rest ∧
      ∀ s ∈ rest, 3 < s.mPoints.length :=
  ⟨Reachable.insertPoint 100 ⟨400, 0⟩ Reachable.construct (by decide!),
   (empty_state_unreachable scenarioOne
      (Reachable.insertPoint 100 ⟨400, 0⟩ Reachable.construct (by decide!))).1,
   (empty_state_unreachable scenarioOne
      (Reachable.insertPoint 100 ⟨400, 0⟩ Reachable.construct (by decide!))).2.1,
   (empty_state_unreachable scenarioOne
      (Reachable.insertPoint 100 ⟨400, 0⟩ Reachable.construct (by decide!))).2.2.2.2 100⟩

/-- C10. The in-circle test: for points `p1`, `p2`, `p3` that are not collinear, the centre
computed by `circumCircleContains` is equidistant from `p1`, `p2` and `p3`; the result is
`true` exactly when the squared distance from `v` to the centre is at most the squared distance
from `p1` to the centre; and the result is `true` for `v = p1`, `v = p2` and `v = p3`. -/
theorem circumCircleContains_spec (v p1 p2 p3 : Vector2f) (h : ¬ collinear p1 p2 p3) :
    distance p1 (circum p1 p2 p3) = distance p2 (circum p1 p2 p3) ∧
    distance p1 (circum p1 p2 p3) = distance p3 (circum p1 p2 p3) ∧
    (circumCircleContains v p1 p2 p3 = true ↔
      distance v (circum p1 p2 p3) ≤ distance p1 (circum p1 p2 p3)) ∧
    circumCircleContains p1 p1 p2 p3 = true ∧
    circumCircleContains p2 p1 p2 p3 = true ∧
    circumCircleContains p3 p1 p2 p3 = true := by
  obtain ⟨h2, h3⟩ := circum_equidistant p1 p2 p3 h
  refine ⟨h2, h3, ?_, ?_, ?_, ?_⟩
  · simp [circumCircleContains]
  · simp [circumCircleContains]
  · simp [circumCircleContains, h2]
  · simp [circumCircleContains, h3]

/-- Worked instance of C10: the right triangle `(0,0)`, `(4,0)`, `(0,2)`, whose circumcentre is
`(2, 1)`, and the query point `(1, 1)`. -/
theorem circumCircleContains_spec_witness :
    ¬ collinear ⟨0, 0⟩ ⟨4, 0⟩ ⟨0, 2⟩ ∧
    circum ⟨0, 0⟩ ⟨4, 0⟩ ⟨0, 2⟩ = ⟨2, 1⟩ ∧
    (distance ⟨0, 0⟩ (circum ⟨0, 0⟩ ⟨4, 0⟩ ⟨0, 2⟩) = distance ⟨4, 0⟩ (circum ⟨0, 0⟩ ⟨4, 0⟩ ⟨0, 2⟩) ∧
     distance ⟨0, 0⟩ (circum ⟨0, 0⟩ ⟨4, 0⟩ ⟨0, 2⟩) = distance ⟨0, 2⟩ (circum ⟨0, 0⟩ ⟨4, 0⟩ ⟨0, 2⟩) ∧
     (circumCircleContains ⟨1, 1⟩ ⟨0, 0⟩ ⟨4, 0⟩ ⟨0, 2⟩ = true ↔
       distance ⟨1, 1⟩ (circum ⟨0, 0⟩ ⟨4, 0⟩ ⟨0, 2⟩)
         ≤ distance ⟨0, 0⟩ (circum ⟨0, 0⟩ ⟨4, 0⟩ ⟨0, 2⟩)) ∧
     circumCircleContains ⟨0, 0⟩ ⟨0, 0⟩ ⟨4, 0⟩ ⟨0, 2⟩ = true ∧
     circumCircleContains ⟨4, 0⟩ ⟨0, 0⟩ ⟨4, 0⟩ ⟨0, 2⟩ = true ∧
     circumCircleContains ⟨0, 2⟩ ⟨0, 0⟩ ⟨4, 0⟩ ⟨0, 2⟩ = true) :=
  ⟨by decide!, by decide!,
   circumCircleContains_spec ⟨1, 1⟩ ⟨0, 0⟩ ⟨4, 0⟩ ⟨0, 2⟩ (by decide!)⟩

/-- C11. Soundness of `checkBarycentricCoordinates`: whenever it returns `(u, v, w)` for the
triangle with vertices `a`, `b`, `c` (the points stored at the three vertex indices) and the
query point `q`, then `u + v + w = 1`, `u * a + v * b + w * c = q` in both coordinates, and
each of `u`, `v`, `w` is at least `-tolerance`. This holds for every tolerance, non-negative
or not. -/
theorem checkBarycentricCoordinates_sound (pts : List Vector2f) (t : Triangle) (q : Vector2f)
    (tol u v w : ℚ)
    (h : checkBarycentricCoordinates pts t q tol = some (u, v, w)) :
    u + v + w = 1 ∧
    u * (pointAt pts t.v0).x + v * (pointAt pts t.v1).x + w * (pointAt pts t.v2).x = q.x ∧
    u * (pointAt pts t.v0).y + v * (pointAt pts t.v1).y + w * (pointAt pts t.v2).y = q.y ∧
    -tol ≤ u ∧ -tol ≤ v ∧ -tol ≤ w := by
  rw [checkBarycentricCoordinates_eq] at h
  generalize pointAt pts t.v0 = a at h ⊢
  generalize pointAt pts t.v1 = b at h ⊢
  generalize pointAt pts t.v2 = c at h ⊢
  split at h
  · cases h
  · rename_i h0
    split at h
    · rename_i hcond
      obtain ⟨hmin, hmax, hsum⟩ := hcond
      simp only [Option.some.injEq, Prod.mk.injEq] at h
      obtain ⟨hu, hv, hw⟩ := h
      rw [hv, hw] at hu hmin hmax hsum
      have hvD : v * orient a b c = orient c a q := by rw [← hv]; field_simp
      have hwD : w * orient a b c = orient a b q := by rw [← hw]; field_simp
      refine ⟨by rw [← hu]; ring, ?_, ?_, by rw [← hu]; linarith,
        le_trans hmin (min_le_left _ _), le_trans hmin (min_le_right _ _)⟩
      · apply mul_right_cancel₀ h0
        rw [← hu]
        have e : (1 - v - w) * a.x * orient a b c =
            a.x * orient a b c - a.x * (v * orient a b c) - a.x * (w * orient a b c) := by ring
        calc ((1 - v - w) * a.x + v * b.x + w * c.x) * orient a b c
            = a.x * orient a b c + (b.x - a.x) * (v * orient a b c)
                + (c.x - a.x) * (w * orient a b c) := by ring
          _ = q.x * orient a b c := by
              rw [hvD, hwD]; simp only [orient]; ring
      · apply mul_right_cancel₀ h0
        rw [← hu]
        calc ((1 - v - w) * a.y + v * b.y + w * c.y) * orient a b c
            = a.y * orient a b c + (b.y - a.y) * (v * orient a b c)
                + (c.y - a.y) * (w * orient a b c) := by ring
          _ = q.y * orient a b c := by
              rw [hvD, hwD]; simp only [orient]; ring
    · cases h

/-- Worked instance of C11: the point `(1, 1)` in the triangle `(0,0)`, `(4,0)`, `(0,4)`. -/
theorem checkBarycentricCoordinates_sound_witness :
    checkBarycentricCoordinates [⟨0, 0⟩, ⟨4, 0⟩, ⟨0, 4⟩] ⟨0, 1, 2, true⟩ ⟨1, 1⟩ defaultTolerance
      = some (1 / 2, 1 / 4, 1 / 4) ∧
    ((1 / 2 : ℚ) + 1 / 4 + 1 / 4 = 1 ∧
     (1 / 2 : ℚ) * (pointAt [⟨0, 0⟩, ⟨4, 0⟩, ⟨0, 4⟩] 0).x
       + 1 / 4 * (pointAt [⟨0, 0⟩, ⟨4, 0⟩, ⟨0, 4⟩] 1).x
       + 1 / 4 * (pointAt [⟨0, 0⟩, ⟨4, 0⟩, ⟨0, 4⟩] 2).x = 1 ∧
     (1 / 2 : ℚ) * (pointAt [⟨0, 0⟩, ⟨4, 0⟩, ⟨0, 4⟩] 0).y
       + 1 / 4 * (pointAt [⟨0, 0⟩, ⟨4, 0⟩, ⟨0, 4⟩] 1).y
       + 1 / 4 * (pointAt [⟨0, 0⟩, ⟨4, 0⟩, ⟨0, 4⟩] 2).y = 1 ∧
     -defaultTolerance ≤ 1 / 2 ∧ -defaultTolerance ≤ 1 / 4 ∧ -defaultTolerance ≤ 1 / 4) :=
  ⟨by decide!,
   checkBarycentricCoordinates_sound [⟨0, 0⟩, ⟨4, 0⟩, ⟨0, 4⟩] ⟨0, 1, 2, true⟩ ⟨1, 1⟩
     defaultTolerance (1 / 2) (1 / 4) (1 / 4) (by decide!)⟩

/-- C12. Degenerate triangles are rejected: for a triangle whose three vertices are collinear
(coincident vertices included), `checkBarycentricCoordinates` returns no value, for every query
point and every tolerance; hence an index returned by `findTriangleWithPoint` is never the
index of a collinear triangle. -/
theorem degenerate_triangle_rejected (g : Geometry) (t : Triangle) (q : Vector2f) (tol : ℚ) :
    (collinear (pointAt g.mPoints t.v0) (pointAt g.mPoints t.v1) (pointAt g.mPoints t.v2) →
      checkBarycentricCoordinates g.mPoints t q tol = none) ∧
    (∀ i, findTriangleWithPoint g q = some i → g.mTriangles[i]? = some t →
      ¬ collinear (pointAt g.mPoints t.v0) (pointAt g.mPoints t.v1) (pointAt g.mPoints t.v2)) := by
  refine ⟨checkBarycentricCoordinates_collinear g.mPoints t q tol, ?_⟩
  intro i hi ht hcol
  obtain ⟨t', ht', hpass⟩ := findTriangleWithPoint_some hi
  rw [ht] at ht'
  cases ht'
  rw [checkBarycentricCoordinates_collinear g.mPoints t q defaultTolerance hcol] at hpass
  cases hpass

/-- Worked instance of C12: a mesh whose first triangle `(0, 1, 2)` has its three points on the
line `y = x`; the locator skips it and returns the second triangle. -/
theorem degenerate_triangle_rejected_witness :
    collinear (⟨0, 0⟩ : Vector2f) ⟨1, 1⟩ ⟨2, 2⟩ ∧
    checkBarycentricCoordinates [⟨0, 0⟩, ⟨1, 1⟩, ⟨2, 2⟩, ⟨4, 0⟩] ⟨0, 1, 2, true⟩ ⟨1, 1⟩ 5 = none ∧
    findTriangleWithPoint
      { mPoints := [⟨0, 0⟩, ⟨1, 1⟩, ⟨2, 2⟩, ⟨4, 0⟩],
        mTriangles := [⟨0, 1, 2, true⟩, ⟨0, 2, 3, true⟩] } ⟨1, 1⟩ = some 1 ∧
    ¬ collinear (⟨0, 0⟩ : Vector2f) ⟨2, 2⟩ ⟨4, 0⟩ :=
  ⟨by decide!,
   (degenerate_triangle_rejected
      { mPoints := [⟨0, 0⟩, ⟨1, 1⟩, ⟨2, 2⟩, ⟨4, 0⟩],
        mTriangles := [⟨0, 1, 2, true⟩, ⟨0, 2, 3, true⟩] } ⟨0, 1, 2, true⟩ ⟨1, 1⟩ 5).1
      (by decide!),
   by decide!,
   (degenerate_triangle_rejected
      { mPoints := [⟨0, 0⟩, ⟨1, 1⟩, ⟨2, 2⟩, ⟨4, 0⟩],
        mTriangles := [⟨0, 1, 2, true⟩, ⟨0, 2, 3, true⟩] } ⟨0, 2, 3, true⟩ ⟨1, 1⟩ 0).2 1
      (by decide!) (by decide!)⟩

/-- C13. Completeness of `checkBarycentricCoordinates`: for a triangle with non-collinear
vertices `a`, `b`, `c`, a tolerance `tol ≥ 0` and a point `q = u * a + v * b + w * c` with
`u, v, w ≥ 0` and `u + v + w = 1` (points on the edges and the vertices included), the
function returns a value, and that value is `(u, v, w)`. -/
theorem checkBarycentricCoordinates_complete (pts : List Vector2f) (t : Triangle)
    (q : Vector2f) (tol u v w : ℚ)
    (hnc : ¬ collinear (pointAt pts t.v0) (pointAt pts t.v1) (pointAt pts t.v2))
    (htol : 0 ≤ tol) (hu : 0 ≤ u) (hv : 0 ≤ v) (hw : 0 ≤ w) (hsum : u + v + w = 1)
    (hx : q.x = u * (pointAt pts t.v0).x + v * (pointAt pts t.v1).x + w * (pointAt pts t.v2).x)
    (hy : q.y = u * (pointAt pts t.v0).y + v * (pointAt pts t.v1).y + w * (pointAt pts t.v2).y) :
    checkBarycentricCoordinates pts t q tol = some (u, v, w) := by
  rw [checkBarycentricCoordinates_eq]
  generalize pointAt pts t.v0 = a at hnc hx hy ⊢
  generalize pointAt pts t.v1 = b at hnc hx hy ⊢
  generalize pointAt pts t.v2 = c at hnc hx hy ⊢
  have h0 : orient a b c ≠ 0 := hnc
  have ev : orient c a q / orient a b c = v := by
    rw [div_eq_iff h0, orient_affine c a a b c u v w hsum q hx hy]
    simp only [orient]; ring
  have ew : orient a b q / orient a b c = w := by
    rw [div_eq_iff h0, orient_affine a b a b c u v w hsum q hx hy]
    simp only [orient]; ring
  rw [ev, ew]
  have c1 : min v w ≥ -tol := le_min (by linarith) (by linarith)
  have c2 : max v w ≤ 1 + tol := max_le (by linarith) (by linarith)
  have c3 : v + w ≤ 1 + tol := by linarith
  simp only [h0, if_false, c1, c2, c3, and_self, if_true]
  have : 1 - v - w = u := by linarith
  rw [this]

/-- Worked instance of C13: the point `(1, 1) = 1/2 (0,0) + 1/4 (4,0) + 1/4 (0,4)`, and the
vertex `(4, 0)` itself. -/
theorem checkBarycentricCoordinates_complete_witness :
    ¬ collinear (⟨0, 0⟩ : Vector2f) ⟨4, 0⟩ ⟨0, 4⟩ ∧
    checkBarycentricCoordinates [⟨0, 0⟩, ⟨4, 0⟩, ⟨0, 4⟩] ⟨0, 1, 2, true⟩ ⟨1, 1⟩ defaultTolerance
      = some (1 / 2, 1 / 4, 1 / 4) ∧
    checkBarycentricCoordinates [⟨0, 0⟩, ⟨4, 0⟩, ⟨0, 4⟩] ⟨0, 1, 2, true⟩ ⟨4, 0⟩ 0
      = some (0, 1, 0) :=
  ⟨by decide!,
   checkBarycentricCoordinates_complete [⟨0, 0⟩, ⟨4, 0⟩, ⟨0, 4⟩] ⟨0, 1, 2, true⟩ ⟨1, 1⟩
     defaultTolerance (1 / 2) (1 / 4) (1 / 4) (by decide!) (by decide!) (by decide!)
     (by decide!) (by decide!) (by decide!) (by decide!) (by decide!),
   checkBarycentricCoordinates_complete [⟨0, 0⟩, ⟨4, 0⟩, ⟨0, 4⟩] ⟨0, 1, 2, true⟩ ⟨4, 0⟩
     0 0 1 0 (by decide!) (by decide!) (by decide!)
     (by decide!) (by decide!) (by decide!) (by decide!) (by decide!)⟩

/-- C14. `findTriangleWithPoint` returns the first match: it returns the index `i` exactly when
triangle `i` passes `checkBarycentricCoordinates` with the default tolerance and no triangle
with a smaller index does; it returns no value exactly when no triangle of the mesh passes;
and a returned index is smaller than the number of triangles. -/
theorem findTriangleWithPoint_first (g : Geometry) (q : Vector2f) :
    (∀ i, findTriangleWithPoint g q = some i ↔
      (∃ t, g.mTriangles[i]? = some t ∧
        (checkBarycentricCoordinates g.mPoints t q defaultTolerance).isSome = true) ∧
      ∀ j, j < i → ∀ t', g.mTriangles[j]? = some t' →
        (checkBarycentricCoordinates g.mPoints t' q defaultTolerance).isSome = false) ∧
    (findTriangleWithPoint g q = none ↔
      ∀ t ∈ g.mTriangles,
        (checkBarycentricCoordinates g.mPoints t q defaultTolerance).isSome = false) ∧
    (∀ i, findTriangleWithPoint g q = some i → i < g.mTriangles.length) := by
  obtain ⟨h1, h2⟩ := pointSearchLoop_spec g.mPoints q g.mTriangles 0
  have hiff : ∀ i, findTriangleWithPoint g q = some i ↔
      (∃ t, g.mTriangles[i]? = some t ∧
        (checkBarycentricCoordinates g.mPoints t q defaultTolerance).isSome = true) ∧
      ∀ j, j < i → ∀ t', g.mTriangles[j]? = some t' →
        (checkBarycentricCoordinates g.mPoints t' q defaultTolerance).isSome = false := by
    intro i
    unfold findTriangleWithPoint
    rw [h1 i]
    constructor
    · rintro ⟨j, hj, hrest⟩
      have : i = j := by omega
      subst this
      exact hrest
    · intro hrest
      exact ⟨i, by omega, hrest⟩
  refine ⟨hiff, h2, ?_⟩
  intro i hi
  obtain ⟨⟨t, ht, _⟩, _⟩ := (hiff i).mp hi
  by_contra hc
  rw [List.getElem?_eq_none (by omega)] at ht
  cases ht

/-- Worked instance of C14: in `scenarioOnePushed` the point `(300, 100)` is found in the
triangle of index 1, the triangle of index 0 not passing the test. -/
theorem findTriangleWithPoint_first_witness :
    findTriangleWithPoint scenarioOnePushed ⟨300, 100⟩ = some 1 ∧
    ((∃ t, scenarioOnePushed.mTriangles[1]? = some t ∧
        (checkBarycentricCoordinates scenarioOnePushed.mPoints t ⟨300, 100⟩
          defaultTolerance).isSome = true) ∧
      ∀ j, j < 1 → ∀ t', scenarioOnePushed.mTriangles[j]? = some t' →
        (checkBarycentricCoordinates scenarioOnePushed.mPoints t' ⟨300, 100⟩
          defaultTolerance).isSome = false) ∧
    1 < scenarioOnePushed.mTriangles.length :=
  ⟨by decide!,
   ((findTriangleWithPoint_first scenarioOnePushed ⟨300, 100⟩).1 1).mp (by decide!),
   (findTriangleWithPoint_first scenarioOnePushed ⟨300, 100⟩).2.2 1 (by decide!)⟩

/-- C15. `findTriangleWithEdge` returns exactly the owners of the edge. Whenever it returns a
list, the triangle indices of its entries are strictly increasing (so without repetition), an
index occurs in it exactly when the triangle at that index has both endpoints as vertices, and
the local positions `k1`, `k2` of each entry are below 3 and satisfy `vertexIndex[k1] = e1`,
`vertexIndex[k2] = e2`. The call fails, and then on its assertion, exactly when the number of
owners is 0 or more than 2. Proved for every mesh and every edge, so in particular for meshes
whose triangles have three distinct vertex indices and edges with distinct endpoints. -/
theorem findTriangleWithEdge_owners (tris : List Triangle) (edge : Edge) :
    (∀ rs, findTriangleWithEdge tris edge = .ok rs →
      rs.Pairwise (fun a b => a.triangleIndex < b.triangleIndex) ∧
      (∀ i, (∃ r ∈ rs, r.triangleIndex = i) ↔ ∃ t, tris[i]? = some t ∧ ownsEdge t edge) ∧
      (∀ r ∈ rs, ∃ t, tris[r.triangleIndex]? = some t ∧
        t.vertexIndex r.vertexIndex1 = some edge.1 ∧
        t.vertexIndex r.vertexIndex2 = some edge.2 ∧
        r.vertexIndex1 < 3 ∧ r.vertexIndex2 < 3) ∧
      rs.length = owners tris edge ∧ (rs.length = 1 ∨ rs.length = 2)) ∧
    (findTriangleWithEdge tris edge = .error .assertion ↔
      owners tris edge = 0 ∨ 2 < owners tris edge) ∧
    ((∃ rs, findTriangleWithEdge tris edge = .ok rs) ↔
      owners tris edge = 1 ∨ owners tris edge = 2) ∧
    (∀ e, findTriangleWithEdge tris edge = .error e → e = .assertion) := by
  obtain ⟨rs0, hrs, hlen, hsound, hcomplete⟩ := edgeSearchLoop_spec edge tris 0
  have hzero : rs0 = [] ↔ owners tris edge = 0 := by
    rw [← hlen]; exact List.length_eq_zero.symm
  have hf : findTriangleWithEdge tris edge =
      if rs0.length ≤ 2 ∧ rs0 ≠ [] then .ok rs0 else .error .assertion := by
    unfold findTriangleWithEdge
    rw [hrs]
  refine ⟨?_, ?_, ?_, ?_⟩
  · intro rs h
    obtain ⟨_, hp, hl⟩ := findTriangleWithEdge_sorted h
    have hrs' : rs = rs0 := by
      unfold findTriangleWithEdge at h
      rw [hrs] at h
      simp only at h
      split at h
      · cases h; rfl
      · cases h
    subst hrs'
    refine ⟨hp, ?_, ?_, hlen, hl⟩
    · intro i
      constructor
      · rintro ⟨r, hr, rfl⟩
        obtain ⟨j, t, hj, ht, ho, _, _⟩ := hsound r hr
        have : r.triangleIndex = j := by omega
        rw [this]
        exact ⟨t, ht, ho⟩
      · rintro ⟨t, ht, ho⟩
        obtain ⟨r, hr, hri⟩ := hcomplete i t ht ho
        exact ⟨r, hr, by omega⟩
    · intro r hr
      obtain ⟨j, t, hj, ht, _, h1, h2⟩ := hsound r hr
      have : r.triangleIndex = j := by omega
      rw [this]
      exact ⟨t, ht, (localPosition_vertexIndex h1).1, (localPosition_vertexIndex h2).1,
        (localPosition_vertexIndex h1).2, (localPosition_vertexIndex h2).2⟩
  · by_cases hc : rs0.length ≤ 2 ∧ rs0 ≠ []
    · rw [hf, if_pos hc]
      constructor
      · intro h; cases h
      · intro h
        exfalso
        rcases h with h | h
        · exact hc.2 (hzero.mpr h)
        · omega
    · rw [hf, if_neg hc]
      simp only [true_iff]
      by_cases h0 : rs0 = []
      · exact Or.inl (hzero.mp h0)
      · right
        have : ¬ rs0.length ≤ 2 := fun h => hc ⟨h, h0⟩
        omega
  · by_cases hc : rs0.length ≤ 2 ∧ rs0 ≠ []
    · rw [hf, if_pos hc]
      constructor
      · intro _
        have : rs0.length ≠ 0 := fun h => hc.2 (List.length_eq_zero.mp h)
        omega
      · intro _; exact ⟨rs0, rfl⟩
    · rw [hf, if_neg hc]
      constructor
      · rintro ⟨rs, h⟩; cases h
      · intro h
        exfalso
        apply hc
        refine ⟨by omega, fun h0 => ?_⟩
        have := hzero.mp h0
        omega
  · intro e h
    unfold findTriangleWithEdge at h
    rw [hrs] at h
    simp only at h
    split at h
    · cases h
    · cases h; rfl

/-- Worked instance of C15: in the mesh of `flipBefore` the edge `(3, 2)` is owned by the
triangles of index 1 and 3, and the edge `(0, 1)` by the triangle of index 0 alone. -/
theorem findTriangleWithEdge_owners_witness :
    findTriangleWithEdge flipBefore.mTriangles (3, 2) = .ok [⟨1, 0, 2⟩, ⟨3, 1, 2⟩] ∧
    owners flipBefore.mTriangles (3, 2) = 2 ∧
    ([⟨1, 0, 2⟩, ⟨3, 1, 2⟩] : List EdgeSearchResult).length = owners flipBefore.mTriangles (3, 2) ∧
    findTriangleWithEdge flipBefore.mTriangles (7, 8) = .error .assertion ∧
    (owners flipBefore.mTriangles (7, 8) = 0 ∨ 2 < owners flipBefore.mTriangles (7, 8)) :=
  ⟨by decide!, by decide!,
   ((findTriangleWithEdge_owners flipBefore.mTriangles (3, 2)).1 _ (by decide!)).2.2.2.1,
   by decide!,
   (findTriangleWithEdge_owners flipBefore.mTriangles (7, 8)).2.1.mp (by decide!)⟩

/-- C16. Triangle split on insertion: in a state with more than 3 stored points whose last
stored point is `p`, if `findTriangleWithPoint p` returns the index `i` of the triangle
`T = (v0, v1, v2)`, then `insertPointIntoTriangle p` returns; the new mesh is the old one with
entry `i` deleted (the other triangles keep their order) followed by `(v0, v1, n-1)`,
`(n-1, v1, v2)`, `(v0, n-1, v2)`, all drawable, where `n` is the number of stored points; it
has exactly 2 triangles more; and the edges returned are `(v0, v1)`, `(v1, v2)`, `(v0, v2)`.
The point store is unchanged. -/
theorem insertPointIntoTriangle_split (g : Geometry) (p : Vector2f) (i : Nat) (T : Triangle)
    (hn : 3 < g.mPoints.length) (hlast : g.mPoints.getLast? = some p)
    (hfind : findTriangleWithPoint g p = some i) (hT : g.mTriangles[i]? = some T) :
    insertPointIntoTriangle g p =
      .ok ({ mPoints := g.mPoints,
             mTriangles := g.mTriangles.eraseIdx i ++
               [⟨T.v0, T.v1, g.mPoints.length - 1, true⟩,
                ⟨g.mPoints.length - 1, T.v1, T.v2, true⟩,
                ⟨T.v0, g.mPoints.length - 1, T.v2, true⟩] },
           some [(T.v0, T.v1), (T.v1, T.v2), (T.v0, T.v2)]) ∧
    (g.mTriangles.eraseIdx i ++
        ([⟨T.v0, T.v1, g.mPoints.length - 1, true⟩,
         ⟨g.mPoints.length - 1, T.v1, T.v2, true⟩,
         ⟨T.v0, g.mPoints.length - 1, T.v2, true⟩] : List Triangle)).length = g.mTriangles.length + 2 := by
  have hi : i < g.mTriangles.length := by
    by_contra hc
    rw [List.getElem?_eq_none (by omega)] at hT
    cases hT
  have hlen : (g.mTriangles.eraseIdx i ++
      ([⟨T.v0, T.v1, g.mPoints.length - 1, true⟩,
       ⟨g.mPoints.length - 1, T.v1, T.v2, true⟩,
       ⟨T.v0, g.mPoints.length - 1, T.v2, true⟩] : List Triangle)).length = g.mTriangles.length + 2 := by
    simp only [List.length_append, List.length_eraseIdx, hi, if_true, List.length_cons,
      List.length_nil]
    omega
  refine ⟨?_, hlen⟩
  unfold insertPointIntoTriangle
  have e1 : ¬ g.mPoints.length < 3 := by omega
  have e2 : ¬ g.mPoints.length = 3 := by omega
  have hlen' : g.mTriangles.length + 2 =
      (g.mTriangles.eraseIdx i ++ splitTriangles T (g.mPoints.length - 1)).length := hlen.symm
  simp only [e1, e2, if_false, hfind, hT, hlast, and_self, if_true, hlen']
  rfl

/-- Worked instance of C16: the split of the triangle `(3, 1, 2)` of `scenarioOnePushed` at the
point `(300, 100)`, of index 4. -/
theorem insertPointIntoTriangle_split_witness :
    3 < scenarioOnePushed.mPoints.length ∧
    scenarioOnePushed.mPoints.getLast? = some ⟨300, 100⟩ ∧
    findTriangleWithPoint scenarioOnePushed ⟨300, 100⟩ = some 1 ∧
    scenarioOnePushed.mTriangles[1]? = some ⟨3, 1, 2, true⟩ ∧
    insertPointIntoTriangle scenarioOnePushed ⟨300, 100⟩ =
      .ok ({ mPoints := scenarioOnePushed.mPoints,
             mTriangles := [⟨0, 1, 3, true⟩, ⟨0, 3, 2, true⟩, ⟨3, 1, 4, true⟩, ⟨4, 1, 2, true⟩,
               ⟨3, 4, 2, true⟩] },
           some [(3, 1), (1, 2), (3, 2)]) :=
  ⟨by decide!, by decide!, by decide!, by decide!,
   (insertPointIntoTriangle_split scenarioOnePushed ⟨300, 100⟩ 1 ⟨3, 1, 2, true⟩ (by decide!)
      (by decide!) (by decide!) (by decide!)).1⟩

/-- C17. One flip step, for the triangle `T` at index `t` and distinct local positions `k1`,
`k2`, with `v1 = T[k1]`, `v2 = T[k2]`, `a = T[3 - k1 - k2]`. If `T` is the only owner of the
edge `(v1, v2)`, `flip` leaves the state unchanged and returns no edges. If the edge has
exactly two owners, the other one being `N` at index `n`, and `d`, the index of a stored point,
is the vertex that `flip` reads from `N` (at the local position `3 - j1 - j2`, computed as the
code does, where `j1`, `j2` are the positions of `v1`, `v2` in `N`), then: when
`circumCircleContains (point d) (the three points of T)` is `false`, `flip` leaves the state
unchanged and returns no edges; when it is `true`, `flip` removes exactly the entries `t` and
`n` (the other triangles keep their order), appends `(a, v1, d)` and `(a, d, v2)`, leaves the
number of triangles and the point store unchanged, and returns the edges `(a, v1)`, `(v1, d)`,
`(d, v2)`, `(v2, a)`. If the edge has more than two owners there is no single other owner, and
`flip` ends on the failed assertion of `findTriangleWithEdge`. -/
theorem flip_step (g : Geometry) (t k1 k2 v1 v2 a : Nat) (T : Triangle)
    (hT : g.mTriangles[t]? = some T) (hk : k1 ≠ k2)
    (hk1 : T.vertexIndex k1 = some v1) (hk2 : T.vertexIndex k2 = some v2)
    (ha : T.vertexIndex (3 - k1 - k2) = some a) :
    (owners g.mTriangles (v1, v2) = 1 → flip g t k1 k2 = .ok (g, [])) ∧
    (2 < owners g.mTriangles (v1, v2) → flip g t k1 k2 = .error .assertion) ∧
    (∀ (n j1 j2 d : Nat) (N : Triangle),
      owners g.mTriangles (v1, v2) = 2 → n ≠ t → g.mTriangles[n]? = some N →
      localPosition N v1 = some j1 → localPosition N v2 = some j2 →
      N.vertexIndex (thirdLocal j1 j2) = some d → d < g.mPoints.length →
      (circumCircleContains (pointAt g.mPoints d) (pointAt g.mPoints T.v0)
          (pointAt g.mPoints T.v1) (pointAt g.mPoints T.v2) = false →
        flip g t k1 k2 = .ok (g, [])) ∧
      (circumCircleContains (pointAt g.mPoints d) (pointAt g.mPoints T.v0)
          (pointAt g.mPoints T.v1) (pointAt g.mPoints T.v2) = true →
        flip g t k1 k2 =
          .ok ({ mPoints := g.mPoints,
                 mTriangles := (g.mTriangles.eraseIdx (max t n)).eraseIdx (min t n) ++
                   [Triangle.mk3 a v1 d, Triangle.mk3 a d v2] },
               [(a, v1), (v1, d), (d, v2), (v2, a)]) ∧
        ((g.mTriangles.eraseIdx (max t n)).eraseIdx (min t n) ++
            [Triangle.mk3 a v1 d, Triangle.mk3 a d v2]).length = g.mTriangles.length)) := by
  have hk1lt := vertexIndex_lt hk1
  have hk2lt := vertexIndex_lt hk2
  have hthird : thirdLocal k1 k2 = 3 - k1 - k2 := thirdLocal_eq hk1lt hk2lt hk
  have hTowns : ownsEdge T (v1, v2) :=
    ⟨hasVertex_of_vertexIndex hk1, hasVertex_of_vertexIndex hk2⟩
  refine ⟨?_, ?_, ?_⟩
  · intro h1
    obtain ⟨rs, hrs⟩ := findTriangleWithEdge_ok_of_owners (Or.inl h1)
    obtain ⟨hlen, _, hcomplete⟩ := findTriangleWithEdge_entries hrs
    obtain ⟨r, hr, hri⟩ := hcomplete t T hT hTowns
    rw [h1] at hlen
    match rs, hlen, hr, hrs with
    | [r0], _, hr, hrs =>
      simp only [List.mem_singleton] at hr
      subst hr
      unfold flip
      simp only [hT, hk1, hk2, hthird, ha, hrs, List.length_singleton, if_true,
        List.getElem?_cons_zero, hri]
  · intro h3
    unfold flip
    simp only [hT, hk1, hk2, hthird, ha, findTriangleWithEdge_error_of_owners (Or.inr h3)]
  · intro n j1 j2 d N h2 hn hN hj1 hj2 hd hdlt
    obtain ⟨rs, hrs⟩ := findTriangleWithEdge_ok_of_owners (Or.inr h2)
    obtain ⟨hlen, hsound, hcomplete⟩ := findTriangleWithEdge_entries hrs
    obtain ⟨_, hp, _⟩ := findTriangleWithEdge_sorted hrs
    have hNowns : ownsEdge N (v1, v2) :=
      ⟨hasVertex_of_vertexIndex (localPosition_vertexIndex hj1).1,
       hasVertex_of_vertexIndex (localPosition_vertexIndex hj2).1⟩
    obtain ⟨rT, hrT, hrTi⟩ := hcomplete t T hT hTowns
    obtain ⟨rN, hrN, hrNi⟩ := hcomplete n N hN hNowns
    -- the positions stored in the entry of the neighbour
    have hposN : rN.vertexIndex1 = j1 ∧ rN.vertexIndex2 = j2 := by
      obtain ⟨t', ht', _, p1, p2⟩ := hsound rN hrN
      rw [hrNi, hN] at ht'
      cases ht'
      simp only at p1 p2
      rw [hj1] at p1
      rw [hj2] at p2
      exact ⟨(Option.some.inj p1).symm, (Option.some.inj p2).symm⟩
    have hlen2 : ((g.mTriangles.eraseIdx (max t n)).eraseIdx (min t n) ++
        [Triangle.mk3 a v1 d, Triangle.mk3 a d v2]).length = g.mTriangles.length := by
      have hti : t < g.mTriangles.length := by
        by_contra hc
        rw [List.getElem?_eq_none (by omega)] at hT
        cases hT
      have hni : n < g.mTriangles.length := by
        by_contra hc
        rw [List.getElem?_eq_none (by omega)] at hN
        cases hN
      have := eraseTwo_length hn hti hni
      rw [eraseTwo_eq] at this
      simp only [List.length_append, List.length_cons, List.length_nil]
      omega
    rw [h2] at hlen
    match rs, hlen, hp, hrT, hrN, hrs with
    | [r0, r1], _, hp, hrT, hrN, hrs =>
      have hlt : r0.triangleIndex < r1.triangleIndex := by simpa using hp
      simp only [List.mem_cons, List.mem_singleton, List.not_mem_nil, or_false] at hrT hrN
      have hcase : (r0 = rT ∧ r1 = rN) ∨ (r0 = rN ∧ r1 = rT) := by
        rcases hrT with e1 | e1 <;> rcases hrN with e2 | e2
        · exfalso; rw [e1] at hrTi; rw [e2] at hrNi; omega
        · exact Or.inl ⟨e1.symm, e2.symm⟩
        · exact Or.inr ⟨e2.symm, e1.symm⟩
        · exfalso; rw [e1] at hrTi; rw [e2] at hrNi; omega
      have hflip : flip g t k1 k2 =
          if (!circumCircleContains (pointAt g.mPoints d) (pointAt g.mPoints T.v0)
              (pointAt g.mPoints T.v1) (pointAt g.mPoints T.v2)) = true then .ok (g, [])
          else .ok ({ g with mTriangles := eraseTwo g.mTriangles t n
                        ++ [Triangle.mk3 a v1 d] ++ [Triangle.mk3 a d v2] },
                    [(a, v1), (v1, d), (d, v2), (v2, a)]) := by
        unfold flip
        rcases hcase with ⟨e0, e1⟩ | ⟨e0, e1⟩
        · subst e0; subst e1
          have w : whichTriIsNew [r0, r1] t = .ok 1 := by
            simp only [whichTriIsNew, List.getElem?_cons_zero, List.getElem?_cons_succ, hrTi,
              if_true]
          simp only [hT, hk1, hk2, hthird, ha, hrs, List.length_cons, List.length_nil, w,
            List.getElem?_cons_succ, List.getElem?_cons_zero, hrNi, hN, hposN.1, hposN.2,
            hd, hdlt, if_true]
          simp
        · subst e0; subst e1
          have hne0 : ¬ r0.triangleIndex = t := by omega
          have w : whichTriIsNew [r0, r1] t = .ok 0 := by
            simp only [whichTriIsNew, List.getElem?_cons_zero, List.getElem?_cons_succ, hne0,
              if_false, hrTi, if_true]
          simp only [hT, hk1, hk2, hthird, ha, hrs, List.length_cons, List.length_nil, w,
            List.getElem?_cons_zero, hrNi, hN, hposN.1, hposN.2,
            hd, hdlt, if_true]
          simp
      constructor
      · intro hc
        rw [hflip, hc]
        simp
      · intro hc
        refine ⟨?_, hlen2⟩
        rw [hflip, hc, eraseTwo_eq]
        simp

/-- Worked instance of C17 in the state `flipBefore`. The triangle `(0, 1, 3)` of index 0 is the
only owner of the edge `(0, 1)`: nothing happens. The edge `(3, 2)` of the triangle `(3, 1, 2)`
of index 1 is shared with the triangle `(4, 3, 2)` of index 3, whose opposite vertex 4 passes
the in-circle test: the flip gives `repeatedRun`. -/
theorem flip_step_witness :
    flipBefore.mTriangles[0]? = some ⟨0, 1, 3, true⟩ ∧
    owners flipBefore.mTriangles (0, 1) = 1 ∧
    flip flipBefore 0 0 1 = .ok (flipBefore, []) ∧
    flipBefore.mTriangles[1]? = some ⟨3, 1, 2, true⟩ ∧
    owners flipBefore.mTriangles (3, 2) = 2 ∧
    flipBefore.mTriangles[3]? = some ⟨4, 3, 2, true⟩ ∧
    circumCircleContains (pointAt flipBefore.mPoints 4) (pointAt flipBefore.mPoints 3)
      (pointAt flipBefore.mPoints 1) (pointAt flipBefore.mPoints 2) = true ∧
    flip flipBefore 1 0 2 =
      .ok ({ mPoints := flipBefore.mPoints,
             mTriangles := (flipBefore.mTriangles.eraseIdx (max 1 3)).eraseIdx (min 1 3) ++
               [Triangle.mk3 1 3 4, Triangle.mk3 1 4 2] },
           [(1, 3), (3, 4), (4, 2), (2, 1)]) ∧
    flip flipBefore 1 0 2 = .ok (repeatedRun, [(1, 3), (3, 4), (4, 2), (2, 1)]) :=
  ⟨by decide!, by decide!,
   (flip_step flipBefore 0 0 1 0 1 3 ⟨0, 1, 3, true⟩ (by decide!) (by decide!) (by decide!)
      (by decide!) (by decide!)).1 (by decide!),
   by decide!, by decide!, by decide!, by decide!,
   (((flip_step flipBefore 1 0 2 3 2 1 ⟨3, 1, 2, true⟩ (by decide!) (by decide!) (by decide!)
      (by decide!) (by decide!)).2.2 3 1 2 4 ⟨4, 3, 2, true⟩ (by decide!) (by decide!)
      (by decide!) (by decide!) (by decide!) (by decide!) (by decide!)).2 (by decide!)).1,
   by decide!⟩

/-- C18. A flip makes the new diagonal legal: if `a`, `v1`, `v2` are not collinear, `a` and
`d` lie strictly on opposite sides of the line through `v1` and `v2`, and `d` lies strictly
inside the circumcircle of `(a, v1, v2)`, then the in-circle tests of the two replacement
triangles for the vertex left out answer `false`: `circumCircleContains v2 a v1 d = false` and
`circumCircleContains v1 a d v2 = false`. -/
theorem flip_makes_diagonal_legal (a v1 v2 d : Vector2f) (hnc : ¬ collinear a v1 v2)
    (hopp : orient v1 v2 a * orient v1 v2 d < 0)
    (hin : strictlyInsideCircumcircle d a v1 v2) :
    circumCircleContains v2 a v1 d = false ∧ circumCircleContains v1 a d v2 = false := by
  obtain ⟨e1, e2⟩ := circum_equidistant a v1 v2 hnc
  have hpd : distance d (circum a v1 v2) - distance a (circum a v1 v2) < 0 := by
    unfold strictlyInsideCircumcircle at hin; linarith
  have hopp1 : orient a v1 v2 * orient v1 v2 d < 0 := by
    rw [← orient_cycle a v1 v2]; exact hopp
  constructor
  · have hs := same_side_of_inside a v1 v2 d (circum a v1 v2) e1 e2 hin hopp1
    have hnc' : ¬ collinear a v1 d := by
      intro h0
      have : orient a v1 d = 0 := h0
      rw [this] at hs; simp at hs
    have hP := pos_of_power_exchange (power_exchange a v1 v2 d hnc hnc') hpd hs
    unfold circumCircleContains
    simp only [decide_eq_false_iff_not, not_le]
    linarith
  · have hopp2 : orient a v2 v1 * orient v2 v1 d < 0 := by
      have ea : orient a v2 v1 = -orient a v1 v2 := by simp only [orient]; ring
      have eb : orient v2 v1 d = -orient v1 v2 d := by simp only [orient]; ring
      rw [ea, eb]; linarith
    have hs := same_side_of_inside a v2 v1 d (circum a v1 v2) e2 e1 hin hopp2
    have hs' : 0 < orient a v1 v2 * orient a d v2 := by
      have ea : orient a v2 v1 = -orient a v1 v2 := by simp only [orient]; ring
      have eb : orient a v2 d = -orient a d v2 := by simp only [orient]; ring
      rw [ea, eb] at hs; linarith
    have hnc' : ¬ collinear a d v2 := by
      intro h0
      have : orient a d v2 = 0 := h0
      rw [this] at hs'; simp at hs'
    have hP := pos_of_power_exchange (power_exchange_second a v1 v2 d hnc hnc') hpd hs'
    unfold circumCircleContains
    simp only [decide_eq_false_iff_not, not_le]
    linarith

/-- Worked instance of C18: the triangle `(0,2)`, `(-2,0)`, `(2,0)` and the point `(0,-1)` below
its edge `(-2,0)`-`(2,0)`. -/
theorem flip_makes_diagonal_legal_witness :
    ¬ collinear ⟨0, 2⟩ ⟨-2, 0⟩ ⟨2, 0⟩ ∧
    orient ⟨-2, 0⟩ ⟨2, 0⟩ ⟨0, 2⟩ * orient ⟨-2, 0⟩ ⟨2, 0⟩ ⟨0, -1⟩ < 0 ∧
    strictlyInsideCircumcircle ⟨0, -1⟩ ⟨0, 2⟩ ⟨-2, 0⟩ ⟨2, 0⟩ ∧
    circumCircleContains ⟨2, 0⟩ ⟨0, 2⟩ ⟨-2, 0⟩ ⟨0, -1⟩ = false ∧
    circumCircleContains ⟨-2, 0⟩ ⟨0, 2⟩ ⟨0, -1⟩ ⟨2, 0⟩ = false :=
  ⟨by decide!, by decide!, by decide!,
   flip_makes_diagonal_legal ⟨0, 2⟩ ⟨-2, 0⟩ ⟨2, 0⟩ ⟨0, -1⟩ (by decide!) (by decide!) (by decide!)⟩

/-- C19. Triangle-count invariant: in every state reachable from construction by `insertPoint`,
`triangulate` and `reset` calls that return, the number of triangles is odd and at most
`2 * (number of points) - 5`; and an `insertPoint` call that returns from such a state leaves
the number of triangles unchanged when the point is not located and increases it by exactly 2
when it is. -/
theorem triangle_count (g : Geometry) (h : Reachable g) :
    (g.mTriangles.length % 2 = 1 ∧ g.mTriangles.length + 5 ≤ 2 * g.mPoints.length) ∧
    ∀ (fuel : Nat) (p : Vector2f) (g' : Geometry), insertPoint fuel g p = .ok g' →
      (¬ located g p ∧ g'.mTriangles.length = g.mTriangles.length) ∨
      (located g p ∧ g'.mTriangles.length = g.mTriangles.length + 2) := by
  have h3 : 3 ≤ g.mPoints.length := reachable_three_le h
  have step : ∀ (s : Geometry), 3 ≤ s.mPoints.length →
      ∀ (fuel : Nat) (p : Vector2f) (s' : Geometry), insertPoint fuel s p = .ok s' →
      (¬ located s p ∧ s'.mTriangles.length = s.mTriangles.length) ∨
      (located s p ∧ s'.mTriangles.length = s.mTriangles.length + 2) := by
    intro s hs fuel p s' hi
    by_cases hl : located s p
    · obtain ⟨_, _, _, _, _, hlen, _⟩ := insertPoint_located hi hs hl
      exact Or.inr ⟨hl, hlen⟩
    · have hi' : insertOnePoint fuel s p = .ok s' := hi
      rw [insertOnePoint_not_located hs hl] at hi'
      cases hi'
      exact Or.inl ⟨hl, rfl⟩
  refine ⟨?_, step g h3⟩
  induction h with
  | construct => exact ⟨rfl, by show 1 + 5 ≤ 2 * 3; omega⟩
  | @insertPoint s s' fuel p hs hi ih =>
    have hs3 : 3 ≤ s.mPoints.length := reachable_three_le hs
    have ih' := ih hs3
    have hp : s'.mPoints.length = s.mPoints.length + 1 := by
      rw [insertOnePoint_mPoints hi]; simp
    rcases step s hs3 fuel p s' hi with ⟨_, hlen⟩ | ⟨_, hlen⟩
    · constructor <;> omega
    · constructor <;> omega
  | @triangulate s s' fuel hs ht _ =>
    have hs3 : 3 ≤ s.mPoints.length := reachable_three_le hs
    have hp := triangulate_mPoints ht
    unfold Avg.triangulate at ht
    simp only [Nat.not_lt.mpr hs3, if_false] at ht
    rcases insertAll_count _ _ _ ht (Or.inl ⟨by decide, rfl⟩) with ⟨hlt, _⟩ | ⟨_, hodd, hle⟩
    · rw [hp] at hlt; omega
    · exact ⟨hodd, hle⟩
  | reset _ _ => exact ⟨rfl, by show 1 + 5 ≤ 2 * 3; omega⟩

/-- Worked instance of C19: `scenarioThree` is reachable; it has 7 triangles and 6 points, and
the insertion of `(400, 50)`, which is located, gives the 9 triangles of `scenarioFour`. -/
theorem triangle_count_witness :
    Reachable scenarioThree ∧
    (scenarioThree.mTriangles.length % 2 = 1 ∧
      scenarioThree.mTriangles.length + 5 ≤ 2 * scenarioThree.mPoints.length) ∧
    insertPoint 100 scenarioThree ⟨400, 50⟩ = .ok scenarioFour ∧
    ((¬ located scenarioThree ⟨400, 50⟩ ∧
        scenarioFour.mTriangles.length = scenarioThree.mTriangles.length) ∨
      (located scenarioThree ⟨400, 50⟩ ∧
        scenarioFour.mTriangles.length = scenarioThree.mTriangles.length + 2)) :=
  have h1 : Reachable scenarioOne :=
    Reachable.insertPoint 100 ⟨400, 0⟩ Reachable.construct (by decide!)
  have h2 : Reachable scenarioTwo := Reachable.insertPoint 100 ⟨300, 100⟩ h1 (by decide!)
  have hr : Reachable scenarioThree := Reachable.insertPoint 100 ⟨500, 100⟩ h2 (by decide!)
  ⟨hr, (triangle_count scenarioThree hr).1, by decide!,
   (triangle_count scenarioThree hr).2 100 ⟨400, 50⟩ scenarioFour (by decide!)⟩

/-- C20. Vertex indices are always valid: in every state reachable from construction by
`insertPoint`, `triangulate` and `reset` calls that return, every vertex index of every
triangle of the mesh is smaller than the number of stored points, so the point store has an
entry at each of them. -/
theorem vertex_indices_valid (g : Geometry) (h : Reachable g) :
    ∀ t ∈ g.mTriangles,
      (t.v0 < g.mPoints.length ∧ t.v1 < g.mPoints.length ∧ t.v2 < g.mPoints.length) ∧
      (g.mPoints[t.v0]?.isSome = true ∧ g.mPoints[t.v1]?.isSome = true ∧
        g.mPoints[t.v2]?.isSome = true) := by
  have hv : ValidIndices g := by
    induction h with
    | construct =>
      intro t ht v hvt
      have ht' : t = ⟨0, 1, 2, false⟩ := by simpa [Geometry.new, fillGeometry, Triangle.mk3] using ht
      subst ht'
      show v < 3
      rcases hvt with e | e | e <;> simp only at e <;> omega
    | insertPoint fuel p _ hi ih => exact insertOnePoint_valid hi ih
    | @triangulate s s' fuel hs ht _ =>
      unfold Avg.triangulate at ht
      split at ht
      · cases ht; assumption
      · exact insertAll_valid _ _ _ ht (fun t ht' => absurd ht' (List.not_mem_nil t))
    | reset _ _ =>
      intro t ht v hvt
      have ht' : t = ⟨0, 1, 2, false⟩ := by simpa [reset, fillGeometry, Triangle.mk3] using ht
      subst ht'
      show v < 3
      rcases hvt with e | e | e <;> simp only at e <;> omega
  intro t ht
  have h0 := hv t ht t.v0 (Or.inl rfl)
  have h1 := hv t ht t.v1 (Or.inr (Or.inl rfl))
  have h2 := hv t ht t.v2 (Or.inr (Or.inr rfl))
  refine ⟨⟨h0, h1, h2⟩, ?_, ?_, ?_⟩
  · rw [List.getElem?_eq_getElem h0]; rfl
  · rw [List.getElem?_eq_getElem h1]; rfl
  · rw [List.getElem?_eq_getElem h2]; rfl

/-- Worked instance of C20: the state `scenarioTwo`, reached by two insertions. -/
theorem vertex_indices_valid_witness :
    Reachable scenarioTwo ∧
    ∀ t ∈ scenarioTwo.mTriangles,
      (t.v0 < scenarioTwo.mPoints.length ∧ t.v1 < scenarioTwo.mPoints.length ∧
        t.v2 < scenarioTwo.mPoints.length) ∧
      (scenarioTwo.mPoints[t.v0]?.isSome = true ∧ scenarioTwo.mPoints[t.v1]?.isSome = true ∧
        scenarioTwo.mPoints[t.v2]?.isSome = true) :=
  have h1 : Reachable scenarioOne :=
    Reachable.insertPoint 100 ⟨400, 0⟩ Reachable.construct (by decide!)
  have hr : Reachable scenarioTwo := Reachable.insertPoint 100 ⟨300, 100⟩ h1 (by decide!)
  ⟨hr, vertex_indices_valid scenarioTwo hr⟩

/-- C21. Full rebuild reproduces the incremental mesh: for every state `s` reached from
`reset()` by a sequence of `insertPoint` calls that return, `triangulate()` on `s` returns
(with a large enough budget for the flip loop), and whenever it returns, the new state has the
same point store as `s` and a mesh with the same vertex-index triples in the same order; when
`s` has more than one triangle the two meshes are equal, `drawable` flags included. When `s`
has one triangle, it is the bounding triangle `(0, 1, 2)`, not drawable in `s` and drawable
after the rebuild. -/
theorem triangulate_reproduces (s : Geometry) (h : Incremental s) :
    (∃ fuel g', triangulate fuel s = .ok g') ∧
    ∀ fuel g', triangulate fuel s = .ok g' →
      g'.mPoints = s.mPoints ∧
      g'.mTriangles.map Triangle.triple = s.mTriangles.map Triangle.triple ∧
      (1 < s.mTriangles.length → g'.mTriangles = s.mTriangles) ∧
      (s.mTriangles.length = 1 →
        s.mTriangles = [⟨0, 1, 2, false⟩] ∧ g'.mTriangles = [⟨0, 1, 2, true⟩]) := by
  obtain ⟨F, ps, r, hp, hall, hrel⟩ := incremental_replay h
  have h3 : ¬ s.mPoints.length < 3 := by rw [hp]; simp [boundingPoints]
  have htr : triangulate F s = .ok r := by
    unfold triangulate
    simp only [h3, if_false]
    rw [hp, insertAll_bounding]
    exact hall
  refine ⟨⟨F, r, htr⟩, ?_⟩
  intro fuel g' hg
  have e1 := triangulate_fuel_mono fuel F s g' hg
  have e2 := triangulate_fuel_mono F fuel s r htr
  rw [Nat.add_comm] at e2
  have hgr : g' = r := by
    rw [e1] at e2
    cases e2
    rfl
  subst hgr
  rcases hrel with ⟨hsr, hlen⟩ | ⟨htri, hr⟩
  · subst hsr
    exact ⟨rfl, rfl, fun _ => rfl, fun h1 => by omega⟩
  · subst hr
    refine ⟨rfl, ?_, ?_, ?_⟩
    · rw [htri]
      rfl
    · intro h1
      rw [htri] at h1
      simp at h1
    · intro _
      exact ⟨htri, rfl⟩

/-- Worked instance of C21: `scenarioThree`, reached from `reset()` by three insertions, is
rebuilt to itself; the state after `reset()` alone is rebuilt to `rebuiltBounding`, which
differs from it in the `drawable` flag only. -/
theorem triangulate_reproduces_witness :
    Incremental scenarioThree ∧
    triangulate 100 scenarioThree = .ok scenarioThree ∧
    (1 < scenarioThree.mTriangles.length → scenarioThree.mTriangles = scenarioThree.mTriangles) ∧
    triangulate 0 (reset Geometry.new) = .ok rebuiltBounding ∧
    rebuiltBounding.mTriangles.map Triangle.triple =
      (reset Geometry.new).mTriangles.map Triangle.triple ∧
    ((reset Geometry.new).mTriangles = [⟨0, 1, 2, false⟩] ∧
      rebuiltBounding.mTriangles = [⟨0, 1, 2, true⟩]) :=
  have h1 : Incremental scenarioOne :=
    Incremental.insertPoint 100 ⟨400, 0⟩ (Incremental.reset Geometry.new) (by decide!)
  have h2 : Incremental scenarioTwo := Incremental.insertPoint 100 ⟨300, 100⟩ h1 (by decide!)
  have h3 : Incremental scenarioThree := Incremental.insertPoint 100 ⟨500, 100⟩ h2 (by decide!)
  ⟨h3, by decide!,
   ((triangulate_reproduces scenarioThree h3).2 100 scenarioThree (by decide!)).2.2.1,
   by decide!,
   ((triangulate_reproduces (reset Geometry.new) (Incremental.reset Geometry.new)).2 0
      rebuiltBounding (by decide!)).2.1,
   ((triangulate_reproduces (reset Geometry.new) (Incremental.reset Geometry.new)).2 0
      rebuiltBounding (by decide!)).2.2.2 (by decide!)⟩

end Avg
